import Mathlib

/-!
# B+ tree index (`BTree/src`): shallow embedding and verification

The development follows the C++ sources `btindex.cpp`, `btindex.h`,
`btfile.cpp` and `btfilescan.cpp`.  Pages live in a store indexed by page
identifiers, so that two page pointers naming the same page alias exactly as
they do in the buffer pool.  Loops are bounded by an explicit fuel argument;
a result of `none` means that the fuel ran out (or that an indeterminate
local variable would have been read).
-/

namespace BTree

/-! ## Data model -/

abbrev PageID := Int

def INVALID_PAGE : PageID := -1

structure RecordID where
  pageNo : Int
  slotNo : Int
deriving DecidableEq, Repr

inductive Status where
  | OK
  | FAIL
  | DONE
deriving DecidableEq, Repr

inductive NodeType where
  | INDEX_NODE
  | LEAF_NODE
deriving DecidableEq, Repr

structure LeafEntry where
  key : Int
  rid : RecordID
deriving DecidableEq, Repr

structure IndexEntry where
  key : Int
  pid : PageID
deriving DecidableEq, Repr

/-- Constants of the page subsystem that the B+ tree sources use but do not
define: `HEAPPAGE_DATA_SIZE`, and the bytes one leaf entry and one index entry
take on a page (`sizeof (LeafEntry)`, `sizeof (IndexEntry)`). -/
structure Cfg where
  HEAPPAGE_DATA_SIZE : Nat
  sizeofLeafEntry : Nat
  sizeofIndexEntry : Nat
deriving DecidableEq, Repr

/-- Modelled from the spec: the sorted page of the page subsystem (`SortedPage`,
not part of the sources): a node-type tag, the prev-page and next-page links,
and the records in slot order.  A leaf keeps `(key, data-rid)` records, an index
node `(key, child-pid)` records; an index node's left-link is its prev-page
field. -/
structure SortedPage where
  type : NodeType
  prevPage : PageID
  nextPage : PageID
  leaf : List LeafEntry
  index : List IndexEntry
deriving DecidableEq, Repr

/-- Modelled from the spec: `Init` of the page subsystem followed by the
`SetType`, `SetPrevPage (INVALID_PAGE)`, `SetNextPage (INVALID_PAGE)` calls every
allocation site of `btfile.cpp` makes. -/
def SortedPage.init (t : NodeType) : SortedPage :=
  { type := t, prevPage := INVALID_PAGE, nextPage := INVALID_PAGE, leaf := [], index := [] }

/-- Modelled from the spec: `AvailableSpace` of the page subsystem, the bytes
free for a new entry: the data area minus the bytes of the stored entries. -/
def SortedPage.AvailableSpace (cfg : Cfg) (p : SortedPage) : Nat :=
  cfg.HEAPPAGE_DATA_SIZE
    - (p.leaf.length * cfg.sizeofLeafEntry + p.index.length * cfg.sizeofIndexEntry)

/-- `IsAtLeastHalfFull` of `btindex.h` (the leaf page has the same predicate). -/
def SortedPage.IsAtLeastHalfFull (cfg : Cfg) (p : SortedPage) : Bool :=
  decide (p.AvailableSpace cfg ≤ cfg.HEAPPAGE_DATA_SIZE / 2)

/-- Modelled from the spec: `SortedPage::InsertRecord` keeps the records in key
order; a new record goes behind the records whose key is not greater. -/
def insertSorted {α : Type} (key : α → Int) (a : α) : List α → List α
  | [] => [a]
  | b :: l => if key a < key b then a :: b :: l else b :: insertSorted key a l

/-- Removal of the record in the highest slot that satisfies `p`, as the
downward slot loop of `BTIndexPage::Delete` does it; `none` when there is none. -/
def eraseLast {α : Type} (p : α → Bool) : List α → Option (List α)
  | [] => none
  | e :: es =>
    match eraseLast p es with
    | some es' => some (e :: es')
    | none => if p e then some es else none

/-! ## `BTIndexPage` (btindex.cpp, btindex.h) -/

namespace BTIndexPage

def GetLeftLink (p : SortedPage) : PageID := p.prevPage

def SetLeftLink (p : SortedPage) (pageID : PageID) : SortedPage :=
  { p with prevPage := pageID }

/-- `BTIndexPage::Insert`: `FAIL` (page unchanged) when the record does not fit. -/
def Insert (cfg : Cfg) (p : SortedPage) (key : Int) (pageID : PageID) : Status × SortedPage :=
  if p.AvailableSpace cfg < cfg.sizeofIndexEntry then (Status.FAIL, p)
  else (Status.OK, { p with index := insertSorted IndexEntry.key ⟨key, pageID⟩ p.index })

/-- `BTIndexPage::Delete`: deletes the entry with this key in the highest slot. -/
def Delete (p : SortedPage) (key : Int) : Status × SortedPage :=
  match eraseLast (fun e : IndexEntry => decide (e.key = key)) p.index with
  | some es => (Status.OK, { p with index := es })
  | none => (Status.FAIL, p)

/-- `BTIndexPage::GetFirst`: `none` stands for `DONE` (outputs untouched). -/
def GetFirst (p : SortedPage) : Option IndexEntry := p.index.head?

/-- `BTIndexPage::GetNext` from the slot `slotNo`: `none` stands for `DONE`. -/
def GetNext (p : SortedPage) (slotNo : Nat) : Option IndexEntry := p.index.get? (slotNo + 1)

/-- `BTIndexPage::GetLast`: walks `GetNext` until `DONE`, which leaves the
outputs at the last entry; the status is `OK` in every case.  `none`: the page
is empty and the outputs keep the caller's values. -/
def GetLast (p : SortedPage) : Option IndexEntry := p.index.getLast?

/-- The `while` loop of `FindPageWithKey` at its head: `cur` is the entry held
in `key`, `pid`, `rest` the entries behind it, `prev` the entry visited before.
When `GetNext` reports `DONE` the outputs still hold the last entry.  (`prev`,
`key_prev` are declared inside the loop body; as in every compiled build they
keep their value from one iteration to the next, and the first iteration does
not read them.) -/
def FindPageWithKey.loop (d_key : Int) (prev cur : IndexEntry) (rest : List IndexEntry) :
    IndexEntry :=
  if d_key < cur.key then prev
  else
    match rest with
    | [] => cur
    | e :: es => FindPageWithKey.loop d_key cur e es

/-- `BTIndexPage::FindPageWithKey`: the outputs `(key, pid)`; `none` when the
page has no entry (`FAIL`). -/
def FindPageWithKey (p : SortedPage) (d_key : Int) : Option IndexEntry :=
  match p.index with
  | [] => none
  | e :: es =>
    if d_key < e.key then some ⟨e.key, GetLeftLink p⟩
    else some (FindPageWithKey.loop d_key ⟨0, 0⟩ e es)

/-- Outputs of `FindPageWithKeys`. -/
structure Keys where
  key : Int
  nextKey : Int
  pid : PageID
  prevPid : PageID
  nextPid : PageID
deriving DecidableEq, Repr

/-- The `while` loop of `FindPageWithKeys` at its head: `cur` is the entry held
in `key_tmp`, `pid_tmp`, `rest` the entries behind it.  After `DONE` the
variables `key_tmp`, `pid_tmp` still hold the last entry, which the code then
copies into `nextKey`, `nextPid`. -/
def FindPageWithKeys.loop (d_key : Int) (prev_prev_pid prev_pid : PageID) (prev_key : Int)
    (cur : IndexEntry) (rest : List IndexEntry) : Keys :=
  if d_key < cur.key then
    { prevPid := prev_prev_pid, pid := prev_pid, key := prev_key, nextKey := cur.key,
      nextPid := cur.pid }
  else
    match rest with
    | [] =>
      { prevPid := prev_pid, pid := cur.pid, key := cur.key, nextKey := cur.key,
        nextPid := cur.pid }
    | e :: es => FindPageWithKeys.loop d_key prev_pid cur.pid cur.key e es

/-- `BTIndexPage::FindPageWithKeys`: `none` when the page has no entry (`FAIL`).
`prev_key` is unset when the loop starts; its first iteration does not read it. -/
def FindPageWithKeys (p : SortedPage) (d_key : Int) : Option Keys :=
  match p.index with
  | [] => none
  | e :: es =>
    if d_key < e.key then
      some { prevPid := INVALID_PAGE, pid := GetLeftLink p, nextPid := e.pid,
             nextKey := e.key, key := -1 }
    else some (FindPageWithKeys.loop d_key INVALID_PAGE (GetLeftLink p) 0 e es)

/-- `BTIndexPage::IsAtLeastHalfFullAfterDelete` (btindex.h): the answer and the
page as the call leaves it. -/
def IsAtLeastHalfFullAfterDelete (cfg : Cfg) (p : SortedPage) : Bool × SortedPage :=
  if !p.IsAtLeastHalfFull cfg then (false, p)
  else
    match GetFirst p with
    | none => (true, p)  -- not reached: an empty page is not half full
    | some e =>
      let p1 := (Delete p e.key).2
      if !p1.IsAtLeastHalfFull cfg then (false, p1)
      else (true, (Insert cfg p1 e.key e.pid).2)

end BTIndexPage

/-! ## `BTLeafPage` -/

namespace BTLeafPage

/-- Modelled from the spec: `BTLeafPage::Insert` (the leaf page is not part of
the sources): "inserts maintaining key order; fails if insufficient space". -/
def Insert (cfg : Cfg) (p : SortedPage) (key : Int) (dataRid : RecordID) : Status × SortedPage :=
  if p.AvailableSpace cfg < cfg.sizeofLeafEntry then (Status.FAIL, p)
  else (Status.OK, { p with leaf := insertSorted LeafEntry.key ⟨key, dataRid⟩ p.leaf })

/-- Modelled from the spec: `BTLeafPage::Delete`: "removes the matching pair;
fails if not present" (slots are searched from the highest one down, as on the
index page). -/
def Delete (p : SortedPage) (key : Int) (dataRid : RecordID) : Status × SortedPage :=
  match eraseLast (fun e : LeafEntry => decide (e.key = key ∧ e.rid = dataRid)) p.leaf with
  | some es => (Status.OK, { p with leaf := es })
  | none => (Status.FAIL, p)

/-- Modelled from the spec: `BTLeafPage::GetFirst`; `none` stands for `DONE`. -/
def GetFirst (p : SortedPage) : Option LeafEntry := p.leaf.head?

/-- Modelled from the spec: `BTLeafPage::GetNext` from the slot `slotNo`. -/
def GetNext (p : SortedPage) (slotNo : Nat) : Option LeafEntry := p.leaf.get? (slotNo + 1)

/-- Modelled from the spec: `BTLeafPage::GetLast`, the last entry in key order;
`none`: the page is empty and the outputs keep the caller's values. -/
def GetLast (p : SortedPage) : Option LeafEntry := p.leaf.getLast?

/-- Modelled from the spec: `BTLeafPage::IsAtLeastHalfFullAfterDelete`:
"reports whether the node would remain half full after one hypothetical
deletion of its first entry ... Must leave the page unchanged on return". -/
def IsAtLeastHalfFullAfterDelete (cfg : Cfg) (p : SortedPage) : Bool × SortedPage :=
  if !p.IsAtLeastHalfFull cfg then (false, p)
  else
    match GetFirst p with
    | none => (true, p)
    | some e => (((Delete p e.key e.rid).2).IsAtLeastHalfFull cfg, p)

end BTLeafPage

/-! ## Buffer pool -/

/-- Modelled from the spec: the buffer pool and the disk behind it, as far as
the tree sees them: the content of every page, and the identifier the next
`new-page` hands out.  Pinning a page gives access to its content. -/
structure BufMgr where
  page : PageID → SortedPage
  nextPid : Nat

namespace BufMgr

/-- Write-back of a page content (the effect of mutating a pinned frame). -/
def set (bm : BufMgr) (pid : PageID) (p : SortedPage) : BufMgr :=
  { bm with page := fun q => if q = pid then p else bm.page q }

/-- `NEWPAGE` followed by the `Init`/`SetType`/`SetPrevPage`/`SetNextPage`
calls of the allocation site: a fresh identifier and the pool holding an empty
page of type `t` under it. -/
def NewPage (bm : BufMgr) (t : NodeType) : PageID × BufMgr :=
  ((bm.nextPid : Int),
    { page := fun q => if q = (bm.nextPid : Int) then SortedPage.init t else bm.page q,
      nextPid := bm.nextPid + 1 })

end BufMgr

/-- State of a `BTreeFile` object together with the buffer pool it works on. -/
structure BTreeFile where
  rootPid : PageID
  bm : BufMgr

namespace BTreeFile

/-! ## Insertion (btfile.cpp) -/

/-- First loop of `Split_Leaf`: move the records from `oldPage` to `newPage`. -/
def Split_Leaf.moveAll (cfg : Cfg) :
    Nat → SortedPage → SortedPage → Option (Status × SortedPage × SortedPage)
  | 0, _, _ => none
  | fuel + 1, oldPage, newPage =>
    match BTLeafPage.GetFirst oldPage with
    | none => some (Status.OK, oldPage, newPage)
    | some cur =>
      match BTLeafPage.Insert cfg newPage cur.key cur.rid with
      | (Status.OK, newPage1) =>
        Split_Leaf.moveAll cfg fuel (BTLeafPage.Delete oldPage cur.key cur.rid).2 newPage1
      | _ => some (Status.FAIL, oldPage, newPage)

/-- Second loop of `Split_Leaf`: move records back while `oldPage` has more
free space than `newPage`.  `cur` holds `curKey`, `dataRid` (`none`: never set);
a `GetFirst` that reports `DONE` leaves them as they are. -/
def Split_Leaf.moveBack (cfg : Cfg) (key : Int) (rid : RecordID) :
    Nat → SortedPage → SortedPage → Option LeafEntry → Bool →
      Option (Status × SortedPage × SortedPage × Bool)
  | 0, _, _, _, _ => none
  | fuel + 1, oldPage, newPage, cur, inserted =>
    if oldPage.AvailableSpace cfg > newPage.AvailableSpace cfg then
      match cur with
      | none => none
      | some c =>
        if c.key > key && inserted == false then
          match BTLeafPage.Insert cfg oldPage key rid with
          | (Status.OK, oldPage1) => Split_Leaf.moveBack cfg key rid fuel oldPage1 newPage cur true
          | _ => some (Status.FAIL, oldPage, newPage, inserted)
        else
          match BTLeafPage.Insert cfg oldPage c.key c.rid with
          | (Status.OK, oldPage1) =>
            let newPage1 := (BTLeafPage.Delete newPage c.key c.rid).2
            let cur1 := match BTLeafPage.GetFirst newPage1 with
              | some e => some e
              | none => cur
            Split_Leaf.moveBack cfg key rid fuel oldPage1 newPage1 cur1 inserted
          | _ => some (Status.FAIL, oldPage, newPage, inserted)
    else some (Status.OK, oldPage, newPage, inserted)

/-- `BTreeFile::Split_Leaf`: status, `oldPage` and `newPage` on return.  The
first loop runs once per record of `oldPage`, the second at most once per
record of `newPage` and once for the incoming record. -/
def Split_Leaf (cfg : Cfg) (oldPage newPage : SortedPage) (key : Int) (rid : RecordID) :
    Option (Status × SortedPage × SortedPage) :=
  match Split_Leaf.moveAll cfg (oldPage.leaf.length + 1) oldPage newPage with
  | none => none
  | some (Status.OK, o, n) =>
    match Split_Leaf.moveBack cfg key rid (n.leaf.length + 2) o n (BTLeafPage.GetFirst n) false with
    | none => none
    | some (Status.OK, o1, n1, inserted) =>
      if inserted == false then
        match BTLeafPage.Insert cfg n1 key rid with
        | (Status.OK, n2) => some (Status.OK, o1, n2)
        | _ => some (Status.FAIL, o1, n1)
      else some (Status.OK, o1, n1)
    | some (_, o1, n1, _) => some (Status.FAIL, o1, n1)
  | some (_, o, n) => some (Status.FAIL, o, n)

/-- First loop of `Split_Index`: move the entries from `oldPage` to `newPage`;
the last component is `curKey_tmp`. -/
def Split_Index.moveAll (cfg : Cfg) :
    Nat → SortedPage → SortedPage → Option Int →
      Option (Status × SortedPage × SortedPage × Option Int)
  | 0, _, _, _ => none
  | fuel + 1, oldPage, newPage, curKey_tmp =>
    match BTIndexPage.GetFirst oldPage with
    | none => some (Status.OK, oldPage, newPage, curKey_tmp)
    | some cur =>
      match BTIndexPage.Insert cfg newPage cur.key cur.pid with
      | (Status.OK, newPage1) =>
        Split_Index.moveAll cfg fuel (BTIndexPage.Delete oldPage cur.key).2 newPage1 (some cur.key)
      | _ => some (Status.FAIL, oldPage, newPage, curKey_tmp)

/-- Locals of `Split_Index` that live across its second loop. -/
structure SplitIndexVars where
  cur : Option IndexEntry
  curKey_tmp : Option Int
  curPid_tmp : Option PageID
  inserted : Bool

/-- Second loop of `Split_Index`. -/
def Split_Index.moveBack (cfg : Cfg) (key : Int) (pid : PageID) :
    Nat → SortedPage → SortedPage → SplitIndexVars →
      Option (Status × SortedPage × SortedPage × SplitIndexVars)
  | 0, _, _, _ => none
  | fuel + 1, oldPage, newPage, v =>
    if oldPage.AvailableSpace cfg > newPage.AvailableSpace cfg then
      match v.cur with
      | none => none
      | some c =>
        if c.key > key && v.inserted == false then
          match BTIndexPage.Insert cfg oldPage key pid with
          | (Status.OK, oldPage1) =>
            Split_Index.moveBack cfg key pid fuel oldPage1 newPage { v with inserted := true }
          | _ => some (Status.FAIL, oldPage, newPage, v)
        else
          match BTIndexPage.Insert cfg oldPage c.key c.pid with
          | (Status.OK, oldPage1) =>
            let newPage1 := (BTIndexPage.Delete newPage c.key).2
            let cur1 := match BTIndexPage.GetFirst newPage1 with
              | some e => some e
              | none => v.cur
            Split_Index.moveBack cfg key pid fuel oldPage1 newPage1
              { v with cur := cur1, curKey_tmp := some c.key, curPid_tmp := some c.pid }
          | _ => some (Status.FAIL, oldPage, newPage, v)
    else some (Status.OK, oldPage, newPage, v)

/-- `BTreeFile::Split_Index`: status, `oldPage`, `newPage` and the output
`newPageKey` (`none`: not assigned, which is the case on every `FAIL` return).
The whole result is `none` when `curPid_tmp` or `curKey_tmp` is read unset. -/
def Split_Index (cfg : Cfg) (oldPage newPage : SortedPage) (key : Int) (pid : PageID) :
    Option (Status × SortedPage × SortedPage × Option Int) :=
  match Split_Index.moveAll cfg (oldPage.index.length + 1) oldPage newPage none with
  | none => none
  | some (Status.OK, o, n, curKey_tmp) =>
    match Split_Index.moveBack cfg key pid (n.index.length + 2) o n
        ⟨BTIndexPage.GetFirst n, curKey_tmp, none, false⟩ with
    | none => none
    | some (Status.OK, o1, n1, v) =>
      if v.inserted == false then
        match BTIndexPage.Insert cfg n1 key pid with
        | (Status.OK, n2) =>
          match BTIndexPage.GetFirst n2 with
          | none => none
          | some f =>
            some (Status.OK, o1, (BTIndexPage.Delete (BTIndexPage.SetLeftLink n2 f.pid) f.key).2,
              some f.key)
        | _ => some (Status.FAIL, o1, n1, none)
      else
        match v.curPid_tmp, v.curKey_tmp with
        | some curPid_tmp, some curKey_tmp =>
          some (Status.OK, (BTIndexPage.Delete o1 curKey_tmp).2,
            BTIndexPage.SetLeftLink n1 curPid_tmp, some curKey_tmp)
        | _, _ => none
    | some (_, o1, n1, _) => some (Status.FAIL, o1, n1, none)
  | some (_, o, n, _) => some (Status.FAIL, o, n, none)

/-- `BTreeFile::InsertHelper`: the buffer pool on return and the outputs
`split`, `child_key`, `child_pageid` (`none`: no split).  The status is `OK`
on every path the model has: `FAIL` needs a pin or an allocation to fail.
`fuel` bounds the depth of the recursion. -/
def InsertHelper (cfg : Cfg) (key : Int) (rid : RecordID) :
    Nat → BufMgr → PageID → Option (BufMgr × Option (Int × PageID))
  | 0, _, _ => none
  | fuel + 1, bm, curPid =>
    let curPage := bm.page curPid
    if curPage.type = NodeType.INDEX_NODE then
      match BTIndexPage.FindPageWithKey curPage key with
      | none => none  -- `new_curPid` is read unset
      | some found =>
        match InsertHelper cfg key rid fuel bm found.pid with
        | none => none
        | some (bm1, none) => some (bm1, none)
        | some (bm1, some (new_child_key, new_child_pageid)) =>
          let indexpage := bm1.page curPid
          if indexpage.AvailableSpace cfg < cfg.sizeofIndexEntry then
            let (newIndexPid, bm2) := bm1.NewPage NodeType.INDEX_NODE
            match Split_Index cfg indexpage (bm2.page newIndexPid) new_child_key
                new_child_pageid with
            | some (_, oldPage, newPage, some newPageKey) =>
              some ((bm2.set curPid oldPage).set newIndexPid newPage,
                some (newPageKey, newIndexPid))
            | _ => none  -- `newPageKey` is read unset
          else
            some (bm1.set curPid
              (BTIndexPage.Insert cfg indexpage new_child_key new_child_pageid).2, none)
    else
      let leafpage := curPage
      if leafpage.AvailableSpace cfg < cfg.sizeofLeafEntry then
        let (newLeafPid, bm1) := bm.NewPage NodeType.LEAF_NODE
        match Split_Leaf cfg leafpage (bm1.page newLeafPid) key rid with
        | none => none
        | some (_, oldPage, newPage) =>
          match BTLeafPage.GetFirst newPage with
          | none => none  -- `child_key` is read unset
          | some first =>
            some ((bm1.set curPid { oldPage with nextPage := newLeafPid }).set newLeafPid
                { newPage with prevPage := curPid },
              some (first.key, newLeafPid))
      else
        some (bm.set curPid (BTLeafPage.Insert cfg leafpage key rid).2, none)

/-- `BTreeFile::Insert`: the status and the tree on return. -/
def Insert (cfg : Cfg) (fuel : Nat) (t : BTreeFile) (key : Int) (rid : RecordID) :
    Option (Status × BTreeFile) :=
  if t.rootPid = INVALID_PAGE then
    let (rootPid, bm1) := t.bm.NewPage NodeType.LEAF_NODE
    some (Status.OK,
      { rootPid := rootPid,
        bm := bm1.set rootPid (BTLeafPage.Insert cfg (bm1.page rootPid) key rid).2 })
  else
    match InsertHelper cfg key rid fuel t.bm t.rootPid with
    | none => none
    | some (bm1, none) => some (Status.OK, { t with bm := bm1 })
    | some (bm1, some (child_key, child_pageid)) =>
      let (newIndexPid, bm2) := bm1.NewPage NodeType.INDEX_NODE
      let newIndexPage := BTIndexPage.SetLeftLink (bm2.page newIndexPid) t.rootPid
      match BTIndexPage.Insert cfg newIndexPage child_key child_pageid with
      | (Status.OK, newIndexPage1) =>
        some (Status.OK, { rootPid := newIndexPid, bm := bm2.set newIndexPid newIndexPage1 })
      | _ => some (Status.FAIL, { t with bm := bm2.set newIndexPid newIndexPage })

/-- `BTreeFile::BTreeFile` for a file name without a catalog entry: a new page,
initialised as an empty leaf, is the root. -/
def create (bm : BufMgr) : BTreeFile :=
  let (pid, bm1) := bm.NewPage NodeType.LEAF_NODE
  { rootPid := pid, bm := bm1 }

/-- The descent of `FindPidWithKey` from the page `curPid`: the `while` loop
over index pages; `none` when the fuel runs out. -/
def FindPidWithKey.descend (bm : BufMgr) (key : Int) : Nat → PageID → Option PageID
  | 0, _ => none
  | fuel + 1, curPid =>
    if (bm.page curPid).type ≠ NodeType.LEAF_NODE then
      match BTIndexPage.FindPageWithKey (bm.page curPid) key with
      | none => none  -- `pid_tmp` is read unset
      | some found => FindPidWithKey.descend bm key fuel found.pid
    else some curPid

/-- `BTreeFile::FindPidWithKey`. -/
def FindPidWithKey (fuel : Nat) (t : BTreeFile) (key : Int) : Option PageID :=
  if t.rootPid = INVALID_PAGE then some INVALID_PAGE
  else FindPidWithKey.descend t.bm key fuel t.rootPid

/-! ## Deletion (btfile.cpp) -/

/-- Output parameters of `DeleteHelper` (`none`: not assigned). -/
structure DeleteOut where
  underflow : Bool
  merged : Bool
  child_key : Option Int
  child_pageid : Option PageID
  deletedKey : Option Int
deriving DecidableEq, Repr

/-- The output parameters as `BTreeFile::Delete` and `DeleteHelper` set them up
before the call. -/
def DeleteOut.init : DeleteOut :=
  { underflow := false, merged := false, child_key := none, child_pageid := none,
    deletedKey := none }

/-- `BTreeFile::DeleteLeaf_prev`: the pool and the output `newKey` on return
(the caller ignores the status).  The two pages are named by their identifiers. -/
def DeleteLeaf_prev (cfg : Cfg) (bm : BufMgr) (prevPid curPid : PageID) (newKey : Option Int) :
    BufMgr × Option Int :=
  match BTLeafPage.GetLast (bm.page prevPid) with
  | none => (bm, newKey)
  | some e =>
    match BTLeafPage.Delete (bm.page prevPid) e.key e.rid with
    | (Status.OK, prevPage1) =>
      let bm1 := bm.set prevPid prevPage1
      match BTLeafPage.Insert cfg (bm1.page curPid) e.key e.rid with
      | (Status.OK, curPage1) =>
        let bm2 := bm1.set curPid curPage1
        match BTLeafPage.GetFirst (bm2.page curPid) with
        | some f => (bm2, some f.key)
        | none => (bm2, newKey)
      | _ => (bm1, newKey)
    | _ => (bm, newKey)

/-- `BTreeFile::DeleteLeaf_next`. -/
def DeleteLeaf_next (cfg : Cfg) (bm : BufMgr) (nextPid curPid : PageID) (newKey : Option Int) :
    BufMgr × Option Int :=
  match BTLeafPage.GetFirst (bm.page nextPid) with
  | none => (bm, newKey)
  | some e =>
    match BTLeafPage.Delete (bm.page nextPid) e.key e.rid with
    | (Status.OK, nextPage1) =>
      let bm1 := bm.set nextPid nextPage1
      match BTLeafPage.Insert cfg (bm1.page curPid) e.key e.rid with
      | (Status.OK, curPage1) =>
        let bm2 := bm1.set curPid curPage1
        match BTLeafPage.GetFirst (bm2.page nextPid) with
        | some f => (bm2, some f.key)
        | none => (bm2, newKey)
      | _ => (bm1, newKey)
    | _ => (bm, newKey)

/-- The loop of `MergeLeaf_next` and `MergeLeaf_prev`: while the page `src` has
a first entry, insert it into the page `dst` and delete it from `src` (both
statuses are ignored).  `none`: the fuel ran out. -/
def MergeLeaf.loop (cfg : Cfg) (src dst : PageID) : Nat → BufMgr → Option BufMgr
  | 0, _ => none
  | fuel + 1, bm =>
    match BTLeafPage.GetFirst (bm.page src) with
    | none => some bm
    | some e =>
      let bm1 := bm.set dst (BTLeafPage.Insert cfg (bm.page dst) e.key e.rid).2
      let bm2 := bm1.set src (BTLeafPage.Delete (bm1.page src) e.key e.rid).2
      MergeLeaf.loop cfg src dst fuel bm2

/-- `BTreeFile::MergeLeaf_next`: move the entries of `nextPage` into `curPage`. -/
def MergeLeaf_next (cfg : Cfg) (fuel : Nat) (bm : BufMgr) (nextPid curPid : PageID) :
    Option BufMgr :=
  MergeLeaf.loop cfg nextPid curPid fuel bm

/-- `BTreeFile::MergeLeaf_prev`: move the entries of `curPage` into `prevPage`. -/
def MergeLeaf_prev (cfg : Cfg) (fuel : Nat) (bm : BufMgr) (prevPid curPid : PageID) :
    Option BufMgr :=
  MergeLeaf.loop cfg curPid prevPid fuel bm

/-- The index-merge loops of `DeleteHelper`: while the page `src` has a first
entry, insert it into `dst` and delete its key from `src`. -/
def MergeIndex.loop (cfg : Cfg) (src dst : PageID) : Nat → BufMgr → Option BufMgr
  | 0, _ => none
  | fuel + 1, bm =>
    match BTIndexPage.GetFirst (bm.page src) with
    | none => some bm
    | some e =>
      let bm1 := bm.set dst (BTIndexPage.Insert cfg (bm.page dst) e.key e.pid).2
      let bm2 := bm1.set src (BTIndexPage.Delete (bm1.page src) e.key).2
      MergeIndex.loop cfg src dst fuel bm2

/-- The leaf branch of `DeleteHelper` once the leaf is found below half full:
redistribution with the previous sibling, else with the next one, else a merge.
`none`: the fuel of a merge loop ran out, or both siblings are `INVALID_PAGE`
(the pin of `INVALID_PAGE` is outside the model). -/
def DeleteHelper.leafUnderflow (cfg : Cfg) (fuel : Nat) (bm : BufMgr) (curKey nextKey : Int)
    (curPid prevPid nextPid : PageID) (out : DeleteOut) : Option (BufMgr × DeleteOut) :=
  let out := { out with underflow := true }
  -- borrow from the previous page
  let r1 : BufMgr × DeleteOut × Bool :=
    if prevPid ≠ INVALID_PAGE then
      let probe := BTLeafPage.IsAtLeastHalfFullAfterDelete cfg (bm.page prevPid)
      let bm := bm.set prevPid probe.2
      if probe.1 then
        let r := DeleteLeaf_prev cfg bm prevPid curPid out.child_key
        (r.1, { out with child_key := r.2, child_pageid := some curPid,
                         deletedKey := some curKey }, true)
      else (bm, out, false)
    else (bm, out, false)
  -- borrow from the next page
  let r2 : BufMgr × DeleteOut × Bool :=
    if nextPid ≠ INVALID_PAGE ∧ r1.2.2 = false then
      let bm := r1.1
      let out := r1.2.1
      let probe := BTLeafPage.IsAtLeastHalfFullAfterDelete cfg (bm.page nextPid)
      let bm := bm.set nextPid probe.2
      if probe.1 then
        let r := DeleteLeaf_next cfg bm nextPid curPid out.child_key
        (r.1, { out with child_key := r.2, child_pageid := some nextPid,
                         deletedKey := some nextKey }, true)
      else (bm, out, false)
    else r1
  if r2.2.2 = false then
    let bm := r2.1
    let out := { r2.2.1 with merged := true }
    if nextPid ≠ INVALID_PAGE then
      let nextLink := (bm.page nextPid).nextPage
      match MergeLeaf_next cfg fuel bm nextPid curPid with
      | none => none
      | some bm1 =>
        some (bm1.set curPid { bm1.page curPid with nextPage := nextLink },
          { out with deletedKey := some nextKey })
    else if prevPid ≠ INVALID_PAGE then
      let nextLink := (bm.page curPid).nextPage
      match MergeLeaf_prev cfg fuel bm prevPid curPid with
      | none => none
      | some bm1 =>
        some (bm1.set prevPid { bm1.page prevPid with nextPage := nextLink },
          { out with deletedKey := some curKey })
    else none
  else some (r2.1, r2.2.1)

/-- The index branch of `DeleteHelper` once the index page is found below half
full after the dropped separator was deleted: the status, the pool and the
output parameters on return. -/
def DeleteHelper.indexUnderflow (cfg : Cfg) (fuel : Nat) (bm : BufMgr) (curKey nextKey : Int)
    (curPid prevPid nextPid : PageID) (out : DeleteOut) : Option (Status × BufMgr × DeleteOut) :=
  let out := { out with underflow := true }
  -- borrow a key from the previous page: `some` is a `return` from the function
  let r1 : Option (Status × BufMgr × DeleteOut) ⊕ (BufMgr × DeleteOut × Bool) :=
    if prevPid ≠ INVALID_PAGE then
      let probe := BTIndexPage.IsAtLeastHalfFullAfterDelete cfg (bm.page prevPid)
      let bm := bm.set prevPid probe.2
      if probe.1 then
        match BTIndexPage.GetLast (bm.page prevPid) with
        | none => Sum.inl none  -- `key_tmp` is read unset
        | some e =>
          match BTIndexPage.Delete (bm.page prevPid) e.key with
          | (Status.OK, prevPage1) =>
            let bm := bm.set prevPid prevPage1
            match BTIndexPage.Insert cfg (bm.page curPid) curKey
                (BTIndexPage.GetLeftLink (bm.page curPid)) with
            | (Status.OK, curPage1) =>
              let bm := bm.set curPid (BTIndexPage.SetLeftLink curPage1 e.pid)
              Sum.inr (bm, { out with child_key := some e.key, child_pageid := some curPid,
                                      deletedKey := some curKey }, true)
            | _ => Sum.inl (some (Status.FAIL, bm, out))
          | _ => Sum.inl (some (Status.FAIL, bm, out))
      else Sum.inr (bm, out, false)
    else Sum.inr (bm, out, false)
  match r1 with
  | Sum.inl r => r
  | Sum.inr (bm, out, reconstruc) =>
    -- borrow a key from the next page
    let r2 : Option (Status × BufMgr × DeleteOut) ⊕ (BufMgr × DeleteOut × Bool) :=
      if nextPid ≠ INVALID_PAGE ∧ reconstruc = false then
        let probe := BTIndexPage.IsAtLeastHalfFullAfterDelete cfg (bm.page nextPid)
        let bm := bm.set nextPid probe.2
        if probe.1 then
          match BTIndexPage.GetFirst (bm.page nextPid) with
          | none => Sum.inl (some (Status.FAIL, bm, out))
          | some e =>
            match BTIndexPage.Delete (bm.page nextPid) e.key with
            | (Status.OK, nextPage1) =>
              let bm := bm.set nextPid nextPage1
              match BTIndexPage.Insert cfg (bm.page curPid) nextKey
                  (BTIndexPage.GetLeftLink (bm.page nextPid)) with
              | (Status.OK, curPage1) =>
                let bm := bm.set curPid curPage1
                let bm := bm.set nextPid (BTIndexPage.SetLeftLink (bm.page nextPid) e.pid)
                Sum.inr (bm, { out with child_key := some e.key, child_pageid := some nextPid,
                                        deletedKey := some nextKey }, true)
              | _ => Sum.inl (some (Status.FAIL, bm, out))
            | _ => Sum.inl (some (Status.FAIL, bm, out))
        else Sum.inr (bm, out, false)
      else Sum.inr (bm, out, reconstruc)
    match r2 with
    | Sum.inl r => r
    | Sum.inr (bm, out, reconstruc) =>
      if reconstruc = false then
        let out := { out with merged := true }
        if nextPid ≠ INVALID_PAGE then
          match BTIndexPage.GetFirst (bm.page nextPid) with
          | none => some (Status.FAIL, bm, out)
          | some _ =>
            match MergeIndex.loop cfg nextPid curPid fuel bm with
            | none => none
            | some bm1 =>
              let bm2 := bm1.set curPid (BTIndexPage.Insert cfg (bm1.page curPid) nextKey
                (BTIndexPage.GetLeftLink (bm1.page nextPid))).2
              some (Status.OK, bm2, { out with deletedKey := some nextKey })
        else if prevPid ≠ INVALID_PAGE then
          match BTIndexPage.GetFirst (bm.page curPid) with
          | none => some (Status.FAIL, bm, out)
          | some _ =>
            match MergeIndex.loop cfg curPid prevPid fuel bm with
            | none => none
            | some bm1 =>
              let bm2 := bm1.set prevPid (BTIndexPage.Insert cfg (bm1.page prevPid) curKey
                (BTIndexPage.GetLeftLink (bm1.page curPid))).2
              some (Status.OK, bm2, { out with deletedKey := some curKey })
        else none
      else some (Status.OK, bm, out)

/-- `BTreeFile::DeleteHelper`: the status, the pool and the output parameters on
return; `out` holds the output parameters as the caller passed them.  `fuel`
bounds the depth of the recursion and the merge loops. -/
def DeleteHelper (cfg : Cfg) (key : Int) (rid : RecordID) :
    Nat → BufMgr → Int → Int → PageID → PageID → PageID → DeleteOut →
      Option (Status × BufMgr × DeleteOut)
  | 0, _, _, _, _, _, _, _ => none
  | fuel + 1, bm, curKey, nextKey, curPid, prevPid, nextPid, out =>
    if (bm.page curPid).type = NodeType.INDEX_NODE then
      match BTIndexPage.FindPageWithKeys (bm.page curPid) key with
      | none => none  -- `new_pid` is read unset
      | some k =>
        let new_prevPid := if k.prevPid = k.pid then INVALID_PAGE else k.prevPid
        let new_nextPid := if k.nextPid = k.pid then INVALID_PAGE else k.nextPid
        match DeleteHelper cfg key rid fuel bm k.key k.nextKey k.pid new_prevPid new_nextPid
            DeleteOut.init with
        | none => none
        | some (Status.OK, bm1, new) =>
          if new.underflow then
            match new.deletedKey with
            | none => none  -- `new_deletedKey` is read unset
            | some new_deletedKey =>
              match BTIndexPage.Delete (bm1.page curPid) new_deletedKey with
              | (Status.OK, indexPage1) =>
                let bm2 := bm1.set curPid indexPage1
                if new.merged then
                  if !indexPage1.IsAtLeastHalfFull cfg then
                    DeleteHelper.indexUnderflow cfg fuel bm2 curKey nextKey curPid prevPid
                      nextPid out
                  else some (Status.OK, bm2, out)
                else
                  match new.child_key, new.child_pageid with
                  | some new_child_key, some new_child_pageid =>
                    some (Status.OK,
                      bm2.set curPid
                        (BTIndexPage.Insert cfg indexPage1 new_child_key new_child_pageid).2,
                      out)
                  | _, _ => none
              | _ => some (Status.FAIL, bm1, out)
          else some (Status.OK, bm1, out)
        | some (_, bm1, _) => some (Status.FAIL, bm1, out)
    else
      match BTLeafPage.Delete (bm.page curPid) key rid with
      | (Status.OK, leafPage1) =>
        let bm1 := bm.set curPid leafPage1
        if !leafPage1.IsAtLeastHalfFull cfg then
          match DeleteHelper.leafUnderflow cfg fuel bm1 curKey nextKey curPid prevPid nextPid
              out with
          | none => none
          | some (bm2, out2) => some (Status.OK, bm2, out2)
        else some (Status.OK, bm1, out)
      | _ => some (Status.FAIL, bm, out)

/-- `BTreeFile::Delete`: the status and the tree on return. -/
def Delete (cfg : Cfg) (fuel : Nat) (t : BTreeFile) (key : Int) (rid : RecordID) :
    Option (Status × BTreeFile) :=
  if t.rootPid = INVALID_PAGE then some (Status.FAIL, t)
  else
    let curPid := t.rootPid
    if (t.bm.page curPid).type = NodeType.LEAF_NODE then
      match BTLeafPage.Delete (t.bm.page curPid) key rid with
      | (Status.OK, leafPage1) => some (Status.OK, { t with bm := t.bm.set curPid leafPage1 })
      | _ => some (Status.FAIL, t)
    else
      match BTIndexPage.FindPageWithKeys (t.bm.page curPid) key with
      | none => some (Status.FAIL, t)
      | some k =>
        -- the status of `DeleteHelper` is assigned to `s` and not looked at
        match DeleteHelper cfg key rid fuel t.bm k.key k.nextKey k.pid k.prevPid k.nextPid
            DeleteOut.init with
        | none => none
        | some (_, bm1, o) =>
          if o.underflow then
            match o.deletedKey with
            | none => none  -- `deletedKey` is read unset
            | some deletedKey =>
              match BTIndexPage.Delete (bm1.page curPid) deletedKey with
              | (Status.OK, indexPage1) =>
                let bm2 := bm1.set curPid indexPage1
                if o.merged then
                  match BTIndexPage.GetFirst indexPage1 with
                  | none =>
                    some (Status.OK,
                      { rootPid := BTIndexPage.GetLeftLink indexPage1, bm := bm2 })
                  | some _ => some (Status.OK, { t with bm := bm2 })
                else
                  match o.child_key, o.child_pageid with
                  | some child_key, some child_deleted_pageid =>
                    let indexPage2 :=
                      (BTIndexPage.Insert cfg indexPage1 child_key child_deleted_pageid).2
                    some (Status.OK, { t with bm := bm2.set curPid indexPage2 })
                  | _, _ => none
              | _ => some (Status.FAIL, { t with bm := bm1 })
          else some (Status.OK, { t with bm := bm1 })

/-! ## Scan set-up (btfile.cpp) -/

/-- The descent of `GetMinimumPid`: follow the left-links down to a leaf. -/
def GetMinimumPid.descend (bm : BufMgr) : Nat → PageID → Nat → Option (PageID × Nat)
  | 0, _, _ => none
  | fuel + 1, curPid, height =>
    if (bm.page curPid).type ≠ NodeType.LEAF_NODE then
      GetMinimumPid.descend bm fuel (BTIndexPage.GetLeftLink (bm.page curPid)) (height + 1)
    else some (curPid, height)

/-- `BTreeFile::GetMinimumPid` on a tree with a valid root: the leaf, the output
`key` (the caller's value `key0` when the leaf is empty) and the height. -/
def GetMinimumPid (fuel : Nat) (t : BTreeFile) (key0 : Int) : Option (PageID × Int × Nat) :=
  match GetMinimumPid.descend t.bm fuel t.rootPid 0 with
  | none => none
  | some (curPid, height) =>
    match BTLeafPage.GetFirst (t.bm.page curPid) with
    | some e => some (curPid, e.key, height)
    | none => some (curPid, key0, height)

/-- The descent of `GetMaxKey`: follow the last entry of every index page. -/
def GetMaxKey.descend (bm : BufMgr) : Nat → PageID → Option PageID
  | 0, _ => none
  | fuel + 1, curPid =>
    if (bm.page curPid).type ≠ NodeType.LEAF_NODE then
      match BTIndexPage.GetLast (bm.page curPid) with
      | none => none  -- `pid_tmp` is read unset
      | some e => GetMaxKey.descend bm fuel e.pid
    else some curPid

/-- `BTreeFile::GetMaxKey` on a tree with a valid root: the leaf and the output
`key` (the caller's value `key0` when the leaf is empty). -/
def GetMaxKey (fuel : Nat) (t : BTreeFile) (key0 : Int) : Option (PageID × Int) :=
  match GetMaxKey.descend t.bm fuel t.rootPid with
  | none => none
  | some curPid =>
    match BTLeafPage.GetLast (t.bm.page curPid) with
    | some e => some (curPid, e.key)
    | none => some (curPid, key0)

end BTreeFile

/-! ## `BTreeFileScan` (btfilescan.cpp) -/

/-- Members of `BTreeFileScan`. -/
structure BTreeFileScan where
  lowKey : Int
  highKey : Int
  s : Status
  curPid : PageID
  key_scanned : Int
  dataRid : RecordID
deriving DecidableEq, Repr

namespace BTreeFile

/-- `BTreeFile::OpenScan`.  The cursor comes from `new BTreeFileScan()`, which
value-initialises the object: `key_scanned` starts as 0 and `dataRid` as (0, 0).
`key_tmp0` is the value the local `key_tmp` holds before it is assigned.
`none`: a null bound is dereferenced (empty tree), or the fuel ran out. -/
def OpenScan (fuel : Nat) (t : BTreeFile) (lowKey highKey : Option Int) (key_tmp0 : Int) :
    Option BTreeFileScan :=
  if t.rootPid = INVALID_PAGE then
    match lowKey, highKey with
    | some lo, some hi =>
      some { lowKey := lo, highKey := hi, s := Status.DONE, curPid := INVALID_PAGE,
             key_scanned := 0, dataRid := ⟨0, 0⟩ }
    | _, _ => none
  else
    match lowKey with
    | none =>
      let hk : Option (Int × Int) :=
        match highKey with
        | some hi => some (hi, key_tmp0)
        | none => (GetMaxKey fuel t key_tmp0).map fun r => (r.2, r.2)
      match hk with
      | none => none
      | some (hi, key_tmp) =>
        match GetMinimumPid fuel t key_tmp with
        | none => none
        | some (curPid, key_tmp1, _) =>
          some { lowKey := key_tmp1, highKey := hi, s := Status.OK, curPid := curPid,
                 key_scanned := 0, dataRid := ⟨0, 0⟩ }
    | some lo =>
      let hk : Option Int :=
        match highKey with
        | some hi => some hi
        | none => (GetMaxKey fuel t key_tmp0).map fun r => r.2
      match hk, FindPidWithKey fuel t lo with
      | some hi, some curPid =>
        some { lowKey := lo, highKey := hi, s := Status.OK, curPid := curPid,
               key_scanned := 0, dataRid := ⟨0, 0⟩ }
      | _, _ => none

end BTreeFile

namespace BTreeFileScan

/-- The `while` loop of `GetNextHelper` over the entries of the leaf: `cur` is
the entry held in `key_tmp`, `dataRid_tmp`, `rest` the entries behind it.
`none`: `GetNext` reports `DONE` while the loop condition still holds, and the
loop spins on the same entry for ever. -/
def GetNextHelper.skip (lowKey key_scanned key_last : Int) (cur : LeafEntry)
    (rest : List LeafEntry) : Option LeafEntry :=
  if lowKey > cur.key ∨ cur.key = key_scanned then
    if cur.key = key_last then some cur
    else
      match rest with
      | [] => none
      | e :: es => GetNextHelper.skip lowKey key_scanned key_last e es
  else some cur

/-- `BTreeFileScan::GetNextHelper`: the status, the outputs `(key, rid)` when
the status is `OK`, and the cursor on return.  `fuel` bounds the walk along the
next-page links. -/
def GetNextHelper (bm : BufMgr) :
    Nat → BTreeFileScan → PageID → Option (Status × Option (Int × RecordID) × BTreeFileScan)
  | 0, _, _ => none
  | fuel + 1, sc, pid =>
    if pid = INVALID_PAGE then some (Status.DONE, none, { sc with s := Status.DONE })
    else if sc.lowKey > sc.highKey then some (Status.DONE, none, { sc with s := Status.DONE })
    else
      let leafPage := bm.page pid
      match BTLeafPage.GetFirst leafPage, BTLeafPage.GetLast leafPage with
      | some first, some last =>
        let key_last := last.key
        if key_last < sc.lowKey ∨ key_last = sc.key_scanned then
          let nextPid := leafPage.nextPage
          match GetNextHelper bm fuel { sc with curPid := nextPid } nextPid with
          | none => none
          | some (st, r, sc1) => some (st, r, { sc1 with s := st })
        else
          match GetNextHelper.skip sc.lowKey sc.key_scanned key_last first leafPage.leaf.tail with
          | none => none
          | some e =>
            if sc.highKey < e.key then some (Status.DONE, none, { sc with s := Status.DONE })
            else
              let sc1 := { sc with lowKey := e.key, s := Status.OK, dataRid := e.rid,
                                   key_scanned := e.key }
              if e.key = key_last then
                some (Status.OK, some (e.key, e.rid), { sc1 with curPid := leafPage.nextPage })
              else some (Status.OK, some (e.key, e.rid), sc1)
      | _, _ => some (Status.DONE, none, { sc with s := Status.DONE })

/-- `BTreeFileScan::GetNext` (the statistics dump after `DONE` only prints). -/
def GetNext (fuel : Nat) (bm : BufMgr) (sc : BTreeFileScan) :
    Option (Status × Option (Int × RecordID) × BTreeFileScan) :=
  if sc.s = Status.DONE then some (Status.DONE, none, sc)
  else if sc.curPid = INVALID_PAGE then some (Status.DONE, none, { sc with s := Status.DONE })
  else GetNextHelper bm fuel sc sc.curPid

/-- `BTreeFileScan::DeleteCurrent`: the status and the tree on return. -/
def DeleteCurrent (cfg : Cfg) (fuel : Nat) (t : BTreeFile) (sc : BTreeFileScan) :
    Option (Status × BTreeFile) :=
  match BTreeFile.Delete cfg fuel t sc.key_scanned sc.dataRid with
  | none => none
  | some (Status.OK, t1) => some (Status.OK, t1)
  | some (_, t1) => some (Status.DONE, t1)

end BTreeFileScan

/-- An empty buffer pool: every page an empty leaf, identifiers from 1 on. -/
def BufMgr.empty : BufMgr := { page := fun _ => SortedPage.init NodeType.LEAF_NODE, nextPid := 1 }

/-! ## Observations on a tree -/

/-- Concatenation of a list of optional lists; `none` if one of them is. -/
def concatAll {α : Type} : List (Option (List α)) → Option (List α)
  | [] => some []
  | none :: _ => none
  | some l :: rest =>
    match concatAll rest with
    | none => none
    | some ls => some (l ++ ls)

/-- The entries held in the leaves reachable from the page `pid` through child
pointers (left-link first, then the entries' children in slot order); `none`
when `fuel` does not cover the height. -/
def subtreeEntries (bm : BufMgr) : Nat → PageID → Option (List LeafEntry)
  | 0, _ => none
  | fuel + 1, pid =>
    if (bm.page pid).type = NodeType.LEAF_NODE then some (bm.page pid).leaf
    else
      concatAll (subtreeEntries bm fuel (BTIndexPage.GetLeftLink (bm.page pid)) ::
        (bm.page pid).index.map fun e => subtreeEntries bm fuel e.pid)

/-- The entries stored in a tree: those of the leaves reachable from the root. -/
def BTreeFile.entries (fuel : Nat) (t : BTreeFile) : Option (List LeafEntry) :=
  if t.rootPid = INVALID_PAGE then some [] else subtreeEntries t.bm fuel t.rootPid

/-- A finite sequence of `Insert` calls, each of which returns `OK`. -/
def BTreeFile.insertAll (cfg : Cfg) (fuel : Nat) :
    List (Int × RecordID) → BTreeFile → Option BTreeFile
  | [], t => some t
  | (k, r) :: rest, t =>
    match BTreeFile.Insert cfg fuel t k r with
    | some (Status.OK, t1) => BTreeFile.insertAll cfg fuel rest t1
    | _ => none

/-- A freshly created tree filled by inserting the keys `ks` in this order,
the key `k` with the record id `(7, k)`. -/
def BTreeFile.build (cfg : Cfg) (fuel : Nat) (ks : List Int) : Option BTreeFile :=
  BTreeFile.insertAll cfg fuel (ks.map fun k => (k, (⟨7, k⟩ : RecordID)))
    (BTreeFile.create BufMgr.empty)

/-! ## Well-formed trees (the invariants of the data model) -/

/-- `lo ≤ k`, with `none` standing for minus infinity. -/
def geLo (lo : Option Int) (k : Int) : Bool :=
  match lo with
  | none => true
  | some l => decide (l ≤ k)

/-- `lo < k`, with `none` standing for minus infinity. -/
def gtLo (lo : Option Int) (k : Int) : Bool :=
  match lo with
  | none => true
  | some l => decide (l < k)

/-- `k < hi`, with `none` standing for plus infinity. -/
def ltHi (hi : Option Int) (k : Int) : Bool :=
  match hi with
  | none => true
  | some h => decide (k < h)

/-- Keys ascending (repetitions allowed). -/
def ascending : List Int → Bool
  | [] => true
  | [_] => true
  | a :: b :: l => decide (a ≤ b) && ascending (b :: l)

/-- Keys strictly ascending. -/
def strictAscending : List Int → Bool
  | [] => true
  | [_] => true
  | a :: b :: l => decide (a < b) && strictAscending (b :: l)

/-- The children of an index node behind its left-link satisfy `wf`, each on the
key range from its own separator up to the next separator (`hi` for the last). -/
def wfChildren (wf : PageID → Option Int → Option Int → Bool) (hi : Option Int) :
    List IndexEntry → Bool
  | [] => true
  | [e] => wf e.pid (some e.key) hi
  | e :: e' :: rest => wf e.pid (some e.key) (some e'.key) && wfChildren wf hi (e' :: rest)

/-- Structure of the subtree of height `h` under the page `pid`, all of whose
keys lie in `[lo, hi)`: node types, sorted entries that fit the page, at least
one separator per index node, separators strictly ascending and inside
`(lo, hi)`, children on the ranges the separators cut out, all leaves at depth
`h`. -/
def wfSubtree (cfg : Cfg) (bm : BufMgr) : Nat → PageID → Option Int → Option Int → Bool
  | 0, pid, lo, hi =>
    let p := bm.page pid
    decide (p.type = NodeType.LEAF_NODE) && decide (p.index = [])
      && decide (p.leaf.length * cfg.sizeofLeafEntry ≤ cfg.HEAPPAGE_DATA_SIZE)
      && ascending (p.leaf.map LeafEntry.key)
      && p.leaf.all (fun e => geLo lo e.key && ltHi hi e.key)
  | h + 1, pid, lo, hi =>
    let p := bm.page pid
    decide (p.type = NodeType.INDEX_NODE) && decide (p.leaf = [])
      && decide (p.index ≠ [])
      && decide (p.index.length * cfg.sizeofIndexEntry ≤ cfg.HEAPPAGE_DATA_SIZE)
      && strictAscending (p.index.map IndexEntry.key)
      && p.index.all (fun e => gtLo lo e.key && ltHi hi e.key)
      && wfSubtree cfg bm h (BTIndexPage.GetLeftLink p) lo (p.index.head?.map IndexEntry.key)
      && wfChildren (wfSubtree cfg bm h) hi p.index

/-- The pages of the subtree of height `h` under `pid`, parents first. -/
def subtreePages (bm : BufMgr) : Nat → PageID → List PageID
  | 0, pid => [pid]
  | h + 1, pid =>
    pid :: (subtreePages bm h (BTIndexPage.GetLeftLink (bm.page pid)) ++
      ((bm.page pid).index.map fun e => subtreePages bm h e.pid).flatten)

/-- The leaves of the subtree of height `h` under `pid`, from left to right. -/
def subtreeLeaves (bm : BufMgr) : Nat → PageID → List PageID
  | 0, pid => [pid]
  | h + 1, pid =>
    subtreeLeaves bm h (BTIndexPage.GetLeftLink (bm.page pid)) ++
      ((bm.page pid).index.map fun e => subtreeLeaves bm h e.pid).flatten

/-- The leaves `ls` form a doubly linked list in this order: the prev-page of
the first is `prev`, the next-page of the last is `INVALID_PAGE`. -/
def chainOk (bm : BufMgr) : PageID → List PageID → Bool
  | _, [] => true
  | prev, l :: rest =>
    decide ((bm.page l).prevPage = prev)
      && decide ((bm.page l).nextPage = rest.head?.getD INVALID_PAGE)
      && chainOk bm l rest

/-- Every page of the subtree other than its root is at least half full. -/
def halfFullBelow (cfg : Cfg) (bm : BufMgr) (h : Nat) (pid : PageID) : Bool :=
  (subtreePages bm h pid).tail.all fun q => (bm.page q).IsAtLeastHalfFull cfg

namespace BTreeFile

/-- The invariants of the data model for a tree of height `h` with a valid
root: the structure of `wfSubtree` on the key range without bounds, every page
owned by one parent and allocated, the leaves linked in order, the
`(key, record-id)` pairs unique, every node but the root at least half full. -/
def wellFormedAt (cfg : Cfg) (h : Nat) (t : BTreeFile) : Bool :=
  wfSubtree cfg t.bm h t.rootPid none none
    && decide (subtreePages t.bm h t.rootPid).Nodup
    && (subtreePages t.bm h t.rootPid).all (fun q => decide (0 ≤ q ∧ q < (t.bm.nextPid : Int)))
    && chainOk t.bm INVALID_PAGE (subtreeLeaves t.bm h t.rootPid)
    && decide (((subtreeLeaves t.bm h t.rootPid).map fun q => (t.bm.page q).leaf).flatten.Nodup)
    && halfFullBelow cfg t.bm h t.rootPid

/-- A well-formed tree: empty (no root page), or well formed at some height. -/
def WellFormed (cfg : Cfg) (t : BTreeFile) : Prop :=
  t.rootPid = INVALID_PAGE ∨ ∃ h, wellFormedAt cfg h t = true

end BTreeFile

/-- The page subsystem constants make sense: entries have a size, a leaf has
room for one entry and an index page for two. -/
def Cfg.Sane (cfg : Cfg) : Prop :=
  0 < cfg.sizeofLeafEntry ∧ cfg.sizeofLeafEntry ≤ cfg.HEAPPAGE_DATA_SIZE
    ∧ 0 < cfg.sizeofIndexEntry ∧ 2 * cfg.sizeofIndexEntry ≤ cfg.HEAPPAGE_DATA_SIZE

/-! ## Invariants of insertion -/

/-- A page at most one entry short of half full: its free space exceeds half of
the data area by no more than the size of one entry of its kind. -/
def SortedPage.nearlyHalfFull (cfg : Cfg) (p : SortedPage) : Bool :=
  decide (p.AvailableSpace cfg ≤ cfg.HEAPPAGE_DATA_SIZE / 2
    + (if p.type = NodeType.LEAF_NODE then cfg.sizeofLeafEntry else cfg.sizeofIndexEntry))

/-- The records of a page agree with its node type and fit the data area. -/
def PageTyped (cfg : Cfg) (p : SortedPage) : Prop :=
  (p.type = NodeType.LEAF_NODE →
      p.index = [] ∧ p.leaf.length * cfg.sizeofLeafEntry ≤ cfg.HEAPPAGE_DATA_SIZE)
    ∧ (p.type = NodeType.INDEX_NODE →
      p.leaf = [] ∧ p.index.length * cfg.sizeofIndexEntry ≤ cfg.HEAPPAGE_DATA_SIZE)

/-- The page `q` was allocated after the pool handed out `n0` pages. -/
def Alloc (n0 : Nat) (bm : BufMgr) (q : Int) : Prop :=
  (n0 : Int) ≤ q ∧ q < (bm.nextPid : Int)

/-- Every allocated page is typed, and the child pointers of every allocated
index page name allocated pages. -/
def StoreOk (cfg : Cfg) (n0 : Nat) (bm : BufMgr) : Prop :=
  ∀ q, Alloc n0 bm q →
    PageTyped cfg (bm.page q)
      ∧ ((bm.page q).type = NodeType.INDEX_NODE →
          Alloc n0 bm (BTIndexPage.GetLeftLink (bm.page q))
            ∧ ∀ e ∈ (bm.page q).index, Alloc n0 bm e.pid)

/-- How an insertion may change the pool from `bm` to `bm'`: pages are only
added, allocated pages keep their type and stay nearly half full if they were,
and every added page is nearly half full. -/
def StoreStep (cfg : Cfg) (n0 : Nat) (bm bm' : BufMgr) : Prop :=
  bm.nextPid ≤ bm'.nextPid
    ∧ (∀ q, Alloc n0 bm q → (bm'.page q).type = (bm.page q).type
        ∧ ((bm.page q).nearlyHalfFull cfg = true → (bm'.page q).nearlyHalfFull cfg = true))
    ∧ (∀ q, (bm.nextPid : Int) ≤ q → q < (bm'.nextPid : Int) →
        (bm'.page q).nearlyHalfFull cfg = true)

/-- The nodes of the tree under the page `pid`, parents first: a leaf page is a
node without children, an index page has its left-link and the children of its
entries.  `fuel` bounds the depth. -/
def treePages (bm : BufMgr) : Nat → PageID → List PageID
  | 0, _ => []
  | fuel + 1, pid =>
    if (bm.page pid).type = NodeType.LEAF_NODE then [pid]
    else
      pid :: (treePages bm fuel (BTIndexPage.GetLeftLink (bm.page pid)) ++
        ((bm.page pid).index.map fun e => treePages bm fuel e.pid).flatten)

/-- The invariant a tree built by insertions keeps: the pool is `StoreOk`, the
root is allocated, every other allocated page is nearly half full. -/
def BTreeFile.InsertInv (cfg : Cfg) (n0 : Nat) (t : BTreeFile) : Prop :=
  StoreOk cfg n0 t.bm ∧ Alloc n0 t.bm t.rootPid
    ∧ ∀ q, Alloc n0 t.bm q → q ≠ t.rootPid → (t.bm.page q).nearlyHalfFull cfg = true

/-- Every node of the tree other than the root is nearly half full (the nodes
down to depth `n`). -/
def BTreeFile.nonRootNearlyHalfFull (cfg : Cfg) (n : Nat) (t : BTreeFile) : Bool :=
  (treePages t.bm n t.rootPid).all fun q =>
    decide (q = t.rootPid) || (t.bm.page q).nearlyHalfFull cfg

/-- The child pointers of an index page: the left-link, then the entries'. -/
def SortedPage.children (p : SortedPage) : List PageID :=
  BTIndexPage.GetLeftLink p :: p.index.map IndexEntry.pid

/-- What `InsertHelper` achieves on a well-formed subtree of height `h` under
`pid` that held the entries `es`: pages are only added, pages outside the
subtree are untouched, and the entries under `pid` (together with those under
the new sibling, when the node split) are `es` and the new pair; the promoted
key lies strictly inside the key range of the subtree. -/
def InsertPost (bm : BufMgr) (h : Nat) (pid : PageID) (lo hi : Option Int) (k : Int)
    (rid : RecordID) (es : List LeafEntry) (bm' : BufMgr) (res : Option (Int × PageID)) : Prop :=
  bm.nextPid ≤ bm'.nextPid
    ∧ (∀ q : Int, q ∉ subtreePages bm h pid → q < (bm.nextPid : Int) → bm'.page q = bm.page q)
    ∧ (∀ F, h + 1 ≤ F → ∀ q, q ∈ treePages bm' F pid →
        q ∈ subtreePages bm h pid ∨ ((bm.nextPid : Int) ≤ q ∧ q < (bm'.nextPid : Int)))
    ∧ match res with
      | none =>
        ∃ es', (∀ F, h + 1 ≤ F → subtreeEntries bm' F pid = some es')
          ∧ List.Perm es' (⟨k, rid⟩ :: es)
      | some (pk, np) =>
        gtLo lo pk = true ∧ ltHi hi pk = true
          ∧ (bm.nextPid : Int) ≤ np ∧ np < (bm'.nextPid : Int)
          ∧ (∀ F, h + 1 ≤ F → ∀ q, q ∈ treePages bm' F np →
              q ∈ subtreePages bm h pid ∨ ((bm.nextPid : Int) ≤ q ∧ q < (bm'.nextPid : Int)))
          ∧ ∃ e1 e2, (∀ F, h + 1 ≤ F →
                subtreeEntries bm' F pid = some e1 ∧ subtreeEntries bm' F np = some e2)
              ∧ List.Perm (e1 ++ e2) (⟨k, rid⟩ :: es)

/-! ## Invariants of a scan -/

/-- `k ≤ hi`, with `none` standing for plus infinity. -/
def leHi (hi : Option Int) (k : Int) : Bool :=
  match hi with
  | none => true
  | some h => decide (k ≤ h)

/-- The pages `ls` are the ones a walk along the next-page links visits from
`pid` on, up to `INVALID_PAGE`. -/
def isChain (bm : BufMgr) : PageID → List PageID → Prop
  | pid, [] => pid = INVALID_PAGE
  | pid, l :: rest => pid = l ∧ l ≠ INVALID_PAGE ∧ isChain bm (bm.page l).nextPage rest

/-- The entries on the leaves `ls`, in this order. -/
def leafEntries (bm : BufMgr) (ls : List PageID) : List LeafEntry :=
  ls.flatMap fun q => (bm.page q).leaf

/-- The entries of `S` a cursor has still to visit, the upper bound apart: those
from `lowKey` on, without the key returned last. -/
def BTreeFileScan.pending (sc : BTreeFileScan) (S : List LeafEntry) : List LeafEntry :=
  S.filter fun e => decide (sc.lowKey ≤ e.key ∧ e.key ≠ sc.key_scanned)

/-- The state of a cursor between two `GetNext` calls: it is on a chain of
leaves whose entries are strictly ascending, `key_scanned` is either no key of
the chain or equal to `lowKey`, and `B` are the entries still to visit. -/
def ScanInv (bm : BufMgr) (fuel : Nat) (sc : BTreeFileScan) (B : List LeafEntry) : Prop :=
  sc.s = Status.OK ∧ ∃ ls, isChain bm sc.curPid ls ∧ ls.length + 1 ≤ fuel
    ∧ ((∀ q ∈ ls, (bm.page q).leaf ≠ []) ∨ leafEntries bm ls = [])
    ∧ (leafEntries bm ls).Pairwise (fun a b => a.key < b.key)
    ∧ (∀ e ∈ leafEntries bm ls, e.key = sc.key_scanned → sc.lowKey = sc.key_scanned)
    ∧ sc.pending (leafEntries bm ls) = B

/-! ## Destroying the file (btfile.cpp) -/

/-- Modelled from the spec: the calls of the tree to the on-disk allocator
(`free-page(pid)`) and to the catalog (removal of the file entry); neither is
part of the sources.  Every such call and every pin succeeds. -/
inductive Call where
  | FreePage (pid : PageID)
  | DeleteFileEntry
deriving DecidableEq, Repr

namespace BTreeFile

/-- The `for` loop of `DestroyFileHelper` over the entries of the pinned index
page: `rec` is the recursive call, `log` holds the calls made so far. -/
def DestroyFileHelper.loop (rec : PageID → Option (Status × List Call)) :
    List IndexEntry → List Call → Option (Status × List Call)
  | [], log => some (Status.OK, log)
  | e :: es, log =>
    match rec e.pid with
    | none => none
    | some (Status.OK, l) => DestroyFileHelper.loop rec es (log ++ l ++ [Call.FreePage e.pid])
    | some (_, l) => some (Status.FAIL, log ++ l)

/-- `BTreeFile::DestroyFileHelper`: the status and the calls made, in order.
`fuel` bounds the depth of the recursion. -/
def DestroyFileHelper (bm : BufMgr) : Nat → PageID → Option (Status × List Call)
  | 0, _ => none
  | fuel + 1, curPid =>
    if curPid = INVALID_PAGE then some (Status.FAIL, [])
    else if (bm.page curPid).type = NodeType.INDEX_NODE then
      let leftmostPid := BTIndexPage.GetLeftLink (bm.page curPid)
      match DestroyFileHelper bm fuel leftmostPid with
      | none => none
      | some (Status.OK, l) =>
        DestroyFileHelper.loop (fun q => DestroyFileHelper bm fuel q) (bm.page curPid).index
          (l ++ [Call.FreePage leftmostPid])
      | some (_, l) => some (Status.FAIL, l)
    else some (Status.OK, [])

/-- `BTreeFile::DestroyFile`: the status and the calls made, in order. -/
def DestroyFile (fuel : Nat) (t : BTreeFile) : Option (Status × List Call) :=
  if t.rootPid = INVALID_PAGE then some (Status.OK, [Call.DeleteFileEntry])
  else
    match DestroyFileHelper t.bm fuel t.rootPid with
    | none => none
    | some (Status.OK, l) =>
      some (Status.OK, l ++ [Call.FreePage t.rootPid, Call.DeleteFileEntry])
    | some (_, l) => some (Status.FAIL, l)

end BTreeFile

/-- The pages below `pid` in the subtree of height `h` in post-order: every
page behind the pages of its own subtree; `pid` itself is left out. -/
def descendantsPostorder (bm : BufMgr) : Nat → PageID → List PageID
  | 0, _ => []
  | h + 1, pid => (bm.page pid).children.flatMap fun c => descendantsPostorder bm h c ++ [c]

/-! ## Depth of the leaves -/

/-- All leaves under the page `pid` are at depth `h` below it: every descent of
`h` child pointers from `pid` passes index pages only and ends on a leaf page. -/
def uniformDepth (bm : BufMgr) : Nat → PageID → Bool
  | 0, pid => decide ((bm.page pid).type = NodeType.LEAF_NODE)
  | h + 1, pid =>
    decide ((bm.page pid).type = NodeType.INDEX_NODE)
      && (bm.page pid).children.all (uniformDepth bm h)

/-- The page content `p` fits the level `l` of the level assignment `lvl`: a
leaf page at level 0, an index page whose child pointers all name pages of
level `l` at level `l + 1`. -/
def LevelOk (lvl : PageID → Option Nat) : Nat → SortedPage → Prop
  | 0, p => p.type = NodeType.LEAF_NODE
  | l + 1, p => p.type = NodeType.INDEX_NODE ∧ ∀ c ∈ p.children, lvl c = some l

/-- Every page the assignment `lvl` gives a level to fits that level. -/
def Leveled (bm : BufMgr) (lvl : PageID → Option Nat) : Prop :=
  ∀ q l, lvl q = some l → LevelOk lvl l (bm.page q)

/-- The assignment `lvl'` keeps the levels of `lvl`. -/
def LevelExt (lvl lvl' : PageID → Option Nat) : Prop :=
  ∀ q l, lvl q = some l → lvl' q = some l

/-- The level of the page `q` in the tree of height `h` under `root`: the height
at which all leaves under `q` sit, for the pages of the tree. -/
def pageLevel (bm : BufMgr) (h : Nat) (root q : PageID) : Option Nat :=
  if q ∈ subtreePages bm h root then (List.range (h + 1)).find? fun l => uniformDepth bm l q
  else none

/-! ## The catalog and the constructor (btfile.cpp) -/

/-- Modelled from the spec: the file-entry catalog (`MINIBASE_DB`, not part of
the sources), "mapping a logical file name to its root page identifier". -/
structure DB where
  entry : String → Option PageID

namespace DB

/-- Modelled from the spec: `get-file-entry(name) → pid | not-found`; `none`
stands for the status `FAIL`. -/
def GetFileEntry (db : DB) (name : String) : Option PageID := db.entry name

/-- Modelled from the spec: `add-file-entry(name, pid)`; a name that has an
entry is rejected. -/
def AddFileEntry (db : DB) (name : String) (pid : PageID) : Status × DB :=
  match db.entry name with
  | some _ => (Status.FAIL, db)
  | none => (Status.OK, { entry := fun n => if n = name then some pid else db.entry n })

/-- Modelled from the spec: `delete-file-entry(name)`; a name without an entry
is rejected. -/
def DeleteFileEntry (db : DB) (name : String) : Status × DB :=
  match db.entry name with
  | some _ => (Status.OK, { entry := fun n => if n = name then none else db.entry n })
  | none => (Status.FAIL, db)

/-- The effect on the catalog of one call recorded by `DestroyFile` of the tree
with the file name `fname`. -/
def exec (fname : String) (db : DB) : Call → DB
  | Call.FreePage _ => db
  | Call.DeleteFileEntry => (db.DeleteFileEntry fname).2

/-- The catalog after the calls `calls`, made in this order. -/
def execAll (fname : String) (db : DB) (calls : List Call) : DB :=
  calls.foldl (exec fname) db

end DB

/-- The members of a `BTreeFile` object and the state of the pool and of the
catalog when the constructor returns; `none`: the member is not assigned. -/
structure Constructed where
  returnStatus : Status
  rootPid : Option PageID
  fname : Option String
  bm : BufMgr
  db : DB

/-- `BTreeFile::BTreeFile`: the constructor.  `NewPage` and `PinPage` succeed
in the pool model; a page allocated while `AddFileEntry` fails is not
initialised. -/
def BTreeFile.construct (db : DB) (bm : BufMgr) (filename : String) : Constructed :=
  match db.GetFileEntry filename with
  | none =>
    let pid : PageID := (bm.nextPid : Int)
    match db.AddFileEntry filename pid with
    | (Status.OK, db1) =>
      { returnStatus := Status.OK, rootPid := some pid, fname := some filename,
        bm := (bm.NewPage NodeType.LEAF_NODE).2, db := db1 }
    | (st, db1) =>
      { returnStatus := st, rootPid := none, fname := none,
        bm := { bm with nextPid := bm.nextPid + 1 }, db := db1 }
  | some pid =>
    { returnStatus := Status.OK, rootPid := some pid, fname := some filename, bm := bm,
      db := db }

/-! ## Pin counts -/

/-- Modelled from the spec: the calls of the tree to the buffer pool that change
a pin count (the macros `PIN`, `UNPIN`, `NEWPAGE` are not part of the sources):
`pin(pid)` takes a pin, `unpin(pid, _)` releases one, and the page of
`new-page()` is "pinned on return".  Every call succeeds. -/
inductive PinCall where
  | Pin (pid : PageID)
  | Unpin (pid : PageID)
  | NewPage (pid : PageID)
deriving DecidableEq, Repr

/-- The change of the pin count of the page `pid` by one call. -/
def PinCall.delta (pid : PageID) : PinCall → Int
  | PinCall.Pin q => if q = pid then 1 else 0
  | PinCall.Unpin q => if q = pid then -1 else 0
  | PinCall.NewPage q => if q = pid then 1 else 0

/-- The change of the pin count of the page `pid` by the calls `calls`. -/
def pinDelta (calls : List PinCall) (pid : PageID) : Int :=
  (calls.map (PinCall.delta pid)).sum

namespace BTreeFile

/-- The pool calls of `BTreeFile::InsertHelper`, in order (`none` where
`InsertHelper` has no result). -/
def InsertHelper.pins (cfg : Cfg) (key : Int) (rid : RecordID) :
    Nat → BufMgr → PageID → Option (List PinCall)
  | 0, _, _ => none
  | fuel + 1, bm, curPid =>
    let curPage := bm.page curPid
    if curPage.type = NodeType.INDEX_NODE then
      match BTIndexPage.FindPageWithKey curPage key with
      | none => none
      | some found =>
        match InsertHelper cfg key rid fuel bm found.pid,
            InsertHelper.pins cfg key rid fuel bm found.pid with
        | some (_, none), some l =>
          some ([PinCall.Pin curPid, PinCall.Unpin curPid] ++ l
            ++ [PinCall.Pin curPid, PinCall.Unpin curPid])
        | some (bm1, some (new_child_key, new_child_pageid)), some l =>
          let indexpage := bm1.page curPid
          if indexpage.AvailableSpace cfg < cfg.sizeofIndexEntry then
            let (newIndexPid, bm2) := bm1.NewPage NodeType.INDEX_NODE
            match Split_Index cfg indexpage (bm2.page newIndexPid) new_child_key
                new_child_pageid with
            | some (_, _, _, some _) =>
              some ([PinCall.Pin curPid, PinCall.Unpin curPid] ++ l
                ++ [PinCall.Pin curPid, PinCall.NewPage newIndexPid,
                    PinCall.Unpin newIndexPid, PinCall.Unpin curPid])
            | _ => none
          else
            some ([PinCall.Pin curPid, PinCall.Unpin curPid] ++ l
              ++ [PinCall.Pin curPid, PinCall.Unpin curPid])
        | _, _ => none
    else
      let leafpage := curPage
      if leafpage.AvailableSpace cfg < cfg.sizeofLeafEntry then
        let (newLeafPid, bm1) := bm.NewPage NodeType.LEAF_NODE
        match Split_Leaf cfg leafpage (bm1.page newLeafPid) key rid with
        | none => none
        | some (_, _, newPage) =>
          match BTLeafPage.GetFirst newPage with
          | none => none
          | some _ =>
            some [PinCall.Pin curPid, PinCall.NewPage newLeafPid, PinCall.Unpin newLeafPid,
              PinCall.Unpin curPid]
      else some [PinCall.Pin curPid, PinCall.Unpin curPid]

/-- The pool calls of `BTreeFile::Insert`, in order.  After a split of the root
the old root is pinned and the new index page allocated; the branch for an
index root unpins the new page only, the branch for a leaf root both pages;
the return after a failed `Insert` into the new page unpins nothing. -/
def Insert.pins (cfg : Cfg) (fuel : Nat) (t : BTreeFile) (key : Int) (rid : RecordID) :
    Option (List PinCall) :=
  if t.rootPid = INVALID_PAGE then
    let (rootPid, _) := t.bm.NewPage NodeType.LEAF_NODE
    some [PinCall.NewPage rootPid, PinCall.Unpin rootPid]
  else
    match InsertHelper cfg key rid fuel t.bm t.rootPid,
        InsertHelper.pins cfg key rid fuel t.bm t.rootPid with
    | some (_, none), some l => some l
    | some (bm1, some (child_key, child_pageid)), some l =>
      let (newIndexPid, bm2) := bm1.NewPage NodeType.INDEX_NODE
      let curPage := bm2.page t.rootPid
      let newIndexPage := BTIndexPage.SetLeftLink (bm2.page newIndexPid) t.rootPid
      let taken := l ++ [PinCall.Pin t.rootPid, PinCall.NewPage newIndexPid]
      match BTIndexPage.Insert cfg newIndexPage child_key child_pageid with
      | (Status.OK, _) =>
        if curPage.type = NodeType.INDEX_NODE then
          some (taken ++ [PinCall.Unpin newIndexPid])
        else some (taken ++ [PinCall.Unpin t.rootPid, PinCall.Unpin newIndexPid])
      | _ => some taken
    | _, _ => none

end BTreeFile

/-! ## In-order sequence of an index page -/

/-- The in-order sequence of an index page: its left-link, then for every entry
the separator and the child behind it. -/
def SortedPage.inOrder (p : SortedPage) : List (PageID ⊕ Int) :=
  Sum.inl p.prevPage :: p.index.flatMap fun e => [Sum.inr e.key, Sum.inl e.pid]

/-! ## Concrete trees -/

/-- A buffer pool holding the pages `ps` under the identifiers 0, 1, 2, ... -/
def BufMgr.ofPages (ps : List SortedPage) : BufMgr :=
  { page := fun q =>
      if 0 ≤ q then ps.getD q.toNat (SortedPage.init NodeType.LEAF_NODE)
      else SortedPage.init NodeType.LEAF_NODE,
    nextPid := ps.length }

/-- A leaf page with the keys `ks`, the key `k` paired with the record id `(7, k)`. -/
def leafPage (prev next : PageID) (ks : List Int) : SortedPage :=
  { type := NodeType.LEAF_NODE, prevPage := prev, nextPage := next,
    leaf := ks.map fun k => ⟨k, ⟨7, k⟩⟩, index := [] }

/-- An index page with the left-link `left` and the entries `es`. -/
def indexPage (left : PageID) (es : List (Int × PageID)) : SortedPage :=
  { type := NodeType.INDEX_NODE, prevPage := left, nextPage := INVALID_PAGE,
    leaf := [], index := es.map fun e => ⟨e.1, e.2⟩ }

/-- Repeated `GetNext` up to the first `DONE` (at most `n` calls): the pairs
returned.  `none`: a call ran out of fuel, or `n` calls did not reach `DONE`. -/
def BTreeFileScan.collect (fuel : Nat) (bm : BufMgr) :
    Nat → BTreeFileScan → Option (List (Int × RecordID))
  | 0, _ => none
  | n + 1, sc =>
    match BTreeFileScan.GetNext fuel bm sc with
    | none => none
    | some (Status.OK, some kr, sc1) => (BTreeFileScan.collect fuel bm n sc1).map fun l => kr :: l
    | some (_, _, _) => some []

/-- The first `n` calls of `GetNext`: the outputs of each call and the cursor
after the last one. -/
def BTreeFileScan.take (fuel : Nat) (bm : BufMgr) :
    Nat → BTreeFileScan → Option (List (Option (Int × RecordID)) × BTreeFileScan)
  | 0, sc => some ([], sc)
  | n + 1, sc =>
    match BTreeFileScan.GetNext fuel bm sc with
    | none => none
    | some (_, kr, sc1) => (BTreeFileScan.take fuel bm n sc1).map fun r => (kr :: r.1, r.2)

/-- The pages a walk along the next-page links visits from `pid` on, at most
`n` of them, up to `INVALID_PAGE`. -/
def chainFrom (bm : BufMgr) : Nat → PageID → List PageID
  | 0, _ => []
  | n + 1, pid => if pid = INVALID_PAGE then [] else pid :: chainFrom bm n (bm.page pid).nextPage

/-- `GetNext` calls on one cursor, one per listed pool state (the pool may have
changed between two calls): status and outputs of every call. -/
def BTreeFileScan.run (fuel : Nat) :
    List BufMgr → BTreeFileScan → Option (List (Status × Option (Int × RecordID)))
  | [], _ => some []
  | bm :: rest, sc =>
    match BTreeFileScan.GetNext fuel bm sc with
    | none => none
    | some (st, kr, sc1) => (BTreeFileScan.run fuel rest sc1).map fun l => (st, kr) :: l

/-- The keys returned by the calls that returned `OK`, in call order.  A call
that returned `OK` without an output counts with the key 0. -/
def okKeys (outs : List (Status × Option (Int × RecordID))) : List Int :=
  outs.filterMap fun o =>
    if o.1 = Status.OK then some ((o.2.map Prod.fst).getD 0) else none

/-- Keys of a list of leaf entries. -/
def keysOf (es : List LeafEntry) : List Int := es.map LeafEntry.key

/-- Page sizes with room for four entries on every page (half full: two). -/
def cfg4 : Cfg := ⟨4, 1, 1⟩

/-- Page sizes with room for two entries on a leaf and three on an index page. -/
def cfg23 : Cfg := ⟨6, 3, 2⟩

/-- A tree of height 1: the root (page 1) over the leaves 2 = [1, 2] and
3 = [3, 4, 5]. -/
def treeH1 : BTreeFile :=
  { rootPid := 1,
    bm := BufMgr.ofPages
      [leafPage (-1) (-1) [], indexPage 2 [(3, 3)], leafPage (-1) 3 [1, 2],
       leafPage 2 (-1) [3, 4, 5]] }

/-- A tree of height 2: the root (page 1) over the index pages 2 and 3, each
over three leaves with two entries. -/
def treeH2 : BTreeFile :=
  { rootPid := 1,
    bm := BufMgr.ofPages
      [leafPage (-1) (-1) [], indexPage 2 [(13, 3)], indexPage 4 [(3, 5), (5, 6)],
       indexPage 7 [(15, 8), (17, 9)], leafPage (-1) 5 [1, 2], leafPage 4 6 [3, 4],
       leafPage 5 7 [5, 6], leafPage 6 8 [13, 14], leafPage 7 9 [15, 16],
       leafPage 8 (-1) [17, 18]] }

/-- A tree of height 1 for `cfg23` whose root (page 1) is full: leaves
2 = [1], 3 = [2, 3], 4 = [5], 5 = [6]. -/
def treeFullRoot : BTreeFile :=
  { rootPid := 1,
    bm := BufMgr.ofPages
      [leafPage (-1) (-1) [], indexPage 2 [(2, 3), (5, 4), (6, 5)], leafPage (-1) 3 [1],
       leafPage 2 4 [2, 3], leafPage 3 5 [5], leafPage 4 (-1) [6]] }

/-- A leaf holding the key 30 four times, under the record ids (7, 1) .. (7, 4). -/
def leaf30 (prev next : PageID) : SortedPage :=
  { type := NodeType.LEAF_NODE, prevPage := prev, nextPage := next,
    leaf := [⟨30, ⟨7, 1⟩⟩, ⟨30, ⟨7, 2⟩⟩, ⟨30, ⟨7, 3⟩⟩, ⟨30, ⟨7, 4⟩⟩], index := [] }

/-- A tree of height 1 for `cfg4` with a full root and a full leaf of equal keys. -/
def treeDup : BTreeFile :=
  { rootPid := 1,
    bm := BufMgr.ofPages
      [leafPage (-1) (-1) [], indexPage 2 [(10, 3), (20, 4), (30, 5), (40, 6)],
       leafPage (-1) 3 [1, 2], leafPage 2 4 [10, 11], leafPage 3 5 [20, 21], leaf30 4 6,
       leafPage 5 (-1) [40, 41]] }

/-- A root leaf holding the key 5 under two record ids. -/
def treeDupLeaf : BTreeFile :=
  { rootPid := 1,
    bm := BufMgr.ofPages
      [leafPage (-1) (-1) [],
       { type := NodeType.LEAF_NODE, prevPage := -1, nextPage := -1,
         leaf := [⟨5, ⟨7, 1⟩⟩, ⟨5, ⟨7, 2⟩⟩], index := [] }] }

/-- The keys held in the leaves of the subtree of height `h` under `pid`, from
left to right. -/
def subtreeKeys (bm : BufMgr) (h : Nat) (pid : PageID) : List Int :=
  (leafEntries bm (subtreeLeaves bm h pid)).map LeafEntry.key

/-- Search order at the separators `idx` of one index node whose children have
height `h`: every key in the subtrees to the left of a separator (`left` holds
the keys met so far) is smaller than it, every key in the subtree to the right
of it, up to the next separator, is not smaller. -/
def sepOk (bm : BufMgr) (h : Nat) : List Int → List IndexEntry → Bool
  | _, [] => true
  | left, e :: rest =>
    left.all (fun k => decide (k < e.key))
      && (subtreeKeys bm h e.pid).all (fun k => decide (e.key ≤ k))
      && sepOk bm h (left ++ subtreeKeys bm h e.pid) rest

/-- The search-order invariant at every index node of the subtree of height `h`
under `pid`. -/
def searchOrderAt (bm : BufMgr) : Nat → PageID → Bool
  | 0, _ => true
  | h + 1, pid =>
    sepOk bm h (subtreeKeys bm h (BTIndexPage.GetLeftLink (bm.page pid))) (bm.page pid).index
      && searchOrderAt bm h (BTIndexPage.GetLeftLink (bm.page pid))
      && (bm.page pid).index.all fun e => searchOrderAt bm h e.pid

/-- A sequence of `Delete` calls, the key `k` with the record id `(7, k)`: the
statuses in call order and the tree after the last call.  `none`: a call did
not return. -/
def BTreeFile.deleteEach (cfg : Cfg) (fuel : Nat) :
    List Int → BTreeFile → Option (List Status × BTreeFile)
  | [], t => some ([], t)
  | k :: ks, t =>
    match BTreeFile.Delete cfg fuel t k ⟨7, k⟩ with
    | none => none
    | some (st, t1) => (BTreeFile.deleteEach cfg fuel ks t1).map fun r => (st :: r.1, r.2)

/-- A tree of height 2 for `cfg4`: the root (page 1) over the index pages 2, 3
(two separators each) and 4 (three separators), ten leaves with two entries. -/
def treeH2Wide : BTreeFile :=
  { rootPid := 1,
    bm := BufMgr.ofPages
      [leafPage (-1) (-1) [], indexPage 2 [(7, 3), (13, 4)],
       indexPage 5 [(3, 6), (5, 7)], indexPage 8 [(9, 9), (11, 10)],
       indexPage 11 [(15, 12), (17, 13), (19, 14)],
       leafPage (-1) 6 [1, 2], leafPage 5 7 [3, 4], leafPage 6 8 [5, 6],
       leafPage 7 9 [7, 8], leafPage 8 10 [9, 10], leafPage 9 11 [11, 12],
       leafPage 10 12 [13, 14], leafPage 11 13 [15, 16], leafPage 12 14 [17, 18],
       leafPage 13 (-1) [19, 20]] }

/-- A tree of height 1 for `cfg4` whose first leaf is full: the root (page 1)
over the leaves 2 = [1, 2, 3, 4] and 3 = [5, 6]. -/
def treeFullLeaf : BTreeFile :=
  { rootPid := 1,
    bm := BufMgr.ofPages
      [leafPage (-1) (-1) [], indexPage 2 [(5, 3)], leafPage (-1) 3 [1, 2, 3, 4],
       leafPage 2 (-1) [5, 6]] }

/-- An index page with the left-link 2 and the entries (3, 3), (5, 4), (9, 5). -/
def indexPage359 : SortedPage := indexPage 2 [(3, 3), (5, 4), (9, 5)]

/-- A tree of height 1 for `cfg4`: the root (page 1) over the leaves 2 = [1, 2]
and 3 = [5, 6]. -/
def treeTwo : BTreeFile :=
  { rootPid := 1,
    bm := BufMgr.ofPages
      [leafPage (-1) (-1) [], indexPage 2 [(5, 3)], leafPage (-1) 3 [1, 2],
       leafPage 2 (-1) [5, 6]] }

/-- A tree of height 1 for `cfg4`: the root (page 1) over the leaves 2 = [1, 2],
3 = [5, 6] and 4 = [9, 10]. -/
def treeThree : BTreeFile :=
  { rootPid := 1,
    bm := BufMgr.ofPages
      [leafPage (-1) (-1) [], indexPage 2 [(5, 3), (9, 4)], leafPage (-1) 3 [1, 2],
       leafPage 2 4 [5, 6], leafPage 3 (-1) [9, 10]] }

/-- Page sizes with a data area of 9 bytes and entries of 2 bytes: room for four
entries on a page, which is at least half full from three entries on. -/
def cfg92 : Cfg := ⟨9, 2, 2⟩

/-- A tree of height 1 for `cfg92`, as the insertions of the keys 1, 2, 5, 6, 7, 3
into a new tree build it: the root (page 3) over the leaves 1 = [1, 2, 3] and
2 = [5, 6, 7]. -/
def treeSlack : BTreeFile :=
  { rootPid := 3,
    bm := BufMgr.ofPages
      [leafPage (-1) (-1) [], leafPage (-1) 2 [1, 2, 3], leafPage 1 (-1) [5, 6, 7],
       indexPage 1 [(5, 2)]] }

/-- Two sibling index pages for `cfg4`: page 1 with the left-link 10 and the
entry (5, 11), below half full, and page 2 with the left-link 12 and the
entries (9, 13), (11, 14), (13, 15). -/
def poolRotate : BufMgr :=
  BufMgr.ofPages [leafPage (-1) (-1) [], indexPage 10 [(5, 11)],
    indexPage 12 [(9, 13), (11, 14), (13, 15)]]

/-! ## Behaviour on concrete trees -/

/-- C2 (failing input): with room for two entries on a leaf and three on an
index page, inserting the keys 5, 6, 2, 1, 3, 4 into a fresh tree makes
`Split_Index` promote the key 2 while the newer separator 3 stays in the old
page; afterwards `FindPidWithKey (3)` returns page 5, whose only entry has key 2,
although key 3 is stored (in page 6). -/
theorem C2_find_misses_key_after_index_split :
    ((BTreeFile.build ⟨6, 3, 2⟩ 8 [5, 6, 2, 1, 3, 4]).bind
        fun t => BTreeFile.FindPidWithKey 8 t 3) = some 5
    ∧ ((BTreeFile.build ⟨6, 3, 2⟩ 8 [5, 6, 2, 1, 3, 4]).map
        fun t => ((t.bm.page 5).leaf.map LeafEntry.key, (t.bm.page 6).leaf.map LeafEntry.key))
      = some ([2], [3, 4])
    ∧ ((BTreeFile.build ⟨6, 3, 2⟩ 8 [5, 6, 2, 1, 3, 4]).bind
        fun t => (BTreeFile.entries 8 t).map fun es => es.map LeafEntry.key)
      = some [1, 3, 4, 2, 5, 6] := by
  decide!

/-- C3 (failing input): in the well-formed tree `treeH2`, `Delete (1, (7,1))`
merges the first two leaves, the index page 2 underflows, and the probe
`IsAtLeastHalfFullAfterDelete` on its sibling 3 deletes the entry (15, 8) without
putting it back before the merge.  `Delete` returns `OK`, and the entries with
the keys 15 and 16 are no longer reachable from the root. -/
theorem C3_delete_loses_entries_of_probed_sibling :
    BTreeFile.wellFormedAt cfg4 2 treeH2 = true
    ∧ (BTreeFile.entries 4 treeH2).map keysOf
        = some [1, 2, 3, 4, 5, 6, 13, 14, 15, 16, 17, 18]
    ∧ ((BTreeFile.Delete cfg4 9 treeH2 1 ⟨7, 1⟩).map
        fun r => (r.1, r.2.rootPid, (BTreeFile.entries 4 r.2).map keysOf))
      = some (Status.OK, 2, some [2, 3, 4, 5, 6, 13, 14, 17, 18]) := by
  decide!

/-- C4 (failing input): in the well-formed tree `treeH1`, whose root is an index
page, `Delete (9, (7,9))` for a pair that is not stored returns `OK`: the `FAIL`
of `DeleteHelper` is assigned to `s` and never looked at.  The stored entries
stay as they are. -/
theorem C4_delete_of_missing_pair_returns_ok :
    BTreeFile.wellFormedAt cfg4 1 treeH1 = true
    ∧ (BTreeFile.entries 4 treeH1).map keysOf = some [1, 2, 3, 4, 5]
    ∧ ((BTreeFile.Delete cfg4 9 treeH1 9 ⟨7, 9⟩).map
        fun r => (r.1, (BTreeFile.entries 4 r.2).map keysOf))
      = some (Status.OK, some [1, 2, 3, 4, 5]) := by
  decide!

/-- C5 (failing input): in the well-formed tree `treeFullRoot`, `Insert (4, (7,4))`
splits a leaf and the root; `Split_Index` leaves the new leaf where the search
does not come by, so the following `Delete (4, (7,4))` does not find the pair.
Both calls return `OK`, and the pair (4, (7,4)) is still stored. -/
theorem C5_insert_then_delete_keeps_the_pair :
    BTreeFile.wellFormedAt cfg23 1 treeFullRoot = true
    ∧ (BTreeFile.entries 4 treeFullRoot).map keysOf = some [1, 2, 3, 5, 6]
    ∧ ((BTreeFile.Insert cfg23 9 treeFullRoot 4 ⟨7, 4⟩).bind fun r =>
        (BTreeFile.Delete cfg23 9 r.2 4 ⟨7, 4⟩).map fun d =>
          (r.1, d.1, (BTreeFile.entries 4 d.2).map keysOf))
      = some (Status.OK, Status.OK, some [1, 3, 4, 2, 5, 6]) := by
  decide!

/-- C7 (failing input): after inserting the keys 0, 1, 2 in ascending order into
a fresh tree, the scan without bounds returns the keys 1 and 2 and then `DONE`:
the cursor starts with `key_scanned = 0`, so the stored key 0 counts as already
returned. -/
theorem C7_scan_skips_key_zero :
    ((BTreeFile.build cfg4 4 [0, 1, 2]).bind fun t => (BTreeFile.entries 4 t).map keysOf)
      = some [0, 1, 2]
    ∧ ((BTreeFile.build cfg4 4 [0, 1, 2]).bind fun t =>
        (BTreeFile.OpenScan 4 t none none 0).bind fun sc =>
          BTreeFileScan.collect 4 t.bm 9 sc)
      = some [(1, ⟨7, 1⟩), (2, ⟨7, 2⟩)] := by
  decide!

/-- C9 (failing input): on the well-formed tree `treeH1` the scan of [1, 5]
returns 1 and 2; `DeleteCurrent` then deletes key 2, the leaf borrows key 3 from
its next sibling, where the cursor already stands, and the scan goes on with 4
and 5: key 3 is skipped.  Without the deletion the same cursor returns 3, 4, 5. -/
theorem C9_delete_current_makes_scan_skip :
    BTreeFile.wellFormedAt cfg4 1 treeH1 = true
    ∧ ((BTreeFile.OpenScan 4 treeH1 (some 1) (some 5) 0).bind fun sc =>
        (BTreeFileScan.take 4 treeH1.bm 2 sc).map fun r => r.1)
      = some [some (1, ⟨7, 1⟩), some (2, ⟨7, 2⟩)]
    ∧ ((BTreeFile.OpenScan 4 treeH1 (some 1) (some 5) 0).bind fun sc =>
        (BTreeFileScan.take 4 treeH1.bm 2 sc).bind fun r =>
          (BTreeFileScan.DeleteCurrent cfg4 4 treeH1 r.2).map fun d =>
            (d.1, (BTreeFile.entries 4 d.2).map keysOf))
      = some (Status.OK, some [1, 3, 4, 5])
    ∧ ((BTreeFile.OpenScan 4 treeH1 (some 1) (some 5) 0).bind fun sc =>
        (BTreeFileScan.take 4 treeH1.bm 2 sc).bind fun r =>
          (BTreeFileScan.DeleteCurrent cfg4 4 treeH1 r.2).bind fun d =>
            BTreeFileScan.collect 4 d.2.bm 9 r.2)
      = some [(4, ⟨7, 4⟩), (5, ⟨7, 5⟩)]
    ∧ ((BTreeFile.OpenScan 4 treeH1 (some 1) (some 5) 0).bind fun sc =>
        (BTreeFileScan.take 4 treeH1.bm 2 sc).bind fun r =>
          BTreeFileScan.collect 4 treeH1.bm 9 r.2)
      = some [(3, ⟨7, 3⟩), (4, ⟨7, 4⟩), (5, ⟨7, 5⟩)] := by
  decide!

theorem skip_spec (lowKey ks kl : Int) (rest : List LeafEntry) :
    ∀ (cur e : LeafEntry), BTreeFileScan.GetNextHelper.skip lowKey ks kl cur rest = some e →
      e ∈ cur :: rest ∧ ((lowKey ≤ e.key ∧ e.key ≠ ks) ∨ e.key = kl) := by
  induction rest with
  | nil =>
    intro cur e h
    unfold BTreeFileScan.GetNextHelper.skip at h
    by_cases hc : lowKey > cur.key ∨ cur.key = ks
    · simp only [hc, if_true] at h
      by_cases hk : cur.key = kl
      · simp only [hk, if_true] at h
        cases h
        exact ⟨List.mem_cons_self _ _, Or.inr hk⟩
      · simp [hk] at h
    · simp only [hc, if_false] at h
      cases h
      refine ⟨List.mem_cons_self _ _, Or.inl ?_⟩
      push_neg at hc
      exact ⟨by omega, hc.2⟩
  | cons x xs ih =>
    intro cur e h
    unfold BTreeFileScan.GetNextHelper.skip at h
    by_cases hc : lowKey > cur.key ∨ cur.key = ks
    · simp only [hc, if_true] at h
      by_cases hk : cur.key = kl
      · simp only [hk, if_true] at h
        cases h
        exact ⟨List.mem_cons_self _ _, Or.inr hk⟩
      · simp only [hk, if_false] at h
        obtain ⟨hm, hp⟩ := ih x e h
        exact ⟨List.mem_cons_of_mem _ hm, hp⟩
    · simp only [hc, if_false] at h
      cases h
      refine ⟨List.mem_cons_self _ _, Or.inl ?_⟩
      push_neg at hc
      exact ⟨by omega, hc.2⟩

theorem head_mem_leaf {p : SortedPage} {e : LeafEntry} (h : BTLeafPage.GetFirst p = some e) :
    p.leaf = e :: p.leaf.tail := by
  unfold BTLeafPage.GetFirst at h
  cases hl : p.leaf with
  | nil => simp [hl] at h
  | cons a l => simp [hl] at h; simp [h]

theorem helper_spec (bm : BufMgr) :
    ∀ (fuel : Nat) (sc : BTreeFileScan) (pid : PageID) (st : Status)
      (kr : Option (Int × RecordID)) (sc' : BTreeFileScan),
      BTreeFileScan.GetNextHelper bm fuel sc pid = some (st, kr, sc') →
      sc'.highKey = sc.highKey ∧
      (st = Status.OK → ∃ k r, kr = some (k, r)
        ∧ (∃ q ∈ chainFrom bm fuel pid, (⟨k, r⟩ : LeafEntry) ∈ (bm.page q).leaf)
        ∧ sc.lowKey ≤ k ∧ k ≤ sc.highKey ∧ k ≠ sc.key_scanned
        ∧ sc'.lowKey = k ∧ sc'.key_scanned = k) ∧
      (st ≠ Status.OK → sc'.lowKey = sc.lowKey ∧ sc'.key_scanned = sc.key_scanned) := by
  intro fuel
  induction fuel with
  | zero => intro sc pid st kr sc' h; simp [BTreeFileScan.GetNextHelper] at h
  | succ n ih =>
    intro sc pid st kr sc' h
    unfold BTreeFileScan.GetNextHelper at h
    by_cases hp : pid = INVALID_PAGE
    · simp only [hp, if_true] at h
      cases h
      simp
    simp only [hp, if_false] at h
    by_cases hlh : sc.lowKey > sc.highKey
    · simp only [hlh, if_true] at h
      cases h
      simp
    simp only [hlh, if_false] at h
    cases hf : BTLeafPage.GetFirst (bm.page pid) with
    | none =>
      simp only [hf] at h
      cases h
      simp
    | some first =>
      cases hl : BTLeafPage.GetLast (bm.page pid) with
      | none =>
        simp only [hf, hl] at h
        cases h
        simp
      | some last =>
        simp only [hf, hl] at h
        by_cases hc : last.key < sc.lowKey ∨ last.key = sc.key_scanned
        · simp only [hc, if_true] at h
          cases hr : BTreeFileScan.GetNextHelper bm n { sc with curPid := (bm.page pid).nextPage }
              (bm.page pid).nextPage with
          | none => simp [hr] at h
          | some res =>
            obtain ⟨st1, r1, sc1⟩ := res
            simp only [hr] at h
            cases h
            obtain ⟨h1, h2, h3⟩ := ih _ _ _ _ _ hr
            refine ⟨h1, ?_, ?_⟩
            · intro hst
              obtain ⟨k, r, hk, ⟨q, hq, hmem⟩, hrest⟩ := h2 hst
              refine ⟨k, r, hk, ⟨q, ?_, hmem⟩, hrest⟩
              simp only [chainFrom, hp, if_false]
              exact List.mem_cons_of_mem _ hq
            · intro hst
              exact h3 hst
        · simp only [hc, if_false] at h
          cases hs : BTreeFileScan.GetNextHelper.skip sc.lowKey sc.key_scanned last.key first
              (bm.page pid).leaf.tail with
          | none => simp [hs] at h
          | some e =>
            simp only [hs] at h
            obtain ⟨hmem, hprop⟩ := skip_spec _ _ _ _ _ _ hs
            rw [← head_mem_leaf hf] at hmem
            have hlow : sc.lowKey ≤ e.key ∧ e.key ≠ sc.key_scanned := by
              rcases hprop with hprop | hprop
              · exact hprop
              · push_neg at hc
                rw [hprop]
                exact ⟨by omega, hc.2⟩
            by_cases hh : sc.highKey < e.key
            · simp only [hh, if_true] at h
              cases h
              simp
            · simp only [hh, if_false] at h
              have hq : pid ∈ chainFrom bm (n + 1) pid := by
                simp [chainFrom, hp]
              by_cases hkl : e.key = last.key
              · simp only [hkl, if_true] at h
                cases h
                refine ⟨rfl, ?_, by simp⟩
                intro _
                refine ⟨e.key, e.rid, by rw [hkl], ⟨pid, hq, hmem⟩, hlow.1, by omega, hlow.2, ?_, ?_⟩
                · simp [hkl]
                · simp [hkl]
              · simp only [hkl, if_false] at h
                cases h
                refine ⟨rfl, ?_, by simp⟩
                intro _
                exact ⟨e.key, e.rid, rfl, ⟨pid, hq, hmem⟩, hlow.1, by omega, hlow.2, rfl, rfl⟩

theorem getNext_spec (fuel : Nat) (bm : BufMgr) (sc : BTreeFileScan) (st : Status)
    (kr : Option (Int × RecordID)) (sc' : BTreeFileScan)
    (h : BTreeFileScan.GetNext fuel bm sc = some (st, kr, sc')) :
    sc'.highKey = sc.highKey ∧
      (st = Status.OK → ∃ k r, kr = some (k, r)
        ∧ (∃ q ∈ chainFrom bm fuel sc.curPid, (⟨k, r⟩ : LeafEntry) ∈ (bm.page q).leaf)
        ∧ sc.lowKey ≤ k ∧ k ≤ sc.highKey ∧ k ≠ sc.key_scanned
        ∧ sc'.lowKey = k ∧ sc'.key_scanned = k) ∧
      (st ≠ Status.OK → sc'.lowKey = sc.lowKey ∧ sc'.key_scanned = sc.key_scanned) := by
  unfold BTreeFileScan.GetNext at h
  by_cases hd : sc.s = Status.DONE
  · simp only [hd, if_true] at h
    cases h
    simp
  simp only [hd, if_false] at h
  by_cases hp : sc.curPid = INVALID_PAGE
  · simp only [hp, if_true] at h
    cases h
    simp
  simp only [hp, if_false] at h
  exact helper_spec bm fuel sc sc.curPid st kr sc' h

theorem run_increasing (fuel : Nat) :
    ∀ (bms : List BufMgr) (sc : BTreeFileScan) (k : Int)
      (outs : List (Status × Option (Int × RecordID))),
      sc.lowKey = k → sc.key_scanned = k →
      BTreeFileScan.run fuel bms sc = some outs →
      (k :: okKeys outs).Chain' (· < ·) ∧ ∀ k' ∈ okKeys outs, k' ≤ sc.highKey := by
  intro bms
  induction bms with
  | nil =>
    intro sc k outs _ _ h
    simp [BTreeFileScan.run] at h
    subst h
    simp [okKeys]
  | cons bm rest ih =>
    intro sc k outs hlo hks h
    unfold BTreeFileScan.run at h
    cases hg : BTreeFileScan.GetNext fuel bm sc with
    | none => simp [hg] at h
    | some res =>
      obtain ⟨st, kr, sc1⟩ := res
      simp only [hg] at h
      cases hr : BTreeFileScan.run fuel rest sc1 with
      | none => simp [hr] at h
      | some outs1 =>
        simp only [hr, Option.map_some', Option.some.injEq] at h
        subst h
        obtain ⟨hhigh, hok, hnok⟩ := getNext_spec fuel bm sc st kr sc1 hg
        by_cases hst : st = Status.OK
        · obtain ⟨k2, r2, hkr, _, hge, hle, hne, hlo2, hks2⟩ := hok hst
          obtain ⟨hch, hbd⟩ := ih sc1 k2 outs1 hlo2 hks2 hr
          have hk : okKeys ((st, kr) :: outs1) = k2 :: okKeys outs1 := by
            simp [okKeys, hst, hkr]
          rw [hk]
          refine ⟨?_, ?_⟩
          · refine List.Chain'.cons ?_ hch
            omega
          · intro k' hk'
            rcases List.mem_cons.1 hk' with h1 | h1
            · omega
            · have := hbd k' h1
              omega
        · obtain ⟨hlo2, hks2⟩ := hnok hst
          obtain ⟨hch, hbd⟩ := ih sc1 k outs1 (by omega) (by omega) hr
          have hk : okKeys ((st, kr) :: outs1) = okKeys outs1 := by
            simp [okKeys, hst]
          rw [hk]
          refine ⟨hch, ?_⟩
          intro k' hk'
          have := hbd k' hk'
          omega

/-- A call of `GetNext` that returns `OK` with the pair `(k, r)`, on a cursor
whose chain of next-page links runs through leaves of the tree, returns a pair
stored in a leaf of the tree with `lowKey ≤ k ≤ highKey`; and the keys returned
by the `OK` calls that follow on the same cursor (whatever happens to the pool
in between) are strictly ascending from `k` on and within the same bounds. -/
theorem getNext_ok_on_tree_chain
    (fuel h : Nat) (t : BTreeFile) (sc sc' : BTreeFileScan) (k : Int) (r : RecordID)
    (later : List BufMgr) (outs : List (Status × Option (Int × RecordID)))
    (hchain : ∀ q ∈ chainFrom t.bm fuel sc.curPid, q ∈ subtreeLeaves t.bm h t.rootPid)
    (hcall : BTreeFileScan.GetNext fuel t.bm sc = some (Status.OK, some (k, r), sc'))
    (hlater : BTreeFileScan.run fuel later sc' = some outs) :
    (∃ q ∈ subtreeLeaves t.bm h t.rootPid, (⟨k, r⟩ : LeafEntry) ∈ (t.bm.page q).leaf)
      ∧ sc.lowKey ≤ k ∧ k ≤ sc.highKey
      ∧ (k :: okKeys outs).Chain' (· < ·)
      ∧ ∀ k' ∈ okKeys outs, sc.lowKey ≤ k' ∧ k' ≤ sc.highKey := by
  obtain ⟨hhigh, hok, _⟩ := getNext_spec fuel t.bm sc _ _ sc' hcall
  obtain ⟨k2, r2, hkr, ⟨q, hq, hmem⟩, hge, hle, _, hlo2, hks2⟩ := hok rfl
  simp only [Option.some.injEq, Prod.mk.injEq] at hkr
  obtain ⟨rfl, rfl⟩ := hkr
  obtain ⟨hch, hbd⟩ := run_increasing fuel later sc' k outs hlo2 hks2 hlater
  refine ⟨⟨q, hchain q hq, hmem⟩, hge, hle, hch, ?_⟩
  intro k' hk'
  have hp : List.Pairwise (· < ·) (k :: okKeys outs) := List.chain'_iff_pairwise.1 hch
  have hlt : k < k' := List.rel_of_pairwise_cons hp hk'
  have := hbd k' hk'
  omega

/-- On `treeH1` the cursor of the scan of [1, 5] stands on leaf 2; the call
returns (1, (7,1)), the two calls after it return the keys 2 and 3. -/
theorem getNext_ok_on_tree_chain_treeH1 :
    (∃ q ∈ subtreeLeaves treeH1.bm 1 treeH1.rootPid,
        (⟨1, ⟨7, 1⟩⟩ : LeafEntry) ∈ (treeH1.bm.page q).leaf)
      ∧ (1 : Int) ≤ 1 ∧ (1 : Int) ≤ 5
      ∧ ((1 : Int) :: okKeys [(Status.OK, some (2, ⟨7, 2⟩)), (Status.OK, some (3, ⟨7, 3⟩))]).Chain'
          (· < ·)
      ∧ ∀ k' ∈ okKeys [(Status.OK, some (2, ⟨7, 2⟩)), (Status.OK, some (3, ⟨7, 3⟩))],
          (1 : Int) ≤ k' ∧ k' ≤ 5 :=
  getNext_ok_on_tree_chain 4 1 treeH1
    { lowKey := 1, highKey := 5, s := Status.OK, curPid := 2, key_scanned := 0,
      dataRid := ⟨0, 0⟩ }
    { lowKey := 1, highKey := 5, s := Status.OK, curPid := 2, key_scanned := 1,
      dataRid := ⟨7, 1⟩ }
    1 ⟨7, 1⟩ [treeH1.bm, treeH1.bm]
    [(Status.OK, some (2, ⟨7, 2⟩)), (Status.OK, some (3, ⟨7, 3⟩))]
    (by decide!) (by decide!) (by decide!)

/-- C8 (failing input): `Delete(1, (7,1))` on the well-formed tree `treeH2`
returns `OK` and leaves a tree with the root 2 over the leaves 4, 6, 7, 9, each
of them sorted: [2, 3, 4], [5, 6], [13, 14], [17, 18].  Leaf 7 still has page
8 = [15, 16] as its next page, which no index entry points to any more.  The
scan of [15, 16] opened on that tree starts at leaf 7, and its first `GetNext`
returns `OK` with the pair (15, (7,15)), which no leaf of the tree stores. -/
theorem C8_getNext_returns_pair_of_unlinked_leaf :
    BTreeFile.wellFormedAt cfg4 2 treeH2 = true
    ∧ ((BTreeFile.Delete cfg4 9 treeH2 1 ⟨7, 1⟩).map fun r =>
        (r.1, r.2.rootPid, subtreeLeaves r.2.bm 1 r.2.rootPid))
      = some (Status.OK, 2, [4, 6, 7, 9])
    ∧ ((BTreeFile.Delete cfg4 9 treeH2 1 ⟨7, 1⟩).map fun r =>
        (subtreeLeaves r.2.bm 1 r.2.rootPid).map fun q => keysOf (r.2.bm.page q).leaf)
      = some [[2, 3, 4], [5, 6], [13, 14], [17, 18]]
    ∧ ((BTreeFile.Delete cfg4 9 treeH2 1 ⟨7, 1⟩).map fun r =>
        ((r.2.bm.page 7).nextPage, keysOf (r.2.bm.page 8).leaf, chainFrom r.2.bm 9 4))
      = some (8, [15, 16], [4, 6, 7, 8, 9])
    ∧ ((BTreeFile.Delete cfg4 9 treeH2 1 ⟨7, 1⟩).bind fun r =>
        (BTreeFile.OpenScan 9 r.2 (some 15) (some 16) 0).map fun sc =>
          (sc.lowKey, sc.highKey, sc.curPid))
      = some (15, 16, 7)
    ∧ ((BTreeFile.Delete cfg4 9 treeH2 1 ⟨7, 1⟩).bind fun r =>
        (BTreeFile.OpenScan 9 r.2 (some 15) (some 16) 0).bind fun sc =>
          (BTreeFileScan.GetNext 9 r.2.bm sc).map fun x => (x.1, x.2.1))
      = some (Status.OK, some (15, ⟨7, 15⟩))
    ∧ ((BTreeFile.Delete cfg4 9 treeH2 1 ⟨7, 1⟩).map fun r =>
        decide (∃ q ∈ subtreeLeaves r.2.bm 1 r.2.rootPid,
          (⟨15, ⟨7, 15⟩⟩ : LeafEntry) ∈ (r.2.bm.page q).leaf))
      = some false := by
  decide!

theorem insertSorted_perm {α : Type} (key : α → Int) (a : α) (l : List α) :
    List.Perm (insertSorted key a l) (a :: l) := by
  induction l with
  | nil => simp [insertSorted]
  | cons b l ih =>
    unfold insertSorted
    by_cases h : key a < key b
    · simp [h]
    · simp only [h, if_false]
      exact (List.Perm.cons b ih).trans (List.Perm.swap a b l)

theorem insertSorted_length {α : Type} (key : α → Int) (a : α) (l : List α) :
    (insertSorted key a l).length = l.length + 1 := by
  simpa using (insertSorted_perm key a l).length_eq

theorem eraseLast_some_perm {α : Type} (p : α → Bool) :
    ∀ (l l' : List α), eraseLast p l = some l' → ∃ x, p x = true ∧ List.Perm l (x :: l') := by
  intro l
  induction l with
  | nil => intro l' h; simp [eraseLast] at h
  | cons e es ih =>
    intro l' h
    unfold eraseLast at h
    cases hr : eraseLast p es with
    | some es' =>
      simp only [hr, Option.some.injEq] at h
      subst h
      obtain ⟨x, hx, hp⟩ := ih es' hr
      exact ⟨x, hx, (List.Perm.cons e hp).trans (List.Perm.swap x e es')⟩
    | none =>
      simp only [hr] at h
      by_cases hpe : p e = true
      · simp only [hpe, if_true, Option.some.injEq] at h
        subst h
        exact ⟨e, hpe, List.Perm.refl _⟩
      · simp [hpe] at h

theorem eraseLast_isSome {α : Type} (p : α → Bool) :
    ∀ (l : List α) (x : α), x ∈ l → p x = true → ∃ l', eraseLast p l = some l' := by
  intro l
  induction l with
  | nil => intro x hx; simp at hx
  | cons e es ih =>
    intro x hx hp
    unfold eraseLast
    cases hr : eraseLast p es with
    | some es' => exact ⟨_, rfl⟩
    | none =>
      rcases List.mem_cons.1 hx with h | h
      · subst h
        simp [hp]
      · obtain ⟨l', hl'⟩ := ih x h hp
        rw [hl'] at hr
        cases hr

theorem eraseLast_none {α : Type} (p : α → Bool) (l : List α)
    (h : ∀ x ∈ l, p x = false) : eraseLast p l = none := by
  cases hr : eraseLast p l with
  | none => rfl
  | some l' =>
    obtain ⟨x, hx, hp⟩ := eraseLast_some_perm p l l' hr
    have : x ∈ l := hp.symm.subset (List.mem_cons_self _ _)
    rw [h x this] at hx
    cases hx

theorem leaf_avail {cfg : Cfg} {p : SortedPage} (h : p.index = []) :
    p.AvailableSpace cfg = cfg.HEAPPAGE_DATA_SIZE - p.leaf.length * cfg.sizeofLeafEntry := by
  simp [SortedPage.AvailableSpace, h]

theorem index_avail {cfg : Cfg} {p : SortedPage} (h : p.leaf = []) :
    p.AvailableSpace cfg = cfg.HEAPPAGE_DATA_SIZE - p.index.length * cfg.sizeofIndexEntry := by
  simp [SortedPage.AvailableSpace, h]

theorem leaf_insert_ok {cfg : Cfg} {p : SortedPage} (key : Int) (rid : RecordID)
    (h : ¬ p.AvailableSpace cfg < cfg.sizeofLeafEntry) :
    BTLeafPage.Insert cfg p key rid
      = (Status.OK, { p with leaf := insertSorted LeafEntry.key ⟨key, rid⟩ p.leaf }) := by
  simp [BTLeafPage.Insert, h]

theorem leaf_insert_fail {cfg : Cfg} {p : SortedPage} (key : Int) (rid : RecordID)
    (h : p.AvailableSpace cfg < cfg.sizeofLeafEntry) :
    BTLeafPage.Insert cfg p key rid = (Status.FAIL, p) := by
  simp [BTLeafPage.Insert, h]

theorem index_insert_ok {cfg : Cfg} {p : SortedPage} (key : Int) (pid : PageID)
    (h : ¬ p.AvailableSpace cfg < cfg.sizeofIndexEntry) :
    BTIndexPage.Insert cfg p key pid
      = (Status.OK, { p with index := insertSorted IndexEntry.key ⟨key, pid⟩ p.index }) := by
  simp [BTIndexPage.Insert, h]

theorem index_insert_fail {cfg : Cfg} {p : SortedPage} (key : Int) (pid : PageID)
    (h : p.AvailableSpace cfg < cfg.sizeofIndexEntry) :
    BTIndexPage.Insert cfg p key pid = (Status.FAIL, p) := by
  simp [BTIndexPage.Insert, h]

/-- Room for one more record: `(n + 1) * c ≤ D` gives `¬ (D - n * c < c)`. -/
theorem room_of_le {D n c : Nat} (h : (n + 1) * c ≤ D) : ¬ (D - n * c < c) := by
  have : n * c + c ≤ D := by
    have := h
    rw [Nat.add_mul, Nat.one_mul] at this
    exact this
  omega

theorem leaf_delete_head {p : SortedPage} {e : LeafEntry} (h : BTLeafPage.GetFirst p = some e) :
    ∃ es, BTLeafPage.Delete p e.key e.rid = (Status.OK, { p with leaf := es })
      ∧ List.Perm p.leaf (e :: es) := by
  have hmem : e ∈ p.leaf := by
    unfold BTLeafPage.GetFirst at h
    exact List.mem_of_mem_head? h
  obtain ⟨l', hl'⟩ := eraseLast_isSome (fun x : LeafEntry => decide (x.key = e.key ∧ x.rid = e.rid))
    p.leaf e hmem (by simp)
  obtain ⟨x, hx, hp⟩ := eraseLast_some_perm _ _ _ hl'
  have hxe : x = e := by
    simp at hx
    cases x; cases e
    simp at hx
    simp [hx.1, hx.2]
  subst hxe
  refine ⟨l', ?_, hp⟩
  unfold BTLeafPage.Delete
  rw [hl']

theorem page_eta_leaf (p : SortedPage) : { p with leaf := p.leaf } = p := by
  cases p; rfl

theorem leaf_getFirst_none {p : SortedPage} (h : BTLeafPage.GetFirst p = none) : p.leaf = [] := by
  unfold BTLeafPage.GetFirst at h
  cases hl : p.leaf with
  | nil => rfl
  | cons a l => simp [hl] at h

theorem leaf_moveAll_spec (cfg : Cfg) :
    ∀ (fuel : Nat) (old new : SortedPage), old.index = [] → new.index = [] →
      (old.leaf.length + new.leaf.length) * cfg.sizeofLeafEntry ≤ cfg.HEAPPAGE_DATA_SIZE →
      old.leaf.length < fuel →
      ∃ es, BTreeFile.Split_Leaf.moveAll cfg fuel old new
          = some (Status.OK, { old with leaf := [] }, { new with leaf := es })
        ∧ List.Perm es (old.leaf ++ new.leaf) := by
  intro fuel
  induction fuel with
  | zero => intro old new _ _ _ h; omega
  | succ f ih =>
    intro old new ho hn hfit hlen
    unfold BTreeFile.Split_Leaf.moveAll
    cases hf : BTLeafPage.GetFirst old with
    | none =>
      have hl := leaf_getFirst_none hf
      refine ⟨new.leaf, ?_, by simp [hl]⟩
      simp only
      rw [← hl, page_eta_leaf, page_eta_leaf]
    | some cur =>
      obtain ⟨es', hdel, hperm⟩ := leaf_delete_head hf
      have hlen1 : old.leaf.length = es'.length + 1 := by
        simpa using hperm.length_eq
      have hroom : ¬ new.AvailableSpace cfg < cfg.sizeofLeafEntry := by
        rw [leaf_avail hn]
        apply room_of_le
        refine le_trans (Nat.mul_le_mul_right _ ?_) hfit
        omega
      simp only [leaf_insert_ok cur.key cur.rid hroom, hdel]
      obtain ⟨es, hres, hp⟩ := ih { old with leaf := es' }
        { new with leaf := insertSorted LeafEntry.key ⟨cur.key, cur.rid⟩ new.leaf } ho hn
        (by
          simp only [insertSorted_length]
          refine le_trans (Nat.mul_le_mul_right _ ?_) hfit
          omega)
        (by simp only; omega)
      refine ⟨es, hres, ?_⟩
      refine hp.trans ?_
      simp only
      have h1 : List.Perm (insertSorted LeafEntry.key ⟨cur.key, cur.rid⟩ new.leaf)
          (cur :: new.leaf) := insertSorted_perm _ _ _
      have h2 : List.Perm (es' ++ insertSorted LeafEntry.key ⟨cur.key, cur.rid⟩ new.leaf)
          (es' ++ cur :: new.leaf) := List.Perm.append_left _ h1
      refine h2.trans ?_
      have h3 : List.Perm (es' ++ cur :: new.leaf) (cur :: (es' ++ new.leaf)) := by
        exact List.perm_middle
      refine h3.trans ?_
      exact List.Perm.append_right _ hperm.symm

theorem avail_gt_iff {D a b c : Nat} (hc : 0 < c) (ha : a * c ≤ D) (hb : b * c ≤ D) :
    (D - a * c > D - b * c) ↔ a < b := by
  constructor
  · intro h
    by_contra hn
    have : b * c ≤ a * c := Nat.mul_le_mul_right _ (by omega)
    omega
  · intro h
    have : (a + 1) * c ≤ b * c := Nat.mul_le_mul_right _ (by omega)
    rw [Nat.add_mul, Nat.one_mul] at this
    omega

theorem leaf_moveBack_spec (cfg : Cfg) (key : Int) (rid : RecordID)
    (hc : 0 < cfg.sizeofLeafEntry) :
    ∀ (fuel : Nat) (o n : SortedPage) (cur : Option LeafEntry) (ins : Bool),
      o.index = [] → n.index = [] →
      o.leaf.length * cfg.sizeofLeafEntry ≤ cfg.HEAPPAGE_DATA_SIZE →
      n.leaf.length * cfg.sizeofLeafEntry ≤ cfg.HEAPPAGE_DATA_SIZE →
      (n.leaf ≠ [] → cur = n.leaf.head?) →
      o.leaf.length ≤ n.leaf.length + 1 →
      n.leaf.length + 2 ≤ fuel + (if ins then 1 else 0) →
      ∃ eo en ins', BTreeFile.Split_Leaf.moveBack cfg key rid fuel o n cur ins
          = some (Status.OK, { o with leaf := eo }, { n with leaf := en }, ins')
        ∧ List.Perm (eo ++ en)
            ((if ins' = true ∧ ins = false then [(⟨key, rid⟩ : LeafEntry)] else [])
              ++ (o.leaf ++ n.leaf))
        ∧ (ins = true → ins' = true)
        ∧ en.length ≤ eo.length ∧ eo.length ≤ en.length + 1
        ∧ eo.length * cfg.sizeofLeafEntry ≤ cfg.HEAPPAGE_DATA_SIZE := by
  intro fuel
  induction fuel with
  | zero =>
    intro o n cur ins _ _ _ _ _ _ hf
    split at hf <;> omega
  | succ f ih =>
    intro o n cur ins ho hn hofit hnfit hcur hbal hfuel
    unfold BTreeFile.Split_Leaf.moveBack
    rw [leaf_avail ho, leaf_avail hn]
    by_cases hlt : o.leaf.length < n.leaf.length
    · have hgt := (avail_gt_iff hc hofit hnfit).2 hlt
      simp only [hgt, if_true]
      have hne : n.leaf ≠ [] := by
        intro h
        rw [h] at hlt
        simp at hlt
      obtain ⟨c0, hc0⟩ : ∃ c0, n.leaf.head? = some c0 := by
        cases hl : n.leaf with
        | nil => exact absurd hl hne
        | cons a l => exact ⟨a, rfl⟩
      rw [hcur hne, hc0]
      simp only
      have hroom : ¬ o.AvailableSpace cfg < cfg.sizeofLeafEntry := by
        rw [leaf_avail ho]
        apply room_of_le
        exact le_trans (Nat.mul_le_mul_right _ (by omega)) hnfit
      by_cases hcond : (decide (c0.key > key) && (ins == false)) = true
      · simp only [hcond, if_true, leaf_insert_ok key rid hroom]
        have hins : ins = false := by
          simp at hcond
          exact hcond.2
        subst hins
        obtain ⟨eo, en, ins', hres, hperm, hi, hb1, hb2, hfit⟩ :=
          ih { o with leaf := insertSorted LeafEntry.key ⟨key, rid⟩ o.leaf } n (some c0) true
            ho hn
            (by
              simp only [insertSorted_length]
              exact le_trans (Nat.mul_le_mul_right _ (by omega)) hnfit)
            hnfit (fun _ => hc0.symm)
            (by simp only [insertSorted_length]; omega)
            (by simp at hfuel ⊢; omega)
        simp only [gt_iff_lt] at hres
        refine ⟨eo, en, ins', hres, ?_, by simp, hb1, hb2, hfit⟩
        have hi' := hi rfl
        subst hi'
        simp only [and_self, if_true]
        simp only [Bool.true_eq_false, and_false, if_false, List.nil_append] at hperm
        refine hperm.trans ?_
        exact List.Perm.append_right _ (insertSorted_perm _ _ _)
      · simp only [hcond, Bool.false_eq_true, if_false]
        have hroom' := hroom
        simp only [leaf_insert_ok c0.key c0.rid hroom]
        have hgf : BTLeafPage.GetFirst n = some c0 := hc0
        obtain ⟨es', hdel, hpn⟩ := leaf_delete_head hgf
        simp only [hdel]
        have hlen1 : n.leaf.length = es'.length + 1 := by
          simpa using hpn.length_eq
        obtain ⟨eo, en, ins', hres, hperm, hi, hb1, hb2, hfit⟩ :=
          ih { o with leaf := insertSorted LeafEntry.key ⟨c0.key, c0.rid⟩ o.leaf }
            { n with leaf := es' }
            (match BTLeafPage.GetFirst { n with leaf := es' } with
              | some e => some e
              | none => some c0)
            ins ho hn
            (by
              simp only [insertSorted_length]
              exact le_trans (Nat.mul_le_mul_right _ (by omega)) hnfit)
            (by
              simp only
              exact le_trans (Nat.mul_le_mul_right _ (by omega)) hnfit)
            (by
              intro hne'
              simp only at hne'
              simp only [BTLeafPage.GetFirst]
              cases hl : es' with
              | nil => exact absurd hl hne'
              | cons a l => simp)
            (by simp only [insertSorted_length]; omega)
            (by simp only; omega)
        refine ⟨eo, en, ins', hres, ?_, hi, hb1, hb2, hfit⟩
        refine hperm.trans ?_
        apply List.Perm.append_left
        simp only
        have h1 : List.Perm (insertSorted LeafEntry.key ⟨c0.key, c0.rid⟩ o.leaf ++ es')
            ((c0 :: o.leaf) ++ es') := List.Perm.append_right _ (insertSorted_perm _ _ _)
        refine h1.trans ?_
        have h2 : List.Perm ((c0 :: o.leaf) ++ es') (o.leaf ++ c0 :: es') := by
          exact List.perm_middle.symm
        exact h2.trans (List.Perm.append_left _ hpn.symm)
    · have hgt : ¬ (cfg.HEAPPAGE_DATA_SIZE - o.leaf.length * cfg.sizeofLeafEntry
          > cfg.HEAPPAGE_DATA_SIZE - n.leaf.length * cfg.sizeofLeafEntry) := by
        rw [avail_gt_iff hc hofit hnfit]
        exact hlt
      simp only [hgt, if_false]
      refine ⟨o.leaf, n.leaf, ins, ?_, ?_, fun h => h, by omega, hbal, hofit⟩
      · rw [page_eta_leaf, page_eta_leaf]
      · cases ins <;> simp

theorem split_leaf_spec (cfg : Cfg) (hc : 0 < cfg.sizeofLeafEntry)
    (hD : cfg.sizeofLeafEntry ≤ cfg.HEAPPAGE_DATA_SIZE) (old new : SortedPage) (key : Int)
    (rid : RecordID) (ho : old.index = [])
    (hofit : old.leaf.length * cfg.sizeofLeafEntry ≤ cfg.HEAPPAGE_DATA_SIZE)
    (hfull : old.AvailableSpace cfg < cfg.sizeofLeafEntry)
    (hn : new.index = []) (hnl : new.leaf = []) :
    ∃ eo en, BTreeFile.Split_Leaf cfg old new key rid
        = some (Status.OK, { old with leaf := eo }, { new with leaf := en })
      ∧ List.Perm (eo ++ en) (⟨key, rid⟩ :: old.leaf)
      ∧ en ≠ [] ∧ eo.length ≤ en.length + 1 ∧ en.length ≤ eo.length + 1
      ∧ eo.length * cfg.sizeofLeafEntry ≤ cfg.HEAPPAGE_DATA_SIZE
      ∧ en.length * cfg.sizeofLeafEntry ≤ cfg.HEAPPAGE_DATA_SIZE := by
  have hpos : 1 ≤ old.leaf.length := by
    rw [leaf_avail ho] at hfull
    by_contra h
    have h0 : old.leaf.length = 0 := by omega
    rw [h0] at hfull
    simp at hfull
    omega
  obtain ⟨es, hall, hpes⟩ := leaf_moveAll_spec cfg (old.leaf.length + 1) old new ho hn
    (by rw [hnl]; simpa using hofit) (by omega)
  rw [hnl, List.append_nil] at hpes
  have hlen : es.length = old.leaf.length := hpes.length_eq
  obtain ⟨eo, en, ins', hback, hperm, _, hb1, hb2, hfit⟩ :=
    leaf_moveBack_spec cfg key rid hc (es.length + 2) { old with leaf := [] }
      { new with leaf := es } (BTLeafPage.GetFirst { new with leaf := es }) false ho hn
      (by simp) (by simp only; rw [hlen]; exact hofit) (fun _ => rfl) (by simp) (by simp)
  simp only [List.nil_append, and_true] at hperm
  have hsum : eo.length + en.length = (if ins' = true then 1 else 0) + old.leaf.length := by
    have := hperm.length_eq
    rw [List.length_append, List.length_append, hlen] at this
    rw [this]
    split <;> simp
  unfold BTreeFile.Split_Leaf
  rw [hall]
  simp only
  rw [hback]
  simp only
  cases hi : ins' with
  | false =>
    subst hi
    simp only [Bool.false_eq_true, if_false, List.nil_append, Nat.zero_add] at hperm hsum
    have hroom : ¬ ({ new with leaf := en } : SortedPage).AvailableSpace cfg
        < cfg.sizeofLeafEntry := by
      rw [leaf_avail (by exact hn)]
      apply room_of_le
      exact le_trans (Nat.mul_le_mul_right _ (by simp only; omega)) hofit
    simp only [beq_self_eq_true, if_true, leaf_insert_ok key rid hroom]
    refine ⟨eo, insertSorted LeafEntry.key ⟨key, rid⟩ en, rfl, ?_, ?_, ?_, ?_, hfit, ?_⟩
    · have h1 : List.Perm (eo ++ insertSorted LeafEntry.key ⟨key, rid⟩ en)
          (eo ++ (⟨key, rid⟩ :: en)) := List.Perm.append_left _ (insertSorted_perm _ _ _)
      refine h1.trans ?_
      refine List.perm_middle.trans ?_
      exact List.Perm.cons _ (hperm.trans hpes)
    · intro h
      have := congrArg List.length h
      simp [insertSorted_length] at this
    · simp only [insertSorted_length]; omega
    · simp only [insertSorted_length]; omega
    · simp only [insertSorted_length]
      exact le_trans (Nat.mul_le_mul_right _ (by omega)) hofit
  | true =>
    subst hi
    simp only [if_true] at hperm hsum
    simp only [Bool.true_eq_false, beq_iff_eq, if_false]
    refine ⟨eo, en, rfl, ?_, ?_, hb2, by omega, hfit, ?_⟩
    · refine hperm.trans ?_
      simpa using hpes
    · intro h
      rw [h] at hb2 hsum
      simp at hb2 hsum
      omega
    · exact le_trans (Nat.mul_le_mul_right _ (by omega)) hofit

theorem page_eta_index (p : SortedPage) : { p with index := p.index } = p := by
  cases p; rfl

theorem index_getFirst_none {p : SortedPage} (h : BTIndexPage.GetFirst p = none) :
    p.index = [] := by
  unfold BTIndexPage.GetFirst at h
  cases hl : p.index with
  | nil => rfl
  | cons a l => simp [hl] at h

theorem index_getFirst_mem {p : SortedPage} {e : IndexEntry}
    (h : BTIndexPage.GetFirst p = some e) : e ∈ p.index := by
  unfold BTIndexPage.GetFirst at h
  exact List.mem_of_mem_head? h

theorem nodup_key_eq {l : List IndexEntry} (hnd : (l.map IndexEntry.key).Nodup)
    {x y : IndexEntry} (hx : x ∈ l) (hy : y ∈ l) (h : x.key = y.key) : x = y :=
  List.inj_on_of_nodup_map hnd hx hy h

/-- Deleting the key of an entry of the page removes one entry with that key. -/
theorem index_delete_mem {p : SortedPage} {c : IndexEntry} (hmem : c ∈ p.index) :
    ∃ es x, BTIndexPage.Delete p c.key = (Status.OK, { p with index := es })
      ∧ x.key = c.key ∧ List.Perm p.index (x :: es) := by
  obtain ⟨l', hl'⟩ := eraseLast_isSome (fun x : IndexEntry => decide (x.key = c.key))
    p.index c hmem (by simp)
  obtain ⟨x, hx, hp⟩ := eraseLast_some_perm _ _ _ hl'
  refine ⟨l', x, ?_, by simpa using hx, hp⟩
  unfold BTIndexPage.Delete
  rw [hl']

theorem index_moveAll_spec (cfg : Cfg) :
    ∀ (fuel : Nat) (old new : SortedPage) (ckt : Option Int), old.leaf = [] → new.leaf = [] →
      (old.index.length + new.index.length) * cfg.sizeofIndexEntry ≤ cfg.HEAPPAGE_DATA_SIZE →
      old.index.length < fuel →
      ∃ es ckt', BTreeFile.Split_Index.moveAll cfg fuel old new ckt
          = some (Status.OK, { old with index := [] }, { new with index := es }, ckt')
        ∧ List.Perm (es.map IndexEntry.key) ((old.index ++ new.index).map IndexEntry.key)
        ∧ (((old.index ++ new.index).map IndexEntry.key).Nodup →
            List.Perm es (old.index ++ new.index))
        ∧ (∀ e ∈ es, e ∈ old.index ++ new.index) := by
  intro fuel
  induction fuel with
  | zero => intro old new _ _ _ _ h; omega
  | succ f ih =>
    intro old new ckt ho hn hfit hlen
    unfold BTreeFile.Split_Index.moveAll
    cases hf : BTIndexPage.GetFirst old with
    | none =>
      have hl := index_getFirst_none hf
      refine ⟨new.index, ckt, ?_, by simp [hl], fun _ => by simp [hl], fun e he => by simp [he]⟩
      simp only
      rw [← hl, page_eta_index, page_eta_index]
    | some cur =>
      have hmem := index_getFirst_mem hf
      obtain ⟨es', x, hdel, hxk, hperm⟩ := index_delete_mem hmem
      have hlen1 : old.index.length = es'.length + 1 := by
        simpa using hperm.length_eq
      have hroom : ¬ new.AvailableSpace cfg < cfg.sizeofIndexEntry := by
        rw [index_avail hn]
        apply room_of_le
        refine le_trans (Nat.mul_le_mul_right _ ?_) hfit
        omega
      simp only [index_insert_ok cur.key cur.pid hroom, hdel]
      obtain ⟨es, ckt', hres, hpk, hpf, hsub⟩ := ih { old with index := es' }
        { new with index := insertSorted IndexEntry.key ⟨cur.key, cur.pid⟩ new.index }
        (some cur.key) ho hn
        (by
          simp only [insertSorted_length]
          refine le_trans (Nat.mul_le_mul_right _ ?_) hfit
          omega)
        (by simp only; omega)
      simp only at hpk hpf hsub
      have h1 : List.Perm (insertSorted IndexEntry.key ⟨cur.key, cur.pid⟩ new.index)
          (cur :: new.index) := insertSorted_perm _ _ _
      have h2 : List.Perm (es' ++ insertSorted IndexEntry.key ⟨cur.key, cur.pid⟩ new.index)
          (cur :: (es' ++ new.index)) :=
        (List.Perm.append_left _ h1).trans List.perm_middle
      have hkeys : List.Perm
          ((es' ++ insertSorted IndexEntry.key ⟨cur.key, cur.pid⟩ new.index).map IndexEntry.key)
          ((old.index ++ new.index).map IndexEntry.key) := by
        refine (h2.map _).trans ?_
        have h3 : List.Perm ((old.index ++ new.index).map IndexEntry.key)
            (((x :: es') ++ new.index).map IndexEntry.key) :=
          (List.Perm.append_right _ hperm).map _
        refine List.Perm.trans ?_ h3.symm
        simp [hxk]
      refine ⟨es, ckt', hres, hpk.trans hkeys, ?_, ?hs⟩
      case hs =>
        intro e he
        rcases List.mem_append.1 (hsub e he) with h | h
        · exact List.mem_append_left _ (hperm.symm.subset (List.mem_cons_of_mem _ h))
        · rcases List.mem_cons.1 (h1.subset h) with h | h
          · subst h
            exact List.mem_append_left _ hmem
          · exact List.mem_append_right _ h
      intro hnd
      have hxc : x = cur := by
        have hnd' : (old.index.map IndexEntry.key).Nodup := by
          rw [List.map_append] at hnd
          exact (List.nodup_append.1 hnd).1
        exact nodup_key_eq hnd' (hperm.symm.subset (List.mem_cons_self _ _)) hmem hxk
      subst hxc
      have hnd2 := (hkeys.nodup_iff).2 hnd
      refine (hpf hnd2).trans (h2.trans ?_)
      exact (List.Perm.append_right _ hperm.symm)

theorem index_moveBack_spec (cfg : Cfg) (key : Int) (pid : PageID)
    (hc : 0 < cfg.sizeofIndexEntry) :
    ∀ (fuel : Nat) (o n : SortedPage) (v : BTreeFile.SplitIndexVars),
      o.leaf = [] → n.leaf = [] →
      o.index.length * cfg.sizeofIndexEntry ≤ cfg.HEAPPAGE_DATA_SIZE →
      n.index.length * cfg.sizeofIndexEntry ≤ cfg.HEAPPAGE_DATA_SIZE →
      (n.index ≠ [] → v.cur = n.index.head?) →
      o.index.length ≤ n.index.length + 1 →
      n.index.length + 2 ≤ fuel + (if v.inserted then 1 else 0) →
      ((∃ k p, v.curKey_tmp = some k ∧ v.curPid_tmp = some p ∧ (⟨k, p⟩ : IndexEntry) ∈ o.index)
        ∨ o.index.length ≤ (if v.inserted then 1 else 0)) →
      ∃ eo en v', BTreeFile.Split_Index.moveBack cfg key pid fuel o n v
          = some (Status.OK, { o with index := eo }, { n with index := en }, v')
        ∧ List.Perm ((eo ++ en).map IndexEntry.key)
            (((if v'.inserted = true ∧ v.inserted = false then [(⟨key, pid⟩ : IndexEntry)]
                else []) ++ (o.index ++ n.index)).map IndexEntry.key)
        ∧ ((((if v'.inserted = true ∧ v.inserted = false then [(⟨key, pid⟩ : IndexEntry)]
                else []) ++ (o.index ++ n.index)).map IndexEntry.key).Nodup →
            List.Perm (eo ++ en)
              ((if v'.inserted = true ∧ v.inserted = false then [(⟨key, pid⟩ : IndexEntry)]
                else []) ++ (o.index ++ n.index)))
        ∧ (v.inserted = true → v'.inserted = true)
        ∧ en.length ≤ eo.length ∧ eo.length ≤ en.length + 1
        ∧ eo.length * cfg.sizeofIndexEntry ≤ cfg.HEAPPAGE_DATA_SIZE
        ∧ ((∃ k p, v'.curKey_tmp = some k ∧ v'.curPid_tmp = some p ∧ (⟨k, p⟩ : IndexEntry) ∈ eo)
            ∨ eo.length ≤ (if v'.inserted then 1 else 0))
        ∧ (∀ e ∈ eo ++ en, e = ⟨key, pid⟩ ∨ e ∈ o.index ++ n.index) := by
  intro fuel
  induction fuel with
  | zero =>
    intro o n v _ _ _ _ _ _ hf _
    split at hf <;> omega
  | succ f ih =>
    intro o n v ho hn hofit hnfit hcur hbal hfuel hJ
    unfold BTreeFile.Split_Index.moveBack
    rw [index_avail ho, index_avail hn]
    by_cases hlt : o.index.length < n.index.length
    · have hgt := (avail_gt_iff hc hofit hnfit).2 hlt
      simp only [hgt, if_true]
      have hne : n.index ≠ [] := by
        intro h
        rw [h] at hlt
        simp at hlt
      obtain ⟨c0, hc0⟩ : ∃ c0, n.index.head? = some c0 := by
        cases hl : n.index with
        | nil => exact absurd hl hne
        | cons a l => exact ⟨a, rfl⟩
      rw [hcur hne, hc0]
      simp only
      have hroom : ¬ o.AvailableSpace cfg < cfg.sizeofIndexEntry := by
        rw [index_avail ho]
        apply room_of_le
        exact le_trans (Nat.mul_le_mul_right _ (by omega)) hnfit
      by_cases hcond : (decide (c0.key > key) && (v.inserted == false)) = true
      · simp only [hcond, if_true, index_insert_ok key pid hroom]
        have hins : v.inserted = false := by
          simp at hcond
          exact hcond.2
        have hip := insertSorted_perm IndexEntry.key (⟨key, pid⟩ : IndexEntry) o.index
        obtain ⟨eo, en, v', hres, hpk, hpf, hi, hb1, hb2, hfit, hJ', hsub⟩ :=
          ih { o with index := insertSorted IndexEntry.key ⟨key, pid⟩ o.index } n
            { cur := some c0, curKey_tmp := v.curKey_tmp, curPid_tmp := v.curPid_tmp,
              inserted := true } ho hn
            (by
              simp only [insertSorted_length]
              exact le_trans (Nat.mul_le_mul_right _ (by omega)) hnfit)
            hnfit (fun _ => hc0.symm)
            (by simp only [insertSorted_length]; omega)
            (by simp only [if_true]; rw [hins] at hfuel; simp at hfuel; omega)
            (by
              simp only
              rcases hJ with ⟨k, p, h1, h2, h3⟩ | h
              · exact Or.inl ⟨k, p, h1, h2, hip.symm.subset (List.mem_cons_of_mem _ h3)⟩
              · right
                simp only [insertSorted_length, if_true]
                rw [hins] at h
                simp at h
                simp [h])
        have hi' : v'.inserted = true := hi rfl
        simp only [Bool.true_eq_false, and_false, if_false, List.nil_append] at hpk hpf
        have hif : v'.inserted = true ∧ v.inserted = false := ⟨hi', hins⟩
        have hall : List.Perm
            (insertSorted IndexEntry.key ⟨key, pid⟩ o.index ++ n.index)
            ([(⟨key, pid⟩ : IndexEntry)] ++ (o.index ++ n.index)) := by
          simpa using List.Perm.append_right n.index hip
        refine ⟨eo, en, v', hres, ?_, ?_, ?_, hb1, hb2, hfit, ?_, ?hs⟩
        case hs =>
          intro e he
          rcases hsub e he with h | h
          · exact Or.inl h
          · simp only at h
            rcases List.mem_cons.1 (hall.subset h) with h | h
            · exact Or.inl h
            · exact Or.inr h
        · rw [if_pos hif]
          exact hpk.trans (hall.map _)
        · rw [if_pos hif]
          intro hnd
          exact (hpf (((hall.map IndexEntry.key).nodup_iff).2 hnd)).trans hall
        · intro h
          rw [hins] at h
          cases h
        · simpa [hi'] using hJ'
      · simp only [hcond, Bool.false_eq_true, if_false]
        simp only [index_insert_ok c0.key c0.pid hroom]
        have hc0mem : c0 ∈ n.index := List.mem_of_mem_head? hc0
        obtain ⟨es', x, hdel, hxk, hpn⟩ := index_delete_mem hc0mem
        simp only [hdel]
        have hlen1 : n.index.length = es'.length + 1 := by
          simpa using hpn.length_eq
        have hip := insertSorted_perm IndexEntry.key (⟨c0.key, c0.pid⟩ : IndexEntry) o.index
        obtain ⟨eo, en, v', hres, hpk, hpf, hi, hb1, hb2, hfit, hJ', hsub⟩ :=
          ih { o with index := insertSorted IndexEntry.key ⟨c0.key, c0.pid⟩ o.index }
            { n with index := es' }
            { v with
              cur := (match BTIndexPage.GetFirst { n with index := es' } with
                | some e => some e
                | none => some c0),
              curKey_tmp := some c0.key, curPid_tmp := some c0.pid }
            ho hn
            (by
              simp only [insertSorted_length]
              exact le_trans (Nat.mul_le_mul_right _ (by omega)) hnfit)
            (by
              simp only
              exact le_trans (Nat.mul_le_mul_right _ (by omega)) hnfit)
            (by
              intro hne'
              simp only at hne'
              simp only [BTIndexPage.GetFirst]
              cases hl : es' with
              | nil => exact absurd hl hne'
              | cons a l => simp)
            (by simp only [insertSorted_length]; omega)
            (by simp only; omega)
            (by
              left
              exact ⟨c0.key, c0.pid, rfl, rfl, hip.symm.subset (List.mem_cons_self _ _)⟩)
        simp only at hpk hpf hi
        have hstep : List.Perm
            ((insertSorted IndexEntry.key ⟨c0.key, c0.pid⟩ o.index ++ es').map IndexEntry.key)
            ((o.index ++ n.index).map IndexEntry.key) := by
          have h1 : List.Perm (insertSorted IndexEntry.key ⟨c0.key, c0.pid⟩ o.index ++ es')
              (c0 :: (o.index ++ es')) := by
            simpa using List.Perm.append_right es' hip
          have h2 : List.Perm (o.index ++ n.index) (x :: (o.index ++ es')) :=
            (List.Perm.append_left _ hpn).trans List.perm_middle
          refine (h1.map _).trans (List.Perm.trans ?_ (h2.map _).symm)
          simp [hxk]
        have hstepK : ∀ (pre : List IndexEntry), List.Perm
            ((pre ++ (insertSorted IndexEntry.key ⟨c0.key, c0.pid⟩ o.index ++ es')).map
              IndexEntry.key)
            ((pre ++ (o.index ++ n.index)).map IndexEntry.key) := by
          intro pre
          simp only [List.map_append] at hstep ⊢
          exact List.Perm.append_left _ hstep
        refine ⟨eo, en, v', hres, hpk.trans (hstepK _), ?_, hi, hb1, hb2, hfit, hJ', ?hs⟩
        case hs =>
          intro e he
          rcases hsub e he with h | h
          · exact Or.inl h
          · right
            simp only at h
            rcases List.mem_append.1 h with h | h
            · rcases List.mem_cons.1 (hip.subset h) with h | h
              · subst h
                exact List.mem_append_right _ hc0mem
              · exact List.mem_append_left _ h
            · exact List.mem_append_right _ (hpn.symm.subset (List.mem_cons_of_mem _ h))
        intro hnd
        have hnd1 := ((hstepK _).nodup_iff).2 hnd
        refine (hpf hnd1).trans ?_
        apply List.Perm.append_left
        have hndn : (n.index.map IndexEntry.key).Nodup := by
          simp only [List.map_append] at hnd
          exact (List.nodup_append.1 (List.nodup_append.1 hnd).2.1).2.1
        have hxc : x = c0 :=
          nodup_key_eq hndn (hpn.symm.subset (List.mem_cons_self _ _)) hc0mem hxk
        subst hxc
        have h1 : List.Perm (insertSorted IndexEntry.key ⟨x.key, x.pid⟩ o.index ++ es')
            (x :: (o.index ++ es')) := by
          simpa using List.Perm.append_right es' hip
        exact h1.trans ((List.Perm.append_left _ hpn).trans List.perm_middle).symm
    · have hgt : ¬ (cfg.HEAPPAGE_DATA_SIZE - o.index.length * cfg.sizeofIndexEntry
          > cfg.HEAPPAGE_DATA_SIZE - n.index.length * cfg.sizeofIndexEntry) := by
        rw [avail_gt_iff hc hofit hnfit]
        exact hlt
      simp only [hgt, if_false]
      refine ⟨o.index, n.index, v, ?_, ?_, ?_, fun h => h, by omega, hbal, hofit, hJ,
        fun e he => Or.inr he⟩
      · rw [page_eta_index, page_eta_index]
      · cases hv : v.inserted <;> simp
      · intro _
        cases hv : v.inserted <;> simp

theorem split_index_spec (cfg : Cfg) (hc : 0 < cfg.sizeofIndexEntry)
    (hD : 2 * cfg.sizeofIndexEntry ≤ cfg.HEAPPAGE_DATA_SIZE) (old new : SortedPage) (key : Int)
    (pid : PageID) (ho : old.leaf = [])
    (hofit : old.index.length * cfg.sizeofIndexEntry ≤ cfg.HEAPPAGE_DATA_SIZE)
    (hfull : old.AvailableSpace cfg < cfg.sizeofIndexEntry)
    (hn : new.leaf = []) (hni : new.index = []) :
    ∃ eo en lnk pk, BTreeFile.Split_Index cfg old new key pid
        = some (Status.OK, { old with index := eo },
            { new with index := en, prevPage := lnk }, some pk)
      ∧ List.Perm (pk :: (eo ++ en).map IndexEntry.key) (key :: old.index.map IndexEntry.key)
      ∧ ((key :: old.index.map IndexEntry.key).Nodup →
          List.Perm (eo ++ ⟨pk, lnk⟩ :: en) (⟨key, pid⟩ :: old.index))
      ∧ eo.length ≤ en.length + 1 ∧ en.length ≤ eo.length + 1
      ∧ eo.length + en.length = old.index.length
      ∧ (∀ e ∈ eo ++ (⟨pk, lnk⟩ : IndexEntry) :: en, e = ⟨key, pid⟩ ∨ e ∈ old.index) := by
  have hpos : 2 ≤ old.index.length := by
    rw [index_avail ho] at hfull
    by_contra h
    have h0 : old.index.length * cfg.sizeofIndexEntry ≤ cfg.sizeofIndexEntry := by
      have : old.index.length ≤ 1 := by omega
      calc old.index.length * cfg.sizeofIndexEntry ≤ 1 * cfg.sizeofIndexEntry :=
            Nat.mul_le_mul_right _ this
        _ = cfg.sizeofIndexEntry := Nat.one_mul _
    omega
  obtain ⟨es, ckt', hall, hkes, hfes, hses⟩ := index_moveAll_spec cfg (old.index.length + 1)
    old new none ho hn (by rw [hni]; simpa using hofit) (by omega)
  rw [hni, List.append_nil] at hkes hfes hses
  have hlen : es.length = old.index.length := by
    simpa using hkes.length_eq
  obtain ⟨eo, en, v', hback, hpk, hpf, _, hb1, hb2, hfit, hJ, hsub⟩ :=
    index_moveBack_spec cfg key pid hc (es.length + 2) { old with index := [] }
      { new with index := es }
      ⟨BTIndexPage.GetFirst { new with index := es }, ckt', none, false⟩ ho hn
      (by simp) (by simp only; rw [hlen]; exact hofit) (fun _ => rfl) (by simp) (by simp)
      (by right; simp)
  simp only [List.nil_append, and_true] at hpk hpf hsub
  have hsub' : ∀ e ∈ eo ++ en, e = ⟨key, pid⟩ ∨ e ∈ old.index := by
    intro e he
    rcases hsub e he with h | h
    · exact Or.inl h
    · exact Or.inr (hses e h)
  have hsum : eo.length + en.length
      = (if v'.inserted = true then 1 else 0) + old.index.length := by
    have := hpk.length_eq
    simp only [List.length_map, List.length_append] at this
    rw [this, hlen]
    split <;> simp
  unfold BTreeFile.Split_Index
  rw [hall]
  simp only
  rw [hback]
  simp only
  cases hi : v'.inserted with
  | false =>
    rw [hi] at hpk hpf hsum
    simp only [Bool.false_eq_true, if_false, List.nil_append, Nat.zero_add] at hpk hpf hsum
    have hroom : ¬ ({ new with index := en } : SortedPage).AvailableSpace cfg
        < cfg.sizeofIndexEntry := by
      rw [index_avail (by exact hn)]
      apply room_of_le
      exact le_trans (Nat.mul_le_mul_right _ (by simp only; omega)) hofit
    simp only [beq_self_eq_true, if_true, index_insert_ok key pid hroom]
    have hip := insertSorted_perm IndexEntry.key (⟨key, pid⟩ : IndexEntry) en
    obtain ⟨f, hf⟩ : ∃ f, (insertSorted IndexEntry.key (⟨key, pid⟩ : IndexEntry) en).head?
        = some f := by
      cases hl : insertSorted IndexEntry.key (⟨key, pid⟩ : IndexEntry) en with
      | nil =>
        have := congrArg List.length hl
        simp [insertSorted_length] at this
      | cons a l => exact ⟨a, rfl⟩
    have hfmem : f ∈ insertSorted IndexEntry.key (⟨key, pid⟩ : IndexEntry) en :=
      List.mem_of_mem_head? hf
    simp only [BTIndexPage.GetFirst, hf]
    obtain ⟨es2, x, hdel, hxk, hp2⟩ := index_delete_mem
      (p := BTIndexPage.SetLeftLink
        { new with index := insertSorted IndexEntry.key (⟨key, pid⟩ : IndexEntry) en } f.pid)
      (c := f) hfmem
    rw [hdel]
    simp only [BTIndexPage.SetLeftLink] at hp2 ⊢
    have hlen2 : en.length = es2.length := by
      have := hp2.length_eq
      simp [insertSorted_length] at this
      exact this
    have hfull1 : List.Perm (eo ++ x :: es2) ((⟨key, pid⟩ : IndexEntry) :: (eo ++ en)) :=
      ((List.Perm.append_left eo (hp2.symm.trans hip))).trans List.perm_middle
    refine ⟨eo, es2, f.pid, f.key, rfl, ?_, ?_, by omega, by omega, by omega, ?hs⟩
    case hs =>
      intro e he
      have hin : ∀ e ∈ insertSorted IndexEntry.key (⟨key, pid⟩ : IndexEntry) en,
          e = ⟨key, pid⟩ ∨ e ∈ old.index := by
        intro e he
        rcases List.mem_cons.1 (hip.subset he) with h | h
        · exact Or.inl h
        · exact hsub' e (List.mem_append_right _ h)
      rcases List.mem_append.1 he with h | h
      · exact hsub' e (List.mem_append_left _ h)
      · rcases List.mem_cons.1 h with h | h
        · subst h
          exact hin f hfmem
        · exact hin e (hp2.symm.subset (List.mem_cons_of_mem _ h))
    · have h1 : List.Perm (f.key :: (eo ++ es2).map IndexEntry.key)
          ((eo ++ x :: es2).map IndexEntry.key) := by
        rw [← hxk]
        exact (List.perm_middle.map IndexEntry.key).symm
      refine h1.trans ((hfull1.map _).trans ?_)
      simp only [List.map_cons]
      exact List.Perm.cons _ (hpk.trans hkes)
    · intro hnd
      have hnd_old : (old.index.map IndexEntry.key).Nodup := (List.nodup_cons.1 hnd).2
      have hnd_es : (es.map IndexEntry.key).Nodup := (hkes.nodup_iff).2 hnd_old
      have hnd_all : ((eo ++ x :: es2).map IndexEntry.key).Nodup := by
        have h2 : List.Perm ((eo ++ x :: es2).map IndexEntry.key)
            (key :: old.index.map IndexEntry.key) := by
          refine (hfull1.map _).trans ?_
          simp only [List.map_cons]
          exact List.Perm.cons _ (hpk.trans hkes)
        exact (h2.nodup_iff).2 hnd
      have hxf : x = f := by
        refine nodup_key_eq hnd_all (by simp) ?_ hxk
        exact List.mem_append_right _ (hp2.subset hfmem)
      subst hxf
      refine hfull1.trans (List.Perm.cons _ ?_)
      exact (hpf hnd_es).trans (hfes hnd_old)
  | true =>
    rw [hi] at hpk hpf hsum hJ
    simp only [if_true] at hpk hpf hsum hJ
    simp only [Bool.true_eq_false, beq_iff_eq, if_false]
    rcases hJ with ⟨k, p, hk, hp, hmem⟩ | hJ
    · rw [hk, hp]
      simp only
      obtain ⟨es2, x, hdel, hxk, hp2⟩ := index_delete_mem
        (p := ({ old with index := eo } : SortedPage)) (c := ⟨k, p⟩) hmem
      rw [hdel]
      simp only [BTIndexPage.SetLeftLink] at hp2 ⊢
      have hlen2 : eo.length = es2.length + 1 := by
        simpa using hp2.length_eq
      have hfull1 : List.Perm (es2 ++ x :: en) (eo ++ en) :=
        List.perm_middle.trans (List.Perm.append_right en hp2.symm)
      refine ⟨es2, en, p, k, rfl, ?_, ?_, by omega, by omega, by omega, ?hs⟩
      case hs =>
        intro e he
        rcases List.mem_append.1 he with h | h
        · exact hsub' e (List.mem_append_left _ (hp2.symm.subset (List.mem_cons_of_mem _ h)))
        · rcases List.mem_cons.1 h with h | h
          · subst h
            exact hsub' _ (List.mem_append_left _ hmem)
          · exact hsub' e (List.mem_append_right _ h)
      · have h1 : List.Perm (k :: (es2 ++ en).map IndexEntry.key)
            ((es2 ++ x :: en).map IndexEntry.key) := by
          simp only at hxk
          rw [← hxk]
          exact (List.perm_middle.map IndexEntry.key).symm
        refine h1.trans ((hfull1.map _).trans (hpk.trans ?_))
        simp only [List.singleton_append, List.map_cons]
        exact List.Perm.cons _ hkes
      · intro hnd
        have hnd_old : (old.index.map IndexEntry.key).Nodup := (List.nodup_cons.1 hnd).2
        have hnd_es : (([(⟨key, pid⟩ : IndexEntry)] ++ es).map IndexEntry.key).Nodup := by
          simp only [List.singleton_append, List.map_cons]
          exact ((List.Perm.cons key hkes).nodup_iff).2 hnd
        have hnd_eo : (eo.map IndexEntry.key).Nodup := by
          have h2 := (hpk.nodup_iff).2 hnd_es
          rw [List.map_append] at h2
          exact (List.nodup_append.1 h2).1
        have hxf : x = ⟨k, p⟩ :=
          nodup_key_eq hnd_eo (hp2.symm.subset (List.mem_cons_self _ _)) hmem hxk
        subst hxf
        refine hfull1.trans ((hpf hnd_es).trans ?_)
        simp only [List.singleton_append]
        exact List.Perm.cons _ (hfes hnd_old)
    · omega

theorem near_of_count {D n a c : Nat} (hn : n ≤ 2 * a + 1) (hfull : D - n * c < c) :
    D - a * c ≤ D / 2 + c := by
  have h1 : n * c ≤ (2 * a + 1) * c := Nat.mul_le_mul_right _ hn
  have h2 : (2 * a + 1) * c = 2 * (a * c) + c := by ring
  rw [h2] at h1
  generalize a * c = A at *
  generalize n * c = N at *
  omega

@[simp] theorem BufMgr.set_page (bm : BufMgr) (pid : PageID) (p : SortedPage) (q : PageID) :
    (bm.set pid p).page q = if q = pid then p else bm.page q := rfl

@[simp] theorem BufMgr.set_nextPid (bm : BufMgr) (pid : PageID) (p : SortedPage) :
    (bm.set pid p).nextPid = bm.nextPid := rfl

@[simp] theorem BufMgr.newPage_fst (bm : BufMgr) (t : NodeType) :
    (bm.NewPage t).1 = (bm.nextPid : Int) := rfl

@[simp] theorem BufMgr.newPage_page (bm : BufMgr) (t : NodeType) (q : PageID) :
    (bm.NewPage t).2.page q = if q = (bm.nextPid : Int) then SortedPage.init t else bm.page q :=
  rfl

@[simp] theorem BufMgr.newPage_nextPid (bm : BufMgr) (t : NodeType) :
    (bm.NewPage t).2.nextPid = bm.nextPid + 1 := rfl

theorem nodeType_not_leaf {t : NodeType} (h : ¬ t = NodeType.LEAF_NODE) :
    t = NodeType.INDEX_NODE := by
  cases t
  · rfl
  · exact absurd rfl h

theorem findLoop_mem (d_key : Int) :
    ∀ (rest : List IndexEntry) (prev cur : IndexEntry),
      BTIndexPage.FindPageWithKey.loop d_key prev cur rest = prev
        ∨ BTIndexPage.FindPageWithKey.loop d_key prev cur rest ∈ cur :: rest := by
  intro rest
  induction rest with
  | nil =>
    intro prev cur
    unfold BTIndexPage.FindPageWithKey.loop
    by_cases h : d_key < cur.key
    · simp [h]
    · simp [h]
  | cons e es ih =>
    intro prev cur
    unfold BTIndexPage.FindPageWithKey.loop
    by_cases h : d_key < cur.key
    · simp [h]
    · simp only [h, if_false]
      rcases ih cur e with h1 | h1
      · rw [h1]
        exact Or.inr (List.mem_cons_self _ _)
      · exact Or.inr (List.mem_cons_of_mem _ h1)

theorem findPageWithKey_pid {p : SortedPage} {k : Int} {e : IndexEntry}
    (h : BTIndexPage.FindPageWithKey p k = some e) :
    e.pid = BTIndexPage.GetLeftLink p ∨ ∃ x ∈ p.index, x.pid = e.pid := by
  unfold BTIndexPage.FindPageWithKey at h
  cases hl : p.index with
  | nil => simp [hl] at h
  | cons a l =>
    simp only [hl] at h
    by_cases hk : k < a.key
    · simp only [hk, if_true, Option.some.injEq] at h
      subst h
      exact Or.inl rfl
    · simp only [hk, if_false, Option.some.injEq] at h
      subst h
      right
      have hloop : BTIndexPage.FindPageWithKey.loop k ⟨0, 0⟩ a l ∈ a :: l := by
        unfold BTIndexPage.FindPageWithKey.loop
        simp only [hk, if_false]
        cases l with
        | nil => simp
        | cons b bs =>
          simp only
          rcases findLoop_mem k bs a b with h1 | h1
          · rw [h1]
            exact List.mem_cons_self _ _
          · exact List.mem_cons_of_mem _ h1
      exact ⟨_, hloop, rfl⟩

theorem near_mono {cfg : Cfg} {p p' : SortedPage} (ht : p'.type = p.type)
    (ha : p'.AvailableSpace cfg ≤ p.AvailableSpace cfg)
    (h : p.nearlyHalfFull cfg = true) : p'.nearlyHalfFull cfg = true := by
  simp only [SortedPage.nearlyHalfFull, decide_eq_true_eq] at h ⊢
  rw [ht]
  omega

theorem storeOk_update {cfg : Cfg} {n0 : Nat} {bm bm' : BufMgr} (hok : StoreOk cfg n0 bm)
    (hmono : bm.nextPid ≤ bm'.nextPid)
    (h : ∀ q, Alloc n0 bm' q →
      (bm'.page q = bm.page q ∧ Alloc n0 bm q)
        ∨ (PageTyped cfg (bm'.page q)
            ∧ ((bm'.page q).type = NodeType.INDEX_NODE →
                Alloc n0 bm' (BTIndexPage.GetLeftLink (bm'.page q))
                  ∧ ∀ e ∈ (bm'.page q).index, Alloc n0 bm' e.pid))) :
    StoreOk cfg n0 bm' := by
  have hal : ∀ q, Alloc n0 bm q → Alloc n0 bm' q := by
    intro q hq
    exact ⟨hq.1, lt_of_lt_of_le hq.2 (by exact_mod_cast hmono)⟩
  intro q hq
  rcases h q hq with ⟨he, ha⟩ | h
  · rw [he]
    obtain ⟨h1, h2⟩ := hok q ha
    refine ⟨h1, fun ht => ?_⟩
    obtain ⟨h3, h4⟩ := h2 ht
    exact ⟨hal _ h3, fun e he => hal _ (h4 e he)⟩
  · exact h

/-- What `Split_Leaf` makes of a full, typed leaf page and a fresh page. -/
theorem split_leaf_pages (cfg : Cfg) (hs : cfg.Sane) (old : SortedPage) (key : Int)
    (rid : RecordID) (ht : old.type = NodeType.LEAF_NODE) (hty : PageTyped cfg old)
    (hfull : old.AvailableSpace cfg < cfg.sizeofLeafEntry)
    {st : Status} {o n : SortedPage}
    (h : BTreeFile.Split_Leaf cfg old (SortedPage.init NodeType.LEAF_NODE) key rid
      = some (st, o, n)) :
    o.type = NodeType.LEAF_NODE ∧ n.type = NodeType.LEAF_NODE
      ∧ o.index = [] ∧ n.index = []
      ∧ o.leaf.length * cfg.sizeofLeafEntry ≤ cfg.HEAPPAGE_DATA_SIZE
      ∧ n.leaf.length * cfg.sizeofLeafEntry ≤ cfg.HEAPPAGE_DATA_SIZE
      ∧ o.nearlyHalfFull cfg = true ∧ n.nearlyHalfFull cfg = true
      ∧ n.leaf ≠ [] ∧ List.Perm (o.leaf ++ n.leaf) (⟨key, rid⟩ :: old.leaf) := by
  obtain ⟨hc, hD, _, _⟩ := hs
  obtain ⟨hoi, hofit⟩ := hty.1 ht
  obtain ⟨eo, en, hres, hperm, hne, hb1, hb2, hf1, hf2⟩ :=
    split_leaf_spec cfg hc hD old (SortedPage.init NodeType.LEAF_NODE) key rid hoi hofit hfull
      rfl rfl
  rw [hres] at h
  simp only [Option.some.injEq, Prod.mk.injEq] at h
  obtain ⟨_, rfl, rfl⟩ := h
  have hsum : eo.length + en.length = old.leaf.length + 1 := by
    simpa using hperm.length_eq
  rw [leaf_avail hoi] at hfull
  refine ⟨ht, rfl, hoi, rfl, hf1, hf2, ?_, ?_, hne, hperm⟩
  · simp only [SortedPage.nearlyHalfFull, decide_eq_true_eq, ht, if_true]
    rw [leaf_avail (by exact hoi)]
    exact near_of_count (by simp only; omega) hfull
  · simp only [SortedPage.nearlyHalfFull, decide_eq_true_eq, SortedPage.init, if_true]
    rw [leaf_avail (by rfl)]
    exact near_of_count (by simp only; omega) hfull

/-- What `Split_Index` makes of a full, typed index page and a fresh page. -/
theorem split_index_pages (cfg : Cfg) (hs : cfg.Sane) (old : SortedPage) (key : Int)
    (pid : PageID) (ht : old.type = NodeType.INDEX_NODE) (hty : PageTyped cfg old)
    (hfull : old.AvailableSpace cfg < cfg.sizeofIndexEntry)
    {st : Status} {o n : SortedPage} {pk : Option Int}
    (h : BTreeFile.Split_Index cfg old (SortedPage.init NodeType.INDEX_NODE) key pid
      = some (st, o, n, pk)) :
    o.type = NodeType.INDEX_NODE ∧ n.type = NodeType.INDEX_NODE
      ∧ o.leaf = [] ∧ n.leaf = []
      ∧ o.index.length * cfg.sizeofIndexEntry ≤ cfg.HEAPPAGE_DATA_SIZE
      ∧ n.index.length * cfg.sizeofIndexEntry ≤ cfg.HEAPPAGE_DATA_SIZE
      ∧ o.nearlyHalfFull cfg = true ∧ n.nearlyHalfFull cfg = true
      ∧ o.prevPage = old.prevPage
      ∧ (∀ e ∈ o.index, e = ⟨key, pid⟩ ∨ e ∈ old.index)
      ∧ (∀ e ∈ n.index, e = ⟨key, pid⟩ ∨ e ∈ old.index)
      ∧ (n.prevPage = pid ∨ ∃ x ∈ old.index, x.pid = n.prevPage) := by
  obtain ⟨_, _, hc, hD⟩ := hs
  have hne : old.type ≠ NodeType.LEAF_NODE := by rw [ht]; decide
  obtain ⟨hol, hofit⟩ := hty.2 ht
  obtain ⟨eo, en, lnk, k, hres, _, _, hb1, hb2, hsum, hsub⟩ :=
    split_index_spec cfg hc hD old (SortedPage.init NodeType.INDEX_NODE) key pid hol hofit
      hfull rfl rfl
  rw [hres] at h
  simp only [Option.some.injEq, Prod.mk.injEq] at h
  obtain ⟨_, rfl, rfl, _⟩ := h
  rw [index_avail hol] at hfull
  have hni : (NodeType.INDEX_NODE = NodeType.LEAF_NODE) = False := by simp
  refine ⟨ht, rfl, hol, rfl, ?_, ?_, ?_, ?_, rfl, ?_, ?_, ?_⟩
  · exact le_trans (Nat.mul_le_mul_right _ (by simp only; omega)) hofit
  · exact le_trans (Nat.mul_le_mul_right _ (by simp only; omega)) hofit
  · simp only [SortedPage.nearlyHalfFull, decide_eq_true_eq, ht, hni, if_false]
    rw [index_avail (by exact hol)]
    exact near_of_count (by simp only; omega) hfull
  · simp only [SortedPage.nearlyHalfFull, decide_eq_true_eq, SortedPage.init, hni, if_false]
    rw [index_avail (by rfl)]
    exact near_of_count (by simp only; omega) hfull
  · intro e he
    exact hsub e (List.mem_append_left _ he)
  · intro e he
    exact hsub e (List.mem_append_right _ (List.mem_cons_of_mem _ he))
  · have := hsub ⟨k, lnk⟩ (List.mem_append_right _ (List.mem_cons_self _ _))
    rcases this with h | h
    · left
      simp only [IndexEntry.mk.injEq] at h
      exact h.2
    · right
      exact ⟨_, h, rfl⟩

theorem BufMgr.newPage_page_self (bm : BufMgr) (t : NodeType) :
    (bm.NewPage t).2.page (bm.NewPage t).1 = SortedPage.init t := by
  simp

theorem alloc_mono {n0 : Nat} {bm bm' : BufMgr} (h : bm.nextPid ≤ bm'.nextPid) {q : PageID}
    (hq : Alloc n0 bm q) : Alloc n0 bm' q :=
  ⟨hq.1, lt_of_lt_of_le hq.2 (by exact_mod_cast h)⟩

theorem storeStep_refl (cfg : Cfg) (n0 : Nat) (bm : BufMgr) : StoreStep cfg n0 bm bm :=
  ⟨le_refl _, fun _ _ => ⟨rfl, fun h => h⟩, fun _ h1 h2 => absurd h1 (not_le.2 h2)⟩

theorem storeStep_trans {cfg : Cfg} {n0 : Nat} {a b c : BufMgr} (hn : n0 ≤ a.nextPid)
    (h1 : StoreStep cfg n0 a b) (h2 : StoreStep cfg n0 b c) : StoreStep cfg n0 a c := by
  obtain ⟨m1, t1, w1⟩ := h1
  obtain ⟨m2, t2, w2⟩ := h2
  refine ⟨le_trans m1 m2, ?_, ?_⟩
  · intro q hq
    obtain ⟨e1, k1⟩ := t1 q hq
    obtain ⟨e2, k2⟩ := t2 q (alloc_mono m1 hq)
    exact ⟨e2.trans e1, fun h => k2 (k1 h)⟩
  · intro q hq1 hq2
    by_cases hb : q < (b.nextPid : Int)
    · have hal : Alloc n0 b q := ⟨le_trans (by exact_mod_cast hn) hq1, hb⟩
      exact (t2 q hal).2 (w1 q hq1 hb)
    · exact w2 q (not_lt.1 hb) hq2

/-- Replacing one allocated page by a page of the same type that is typed, has
allocated child pointers and is nearly half full if the old one was. -/
theorem step_set (cfg : Cfg) {n0 : Nat} {b : BufMgr} (hok : StoreOk cfg n0 b) (pid : PageID)
    (p' : SortedPage) (ht : p'.type = (b.page pid).type)
    (hty : PageTyped cfg p')
    (hptr : p'.type = NodeType.INDEX_NODE →
      Alloc n0 b (BTIndexPage.GetLeftLink p') ∧ ∀ e ∈ p'.index, Alloc n0 b e.pid)
    (hnear : (b.page pid).nearlyHalfFull cfg = true → p'.nearlyHalfFull cfg = true) :
    StoreOk cfg n0 (b.set pid p') ∧ StoreStep cfg n0 b (b.set pid p') := by
  have hself : (b.set pid p').page pid = p' := by simp
  have hother : ∀ q, q ≠ pid → (b.set pid p').page q = b.page q := by
    intro q hq
    simp [hq]
  refine ⟨?_, ?_⟩
  · refine storeOk_update hok (le_refl _) ?_
    intro q hq
    by_cases hqp : q = pid
    · right
      subst hqp
      rw [hself]
      exact ⟨hty, hptr⟩
    · left
      exact ⟨hother q hqp, hq⟩
  · refine ⟨le_refl _, ?_, fun q h1 h2 => absurd h1 (not_le.2 h2)⟩
    intro q _
    by_cases hqp : q = pid
    · subst hqp
      rw [hself]
      exact ⟨ht, hnear⟩
    · rw [hother q hqp]
      exact ⟨rfl, fun h => h⟩

/-- Allocating a page and writing the two pages of a split. -/
theorem step_split (cfg : Cfg) {n0 : Nat} {b : BufMgr} (hok : StoreOk cfg n0 b) {pid : PageID}
    (hpid : Alloc n0 b pid) (t : NodeType) (o n : SortedPage)
    (hto : o.type = (b.page pid).type) (hoty : PageTyped cfg o) (hnty : PageTyped cfg n)
    (hoptr : o.type = NodeType.INDEX_NODE →
      Alloc n0 b (BTIndexPage.GetLeftLink o) ∧ ∀ e ∈ o.index, Alloc n0 b e.pid)
    (hnptr : n.type = NodeType.INDEX_NODE →
      Alloc n0 b (BTIndexPage.GetLeftLink n) ∧ ∀ e ∈ n.index, Alloc n0 b e.pid)
    (honear : o.nearlyHalfFull cfg = true) (hnnear : n.nearlyHalfFull cfg = true) :
    StoreOk cfg n0 (((b.NewPage t).2.set pid o).set (b.NewPage t).1 n)
      ∧ StoreStep cfg n0 b (((b.NewPage t).2.set pid o).set (b.NewPage t).1 n)
      ∧ Alloc n0 (((b.NewPage t).2.set pid o).set (b.NewPage t).1 n) (b.NewPage t).1
      ∧ ((((b.NewPage t).2.set pid o).set (b.NewPage t).1 n).page pid).nearlyHalfFull cfg
          = true := by
  have hne : pid ≠ (b.nextPid : Int) := ne_of_lt hpid.2
  generalize hB : ((b.NewPage t).2.set pid o).set (b.NewPage t).1 n = B
  have hnp : B.nextPid = b.nextPid + 1 := by rw [← hB]; rfl
  have hnew : B.page (b.nextPid : Int) = n := by rw [← hB]; simp
  have hold : B.page pid = o := by rw [← hB]; simp [hne]
  have hother : ∀ q, q ≠ (b.nextPid : Int) → q ≠ pid → B.page q = b.page q := by
    intro q h1 h2
    rw [← hB]
    simp [h1, h2]
  have hmono : b.nextPid ≤ B.nextPid := by omega
  have hal : ∀ q, Alloc n0 b q → Alloc n0 B q := fun q hq => alloc_mono hmono hq
  have hfst : (b.NewPage t).1 = (b.nextPid : Int) := rfl
  rw [hfst]
  refine ⟨?_, ⟨hmono, ?_, ?_⟩, ?_, ?_⟩
  · refine storeOk_update hok hmono ?_
    intro q hq
    by_cases hqn : q = (b.nextPid : Int)
    · right
      subst hqn
      rw [hnew]
      refine ⟨hnty, fun h => ?_⟩
      obtain ⟨h1, h2⟩ := hnptr h
      exact ⟨hal _ h1, fun e he => hal _ (h2 e he)⟩
    · by_cases hqp : q = pid
      · right
        subst hqp
        rw [hold]
        refine ⟨hoty, fun h => ?_⟩
        obtain ⟨h1, h2⟩ := hoptr h
        exact ⟨hal _ h1, fun e he => hal _ (h2 e he)⟩
      · left
        refine ⟨hother q hqn hqp, hq.1, ?_⟩
        have := hq.2
        rw [hnp] at this
        push_cast at this
        omega
  · intro q hq
    have hqn : q ≠ (b.nextPid : Int) := ne_of_lt hq.2
    by_cases hqp : q = pid
    · subst hqp
      rw [hold]
      exact ⟨hto, fun _ => honear⟩
    · rw [hother q hqn hqp]
      exact ⟨rfl, fun h => h⟩
  · intro q h1 h2
    rw [hnp] at h2
    push_cast at h2
    have hqn : q = (b.nextPid : Int) := by omega
    subst hqn
    rw [hnew]
    exact hnnear
  · refine ⟨le_trans hpid.1 (le_of_lt hpid.2), ?_⟩
    rw [hnp]
    push_cast
    omega
  · rw [hold]
    exact honear

theorem nodeType_not_index {t : NodeType} (h : ¬ t = NodeType.INDEX_NODE) :
    t = NodeType.LEAF_NODE := by
  cases t
  · exact absurd rfl h
  · rfl

theorem insertHelper_inv (cfg : Cfg) (hs : cfg.Sane) (n0 : Nat) (key : Int) (rid : RecordID) :
    ∀ (fuel : Nat) (bm : BufMgr) (pid : PageID) (bm' : BufMgr) (res : Option (Int × PageID)),
      StoreOk cfg n0 bm → Alloc n0 bm pid →
      BTreeFile.InsertHelper cfg key rid fuel bm pid = some (bm', res) →
      StoreOk cfg n0 bm' ∧ StoreStep cfg n0 bm bm'
        ∧ (∀ k p, res = some (k, p) →
              Alloc n0 bm' p ∧ (bm'.page pid).nearlyHalfFull cfg = true) := by
  intro fuel
  induction fuel with
  | zero => intro bm pid bm' res _ _ h; simp [BTreeFile.InsertHelper] at h
  | succ n ih =>
    intro bm pid bm' res hok hpid h
    have hn0 : n0 ≤ bm.nextPid := by
      have h1 := hpid.1
      have h2 := hpid.2
      omega
    unfold BTreeFile.InsertHelper at h
    simp only at h
    by_cases ht : (bm.page pid).type = NodeType.INDEX_NODE
    · simp only [ht, if_true] at h
      cases hf : BTIndexPage.FindPageWithKey (bm.page pid) key with
      | none => simp [hf] at h
      | some found =>
        simp only [hf] at h
        have hfound : Alloc n0 bm found.pid := by
          obtain ⟨_, hp⟩ := hok pid hpid
          obtain ⟨hl, he⟩ := hp ht
          rcases findPageWithKey_pid hf with h1 | ⟨x, hx, h1⟩
          · rw [h1]; exact hl
          · rw [← h1]; exact he x hx
        cases hr : BTreeFile.InsertHelper cfg key rid n bm found.pid with
        | none => simp [hr] at h
        | some r1 =>
          obtain ⟨bm1, r⟩ := r1
          simp only [hr] at h
          obtain ⟨hok1, hstep1, hres1⟩ := ih bm found.pid bm1 r hok hfound hr
          have hpid1 : Alloc n0 bm1 pid := alloc_mono hstep1.1 hpid
          have ht1 : (bm1.page pid).type = NodeType.INDEX_NODE := by
            rw [(hstep1.2.1 pid hpid).1]; exact ht
          obtain ⟨hty1, hptr1⟩ := hok1 pid hpid1
          cases r with
          | none =>
            simp only [Option.some.injEq, Prod.mk.injEq] at h
            obtain ⟨rfl, rfl⟩ := h
            exact ⟨hok1, hstep1, fun k p hh => by cases hh⟩
          | some kp =>
            obtain ⟨nk, np⟩ := kp
            simp only at h
            obtain ⟨hnp, _⟩ := hres1 nk np rfl
            obtain ⟨hll, hee⟩ := hptr1 ht1
            by_cases hfull : (bm1.page pid).AvailableSpace cfg < cfg.sizeofIndexEntry
            · simp only [hfull, if_true, BufMgr.newPage_page_self] at h
              cases hsp : BTreeFile.Split_Index cfg (bm1.page pid)
                  (SortedPage.init NodeType.INDEX_NODE) nk np with
              | none => simp [hsp] at h
              | some r2 =>
                obtain ⟨st, o, nn, pk⟩ := r2
                cases pk with
                | none => simp [hsp] at h
                | some k =>
                  simp only [hsp, Option.some.injEq, Prod.mk.injEq] at h
                  obtain ⟨rfl, rfl⟩ := h
                  obtain ⟨hto, htn, hol, hnl, hofit, hnfit, honear, hnnear, hoprev, hosub,
                    hnsub, hnprev⟩ := split_index_pages cfg hs (bm1.page pid) nk np ht1 hty1
                      hfull hsp
                  have hsubAlloc : ∀ e : IndexEntry,
                      (e = ⟨nk, np⟩ ∨ e ∈ (bm1.page pid).index) → Alloc n0 bm1 e.pid := by
                    intro e he
                    rcases he with he | he
                    · rw [he]; exact hnp
                    · exact hee e he
                  obtain ⟨hokB, hstepB, hallocB, hnearB⟩ :=
                    step_split cfg hok1 hpid1 NodeType.INDEX_NODE o nn
                      (hto.trans ht1.symm)
                      ⟨fun h => (by rw [hto] at h; cases h), fun _ => ⟨hol, hofit⟩⟩
                      ⟨fun h => (by rw [htn] at h; cases h), fun _ => ⟨hnl, hnfit⟩⟩
                      (fun _ => ⟨(by
                        show Alloc n0 bm1 o.prevPage
                        rw [hoprev]; exact hll), fun e he => hsubAlloc e (hosub e he)⟩)
                      (fun _ => ⟨(by
                        show Alloc n0 bm1 nn.prevPage
                        rcases hnprev with h1 | ⟨x, hx, h1⟩
                        · rw [h1]; exact hnp
                        · rw [← h1]; exact hee x hx), fun e he => hsubAlloc e (hnsub e he)⟩)
                      honear hnnear
                  refine ⟨hokB, storeStep_trans hn0 hstep1 hstepB, ?_⟩
                  intro k' p' hkp
                  simp only [Option.some.injEq, Prod.mk.injEq] at hkp
                  obtain ⟨_, rfl⟩ := hkp
                  exact ⟨hallocB, hnearB⟩
            · simp only [hfull, if_false, Option.some.injEq, Prod.mk.injEq] at h
              obtain ⟨rfl, rfl⟩ := h
              obtain ⟨hl1, hfit1⟩ := hty1.2 ht1
              rw [index_insert_ok nk np hfull]
              have hroom : ((bm1.page pid).index.length + 1) * cfg.sizeofIndexEntry
                  ≤ cfg.HEAPPAGE_DATA_SIZE := by
                rw [index_avail hl1] at hfull
                rw [Nat.add_mul, Nat.one_mul]
                omega
              obtain ⟨hokB, hstepB⟩ := step_set cfg hok1 pid
                { bm1.page pid with
                  index := insertSorted IndexEntry.key ⟨nk, np⟩ (bm1.page pid).index }
                rfl
                ⟨fun h => (by rw [ht1] at h; cases h),
                  fun _ => ⟨hl1, (by simp only [insertSorted_length]; exact hroom)⟩⟩
                (fun _ => ⟨hll, fun e he => by
                  rcases List.mem_cons.1 ((insertSorted_perm _ _ _).subset he) with h1 | h1
                  · rw [h1]; exact hnp
                  · exact hee e h1⟩)
                (near_mono rfl (by
                  rw [index_avail (by exact hl1), index_avail hl1]
                  simp only [insertSorted_length]
                  exact Nat.sub_le_sub_left (Nat.mul_le_mul_right _ (Nat.le_succ _)) _))
              exact ⟨hokB, storeStep_trans hn0 hstep1 hstepB, fun k p hh => by cases hh⟩
    · simp only [ht, if_false] at h
      have htl : (bm.page pid).type = NodeType.LEAF_NODE := nodeType_not_index ht
      obtain ⟨hty, _⟩ := hok pid hpid
      obtain ⟨hi0, hfit0⟩ := hty.1 htl
      by_cases hfull : (bm.page pid).AvailableSpace cfg < cfg.sizeofLeafEntry
      · simp only [hfull, if_true, BufMgr.newPage_page_self] at h
        cases hsp : BTreeFile.Split_Leaf cfg (bm.page pid)
            (SortedPage.init NodeType.LEAF_NODE) key rid with
        | none => simp [hsp] at h
        | some r2 =>
          obtain ⟨st, o, nn⟩ := r2
          simp only [hsp] at h
          cases hg : BTLeafPage.GetFirst nn with
          | none => simp [hg] at h
          | some first =>
            simp only [hg, Option.some.injEq, Prod.mk.injEq] at h
            obtain ⟨rfl, rfl⟩ := h
            obtain ⟨hto, htn, hoi, hni, hofit, hnfit, honear, hnnear, _, _⟩ :=
              split_leaf_pages cfg hs (bm.page pid) key rid htl hty hfull hsp
            obtain ⟨hokB, hstepB, hallocB, hnearB⟩ :=
              step_split cfg hok hpid NodeType.LEAF_NODE
                { o with nextPage := (bm.NewPage NodeType.LEAF_NODE).1 }
                { nn with prevPage := pid }
                (hto.trans htl.symm)
                ⟨fun _ => ⟨hoi, hofit⟩, fun h => (by
                  have : o.type = NodeType.INDEX_NODE := h
                  rw [hto] at this; cases this)⟩
                ⟨fun _ => ⟨hni, hnfit⟩, fun h => (by
                  have : nn.type = NodeType.INDEX_NODE := h
                  rw [htn] at this; cases this)⟩
                (fun h => by
                  have : o.type = NodeType.INDEX_NODE := h
                  rw [hto] at this; cases this)
                (fun h => by
                  have : nn.type = NodeType.INDEX_NODE := h
                  rw [htn] at this; cases this)
                honear hnnear
            refine ⟨hokB, hstepB, ?_⟩
            intro k' p' hkp
            simp only [Option.some.injEq, Prod.mk.injEq] at hkp
            obtain ⟨_, rfl⟩ := hkp
            exact ⟨hallocB, hnearB⟩
      · simp only [hfull, if_false, Option.some.injEq, Prod.mk.injEq] at h
        obtain ⟨rfl, rfl⟩ := h
        rw [leaf_insert_ok key rid hfull]
        have hroom : ((bm.page pid).leaf.length + 1) * cfg.sizeofLeafEntry
            ≤ cfg.HEAPPAGE_DATA_SIZE := by
          rw [leaf_avail hi0] at hfull
          rw [Nat.add_mul, Nat.one_mul]
          omega
        obtain ⟨hokB, hstepB⟩ := step_set cfg hok pid
          { bm.page pid with
            leaf := insertSorted LeafEntry.key ⟨key, rid⟩ (bm.page pid).leaf }
          rfl
          ⟨fun _ => ⟨hi0, (by simp only [insertSorted_length]; exact hroom)⟩,
            fun h => (by
              have : (bm.page pid).type = NodeType.INDEX_NODE := h
              exact absurd this ht)⟩
          (fun h => by
            have : (bm.page pid).type = NodeType.INDEX_NODE := h
            exact absurd this ht)
          (near_mono rfl (by
            rw [leaf_avail (by exact hi0), leaf_avail hi0]
            simp only [insertSorted_length]
            exact Nat.sub_le_sub_left (Nat.mul_le_mul_right _ (Nat.le_succ _)) _))
        exact ⟨hokB, hstepB, fun k p hh => by cases hh⟩

theorem create_inv (cfg : Cfg) (bm0 : BufMgr) :
    BTreeFile.InsertInv cfg bm0.nextPid (BTreeFile.create bm0) := by
  have hpage : (BTreeFile.create bm0).bm.page (bm0.nextPid : Int)
      = SortedPage.init NodeType.LEAF_NODE := by
    simp [BTreeFile.create, BufMgr.NewPage]
  have hnext : (BTreeFile.create bm0).bm.nextPid = bm0.nextPid + 1 := rfl
  have hroot : (BTreeFile.create bm0).rootPid = (bm0.nextPid : Int) := rfl
  have honly : ∀ q, Alloc bm0.nextPid (BTreeFile.create bm0).bm q → q = (bm0.nextPid : Int) := by
    intro q hq
    have h1 := hq.1
    have h2 := hq.2
    rw [hnext] at h2
    push_cast at h2
    omega
  refine ⟨?_, ?_, ?_⟩
  · intro q hq
    rw [honly q hq, hpage]
    refine ⟨⟨fun _ => ⟨rfl, (by simp [SortedPage.init])⟩, fun h => (by cases h)⟩,
      fun h => (by cases h)⟩
  · rw [hroot]
    refine ⟨le_refl _, ?_⟩
    rw [hnext]
    push_cast
    omega
  · intro q hq hne
    rw [hroot] at hne
    exact absurd (honly q hq) hne

theorem insert_inv (cfg : Cfg) (hs : cfg.Sane) (n0 : Nat) (fuel : Nat) (t t' : BTreeFile)
    (key : Int) (rid : RecordID) (hinv : BTreeFile.InsertInv cfg n0 t)
    (h : BTreeFile.Insert cfg fuel t key rid = some (Status.OK, t')) :
    BTreeFile.InsertInv cfg n0 t' := by
  obtain ⟨hok, hroot, hnear⟩ := hinv
  have hn0 : n0 ≤ t.bm.nextPid := by
    have h1 := hroot.1
    have h2 := hroot.2
    omega
  unfold BTreeFile.Insert at h
  have hri : ¬ t.rootPid = INVALID_PAGE := by
    intro hc
    have h1 := hroot.1
    rw [hc] at h1
    simp [INVALID_PAGE] at h1
    omega
  simp only [hri, if_false] at h
  cases hr : BTreeFile.InsertHelper cfg key rid fuel t.bm t.rootPid with
  | none => simp [hr] at h
  | some r1 =>
    obtain ⟨bm1, r⟩ := r1
    simp only [hr] at h
    obtain ⟨hok1, hstep1, hres1⟩ := insertHelper_inv cfg hs n0 key rid fuel t.bm t.rootPid bm1 r
      hok hroot hr
    have hnear1 : ∀ q, Alloc n0 bm1 q → q ≠ t.rootPid →
        (bm1.page q).nearlyHalfFull cfg = true := by
      intro q hq hne
      by_cases hlt : q < (t.bm.nextPid : Int)
      · exact (hstep1.2.1 q ⟨hq.1, hlt⟩).2 (hnear q ⟨hq.1, hlt⟩ hne)
      · exact hstep1.2.2 q (not_lt.1 hlt) hq.2
    cases r with
    | none =>
      simp only [Option.some.injEq, Prod.mk.injEq, true_and] at h
      subst h
      exact ⟨hok1, alloc_mono hstep1.1 hroot, hnear1⟩
    | some kp =>
      obtain ⟨ck, cp⟩ := kp
      simp only [BufMgr.newPage_page_self] at h
      obtain ⟨hcp, hrootnear⟩ := hres1 ck cp rfl
      have hroom : ¬ (BTIndexPage.SetLeftLink (SortedPage.init NodeType.INDEX_NODE)
          t.rootPid).AvailableSpace cfg < cfg.sizeofIndexEntry := by
        have := hs.2.2.2
        simp [SortedPage.AvailableSpace, BTIndexPage.SetLeftLink, SortedPage.init]
        omega
      rw [index_insert_ok ck cp hroom] at h
      simp only [Option.some.injEq, Prod.mk.injEq, true_and] at h
      subst h
      generalize hB : (bm1.NewPage NodeType.INDEX_NODE).2.set
        (bm1.NewPage NodeType.INDEX_NODE).1
        { BTIndexPage.SetLeftLink (SortedPage.init NodeType.INDEX_NODE) t.rootPid with
          index := insertSorted IndexEntry.key ⟨ck, cp⟩
            (BTIndexPage.SetLeftLink (SortedPage.init NodeType.INDEX_NODE) t.rootPid).index }
        = B
      have hfst : (bm1.NewPage NodeType.INDEX_NODE).1 = (bm1.nextPid : Int) := rfl
      rw [hfst] at hB ⊢
      have hnp : B.nextPid = bm1.nextPid + 1 := by rw [← hB]; rfl
      have hnew : B.page (bm1.nextPid : Int)
          = { type := NodeType.INDEX_NODE, prevPage := t.rootPid, nextPage := INVALID_PAGE,
              leaf := [], index := [⟨ck, cp⟩] } := by
        rw [← hB]
        simp [BTIndexPage.SetLeftLink, SortedPage.init, insertSorted]
      have hother : ∀ q, q ≠ (bm1.nextPid : Int) → B.page q = bm1.page q := by
        intro q h1
        rw [← hB]
        simp [h1]
      have hmono : bm1.nextPid ≤ B.nextPid := by omega
      have hroot1 : Alloc n0 bm1 t.rootPid := alloc_mono hstep1.1 hroot
      refine ⟨?_, ?_, ?_⟩
      · refine storeOk_update hok1 hmono ?_
        intro q hq
        by_cases hqn : q = (bm1.nextPid : Int)
        · right
          subst hqn
          rw [hnew]
          refine ⟨⟨fun h => (by cases h), fun _ => ⟨rfl, ?_⟩⟩, fun _ => ⟨?_, ?_⟩⟩
          · have := hs.2.2.2
            simp only [List.length_singleton, Nat.one_mul]
            omega
          · exact alloc_mono hmono hroot1
          · intro e he
            simp only [List.mem_singleton] at he
            subst he
            exact alloc_mono hmono hcp
        · left
          refine ⟨hother q hqn, hq.1, ?_⟩
          have := hq.2
          rw [hnp] at this
          push_cast at this
          omega
      · refine ⟨le_trans hroot1.1 (le_of_lt hroot1.2), ?_⟩
        rw [hnp]
        push_cast
        omega
      · intro q hq hne
        have hne' : q ≠ (bm1.nextPid : Int) := hne
        have hq' : Alloc n0 B q := hq
        have hlt : q < (bm1.nextPid : Int) := by
          have := hq'.2
          rw [hnp] at this
          push_cast at this
          omega
        show (B.page q).nearlyHalfFull cfg = true
        rw [hother q hne']
        by_cases hqr : q = t.rootPid
        · rw [hqr]
          exact hrootnear
        · exact hnear1 q ⟨hq.1, hlt⟩ hqr

theorem insertAll_inv (cfg : Cfg) (hs : cfg.Sane) (n0 : Nat) (fuel : Nat) :
    ∀ (kvs : List (Int × RecordID)) (t t' : BTreeFile), BTreeFile.InsertInv cfg n0 t →
      BTreeFile.insertAll cfg fuel kvs t = some t' → BTreeFile.InsertInv cfg n0 t' := by
  intro kvs
  induction kvs with
  | nil =>
    intro t t' hinv h
    simp only [BTreeFile.insertAll, Option.some.injEq] at h
    subst h
    exact hinv
  | cons kv rest ih =>
    intro t t' hinv h
    obtain ⟨k, r⟩ := kv
    unfold BTreeFile.insertAll at h
    cases hi : BTreeFile.Insert cfg fuel t k r with
    | none => simp [hi] at h
    | some res =>
      obtain ⟨st, t1⟩ := res
      cases st with
      | OK =>
        simp only [hi] at h
        exact ih t1 t' (insert_inv cfg hs n0 fuel t t1 k r hinv hi) h
      | FAIL => simp [hi] at h
      | DONE => simp [hi] at h

theorem treePages_alloc {cfg : Cfg} {n0 : Nat} {bm : BufMgr} (hok : StoreOk cfg n0 bm) :
    ∀ (n : Nat) (pid : PageID), Alloc n0 bm pid → ∀ q ∈ treePages bm n pid, Alloc n0 bm q := by
  intro n
  induction n with
  | zero => intro pid _ q hq; simp [treePages] at hq
  | succ m ih =>
    intro pid hpid q hq
    unfold treePages at hq
    by_cases ht : (bm.page pid).type = NodeType.LEAF_NODE
    · simp only [ht, if_true, List.mem_singleton] at hq
      rw [hq]; exact hpid
    · simp only [ht, if_false, List.mem_cons, List.mem_append, List.mem_flatten,
        List.mem_map] at hq
      obtain ⟨_, hp⟩ := hok pid hpid
      obtain ⟨hl, he⟩ := hp (nodeType_not_leaf ht)
      rcases hq with h | h | ⟨l, ⟨e, hem, rfl⟩, hql⟩
      · rw [h]; exact hpid
      · exact ih _ hl q h
      · exact ih _ (he e hem) q hql

/-- C10 (counterexample): with a data area of 10 bytes and entries of 4 bytes
(two entries per page), inserting the keys 1, 2, 3 into a fresh tree splits the
root leaf into page 1 = [1] and page 2 = [2, 3]; page 1 is a leaf other than
the root and is not `IsAtLeastHalfFull` (6 bytes free, half of the data area is
5).  With three entries per index page, inserting 1 .. 6 leaves the index page 7
below half full as well. -/
theorem C10_counterexample_split_page_not_half_full :
    ((BTreeFile.build ⟨10, 4, 4⟩ 4 [1, 2, 3]).map fun t =>
        (t.rootPid, treePages t.bm 4 t.rootPid, (t.bm.page 1).type))
      = some (3, [3, 1, 2], NodeType.LEAF_NODE)
    ∧ ((BTreeFile.build ⟨10, 4, 4⟩ 4 [1, 2, 3]).map fun t =>
        (keysOf (t.bm.page 1).leaf, (t.bm.page 1).IsAtLeastHalfFull ⟨10, 4, 4⟩))
      = some ([1], false)
    ∧ ((BTreeFile.build cfg23 4 [1, 2, 3, 4, 5, 6]).map fun t =>
        (t.rootPid, (t.bm.page t.rootPid).index, (t.bm.page 7).type))
      = some (8, [⟨4, 7⟩], NodeType.INDEX_NODE)
    ∧ ((BTreeFile.build cfg23 4 [1, 2, 3, 4, 5, 6]).map fun t =>
        ((t.bm.page 7).index, (t.bm.page 7).IsAtLeastHalfFull cfg23))
      = some ([⟨5, 6⟩], false) := by
  decide!

/-- C10 (amended): after any finite sequence of successful `Insert` calls on a
freshly created tree, every node of the tree other than the root is at most one
entry short of half full: `AvailableSpace ≤ HEAPPAGE_DATA_SIZE / 2 + sizeof (entry)`.
This covers both pages of every `Split_Leaf` and `Split_Index`. -/
theorem C10_non_root_nodes_nearly_half_full (cfg : Cfg) (hs : cfg.Sane) (bm0 : BufMgr)
    (fuel : Nat) (kvs : List (Int × RecordID)) (t : BTreeFile)
    (h : BTreeFile.insertAll cfg fuel kvs (BTreeFile.create bm0) = some t) (n : Nat) :
    t.nonRootNearlyHalfFull cfg n = true := by
  obtain ⟨hok, hroot, hnear⟩ :=
    insertAll_inv cfg hs bm0.nextPid fuel kvs _ t (create_inv cfg bm0) h
  unfold BTreeFile.nonRootNearlyHalfFull
  rw [List.all_eq_true]
  intro q hq
  by_cases hqr : q = t.rootPid
  · simp [hqr]
  · simp only [hqr, decide_False, Bool.false_or]
    exact hnear q (treePages_alloc hok n t.rootPid hroot q hq) hqr

/-- Witness for C10 (amended): the tree of the counterexample, three inserts
with two entries per page. -/
theorem C10_non_root_nodes_nearly_half_full_witness :
    (0 < 4 ∧ 4 ≤ 10 ∧ 0 < 4 ∧ 2 * 4 ≤ 10)
      ∧ (BTreeFile.build ⟨10, 4, 4⟩ 4 [1, 2, 3]).isSome = true
      ∧ ((BTreeFile.build ⟨10, 4, 4⟩ 4 [1, 2, 3]).map fun t =>
          t.nonRootNearlyHalfFull ⟨10, 4, 4⟩ 4) = some true := by
  refine ⟨by decide, by decide!, ?_⟩
  cases hb : BTreeFile.build ⟨10, 4, 4⟩ 4 [1, 2, 3] with
  | none =>
    have hsome : (BTreeFile.build ⟨10, 4, 4⟩ 4 [1, 2, 3]).isSome = true := by decide!
    rw [hb] at hsome
    cases hsome
  | some t =>
    simp only [Option.map_some', Option.some.injEq]
    exact C10_non_root_nodes_nearly_half_full ⟨10, 4, 4⟩ (by unfold Cfg.Sane; decide)
      BufMgr.empty 4 _ t hb 4

/-- The traversals from `pid` read only the pages they list. -/
theorem traverse_frame (bm1 bm2 : BufMgr) :
    ∀ (F : Nat) (pid : PageID), (∀ q ∈ treePages bm1 F pid, bm2.page q = bm1.page q) →
      subtreeEntries bm2 F pid = subtreeEntries bm1 F pid
        ∧ treePages bm2 F pid = treePages bm1 F pid := by
  intro F
  induction F with
  | zero => intro pid _; simp [subtreeEntries, treePages]
  | succ n ih =>
    intro pid h
    have hpid : bm2.page pid = bm1.page pid := by
      apply h
      unfold treePages
      by_cases ht : (bm1.page pid).type = NodeType.LEAF_NODE
      · simp [ht]
      · simp [ht]
    unfold subtreeEntries treePages
    rw [hpid]
    by_cases ht : (bm1.page pid).type = NodeType.LEAF_NODE
    · simp [ht]
    · simp only [ht, if_false]
      have hsub : ∀ q, q ∈ treePages bm1 (n + 1) pid ↔
          q = pid ∨ q ∈ treePages bm1 n (BTIndexPage.GetLeftLink (bm1.page pid))
            ∨ ∃ e ∈ (bm1.page pid).index, q ∈ treePages bm1 n e.pid := by
        intro q
        conv_lhs => unfold treePages
        simp only [ht, if_false, List.mem_cons, List.mem_append, List.mem_flatten,
          List.mem_map]
        constructor
        · rintro (h1 | h1 | ⟨l, ⟨e, he, rfl⟩, hq⟩)
          · exact Or.inl h1
          · exact Or.inr (Or.inl h1)
          · exact Or.inr (Or.inr ⟨e, he, hq⟩)
        · rintro (h1 | h1 | ⟨e, he, hq⟩)
          · exact Or.inl h1
          · exact Or.inr (Or.inl h1)
          · exact Or.inr (Or.inr ⟨_, ⟨e, he, rfl⟩, hq⟩)
      have hl := ih (BTIndexPage.GetLeftLink (bm1.page pid))
        (fun q hq => h q ((hsub q).2 (Or.inr (Or.inl hq))))
      have hc : ∀ e ∈ (bm1.page pid).index,
          subtreeEntries bm2 n e.pid = subtreeEntries bm1 n e.pid
            ∧ treePages bm2 n e.pid = treePages bm1 n e.pid :=
        fun e he => ih e.pid (fun q hq => h q ((hsub q).2 (Or.inr (Or.inr ⟨e, he, hq⟩))))
      rw [hl.1, hl.2]
      have m1 : (bm1.page pid).index.map (fun e => subtreeEntries bm2 n e.pid)
          = (bm1.page pid).index.map (fun e => subtreeEntries bm1 n e.pid) :=
        List.map_congr_left (fun e he => (hc e he).1)
      have m2 : (bm1.page pid).index.map (fun e => treePages bm2 n e.pid)
          = (bm1.page pid).index.map (fun e => treePages bm1 n e.pid) :=
        List.map_congr_left (fun e he => (hc e he).2)
      rw [m1, m2]
      exact ⟨rfl, rfl⟩

/-- `concatAll` of lists that are all present is their concatenation. -/
theorem concatAll_map_some {α β : Type} (f : β → Option (List α)) (g : β → List α) :
    ∀ (l : List β), (∀ x ∈ l, f x = some (g x)) →
      concatAll (l.map f) = some (l.flatMap g) := by
  intro l
  induction l with
  | nil => intro _; simp [concatAll]
  | cons a l ih =>
    intro h
    have ha := h a (List.mem_cons_self _ _)
    have hl := ih (fun x hx => h x (List.mem_cons_of_mem _ hx))
    simp only [List.map_cons, concatAll, ha, hl, List.flatMap_cons]

theorem concatAll_some_inv {α β : Type} (f : β → Option (List α)) :
    ∀ (l : List β) (r : List α), concatAll (l.map f) = some r →
      ∀ x ∈ l, ∃ y, f x = some y := by
  intro l
  induction l with
  | nil => intro r _ x hx; simp at hx
  | cons a l ih =>
    intro r h x hx
    simp only [List.map_cons] at h
    cases ha : f a with
    | none => simp [concatAll, ha] at h
    | some y =>
      cases hl : concatAll (l.map f) with
      | none => simp [concatAll, ha, hl] at h
      | some ys =>
        rcases List.mem_cons.1 hx with h1 | h1
        · subst h1; exact ⟨y, ha⟩
        · exact ih ys hl x h1

theorem wfSubtree_zero {cfg : Cfg} {bm : BufMgr} {pid : PageID} {lo hi : Option Int} :
    wfSubtree cfg bm 0 pid lo hi = true ↔
      (bm.page pid).type = NodeType.LEAF_NODE ∧ (bm.page pid).index = []
        ∧ (bm.page pid).leaf.length * cfg.sizeofLeafEntry ≤ cfg.HEAPPAGE_DATA_SIZE
        ∧ ascending ((bm.page pid).leaf.map LeafEntry.key) = true
        ∧ ∀ e ∈ (bm.page pid).leaf, geLo lo e.key = true ∧ ltHi hi e.key = true := by
  simp [wfSubtree, Bool.and_eq_true, List.all_eq_true, and_assoc]

theorem wfSubtree_succ {cfg : Cfg} {bm : BufMgr} {h : Nat} {pid : PageID} {lo hi : Option Int} :
    wfSubtree cfg bm (h + 1) pid lo hi = true ↔
      (bm.page pid).type = NodeType.INDEX_NODE ∧ (bm.page pid).leaf = []
        ∧ (bm.page pid).index ≠ []
        ∧ (bm.page pid).index.length * cfg.sizeofIndexEntry ≤ cfg.HEAPPAGE_DATA_SIZE
        ∧ strictAscending ((bm.page pid).index.map IndexEntry.key) = true
        ∧ (∀ e ∈ (bm.page pid).index, gtLo lo e.key = true ∧ ltHi hi e.key = true)
        ∧ wfSubtree cfg bm h (BTIndexPage.GetLeftLink (bm.page pid)) lo
            ((bm.page pid).index.head?.map IndexEntry.key) = true
        ∧ wfChildren (wfSubtree cfg bm h) hi (bm.page pid).index = true := by
  simp [wfSubtree, Bool.and_eq_true, List.all_eq_true, and_assoc]

theorem wfChildren_mem (wf : PageID → Option Int → Option Int → Bool) (hi : Option Int) :
    ∀ (l : List IndexEntry), wfChildren wf hi l = true →
      ∀ e ∈ l, ∃ hc, wf e.pid (some e.key) hc = true := by
  intro l
  induction l with
  | nil => intro _ e he; simp at he
  | cons a l ih =>
    intro h e he
    cases l with
    | nil =>
      simp only [wfChildren] at h
      simp only [List.mem_singleton] at he
      subst he
      exact ⟨hi, h⟩
    | cons b l' =>
      simp only [wfChildren, Bool.and_eq_true] at h
      rcases List.mem_cons.1 he with h1 | h1
      · subst h1
        exact ⟨_, h.1⟩
      · exact ih h.2 e h1

/-- On a well-formed subtree the traversals do not depend on the fuel, and the
nodes are the pages of `subtreePages`. -/
theorem wf_traverse (cfg : Cfg) (bm : BufMgr) :
    ∀ (h : Nat) (pid : PageID) (lo hi : Option Int), wfSubtree cfg bm h pid lo hi = true →
      (∀ F, h + 1 ≤ F → treePages bm F pid = subtreePages bm h pid)
        ∧ ∃ es, ∀ F, h + 1 ≤ F → subtreeEntries bm F pid = some es := by
  intro h
  induction h with
  | zero =>
    intro pid lo hi hwf
    obtain ⟨ht, _⟩ := wfSubtree_zero.1 hwf
    refine ⟨?_, (bm.page pid).leaf, ?_⟩
    · intro F hF
      obtain ⟨f, rfl⟩ : ∃ f, F = f + 1 := ⟨F - 1, by omega⟩
      simp [treePages, subtreePages, ht]
    · intro F hF
      obtain ⟨f, rfl⟩ : ∃ f, F = f + 1 := ⟨F - 1, by omega⟩
      simp [subtreeEntries, ht]
  | succ n ih =>
    intro pid lo hi hwf
    obtain ⟨ht, _, _, _, _, _, hleft, hch⟩ := wfSubtree_succ.1 hwf
    have hnl : ¬ (bm.page pid).type = NodeType.LEAF_NODE := by rw [ht]; decide
    obtain ⟨hlp, esl, hle⟩ := ih _ _ _ hleft
    have hc : ∀ e ∈ (bm.page pid).index,
        (∀ F, n + 1 ≤ F → treePages bm F e.pid = subtreePages bm n e.pid)
          ∧ ∀ F, n + 1 ≤ F → subtreeEntries bm F e.pid
              = some ((subtreeEntries bm (n + 1) e.pid).getD []) := by
      intro e he
      obtain ⟨hc', hwe⟩ := wfChildren_mem _ _ _ hch e he
      obtain ⟨h1, es, h2⟩ := ih _ _ _ hwe
      refine ⟨h1, fun F hF => ?_⟩
      rw [h2 F hF, h2 (n + 1) (le_refl _)]
      rfl
    refine ⟨?_, esl ++ (bm.page pid).index.flatMap
      (fun e => (subtreeEntries bm (n + 1) e.pid).getD []), ?_⟩
    · intro F hF
      obtain ⟨f, rfl⟩ : ∃ f, F = f + 1 := ⟨F - 1, by omega⟩
      have hf : n + 1 ≤ f := by omega
      unfold treePages subtreePages
      simp only [hnl, if_false]
      rw [hlp f hf]
      have m : (bm.page pid).index.map (fun e => treePages bm f e.pid)
          = (bm.page pid).index.map (fun e => subtreePages bm n e.pid) :=
        List.map_congr_left (fun e he => (hc e he).1 f hf)
      rw [m]
    · intro F hF
      obtain ⟨f, rfl⟩ : ∃ f, F = f + 1 := ⟨F - 1, by omega⟩
      have hf : n + 1 ≤ f := by omega
      conv_lhs => unfold subtreeEntries
      simp only [hnl, if_false]
      rw [hle f hf]
      have := concatAll_map_some (fun e : IndexEntry => subtreeEntries bm f e.pid)
        (fun e => (subtreeEntries bm (n + 1) e.pid).getD []) (bm.page pid).index
        (fun e he => (hc e he).2 f hf)
      simp only [concatAll, this]

theorem subtreeEntries_index {bm : BufMgr} {F : Nat} {pid : PageID}
    (ht : ¬ (bm.page pid).type = NodeType.LEAF_NODE) :
    subtreeEntries bm (F + 1) pid
      = concatAll ((bm.page pid).children.map (subtreeEntries bm F)) := by
  conv_lhs => unfold subtreeEntries
  simp [ht, SortedPage.children, List.map_map, Function.comp_def]

theorem treePages_index {bm : BufMgr} {F : Nat} {pid : PageID}
    (ht : ¬ (bm.page pid).type = NodeType.LEAF_NODE) :
    treePages bm (F + 1) pid = pid :: (bm.page pid).children.flatMap (treePages bm F) := by
  conv_lhs => unfold treePages
  simp [ht, SortedPage.children, List.flatMap, List.map_map, Function.comp_def]

theorem subtreePages_succ (bm : BufMgr) (h : Nat) (pid : PageID) :
    subtreePages bm (h + 1) pid
      = pid :: (bm.page pid).children.flatMap (subtreePages bm h) := by
  conv_lhs => unfold subtreePages
  simp [SortedPage.children, List.flatMap, List.map_map, Function.comp_def]

theorem strictAscending_cons {a : Int} :
    ∀ {l : List Int}, strictAscending (a :: l) = true →
      (∀ b ∈ l, a < b) ∧ strictAscending l = true := by
  intro l
  induction l generalizing a with
  | nil => intro _; simp [strictAscending]
  | cons b l ih =>
    intro h
    simp only [strictAscending, Bool.and_eq_true, decide_eq_true_eq] at h
    obtain ⟨h1, h2⟩ := ih h.2
    refine ⟨?_, h.2⟩
    intro c hc
    rcases List.mem_cons.1 hc with hc | hc
    · rw [hc]; exact h.1
    · exact lt_trans h.1 (h1 c hc)

theorem strictAscending_nodup : ∀ {l : List Int}, strictAscending l = true → l.Nodup := by
  intro l
  induction l with
  | nil => intro _; exact List.nodup_nil
  | cons a l ih =>
    intro h
    obtain ⟨h1, h2⟩ := strictAscending_cons h
    refine List.nodup_cons.2 ⟨?_, ih h2⟩
    intro ha
    exact lt_irrefl _ (h1 a ha)

theorem findLoop_spec (wf : PageID → Option Int → Option Int → Bool) (hi : Option Int)
    (k : Int) (hk : ltHi hi k = true) :
    ∀ (rest : List IndexEntry) (cur prev : IndexEntry), ¬ k < cur.key →
      strictAscending ((cur :: rest).map IndexEntry.key) = true →
      (∀ e ∈ cur :: rest, ltHi hi e.key = true) →
      wfChildren wf hi (cur :: rest) = true →
      ∃ hc, wf (BTIndexPage.FindPageWithKey.loop k prev cur rest).pid
          (some (BTIndexPage.FindPageWithKey.loop k prev cur rest).key) hc = true
        ∧ BTIndexPage.FindPageWithKey.loop k prev cur rest ∈ cur :: rest
        ∧ (BTIndexPage.FindPageWithKey.loop k prev cur rest).key ≤ k
        ∧ ltHi hc k = true
        ∧ ∀ x, (BTIndexPage.FindPageWithKey.loop k prev cur rest).key < x → ltHi hc x = true →
            ltHi hi x = true ∧ ∀ e ∈ cur :: rest, e.key ≠ x := by
  intro rest
  induction rest with
  | nil =>
    intro cur prev hcur _ _ hwf
    unfold BTIndexPage.FindPageWithKey.loop
    simp only [hcur, if_false]
    simp only [wfChildren] at hwf
    refine ⟨hi, hwf, List.mem_cons_self _ _, by omega, hk, ?_⟩
    intro x hx hxh
    refine ⟨hxh, ?_⟩
    intro e he
    simp only [List.mem_singleton] at he
    subst he
    omega
  | cons e es ih =>
    intro cur prev hcur hasc hbd hwf
    unfold BTIndexPage.FindPageWithKey.loop
    simp only [hcur, if_false]
    simp only [wfChildren, Bool.and_eq_true] at hwf
    simp only [List.map_cons] at hasc
    obtain ⟨hlt, hasc'⟩ := strictAscending_cons hasc
    have hce : cur.key < e.key := hlt e.key (List.mem_cons_self _ _)
    by_cases hke : k < e.key
    · have hl : BTIndexPage.FindPageWithKey.loop k cur e es = cur := by
        unfold BTIndexPage.FindPageWithKey.loop
        simp [hke]
      rw [hl]
      refine ⟨some e.key, hwf.1, List.mem_cons_self _ _, by omega, by simp [ltHi, hke], ?_⟩
      intro x hx hxh
      simp only [ltHi, decide_eq_true_eq] at hxh
      have heh := hbd e (List.mem_cons_of_mem _ (List.mem_cons_self _ _))
      refine ⟨?_, ?_⟩
      · cases hi with
        | none => rfl
        | some hv =>
          simp only [ltHi, decide_eq_true_eq] at heh ⊢
          omega
      · intro e' he'
        rcases List.mem_cons.1 he' with h1 | h1
        · subst h1; omega
        · have : cur.key < e'.key := hlt e'.key (List.mem_map_of_mem _ h1)
          have h2 : e.key ≤ e'.key := by
            rcases List.mem_cons.1 h1 with h3 | h3
            · rw [h3]
            · exact le_of_lt ((strictAscending_cons hasc').1 e'.key (List.mem_map_of_mem _ h3))
          omega
    · obtain ⟨hc, h1, h2, h3, h4, h5⟩ := ih e cur hke hasc'
        (fun e' he' => hbd e' (List.mem_cons_of_mem _ he')) hwf.2
      refine ⟨hc, h1, List.mem_cons_of_mem _ h2, h3, h4, ?_⟩
      intro x hx hxh
      obtain ⟨h6, h7⟩ := h5 x hx hxh
      refine ⟨h6, ?_⟩
      intro e' he'
      rcases List.mem_cons.1 he' with h8 | h8
      · subst h8
        have h9 : e.key ≤ (BTIndexPage.FindPageWithKey.loop k e' e es).key := by
          rcases List.mem_cons.1 h2 with h10 | h10
          · rw [h10]
          · exact le_of_lt ((strictAscending_cons hasc').1 _ (List.mem_map_of_mem _ h10))
        omega
      · exact h7 e' h8

theorem insertSorted_mem {α : Type} (key : α → Int) (a : α) (l : List α) (x : α) :
    x ∈ insertSorted key a l ↔ x = a ∨ x ∈ l := by
  rw [(insertSorted_perm key a l).mem_iff]
  exact List.mem_cons

theorem insertSorted_sorted {α : Type} (key : α → Int) (a : α) :
    ∀ l : List α, l.Pairwise (fun x y => key x ≤ key y) →
      (insertSorted key a l).Pairwise (fun x y => key x ≤ key y) := by
  intro l
  induction l with
  | nil => intro _; simp [insertSorted]
  | cons b l ih =>
    intro h
    unfold insertSorted
    obtain ⟨h1, h2⟩ := List.pairwise_cons.1 h
    by_cases hab : key a < key b
    · simp only [hab, if_true]
      refine List.pairwise_cons.2 ⟨?_, h⟩
      intro y hy
      rcases List.mem_cons.1 hy with hy | hy
      · rw [hy]; omega
      · have := h1 y hy
        omega
    · simp only [hab, if_false]
      refine List.pairwise_cons.2 ⟨?_, ih h2⟩
      intro y hy
      rcases (insertSorted_mem key a l y).1 hy with hy | hy
      · rw [hy]; omega
      · exact h1 y hy

theorem eraseLast_sublist {α : Type} (p : α → Bool) :
    ∀ (l l' : List α), eraseLast p l = some l' → l'.Sublist l := by
  intro l
  induction l with
  | nil => intro l' h; simp [eraseLast] at h
  | cons e es ih =>
    intro l' h
    unfold eraseLast at h
    cases hr : eraseLast p es with
    | some es' =>
      simp only [hr, Option.some.injEq] at h
      subst h
      exact List.Sublist.cons₂ e (ih es' hr)
    | none =>
      simp only [hr] at h
      by_cases hpe : p e = true
      · simp only [hpe, if_true, Option.some.injEq] at h
        subst h
        exact List.sublist_cons_self e _
      · simp [hpe] at h

theorem leaf_insert_cases (cfg : Cfg) (p : SortedPage) (key : Int) (rid : RecordID) :
    BTLeafPage.Insert cfg p key rid = (Status.FAIL, p)
      ∨ BTLeafPage.Insert cfg p key rid
          = (Status.OK, { p with leaf := insertSorted LeafEntry.key ⟨key, rid⟩ p.leaf }) := by
  by_cases h : p.AvailableSpace cfg < cfg.sizeofLeafEntry
  · exact Or.inl (leaf_insert_fail key rid h)
  · exact Or.inr (leaf_insert_ok key rid h)

theorem leaf_moveAll_sorted (cfg : Cfg) :
    ∀ (fuel : Nat) (old new o n : SortedPage),
      new.leaf.Pairwise (fun x y => x.key ≤ y.key) →
      BTreeFile.Split_Leaf.moveAll cfg fuel old new = some (Status.OK, o, n) →
      o.leaf = [] ∧ n.leaf.Pairwise (fun x y => x.key ≤ y.key) := by
  intro fuel
  induction fuel with
  | zero => intro old new o n _ h; simp [BTreeFile.Split_Leaf.moveAll] at h
  | succ f ih =>
    intro old new o n hs h
    unfold BTreeFile.Split_Leaf.moveAll at h
    cases hf : BTLeafPage.GetFirst old with
    | none =>
      simp only [hf, Option.some.injEq, Prod.mk.injEq, true_and] at h
      obtain ⟨h1, h2⟩ := h
      subst h1; subst h2
      exact ⟨leaf_getFirst_none hf, hs⟩
    | some cur =>
      simp only [hf] at h
      rcases leaf_insert_cases cfg new cur.key cur.rid with hi | hi
      · rw [hi] at h
        simp at h
      · rw [hi] at h
        simp only at h
        exact ih _ _ o n (insertSorted_sorted _ _ _ hs) h

theorem leaf_moveBack_order (cfg : Cfg) (key : Int) (rid : RecordID) :
    ∀ (fuel : Nat) (o n : SortedPage) (cur : Option LeafEntry) (ins : Bool)
      (o' n' : SortedPage) (ins' : Bool),
      n.leaf.Pairwise (fun x y => x.key ≤ y.key) →
      (∀ x ∈ o.leaf, ∀ y ∈ n.leaf, x.key ≤ y.key) →
      (ins = false → ∀ x ∈ o.leaf, x.key ≤ key) →
      (n.leaf ≠ [] → cur = n.leaf.head?) →
      BTreeFile.Split_Leaf.moveBack cfg key rid fuel o n cur ins
        = some (Status.OK, o', n', ins') →
      (∀ x ∈ o'.leaf, ∀ y ∈ n'.leaf, x.key ≤ y.key)
        ∧ (ins' = false → ∀ x ∈ o'.leaf, x.key ≤ key) := by
  intro fuel
  induction fuel with
  | zero => intro o n cur ins o' n' ins' _ _ _ _ h; simp [BTreeFile.Split_Leaf.moveBack] at h
  | succ f ih =>
    intro o n cur ins o' n' ins' hs hon hok hcur h
    unfold BTreeFile.Split_Leaf.moveBack at h
    by_cases hgt : o.AvailableSpace cfg > n.AvailableSpace cfg
    · simp only [hgt, if_true] at h
      cases hcv : cur with
      | none => simp [hcv] at h
      | some c =>
        simp only [hcv] at h
        by_cases hcond : (decide (c.key > key) && (ins == false)) = true
        · simp only [hcond, if_true] at h
          rcases leaf_insert_cases cfg o key rid with hi | hi
          · rw [hi] at h
            simp at h
          · rw [hi] at h
            simp only at h
            have hck : key < c.key := by
              simp at hcond
              exact hcond.1
            refine ih _ _ _ _ o' n' ins' hs ?_ (by simp) ?_ h
            · intro x hx y hy
              rcases (insertSorted_mem _ _ _ x).1 hx with hx | hx
              · subst hx
                show key ≤ y.key
                by_cases hne : n.leaf = []
                · rw [hne] at hy; simp at hy
                · have hh := hcur hne
                  rw [hcv] at hh
                  cases hl : n.leaf with
                  | nil => exact absurd hl hne
                  | cons a l =>
                    rw [hl] at hh hy hs
                    simp at hh
                    subst hh
                    rcases List.mem_cons.1 hy with hy | hy
                    · rw [hy]; omega
                    · have := (List.pairwise_cons.1 hs).1 y hy
                      omega
              · exact hon x hx y hy
            · intro hne
              rw [← hcv]
              exact hcur hne
        · simp only [hcond, Bool.false_eq_true, if_false] at h
          rcases leaf_insert_cases cfg o c.key c.rid with hi | hi
          · rw [hi] at h
            simp at h
          · rw [hi] at h
            simp only at h
            by_cases hne : n.leaf = []
            · -- nothing to move: the deletion fails and the page stays empty
              have hdel : (BTLeafPage.Delete n c.key c.rid).2 = n := by
                unfold BTLeafPage.Delete
                rw [hne]
                simp [eraseLast]
              rw [hdel] at h
              refine ih _ _ _ _ o' n' ins' hs ?_ ?_ ?_ h
              · intro x _ y hy
                rw [hne] at hy; simp at hy
              · intro hins x hx
                rcases (insertSorted_mem _ _ _ x).1 hx with hx | hx
                · subst hx
                  simp [hins] at hcond
                  exact hcond
                · exact hok hins x hx
              · intro hne'; exact absurd hne hne'
            · have hh := hcur hne
              rw [hcv] at hh
              have hgf : BTLeafPage.GetFirst n = some c := hh.symm
              obtain ⟨es', hdel, hpn⟩ := leaf_delete_head hgf
              rw [hdel] at h
              simp only at h
              have hsub : es'.Sublist n.leaf := by
                have : BTLeafPage.Delete n c.key c.rid = (Status.OK, { n with leaf := es' }) := hdel
                unfold BTLeafPage.Delete at this
                cases he : eraseLast (fun e : LeafEntry => decide (e.key = c.key ∧ e.rid = c.rid))
                    n.leaf with
                | none => rw [he] at this; simp at this
                | some l' =>
                  rw [he] at this
                  simp only [Prod.mk.injEq, true_and] at this
                  have h2 := congrArg SortedPage.leaf this
                  simp only at h2
                  rw [← h2]
                  exact eraseLast_sublist _ _ _ he
              have hcle : ∀ y ∈ n.leaf, c.key ≤ y.key := by
                intro y hy
                cases hl : n.leaf with
                | nil => exact absurd hl hne
                | cons a l =>
                  rw [hl] at hh hy hs
                  simp at hh
                  subst hh
                  rcases List.mem_cons.1 hy with hy | hy
                  · rw [hy]
                  · exact (List.pairwise_cons.1 hs).1 y hy
              refine ih _ _ _ _ o' n' ins' (hs.sublist hsub) ?_ ?_ ?_ h
              · intro x hx y hy
                have hy' : y ∈ n.leaf := hsub.subset hy
                rcases (insertSorted_mem _ _ _ x).1 hx with hx | hx
                · subst hx
                  exact hcle y hy'
                · exact hon x hx y hy'
              · intro hins x hx
                rcases (insertSorted_mem _ _ _ x).1 hx with hx | hx
                · subst hx
                  simp [hins] at hcond
                  exact hcond
                · exact hok hins x hx
              · intro hne'
                simp only at hne'
                simp only [BTLeafPage.GetFirst]
                cases hl : es' with
                | nil => exact absurd hl hne'
                | cons a l => simp
    · simp only [hgt, if_false, Option.some.injEq, Prod.mk.injEq, true_and] at h
      obtain ⟨h1, h2, h3⟩ := h
      subst h1; subst h2; subst h3
      exact ⟨hon, hok⟩

theorem split_leaf_order (cfg : Cfg) (old new o' n' : SortedPage) (key : Int) (rid : RecordID)
    (hnl : new.leaf = [])
    (h : BTreeFile.Split_Leaf cfg old new key rid = some (Status.OK, o', n')) :
    ∀ x ∈ o'.leaf, ∀ y ∈ n'.leaf, x.key ≤ y.key := by
  unfold BTreeFile.Split_Leaf at h
  cases h1 : BTreeFile.Split_Leaf.moveAll cfg (old.leaf.length + 1) old new with
  | none => simp [h1] at h
  | some r1 =>
    obtain ⟨s1, o1, n1⟩ := r1
    cases s1 with
    | OK =>
      simp only [h1] at h
      obtain ⟨ho1, hs1⟩ := leaf_moveAll_sorted cfg _ old new o1 n1 (by rw [hnl]; simp) h1
      cases h2 : BTreeFile.Split_Leaf.moveBack cfg key rid (n1.leaf.length + 2) o1 n1
          (BTLeafPage.GetFirst n1) false with
      | none => simp [h2] at h
      | some r2 =>
        obtain ⟨s2, o2, n2, i2⟩ := r2
        cases s2 with
        | OK =>
          simp only [h2] at h
          obtain ⟨hon, hok⟩ := leaf_moveBack_order cfg key rid _ o1 n1 _ false o2 n2 i2 hs1
            (by rw [ho1]; simp) (by rw [ho1]; simp) (fun _ => rfl) h2
          cases i2 with
          | false =>
            simp only [beq_self_eq_true, if_true] at h
            rcases leaf_insert_cases cfg n2 key rid with hi | hi
            · rw [hi] at h
              simp at h
            · rw [hi] at h
              simp only [Option.some.injEq, Prod.mk.injEq, true_and] at h
              obtain ⟨h3, h4⟩ := h
              subst h3; subst h4
              intro x hx y hy
              rcases (insertSorted_mem _ _ _ y).1 hy with hy | hy
              · subst hy
                exact hok rfl x hx
              · exact hon x hx y hy
          | true =>
            simp only [Bool.true_eq_false, beq_iff_eq, if_false, Option.some.injEq,
              Prod.mk.injEq, true_and] at h
            obtain ⟨h3, h4⟩ := h
            subst h3; subst h4
            exact hon
        | FAIL => simp [h2] at h
        | DONE => simp [h2] at h
    | FAIL => simp [h1] at h
    | DONE => simp [h1] at h

theorem subtreeEntries_leaf {bm : BufMgr} {F : Nat} {pid : PageID}
    (ht : (bm.page pid).type = NodeType.LEAF_NODE) :
    subtreeEntries bm (F + 1) pid = some (bm.page pid).leaf := by
  conv_lhs => unfold subtreeEntries
  simp [ht]

theorem treePages_leaf {bm : BufMgr} {F : Nat} {pid : PageID}
    (ht : (bm.page pid).type = NodeType.LEAF_NODE) :
    treePages bm (F + 1) pid = [pid] := by
  conv_lhs => unfold treePages
  simp [ht]

theorem treePages_leaf_mem {bm : BufMgr} {F : Nat} {pid q : PageID}
    (ht : (bm.page pid).type = NodeType.LEAF_NODE) (hq : q ∈ treePages bm F pid) : q = pid := by
  cases F with
  | zero => simp [treePages] at hq
  | succ F =>
    rw [treePages_leaf ht] at hq
    simpa using hq

theorem insertHelper_leaf (cfg : Cfg) (hs : cfg.Sane) (bm : BufMgr) (pid : PageID)
    (lo hi : Option Int) (k : Int) (rid : RecordID)
    (hwf : wfSubtree cfg bm 0 pid lo hi = true)
    (hlo : geLo lo k = true) (hhi : ltHi hi k = true)
    (halloc : pid < (bm.nextPid : Int))
    (hnd : (k :: (bm.page pid).leaf.map LeafEntry.key).Nodup) :
    ∃ bm' res, (∀ fuel, 1 ≤ fuel → BTreeFile.InsertHelper cfg k rid fuel bm pid = some (bm', res))
      ∧ InsertPost bm 0 pid lo hi k rid (bm.page pid).leaf bm' res := by
  obtain ⟨hcl, hD, -, -⟩ := hs
  simp only [wfSubtree, Bool.and_eq_true, decide_eq_true_eq, List.all_eq_true] at hwf
  obtain ⟨⟨⟨⟨ht, hidx⟩, hfit⟩, hasc⟩, hrange⟩ := hwf
  have hnot : ¬ (bm.page pid).type = NodeType.INDEX_NODE := by rw [ht]; simp
  by_cases hfull : (bm.page pid).AvailableSpace cfg < cfg.sizeofLeafEntry
  · -- the leaf splits
    have hne : pid ≠ (bm.nextPid : Int) := ne_of_lt halloc
    obtain ⟨eo, en, hsp, hperm, hen, hb1, hb2, hf1, hf2⟩ :=
      split_leaf_spec cfg hcl hD (bm.page pid) (SortedPage.init NodeType.LEAF_NODE) k rid hidx hfit
        hfull rfl rfl
    have hord := split_leaf_order cfg _ _ _ _ k rid rfl hsp
    simp only at hord
    obtain ⟨first, rest, hfr⟩ : ∃ first rest, en = first :: rest := by
      cases en with
      | nil => exact absurd rfl hen
      | cons a l => exact ⟨a, l, rfl⟩
    refine ⟨((bm.NewPage NodeType.LEAF_NODE).2.set pid
        { ({ bm.page pid with leaf := eo } : SortedPage) with nextPage := (bm.nextPid : Int) }).set
          (bm.nextPid : Int)
          { ({ SortedPage.init NodeType.LEAF_NODE with leaf := en } : SortedPage) with
            prevPage := pid },
      some (first.key, (bm.nextPid : Int)), ?_, ?_⟩
    · intro fuel hfuel
      obtain ⟨f, rfl⟩ : ∃ f, fuel = f + 1 := ⟨fuel - 1, by omega⟩
      unfold BTreeFile.InsertHelper
      simp only [hnot, if_false, hfull, if_true, BufMgr.newPage_fst, BufMgr.newPage_page, hne,
        hsp, BTLeafPage.GetFirst, hfr, List.head?_cons]
    · have hlen : eo.length + en.length = (bm.page pid).leaf.length + 1 := by
        have := hperm.length_eq
        simpa using this
      have hpos : 1 ≤ (bm.page pid).leaf.length := by
        have hfull' := hfull
        rw [leaf_avail hidx] at hfull'
        by_contra h
        have h0 : (bm.page pid).leaf.length = 0 := by omega
        rw [h0] at hfull'
        simp at hfull'
        omega
      have heo : eo ≠ [] := by
        intro h0
        rw [h0] at hlen hb2
        simp at hlen hb2
        omega
      obtain ⟨x, xs, hx⟩ : ∃ x xs, eo = x :: xs := by
        cases eo with
        | nil => exact absurd rfl heo
        | cons a l => exact ⟨a, l, rfl⟩
      have hmem : ∀ y ∈ eo ++ en, y = ⟨k, rid⟩ ∨ y ∈ (bm.page pid).leaf := by
        intro y hy
        exact List.mem_cons.1 (hperm.subset hy)
      have hkeys : ((eo ++ en).map LeafEntry.key).Nodup := by
        have := (hperm.map LeafEntry.key).nodup_iff.2 (by simpa using hnd)
        exact this
      have hinlo : ∀ y ∈ eo ++ en, geLo lo y.key = true ∧ ltHi hi y.key = true := by
        intro y hy
        rcases hmem y hy with h1 | h1
        · subst h1; exact ⟨hlo, hhi⟩
        · have := hrange y h1
          simpa using this
      have hfirst_mem : first ∈ eo ++ en := by rw [hfr]; simp
      have hx_mem : x ∈ eo ++ en := by rw [hx]; simp
      have hle : x.key ≤ first.key := hord x (by rw [hx]; simp) first (by rw [hfr]; simp)
      have hneq : x.key ≠ first.key := by
        rw [hx, hfr] at hkeys
        simp only [List.cons_append, List.map_cons, List.map_append, List.nodup_cons,
          List.mem_append, List.mem_cons, List.mem_map] at hkeys
        intro h
        exact hkeys.1 (Or.inr (Or.inl h))
      refine ⟨by simp, ?_, ?_, ?_, ?_, ?_, ?_, ?_, ?_⟩
      · intro q hq _
        simp only [subtreePages, List.mem_singleton] at hq
        have : q ≠ (bm.nextPid : Int) := by omega
        simp [hq, this]
      · intro F _ q hq
        have ht' : ((((bm.NewPage NodeType.LEAF_NODE).2.set pid
          { ({ bm.page pid with leaf := eo } : SortedPage) with nextPage := (bm.nextPid : Int) }).set
          (bm.nextPid : Int)
          { ({ SortedPage.init NodeType.LEAF_NODE with leaf := en } : SortedPage) with
            prevPage := pid }).page pid).type = NodeType.LEAF_NODE := by
          simp [hne, ht]
        left
        rw [treePages_leaf_mem ht' hq]
        simp [subtreePages]
      · have := (hinlo x hx_mem).1
        cases lo with
        | none => rfl
        | some l =>
          simp only [geLo, gtLo, decide_eq_true_eq] at this ⊢
          omega
      · exact (hinlo first hfirst_mem).2
      · exact le_refl _
      · simp
      · intro F _ q hq
        have ht' : ((((bm.NewPage NodeType.LEAF_NODE).2.set pid
          { ({ bm.page pid with leaf := eo } : SortedPage) with nextPage := (bm.nextPid : Int) }).set
          (bm.nextPid : Int)
          { ({ SortedPage.init NodeType.LEAF_NODE with leaf := en } : SortedPage) with
            prevPage := pid }).page (bm.nextPid : Int)).type = NodeType.LEAF_NODE := by
          simp [SortedPage.init]
        right
        rw [treePages_leaf_mem ht' hq]
        simp
      · refine ⟨eo, en, ?_, hperm⟩
        intro F hF
        obtain ⟨f, rfl⟩ : ∃ f, F = f + 1 := ⟨F - 1, by omega⟩
        constructor
        · rw [subtreeEntries_leaf (by simp [hne, ht])]
          simp [hne]
        · rw [subtreeEntries_leaf (by simp [SortedPage.init])]
          simp
  · -- room in the leaf
    refine ⟨bm.set pid (BTLeafPage.Insert cfg (bm.page pid) k rid).2, none, ?_, ?_⟩
    · intro fuel hfuel
      obtain ⟨f, rfl⟩ : ∃ f, fuel = f + 1 := ⟨fuel - 1, by omega⟩
      unfold BTreeFile.InsertHelper
      simp only [hnot, if_false, hfull]
    · rw [leaf_insert_ok k rid hfull]
      refine ⟨by simp, ?_, ?_, ?_⟩
      · intro q hq _
        simp only [subtreePages, List.mem_singleton] at hq
        simp [hq]
      · intro F _ q hq
        left
        rw [treePages_leaf_mem (by simp [ht]) hq]
        simp [subtreePages]
      · refine ⟨insertSorted LeafEntry.key ⟨k, rid⟩ (bm.page pid).leaf, ?_, insertSorted_perm _ _ _⟩
        intro F hF
        obtain ⟨f, rfl⟩ : ∃ f, F = f + 1 := ⟨F - 1, by omega⟩
        rw [subtreeEntries_leaf (by simp [ht])]
        simp

theorem findChild_spec (cfg : Cfg) (bm : BufMgr) (h : Nat) (pid : PageID) (lo hi : Option Int)
    (k : Int) (hwf : wfSubtree cfg bm (h + 1) pid lo hi = true)
    (hlo : geLo lo k = true) (hhi : ltHi hi k = true) :
    ∃ found lc hc, BTIndexPage.FindPageWithKey (bm.page pid) k = some found
      ∧ found.pid ∈ (bm.page pid).children
      ∧ wfSubtree cfg bm h found.pid lc hc = true
      ∧ geLo lc k = true ∧ ltHi hc k = true
      ∧ ∀ x, gtLo lc x = true → ltHi hc x = true →
          gtLo lo x = true ∧ ltHi hi x = true ∧ ∀ e ∈ (bm.page pid).index, e.key ≠ x := by
  obtain ⟨_, _, hne, _, hasc, hsep, hleft, hch⟩ := wfSubtree_succ.1 hwf
  cases hidx : (bm.page pid).index with
  | nil => exact absurd hidx hne
  | cons e0 rest =>
    rw [hidx] at hasc hsep hleft hch
    unfold BTIndexPage.FindPageWithKey
    rw [hidx]
    simp only
    obtain ⟨hlt0, hasc0⟩ := strictAscending_cons (by simpa using hasc)
    by_cases hk : k < e0.key
    · simp only [hk, if_true]
      refine ⟨_, lo, some e0.key, rfl, ?_, ?_, hlo, by simp [ltHi, hk], ?_⟩
      · simp [SortedPage.children]
      · simpa using hleft
      · intro x hx hxh
        simp only [ltHi, decide_eq_true_eq] at hxh
        refine ⟨hx, ?_, ?_⟩
        · have := (hsep e0 (List.mem_cons_self _ _)).2
          cases hi with
          | none => rfl
          | some hv =>
            simp only [ltHi, decide_eq_true_eq] at this ⊢
            omega
        · intro e he
          rcases List.mem_cons.1 he with h1 | h1
          · rw [h1]; omega
          · have := hlt0 e.key (List.mem_map_of_mem _ h1)
            omega
    · simp only [hk, if_false]
      obtain ⟨hc, h1, h2, h3, h4, h5⟩ := findLoop_spec (wfSubtree cfg bm h) hi k hhi rest e0 ⟨0, 0⟩
        hk (by simpa using hasc) (fun e he => (hsep e he).2) hch
      refine ⟨_, some (BTIndexPage.FindPageWithKey.loop k ⟨0, 0⟩ e0 rest).key, hc, rfl, ?_, h1,
        by simp [geLo, h3], h4, ?_⟩
      · simp only [SortedPage.children, hidx]
        exact List.mem_cons_of_mem _ (List.mem_map_of_mem _ h2)
      · intro x hx hxh
        simp only [gtLo, decide_eq_true_eq] at hx
        obtain ⟨h6, h7⟩ := h5 x hx hxh
        refine ⟨?_, h6, h7⟩
        have := (hsep _ h2).1
        cases lo with
        | none => rfl
        | some l =>
          simp only [gtLo, decide_eq_true_eq] at this ⊢
          omega

theorem children_wf (cfg : Cfg) (bm : BufMgr) (h : Nat) (pid : PageID) (lo hi : Option Int)
    (hwf : wfSubtree cfg bm (h + 1) pid lo hi = true) :
    ∀ d ∈ (bm.page pid).children, ∃ lc hc, wfSubtree cfg bm h d lc hc = true := by
  obtain ⟨_, _, _, _, _, _, hleft, hch⟩ := wfSubtree_succ.1 hwf
  intro d hd
  simp only [SortedPage.children, List.mem_cons, List.mem_map] at hd
  rcases hd with hd | ⟨e, he, hd⟩
  · subst hd
    exact ⟨_, _, hleft⟩
  · subst hd
    obtain ⟨hc, hw⟩ := wfChildren_mem _ _ _ hch e he
    exact ⟨_, _, hw⟩

theorem subtreePages_self (bm : BufMgr) (h : Nat) (pid : PageID) :
    pid ∈ subtreePages bm h pid := by
  cases h with
  | zero => simp [subtreePages]
  | succ h => rw [subtreePages_succ]; exact List.mem_cons_self _ _

theorem children_nodup (bm : BufMgr) (h : Nat) (C : List PageID)
    (hn : (C.flatMap (subtreePages bm h)).Nodup) :
    C.Nodup ∧ (∀ d ∈ C, (subtreePages bm h d).Nodup)
      ∧ ∀ c ∈ C, ∀ d ∈ C, c ≠ d → ∀ q ∈ subtreePages bm h d, q ∉ subtreePages bm h c := by
  obtain ⟨h1, h2⟩ := List.nodup_flatMap.1 hn
  refine ⟨?_, h1, ?_⟩
  · refine List.Pairwise.imp_of_mem ?_ h2
    intro a b _ _ hdis hab
    subst hab
    exact hdis (subtreePages_self bm h a) (subtreePages_self bm h a)
  · intro c hc d hd hcd q hq hq'
    have hsym : Symmetric (Function.onFun List.Disjoint (subtreePages bm h)) := by
      intro a b hab
      exact List.Disjoint.symm hab
    exact (List.Pairwise.forall hsym h2 hc hd hcd) hq' hq

theorem flatMap_erase_perm {β : Type} (C : List PageID) (c : PageID) (hc : c ∈ C)
    (G : PageID → List β) :
    List.Perm (C.flatMap G) (G c ++ (C.erase c).flatMap G) := by
  have := List.Perm.flatMap_right G (List.perm_cons_erase hc)
  simpa using this

theorem flatMap_replace_perm {β : Type} (C : List PageID) (hC : C.Nodup) (c : PageID)
    (hc : c ∈ C) (g G : PageID → List β) (hG : ∀ d ∈ C, d ≠ c → G d = g d)
    (X : List β) (a : β) (hp : List.Perm (G c ++ X) (a :: g c)) :
    List.Perm (X ++ C.flatMap G) (a :: C.flatMap g) := by
  have h1 := flatMap_erase_perm C c hc G
  have h2 := flatMap_erase_perm C c hc g
  have h3 : (C.erase c).flatMap G = (C.erase c).flatMap g := by
    apply List.flatMap_congr
    intro d hd
    obtain ⟨hdc, hdC⟩ := (List.Nodup.mem_erase_iff hC).1 hd
    exact hG d hdC hdc
  rw [h3] at h1
  have h4 : List.Perm (X ++ C.flatMap G) (X ++ (G c ++ (C.erase c).flatMap g)) :=
    List.Perm.append_left _ h1
  refine h4.trans ?_
  have h5 : List.Perm (X ++ (G c ++ (C.erase c).flatMap g))
      ((G c ++ X) ++ (C.erase c).flatMap g) := by
    rw [← List.append_assoc]
    exact List.Perm.append_right _ List.perm_append_comm
  refine h5.trans ?_
  have h6 : List.Perm ((G c ++ X) ++ (C.erase c).flatMap g)
      ((a :: g c) ++ (C.erase c).flatMap g) := List.Perm.append_right _ hp
  refine h6.trans ?_
  exact List.Perm.cons a h2.symm

theorem index_node_obs (B : BufMgr) (q : PageID) (h : Nat) (G : PageID → List LeafEntry)
    (P : PageID → Prop) (ht : (B.page q).type = NodeType.INDEX_NODE) (hq : P q)
    (hG : ∀ d ∈ (B.page q).children, ∀ F, h + 1 ≤ F →
      subtreeEntries B F d = some (G d) ∧ ∀ x ∈ treePages B F d, P x) :
    ∀ F, h + 2 ≤ F →
      subtreeEntries B F q = some ((B.page q).children.flatMap G)
        ∧ ∀ x ∈ treePages B F q, P x := by
  intro F hF
  obtain ⟨f, rfl⟩ : ∃ f, F = f + 1 := ⟨F - 1, by omega⟩
  have hnl : ¬ (B.page q).type = NodeType.LEAF_NODE := by rw [ht]; simp
  constructor
  · rw [subtreeEntries_index hnl]
    exact concatAll_map_some _ _ _ (fun d hd => (hG d hd f (by omega)).1)
  · rw [treePages_index hnl]
    intro x hx
    rcases List.mem_cons.1 hx with hx | hx
    · rw [hx]; exact hq
    · obtain ⟨d, hd, hxd⟩ := List.mem_flatMap.1 hx
      exact (hG d hd f (by omega)).2 x hxd

/-- The entries and the footprint of the children that an insertion below the
child `c` does not reach. -/
theorem sibling_frame (cfg : Cfg) (bm bm1 : BufMgr) (h : Nat) (c : PageID) (C : List PageID)
    (hwfC : ∀ d ∈ C, ∃ lc hc, wfSubtree cfg bm h d lc hc = true)
    (hdisj : ∀ c ∈ C, ∀ d ∈ C, c ≠ d → ∀ q ∈ subtreePages bm h d, q ∉ subtreePages bm h c)
    (halloc : ∀ q ∈ C.flatMap (subtreePages bm h), q < (bm.nextPid : Int))
    (hc : c ∈ C)
    (hframe : ∀ q : Int, q ∉ subtreePages bm h c → q < (bm.nextPid : Int) →
      bm1.page q = bm.page q) :
    ∀ d ∈ C, d ≠ c → ∀ F, h + 1 ≤ F →
      subtreeEntries bm1 F d = some ((subtreeEntries bm (h + 1) d).getD [])
        ∧ ∀ x ∈ treePages bm1 F d, x ∈ C.flatMap (subtreePages bm h) := by
  intro d hd hdc F hF
  obtain ⟨lc, hc', hw⟩ := hwfC d hd
  obtain ⟨htp, es, hes⟩ := wf_traverse cfg bm h d lc hc' hw
  have hfr := traverse_frame bm bm1 F d (by
    intro q hq
    rw [htp F hF] at hq
    exact hframe q (hdisj c hc d hd (Ne.symm hdc) q hq)
      (halloc q (List.mem_flatMap.2 ⟨d, hd, hq⟩)))
  rw [hfr.1, hfr.2, hes F hF, hes (h + 1) (le_refl _), htp F hF]
  refine ⟨rfl, ?_⟩
  intro x hx
  exact List.mem_flatMap.2 ⟨d, hd, hx⟩

/-- The insertion below a child that did not split: the parent is untouched. -/
theorem insertPost_parent_none (cfg : Cfg) (bm bm1 : BufMgr) (h : Nat) (pid c : PageID)
    (lo hi lc hc : Option Int) (k : Int) (rid : RecordID) (es : List LeafEntry)
    (hwf : wfSubtree cfg bm (h + 1) pid lo hi = true)
    (hnd : (subtreePages bm (h + 1) pid).Nodup)
    (halloc : ∀ q ∈ subtreePages bm (h + 1) pid, q < (bm.nextPid : Int))
    (hes : subtreeEntries bm (h + 2) pid = some es)
    (hcC : c ∈ (bm.page pid).children)
    (hpost : InsertPost bm h c lc hc k rid ((subtreeEntries bm (h + 1) c).getD []) bm1 none) :
    InsertPost bm (h + 1) pid lo hi k rid es bm1 none := by
  obtain ⟨hmono, hframe, hfoot, es', hes', hperm⟩ := hpost
  obtain ⟨ht, _, _, _, _, _, _, _⟩ := wfSubtree_succ.1 hwf
  have hnl : ¬ (bm.page pid).type = NodeType.LEAF_NODE := by rw [ht]; simp
  rw [subtreePages_succ] at hnd halloc
  obtain ⟨hpidn, hCn⟩ := List.nodup_cons.1 hnd
  obtain ⟨hCnd, hSPnd, hdisj⟩ := children_nodup bm h _ hCn
  have hwfC := children_wf cfg bm h pid lo hi hwf
  have hsub : ∀ q ∈ subtreePages bm h c, q ∈ (bm.page pid).children.flatMap (subtreePages bm h) :=
    fun q hq => List.mem_flatMap.2 ⟨c, hcC, hq⟩
  have hpage : bm1.page pid = bm.page pid :=
    hframe pid (fun hq => hpidn (hsub pid hq)) (halloc pid (List.mem_cons_self _ _))
  have hsib := sibling_frame cfg bm bm1 h c _ hwfC hdisj
    (fun q hq => halloc q (List.mem_cons_of_mem _ hq)) hcC hframe
  -- the entries of the old tree
  have hes0 : es = (bm.page pid).children.flatMap
      (fun d => (subtreeEntries bm (h + 1) d).getD []) := by
    rw [subtreeEntries_index hnl] at hes
    rw [concatAll_map_some _ (fun d => (subtreeEntries bm (h + 1) d).getD []) _ (by
      intro d hd
      obtain ⟨lc', hc', hw⟩ := hwfC d hd
      obtain ⟨_, es0, hes0⟩ := wf_traverse cfg bm h d lc' hc' hw
      simp only [hes0 (h + 1) (le_refl _), Option.getD_some])] at hes
    exact (Option.some.inj hes).symm
  have hobs := index_node_obs bm1 pid h
    (fun d => if d = c then es' else (subtreeEntries bm (h + 1) d).getD [])
    (fun x => x ∈ subtreePages bm (h + 1) pid
      ∨ ((bm.nextPid : Int) ≤ x ∧ x < (bm1.nextPid : Int)))
    (by rw [hpage]; exact ht)
    (Or.inl (subtreePages_self bm (h + 1) pid))
    (by
      rw [hpage]
      intro d hd F hF
      by_cases hdc : d = c
      · subst hdc
        simp only [if_true]
        refine ⟨hes' F hF, ?_⟩
        intro x hx
        rcases hfoot F hF x hx with h1 | h1
        · left
          rw [subtreePages_succ]
          exact List.mem_cons_of_mem _ (hsub x h1)
        · exact Or.inr h1
      · simp only [hdc, if_false]
        refine ⟨(hsib d hd hdc F hF).1, ?_⟩
        intro x hx
        left
        rw [subtreePages_succ]
        exact List.mem_cons_of_mem _ ((hsib d hd hdc F hF).2 x hx))
  rw [hpage] at hobs
  refine ⟨hmono, ?_, ?_, _, fun F hF => (hobs F hF).1, ?_⟩
  · intro q hq hql
    refine hframe q (fun hq' => hq ?_) hql
    rw [subtreePages_succ]
    exact List.mem_cons_of_mem _ (hsub q hq')
  · intro F hF q hq
    exact (hobs F hF).2 q hq
  · rw [hes0]
    have := flatMap_replace_perm (bm.page pid).children hCnd c hcC
      (fun d => (subtreeEntries bm (h + 1) d).getD [])
      (fun d => if d = c then es' else (subtreeEntries bm (h + 1) d).getD [])
      (fun d _ hdc => by simp [hdc]) [] ⟨k, rid⟩ (by simpa using hperm)
    simpa using this

theorem child_obs_lift (bm1 B : BufMgr) (pid : PageID)
    (hB : ∀ x : Int, x ≠ pid → x < (bm1.nextPid : Int) → B.page x = bm1.page x)
    (F : Nat) (d : PageID) (r : List LeafEntry) (P : PageID → Prop)
    (hK : subtreeEntries bm1 F d = some r
      ∧ ∀ x ∈ treePages bm1 F d, x ≠ pid ∧ x < (bm1.nextPid : Int) ∧ P x) :
    subtreeEntries B F d = some r ∧ ∀ x ∈ treePages B F d, P x := by
  have hfr := traverse_frame bm1 B F d (fun q hq => hB q (hK.2 q hq).1 (hK.2 q hq).2.1)
  rw [hfr.1, hfr.2]
  exact ⟨hK.1, fun x hx => (hK.2 x hx).2.2⟩

/-- The insertion below a child that split: what the parent finds in the pool
before it takes up the promoted entry. -/
theorem child_split_facts (cfg : Cfg) (bm bm1 : BufMgr) (h : Nat) (pid c : PageID)
    (lo hi lc hc : Option Int) (k : Int) (rid : RecordID) (es : List LeafEntry)
    (pk : Int) (np : PageID)
    (hwf : wfSubtree cfg bm (h + 1) pid lo hi = true)
    (hnd : (subtreePages bm (h + 1) pid).Nodup)
    (halloc : ∀ q ∈ subtreePages bm (h + 1) pid, q < (bm.nextPid : Int))
    (hes : subtreeEntries bm (h + 2) pid = some es)
    (hcC : c ∈ (bm.page pid).children)
    (hpost : InsertPost bm h c lc hc k rid ((subtreeEntries bm (h + 1) c).getD []) bm1
      (some (pk, np))) :
    bm1.page pid = bm.page pid ∧ pid < (bm.nextPid : Int)
      ∧ (∀ q : Int, q ∉ subtreePages bm (h + 1) pid → q < (bm.nextPid : Int) →
          bm1.page q = bm.page q)
      ∧ ∃ G : PageID → List LeafEntry,
        (∀ d ∈ np :: (bm.page pid).children, ∀ F, h + 1 ≤ F →
          subtreeEntries bm1 F d = some (G d)
            ∧ ∀ x ∈ treePages bm1 F d, x ≠ pid ∧ x < (bm1.nextPid : Int)
                ∧ (x ∈ subtreePages bm (h + 1) pid
                    ∨ ((bm.nextPid : Int) ≤ x ∧ x < (bm1.nextPid : Int))))
        ∧ List.Perm ((np :: (bm.page pid).children).flatMap G) (⟨k, rid⟩ :: es) := by
  obtain ⟨hmono, hframe, hfoot, _, _, hnplo, hnphi, hfootn, e1, e2, hes', hperm⟩ := hpost
  obtain ⟨ht, _, _, _, _, _, _, _⟩ := wfSubtree_succ.1 hwf
  have hnl : ¬ (bm.page pid).type = NodeType.LEAF_NODE := by rw [ht]; simp
  have hpidlt : pid < (bm.nextPid : Int) := halloc pid (subtreePages_self bm (h + 1) pid)
  have hmono' : (bm.nextPid : Int) ≤ (bm1.nextPid : Int) := by exact_mod_cast hmono
  have hsp := subtreePages_succ bm h pid
  rw [subtreePages_succ] at hnd halloc
  obtain ⟨hpidn, hCn⟩ := List.nodup_cons.1 hnd
  obtain ⟨hCnd, hSPnd, hdisj⟩ := children_nodup bm h _ hCn
  have hwfC := children_wf cfg bm h pid lo hi hwf
  have hsub : ∀ q ∈ subtreePages bm h c, q ∈ (bm.page pid).children.flatMap (subtreePages bm h) :=
    fun q hq => List.mem_flatMap.2 ⟨c, hcC, hq⟩
  have hpage : bm1.page pid = bm.page pid :=
    hframe pid (fun hq => hpidn (hsub pid hq)) hpidlt
  have hsib := sibling_frame cfg bm bm1 h c _ hwfC hdisj
    (fun q hq => halloc q (List.mem_cons_of_mem _ hq)) hcC hframe
  have hes0 : es = (bm.page pid).children.flatMap
      (fun d => (subtreeEntries bm (h + 1) d).getD []) := by
    rw [subtreeEntries_index hnl] at hes
    rw [concatAll_map_some _ (fun d => (subtreeEntries bm (h + 1) d).getD []) _ (by
      intro d hd
      obtain ⟨lc', hc', hw⟩ := hwfC d hd
      obtain ⟨_, es0, hes0⟩ := wf_traverse cfg bm h d lc' hc' hw
      simp only [hes0 (h + 1) (le_refl _), Option.getD_some])] at hes
    exact (Option.some.inj hes).symm
  have hCalloc : ∀ d ∈ (bm.page pid).children, d < (bm.nextPid : Int) := fun d hd =>
    halloc d (List.mem_cons_of_mem _ (List.mem_flatMap.2 ⟨d, hd, subtreePages_self bm h d⟩))
  have hnpC : np ∉ (bm.page pid).children := by
    intro hin
    exact absurd (hCalloc np hin) (not_lt.2 hnplo)
  have hold : ∀ x ∈ (bm.page pid).children.flatMap (subtreePages bm h),
      x ≠ pid ∧ x < (bm1.nextPid : Int) ∧ (x ∈ subtreePages bm (h + 1) pid
        ∨ ((bm.nextPid : Int) ≤ x ∧ x < (bm1.nextPid : Int))) := by
    intro x hx
    refine ⟨fun hxp => hpidn (hxp ▸ hx), ?_, Or.inl ?_⟩
    · exact lt_of_lt_of_le (halloc x (List.mem_cons_of_mem _ hx)) hmono'
    · rw [hsp]
      exact List.mem_cons_of_mem _ hx
  have hnew : ∀ x : Int, (bm.nextPid : Int) ≤ x ∧ x < (bm1.nextPid : Int) →
      x ≠ pid ∧ x < (bm1.nextPid : Int) ∧ (x ∈ subtreePages bm (h + 1) pid
        ∨ ((bm.nextPid : Int) ≤ x ∧ x < (bm1.nextPid : Int))) := by
    intro x hx
    refine ⟨?_, hx.2, Or.inr hx⟩
    intro hxp
    rw [hxp] at hx
    exact absurd hpidlt (not_lt.2 hx.1)
  refine ⟨hpage, hpidlt, ?_, fun d => if d = np then e2 else if d = c then e1
    else (subtreeEntries bm (h + 1) d).getD [], ?_, ?_⟩
  · intro q hq hql
    refine hframe q (fun hq' => hq ?_) hql
    rw [hsp]
    exact List.mem_cons_of_mem _ (hsub q hq')
  · intro d hd F hF
    by_cases hdn : d = np
    · subst hdn
      simp only [if_true]
      refine ⟨(hes' F hF).2, ?_⟩
      intro x hx
      rcases hfootn F hF x hx with h1 | h1
      · exact hold x (hsub x h1)
      · exact hnew x h1
    · have hdC : d ∈ (bm.page pid).children := by
        rcases List.mem_cons.1 hd with h1 | h1
        · exact absurd h1 hdn
        · exact h1
      by_cases hdc : d = c
      · subst hdc
        simp only [hdn, if_false, if_true]
        refine ⟨(hes' F hF).1, ?_⟩
        intro x hx
        rcases hfoot F hF x hx with h1 | h1
        · exact hold x (hsub x h1)
        · exact hnew x h1
      · simp only [hdn, hdc, if_false]
        refine ⟨(hsib d hdC hdc F hF).1, ?_⟩
        intro x hx
        exact hold x ((hsib d hdC hdc F hF).2 x hx)
  · rw [hes0, List.flatMap_cons]
    simp only [if_true]
    have hcn : c ≠ np := fun hcn => hnpC (hcn ▸ hcC)
    have h1 : (bm.page pid).children.flatMap (fun d => if d = np then e2 else if d = c then e1
        else (subtreeEntries bm (h + 1) d).getD [])
        = (bm.page pid).children.flatMap (fun d => if d = c then e1
        else (subtreeEntries bm (h + 1) d).getD []) := by
      apply List.flatMap_congr
      intro d hd
      have : d ≠ np := fun hdn => hnpC (hdn ▸ hd)
      simp [this]
    rw [h1]
    exact flatMap_replace_perm (bm.page pid).children hCnd c hcC
      (fun d => (subtreeEntries bm (h + 1) d).getD [])
      (fun d => if d = c then e1 else (subtreeEntries bm (h + 1) d).getD [])
      (fun d _ hdc => by simp [hdc]) e2 ⟨k, rid⟩ (by simpa using hperm)

theorem insertPost_parent_room (bm bm1 : BufMgr) (h : Nat) (pid : PageID)
    (lo hi : Option Int) (k : Int) (rid : RecordID) (es : List LeafEntry)
    (pk : Int) (np : PageID)
    (ht : (bm.page pid).type = NodeType.INDEX_NODE)
    (hmono : bm.nextPid ≤ bm1.nextPid)
    (hframe : ∀ q : Int, q ∉ subtreePages bm (h + 1) pid → q < (bm.nextPid : Int) →
      bm1.page q = bm.page q)
    (G : PageID → List LeafEntry)
    (hK : ∀ d ∈ np :: (bm.page pid).children, ∀ F, h + 1 ≤ F →
      subtreeEntries bm1 F d = some (G d)
        ∧ ∀ x ∈ treePages bm1 F d, x ≠ pid ∧ x < (bm1.nextPid : Int)
            ∧ (x ∈ subtreePages bm (h + 1) pid
                ∨ ((bm.nextPid : Int) ≤ x ∧ x < (bm1.nextPid : Int))))
    (hperm : List.Perm ((np :: (bm.page pid).children).flatMap G) (⟨k, rid⟩ :: es)) :
    InsertPost bm (h + 1) pid lo hi k rid es
      (bm1.set pid { bm.page pid with
        index := insertSorted IndexEntry.key ⟨pk, np⟩ (bm.page pid).index }) none := by
  have hB : ∀ x : Int, x ≠ pid → x < (bm1.nextPid : Int) →
      (bm1.set pid { bm.page pid with
        index := insertSorted IndexEntry.key ⟨pk, np⟩ (bm.page pid).index }).page x
        = bm1.page x := by
    intro x hx _
    simp [hx]
  have hch : List.Perm
      ({ bm.page pid with
        index := insertSorted IndexEntry.key ⟨pk, np⟩ (bm.page pid).index } : SortedPage).children
      (np :: (bm.page pid).children) := by
    simp only [SortedPage.children, BTIndexPage.GetLeftLink]
    have h1 : List.Perm ((insertSorted IndexEntry.key ⟨pk, np⟩ (bm.page pid).index).map
        IndexEntry.pid) (np :: (bm.page pid).index.map IndexEntry.pid) :=
      (insertSorted_perm IndexEntry.key ⟨pk, np⟩ (bm.page pid).index).map IndexEntry.pid
    exact (List.Perm.cons _ h1).trans (List.Perm.swap _ _ _)
  have hobs := index_node_obs (bm1.set pid { bm.page pid with
        index := insertSorted IndexEntry.key ⟨pk, np⟩ (bm.page pid).index }) pid h G
    (fun x => x ∈ subtreePages bm (h + 1) pid
      ∨ ((bm.nextPid : Int) ≤ x ∧ x < (bm1.nextPid : Int)))
    (by simp [ht])
    (Or.inl (subtreePages_self bm (h + 1) pid))
    (by
      intro d hd F hF
      simp only [BufMgr.set_page, if_true] at hd
      exact child_obs_lift bm1 _ pid hB F d (G d) _ (hK d (hch.subset hd) F hF))
  simp only [BufMgr.set_page, if_true] at hobs
  refine ⟨by simpa using hmono, ?_, ?_, _, fun F hF => (hobs F hF).1, ?_⟩
  · intro q hq hql
    have hqp : q ≠ pid := fun hqp => hq (hqp ▸ subtreePages_self bm (h + 1) pid)
    simp only [BufMgr.set_page, hqp, if_false]
    exact hframe q hq hql
  · intro F hF q hq
    simpa using (hobs F hF).2 q hq
  · exact (List.Perm.flatMap_right G hch).trans hperm

theorem insertPost_parent_split (bm bm1 : BufMgr) (h : Nat) (pid : PageID)
    (lo hi : Option Int) (k : Int) (rid : RecordID) (es : List LeafEntry)
    (pk : Int) (np : PageID)
    (ht : (bm.page pid).type = NodeType.INDEX_NODE)
    (hpidlt : pid < (bm.nextPid : Int))
    (hmono : bm.nextPid ≤ bm1.nextPid)
    (hframe : ∀ q : Int, q ∉ subtreePages bm (h + 1) pid → q < (bm.nextPid : Int) →
      bm1.page q = bm.page q)
    (G : PageID → List LeafEntry)
    (hK : ∀ d ∈ np :: (bm.page pid).children, ∀ F, h + 1 ≤ F →
      subtreeEntries bm1 F d = some (G d)
        ∧ ∀ x ∈ treePages bm1 F d, x ≠ pid ∧ x < (bm1.nextPid : Int)
            ∧ (x ∈ subtreePages bm (h + 1) pid
                ∨ ((bm.nextPid : Int) ≤ x ∧ x < (bm1.nextPid : Int))))
    (hperm : List.Perm ((np :: (bm.page pid).children).flatMap G) (⟨k, rid⟩ :: es))
    (eo en : List IndexEntry) (lnk : PageID) (pk2 : Int)
    (hpc : List.Perm (eo ++ (⟨pk2, lnk⟩ : IndexEntry) :: en) (⟨pk, np⟩ :: (bm.page pid).index))
    (hlo2 : gtLo lo pk2 = true) (hhi2 : ltHi hi pk2 = true) :
    InsertPost bm (h + 1) pid lo hi k rid es
      (((bm1.NewPage NodeType.INDEX_NODE).2.set pid { bm.page pid with index := eo }).set
        (bm1.nextPid : Int)
        { SortedPage.init NodeType.INDEX_NODE with index := en, prevPage := lnk })
      (some (pk2, (bm1.nextPid : Int))) := by
  have hmono' : (bm.nextPid : Int) ≤ (bm1.nextPid : Int) := by exact_mod_cast hmono
  have hpn : pid ≠ (bm1.nextPid : Int) := ne_of_lt (lt_of_lt_of_le hpidlt hmono')
  have hB : ∀ x : Int, x ≠ pid → x < (bm1.nextPid : Int) →
      ((((bm1.NewPage NodeType.INDEX_NODE).2.set pid { bm.page pid with index := eo }).set
        (bm1.nextPid : Int)
        { SortedPage.init NodeType.INDEX_NODE with index := en, prevPage := lnk }).page x)
        = bm1.page x := by
    intro x hx hxl
    have : x ≠ (bm1.nextPid : Int) := ne_of_lt hxl
    simp [hx, this]
  have hch : List.Perm
      ((({ bm.page pid with index := eo } : SortedPage).children)
        ++ ({ SortedPage.init NodeType.INDEX_NODE with index := en, prevPage := lnk }
            : SortedPage).children)
      (np :: (bm.page pid).children) := by
    simp only [SortedPage.children, BTIndexPage.GetLeftLink, List.cons_append]
    have h1 : List.Perm (eo.map IndexEntry.pid ++ lnk :: en.map IndexEntry.pid)
        (np :: (bm.page pid).index.map IndexEntry.pid) := by
      have := hpc.map IndexEntry.pid
      simpa using this
    exact (List.Perm.cons _ h1).trans (List.Perm.swap _ _ _)
  have hP : ∀ x : Int, (x ∈ subtreePages bm (h + 1) pid
      ∨ ((bm.nextPid : Int) ≤ x ∧ x < (bm1.nextPid : Int))) →
      (x ∈ subtreePages bm (h + 1) pid
      ∨ ((bm.nextPid : Int) ≤ x ∧ x < ((bm1.nextPid + 1 : Nat) : Int))) := by
    intro x hx
    rcases hx with hx | hx
    · exact Or.inl hx
    · refine Or.inr ⟨hx.1, ?_⟩
      push_cast
      exact lt_of_lt_of_le hx.2 (by omega)
  have hlift : ∀ d ∈ np :: (bm.page pid).children, ∀ F, h + 1 ≤ F →
      subtreeEntries (((bm1.NewPage NodeType.INDEX_NODE).2.set pid
          { bm.page pid with index := eo }).set (bm1.nextPid : Int)
          { SortedPage.init NodeType.INDEX_NODE with index := en, prevPage := lnk }) F d
          = some (G d)
        ∧ ∀ x ∈ treePages (((bm1.NewPage NodeType.INDEX_NODE).2.set pid
          { bm.page pid with index := eo }).set (bm1.nextPid : Int)
          { SortedPage.init NodeType.INDEX_NODE with index := en, prevPage := lnk }) F d,
          (x ∈ subtreePages bm (h + 1) pid
            ∨ ((bm.nextPid : Int) ≤ x ∧ x < ((bm1.nextPid + 1 : Nat) : Int))) := by
    intro d hd F hF
    have := child_obs_lift bm1 _ pid hB F d (G d) _ (hK d hd F hF)
    exact ⟨this.1, fun x hx => hP x (this.2 x hx)⟩
  have hobs1 := index_node_obs (((bm1.NewPage NodeType.INDEX_NODE).2.set pid
          { bm.page pid with index := eo }).set (bm1.nextPid : Int)
          { SortedPage.init NodeType.INDEX_NODE with index := en, prevPage := lnk }) pid h G
    (fun x => x ∈ subtreePages bm (h + 1) pid
      ∨ ((bm.nextPid : Int) ≤ x ∧ x < ((bm1.nextPid + 1 : Nat) : Int)))
    (by simp [hpn, ht])
    (Or.inl (subtreePages_self bm (h + 1) pid))
    (by
      intro d hd F hF
      simp only [BufMgr.set_page, hpn, if_false, if_true] at hd
      exact hlift d (hch.subset (List.mem_append_left _ hd)) F hF)
  have hobs2 := index_node_obs (((bm1.NewPage NodeType.INDEX_NODE).2.set pid
          { bm.page pid with index := eo }).set (bm1.nextPid : Int)
          { SortedPage.init NodeType.INDEX_NODE with index := en, prevPage := lnk })
    (bm1.nextPid : Int) h G
    (fun x => x ∈ subtreePages bm (h + 1) pid
      ∨ ((bm.nextPid : Int) ≤ x ∧ x < ((bm1.nextPid + 1 : Nat) : Int)))
    (by simp [SortedPage.init])
    (by
      beta_reduce
      right
      refine ⟨hmono', ?_⟩
      push_cast
      exact lt_add_one _)
    (by
      intro d hd F hF
      simp only [BufMgr.set_page, if_true] at hd
      exact hlift d (hch.subset (List.mem_append_right _ hd)) F hF)
  simp only [BufMgr.set_page, hpn, if_false, if_true] at hobs1 hobs2
  refine ⟨by simp; omega, ?_, ?_, hlo2, hhi2, hmono', by simp, ?_, _, _,
    fun F hF => ⟨(hobs1 F hF).1, (hobs2 F hF).1⟩, ?_⟩
  · intro q hq hql
    have hqp : q ≠ pid := fun hqp => hq (hqp ▸ subtreePages_self bm (h + 1) pid)
    rw [hB q hqp (lt_of_lt_of_le hql hmono')]
    exact hframe q hq hql
  · intro F hF q hq
    simpa using (hobs1 F hF).2 q hq
  · intro F hF q hq
    simpa using (hobs2 F hF).2 q hq
  · rw [← List.flatMap_append]
    exact (List.Perm.flatMap_right G hch).trans hperm

theorem entries_index_wf (cfg : Cfg) (bm : BufMgr) (h : Nat) (pid : PageID) (lo hi : Option Int)
    (es : List LeafEntry) (hwf : wfSubtree cfg bm (h + 1) pid lo hi = true)
    (hes : subtreeEntries bm (h + 2) pid = some es) :
    (∀ d ∈ (bm.page pid).children,
        subtreeEntries bm (h + 1) d = some ((subtreeEntries bm (h + 1) d).getD []))
      ∧ es = (bm.page pid).children.flatMap (fun d => (subtreeEntries bm (h + 1) d).getD []) := by
  obtain ⟨ht, _, _, _, _, _, _, _⟩ := wfSubtree_succ.1 hwf
  have hnl : ¬ (bm.page pid).type = NodeType.LEAF_NODE := by rw [ht]; simp
  have hwfC := children_wf cfg bm h pid lo hi hwf
  have h1 : ∀ d ∈ (bm.page pid).children,
      subtreeEntries bm (h + 1) d = some ((subtreeEntries bm (h + 1) d).getD []) := by
    intro d hd
    obtain ⟨lc', hc', hw⟩ := hwfC d hd
    obtain ⟨_, es0, hes0⟩ := wf_traverse cfg bm h d lc' hc' hw
    simp only [hes0 (h + 1) (le_refl _), Option.getD_some]
  refine ⟨h1, ?_⟩
  rw [subtreeEntries_index hnl] at hes
  rw [concatAll_map_some _ (fun d => (subtreeEntries bm (h + 1) d).getD []) _ h1] at hes
  exact (Option.some.inj hes).symm

theorem insertHelper_post (cfg : Cfg) (hs : cfg.Sane) (k : Int) (rid : RecordID) :
    ∀ (h : Nat) (bm : BufMgr) (pid : PageID) (lo hi : Option Int) (es : List LeafEntry),
      wfSubtree cfg bm h pid lo hi = true → geLo lo k = true → ltHi hi k = true →
      (subtreePages bm h pid).Nodup →
      (∀ q ∈ subtreePages bm h pid, q < (bm.nextPid : Int)) →
      subtreeEntries bm (h + 1) pid = some es →
      (k :: es.map LeafEntry.key).Nodup →
      ∃ bm' res,
        (∀ fuel, h + 1 ≤ fuel → BTreeFile.InsertHelper cfg k rid fuel bm pid = some (bm', res))
          ∧ InsertPost bm h pid lo hi k rid es bm' res := by
  intro h
  induction h with
  | zero =>
    intro bm pid lo hi es hwf hlo hhi _ halloc hes hkeys
    have ht := (wfSubtree_zero.1 hwf).1
    rw [subtreeEntries_leaf ht] at hes
    have hes' := Option.some.inj hes
    subst hes'
    exact insertHelper_leaf cfg hs bm pid lo hi k rid hwf hlo hhi
      (halloc pid (subtreePages_self bm 0 pid)) hkeys
  | succ h ih =>
    intro bm pid lo hi es hwf hlo hhi hnd halloc hes hkeys
    obtain ⟨ht, hleaf, hne, hfit, hasc, hsep, _, _⟩ := wfSubtree_succ.1 hwf
    obtain ⟨found, lc, hc, hfind, hcC, hwfc, hlc, hhc, hnar⟩ :=
      findChild_spec cfg bm h pid lo hi k hwf hlo hhi
    obtain ⟨hsome, hes0⟩ := entries_index_wf cfg bm h pid lo hi es hwf hes
    have hnd' := hnd
    have halloc' := halloc
    rw [subtreePages_succ] at hnd' halloc'
    obtain ⟨_, hCn⟩ := List.nodup_cons.1 hnd'
    obtain ⟨hCnd, hSPnd, _⟩ := children_nodup bm h _ hCn
    have hkc : (k :: ((subtreeEntries bm (h + 1) found.pid).getD []).map LeafEntry.key).Nodup := by
      have hp := flatMap_erase_perm (bm.page pid).children found.pid hcC
        (fun d => (subtreeEntries bm (h + 1) d).getD [])
      rw [← hes0] at hp
      have h2 : (k :: (((subtreeEntries bm (h + 1) found.pid).getD [])
          ++ ((bm.page pid).children.erase found.pid).flatMap
            (fun d => (subtreeEntries bm (h + 1) d).getD [])).map LeafEntry.key).Nodup :=
        ((List.Perm.cons k (hp.map LeafEntry.key)).nodup_iff).1 hkeys
      refine List.Nodup.sublist ?_ h2
      rw [List.map_append]
      exact List.Sublist.cons₂ _ (List.sublist_append_left _ _)
    obtain ⟨bm1, res1, hrun1, hpost1⟩ := ih bm found.pid lc hc _ hwfc hlc hhc
      (hSPnd _ hcC)
      (fun q hq => halloc' q (List.mem_cons_of_mem _ (List.mem_flatMap.2 ⟨_, hcC, hq⟩)))
      (hsome _ hcC) hkc
    cases res1 with
    | none =>
      refine ⟨bm1, none, ?_, insertPost_parent_none cfg bm bm1 h pid found.pid lo hi lc hc k rid
        es hwf hnd halloc hes hcC hpost1⟩
      intro fuel hfuel
      obtain ⟨f, rfl⟩ : ∃ f, fuel = f + 1 := ⟨fuel - 1, by omega⟩
      unfold BTreeFile.InsertHelper
      simp only [ht, if_true, hfind, hrun1 f (by omega)]
    | some r =>
      obtain ⟨pk, np⟩ := r
      obtain ⟨hpage, hpidlt, hframe, G, hK, hperm⟩ := child_split_facts cfg bm bm1 h pid
        found.pid lo hi lc hc k rid es pk np hwf hnd halloc hes hcC hpost1
      have hmono := hpost1.1
      by_cases hfull : (bm.page pid).AvailableSpace cfg < cfg.sizeofIndexEntry
      · obtain ⟨_, _, hci, hD2⟩ := hs
        obtain ⟨eo, en, lnk, pk2, hsp, hpk, hpc, _, _, _, _⟩ :=
          split_index_spec cfg hci hD2 (bm.page pid) (SortedPage.init NodeType.INDEX_NODE) pk np
            hleaf hfit hfull rfl rfl
        obtain ⟨hpklo, hpkhi, hpkne⟩ := hnar pk hpost1.2.2.2.1 hpost1.2.2.2.2.1
        have hknd : (pk :: (bm.page pid).index.map IndexEntry.key).Nodup := by
          refine List.nodup_cons.2 ⟨?_, strictAscending_nodup hasc⟩
          intro hin
          obtain ⟨e, he, hek⟩ := List.mem_map.1 hin
          exact hpkne e he hek
        have hpk2 : pk2 ∈ pk :: (bm.page pid).index.map IndexEntry.key :=
          hpk.subset (List.mem_cons_self _ _)
        have hb2 : gtLo lo pk2 = true ∧ ltHi hi pk2 = true := by
          rcases List.mem_cons.1 hpk2 with h1 | h1
          · rw [h1]; exact ⟨hpklo, hpkhi⟩
          · obtain ⟨e, he, hek⟩ := List.mem_map.1 h1
            rw [← hek]
            exact hsep e he
        refine ⟨_, _, ?_, insertPost_parent_split bm bm1 h pid lo hi k rid es pk np ht hpidlt
          hmono hframe G hK hperm eo en lnk pk2 (hpc hknd) hb2.1 hb2.2⟩
        intro fuel hfuel
        obtain ⟨f, rfl⟩ : ∃ f, fuel = f + 1 := ⟨fuel - 1, by omega⟩
        unfold BTreeFile.InsertHelper
        simp only [ht, if_true, hfind, hrun1 f (by omega), hpage, hfull, BufMgr.newPage_fst,
          BufMgr.newPage_page, hsp]
      · refine ⟨_, _, ?_, insertPost_parent_room bm bm1 h pid lo hi k rid es pk np ht
          hmono hframe G hK hperm⟩
        intro fuel hfuel
        obtain ⟨f, rfl⟩ : ∃ f, fuel = f + 1 := ⟨fuel - 1, by omega⟩
        unfold BTreeFile.InsertHelper
        simp only [ht, if_true, hfind, hrun1 f (by omega), hpage, hfull, if_false,
          index_insert_ok pk np hfull]

theorem entries_fuel_ge (cfg : Cfg) (bm : BufMgr) :
    ∀ (h F : Nat) (pid : PageID) (lo hi : Option Int) (es : List LeafEntry),
      wfSubtree cfg bm h pid lo hi = true → subtreeEntries bm F pid = some es → h + 1 ≤ F := by
  intro h
  induction h with
  | zero =>
    intro F pid lo hi es _ hes
    cases F with
    | zero => simp [subtreeEntries] at hes
    | succ f => omega
  | succ h ih =>
    intro F pid lo hi es hwf hes
    cases F with
    | zero => simp [subtreeEntries] at hes
    | succ f =>
      obtain ⟨ht, _, _, _, _, _, hleft, _⟩ := wfSubtree_succ.1 hwf
      have hnl : ¬ (bm.page pid).type = NodeType.LEAF_NODE := by rw [ht]; simp
      rw [subtreeEntries_index hnl] at hes
      obtain ⟨y, hy⟩ := concatAll_some_inv _ _ _ hes (BTIndexPage.GetLeftLink (bm.page pid))
        (by simp [SortedPage.children])
      have := ih f _ _ _ y hleft hy
      omega

theorem insert_post (cfg : Cfg) (hs : cfg.Sane) (t : BTreeFile)
    (hwf : t.WellFormed cfg) (fuel : Nat) (es : List LeafEntry)
    (he : t.entries fuel = some es) (k : Int) (r : RecordID)
    (hd : (k :: es.map LeafEntry.key).Nodup) :
    ∃ t' es', BTreeFile.Insert cfg fuel t k r = some (Status.OK, t')
      ∧ t'.entries (fuel + 1) = some es' ∧ List.Perm es' (⟨k, r⟩ :: es) := by
  by_cases hroot : t.rootPid = INVALID_PAGE
  · -- the empty tree: a root leaf is created
    obtain ⟨hcl, hD, _, _⟩ := hs
    have hes : es = [] := by
      simp only [BTreeFile.entries, hroot, if_true, Option.some.injEq] at he
      exact he.symm
    subst hes
    have hroom : ¬ (SortedPage.init NodeType.LEAF_NODE).AvailableSpace cfg
        < cfg.sizeofLeafEntry := by
      simp [SortedPage.AvailableSpace, SortedPage.init]
      exact hD
    have hnr : ¬ ((t.bm.nextPid : Int) = INVALID_PAGE) := by
      simp only [INVALID_PAGE]
      omega
    refine ⟨BTreeFile.mk (t.bm.nextPid : Int)
        ((t.bm.NewPage NodeType.LEAF_NODE).2.set (t.bm.nextPid : Int)
          { SortedPage.init NodeType.LEAF_NODE with
            leaf := insertSorted LeafEntry.key ⟨k, r⟩ (SortedPage.init NodeType.LEAF_NODE).leaf }),
      [⟨k, r⟩], ?_, ?_, List.Perm.refl _⟩
    · unfold BTreeFile.Insert
      simp only [hroot, if_true, BufMgr.newPage_fst, BufMgr.newPage_page,
        leaf_insert_ok k r hroom]
    · simp only [BTreeFile.entries, hnr, if_false]
      rw [subtreeEntries_leaf (by simp [SortedPage.init])]
      simp [SortedPage.init, insertSorted]
  · rcases hwf with hwf | ⟨h, hwf⟩
    · exact absurd hwf hroot
    · simp only [BTreeFile.wellFormedAt, Bool.and_eq_true, decide_eq_true_eq,
        List.all_eq_true] at hwf
      obtain ⟨⟨⟨⟨⟨hw, hnd⟩, hal⟩, _⟩, _⟩, _⟩ := hwf
      simp only [BTreeFile.entries, hroot, if_false] at he
      have hfuel := entries_fuel_ge cfg t.bm h fuel t.rootPid none none es hw he
      obtain ⟨_, es0, hes0⟩ := wf_traverse cfg t.bm h t.rootPid none none hw
      have he1 : subtreeEntries t.bm (h + 1) t.rootPid = some es := by
        rw [hes0 (h + 1) (le_refl _), ← hes0 fuel hfuel, he]
      have halloc : ∀ q ∈ subtreePages t.bm h t.rootPid, q < (t.bm.nextPid : Int) :=
        fun q hq => (hal q hq).2
      obtain ⟨bm1, res, hrun, hmono, hframe, hfoot, hres⟩ :=
        insertHelper_post cfg hs k r h t.bm t.rootPid none none es hw rfl rfl hnd halloc he1 hd
      cases res with
      | none =>
        obtain ⟨es', hes', hperm⟩ := hres
        refine ⟨{ t with bm := bm1 }, es', ?_, ?_, hperm⟩
        · unfold BTreeFile.Insert
          simp only [hroot, if_false, hrun fuel hfuel]
        · simp only [BTreeFile.entries, hroot, if_false]
          exact hes' (fuel + 1) (by omega)
      | some kp =>
        obtain ⟨ck, cp⟩ := kp
        obtain ⟨_, _, hcplo, hcphi, hfootn, e1, e2, hes', hperm⟩ := hres
        obtain ⟨_, _, hci, hD2⟩ := hs
        have hmono' : (t.bm.nextPid : Int) ≤ (bm1.nextPid : Int) := by exact_mod_cast hmono
        have hroom : ¬ (BTIndexPage.SetLeftLink (SortedPage.init NodeType.INDEX_NODE)
            t.rootPid).AvailableSpace cfg < cfg.sizeofIndexEntry := by
          simp [SortedPage.AvailableSpace, SortedPage.init, BTIndexPage.SetLeftLink]
          omega
        have hnr : ¬ ((bm1.nextPid : Int) = INVALID_PAGE) := by
          simp only [INVALID_PAGE]
          omega
        have hrc : t.rootPid ≠ cp :=
          ne_of_lt (lt_of_lt_of_le (halloc _ (subtreePages_self _ _ _)) hcplo)
        have hlt : ∀ d : PageID, ∀ F, h + 1 ≤ F →
            (∀ x ∈ treePages bm1 F d, x ∈ subtreePages t.bm h t.rootPid
              ∨ ((t.bm.nextPid : Int) ≤ x ∧ x < (bm1.nextPid : Int))) →
            subtreeEntries ((bm1.NewPage NodeType.INDEX_NODE).2.set (bm1.nextPid : Int)
              { BTIndexPage.SetLeftLink (SortedPage.init NodeType.INDEX_NODE) t.rootPid with
                index := insertSorted IndexEntry.key ⟨ck, cp⟩
                  (BTIndexPage.SetLeftLink (SortedPage.init NodeType.INDEX_NODE)
                    t.rootPid).index }) F d = subtreeEntries bm1 F d := by
          intro d F _ hx
          refine (traverse_frame bm1 _ F d ?_).1
          intro q hq
          have hql : q < (bm1.nextPid : Int) := by
            rcases hx q hq with h1 | h1
            · exact lt_of_lt_of_le (halloc q h1) hmono'
            · exact h1.2
          have : q ≠ (bm1.nextPid : Int) := ne_of_lt hql
          simp [this]
        have hobs := index_node_obs ((bm1.NewPage NodeType.INDEX_NODE).2.set (bm1.nextPid : Int)
              { BTIndexPage.SetLeftLink (SortedPage.init NodeType.INDEX_NODE) t.rootPid with
                index := insertSorted IndexEntry.key ⟨ck, cp⟩
                  (BTIndexPage.SetLeftLink (SortedPage.init NodeType.INDEX_NODE)
                    t.rootPid).index }) (bm1.nextPid : Int) h
          (fun d => if d = t.rootPid then e1 else e2) (fun _ => True)
          (by simp [SortedPage.init, BTIndexPage.SetLeftLink]) trivial
          (by
            intro d hd F hF
            refine ⟨?_, fun _ _ => trivial⟩
            simp only [BufMgr.set_page, if_true, SortedPage.children, BTIndexPage.GetLeftLink,
              BTIndexPage.SetLeftLink, SortedPage.init, insertSorted, List.map_cons,
              List.map_nil, List.mem_cons, List.mem_singleton, List.not_mem_nil, or_false] at hd
            rcases hd with hd | hd
            · subst hd
              rw [hlt _ F hF (hfoot F hF)]
              simp only [if_true]
              exact (hes' F hF).1
            · subst hd
              rw [hlt _ F hF (hfootn F hF)]
              simp only [Ne.symm hrc, if_false]
              exact (hes' F hF).2)
        refine ⟨BTreeFile.mk (bm1.nextPid : Int)
            ((bm1.NewPage NodeType.INDEX_NODE).2.set (bm1.nextPid : Int)
              { BTIndexPage.SetLeftLink (SortedPage.init NodeType.INDEX_NODE) t.rootPid with
                index := insertSorted IndexEntry.key ⟨ck, cp⟩
                  (BTIndexPage.SetLeftLink (SortedPage.init NodeType.INDEX_NODE)
                    t.rootPid).index }),
          e1 ++ e2, ?_, ?_, hperm⟩
        · unfold BTreeFile.Insert
          simp only [hroot, if_false, hrun fuel hfuel, BufMgr.newPage_fst, BufMgr.newPage_page,
            if_true, index_insert_ok ck cp hroom]
        · simp only [BTreeFile.entries, hnr, if_false]
          rw [(hobs (fuel + 1) (by omega)).1]
          simp [SortedPage.children, BTIndexPage.GetLeftLink, BTIndexPage.SetLeftLink,
            SortedPage.init, insertSorted, Ne.symm hrc]

/-- C1 (counterexample): `treeDup` is well formed (four entries per page; the
leaf 5 holds the key 30 under the record ids (7, 1) .. (7, 4), the root is full)
and does not store the pair (30, (7, 5)).  `Insert (30, (7, 5))` returns `OK`,
but afterwards the reachable entries are twelve, not thirteen: (30, (7, 1)) and
(30, (7, 2)) are reached twice, (30, (7, 3)), (30, (7, 4)) and the new pair not
at all.  The leaf split promotes the key 30, which the full root already holds
as a separator; `Split_Index` then removes the promoted entry from the new
index page by its key alone and hits the entry it has just inserted. -/
theorem C1_counterexample_insert_with_equal_keys_loses_entries :
    BTreeFile.wellFormedAt cfg4 1 treeDup = true
      ∧ treeDup.entries 2
          = some [⟨1, ⟨7, 1⟩⟩, ⟨2, ⟨7, 2⟩⟩, ⟨10, ⟨7, 10⟩⟩, ⟨11, ⟨7, 11⟩⟩, ⟨20, ⟨7, 20⟩⟩,
              ⟨21, ⟨7, 21⟩⟩, ⟨30, ⟨7, 1⟩⟩, ⟨30, ⟨7, 2⟩⟩, ⟨30, ⟨7, 3⟩⟩, ⟨30, ⟨7, 4⟩⟩,
              ⟨40, ⟨7, 40⟩⟩, ⟨41, ⟨7, 41⟩⟩]
      ∧ ((BTreeFile.Insert cfg4 2 treeDup 30 ⟨7, 5⟩).map fun r => (r.1, r.2.entries 3))
          = some (Status.OK,
              some [⟨1, ⟨7, 1⟩⟩, ⟨2, ⟨7, 2⟩⟩, ⟨10, ⟨7, 10⟩⟩, ⟨11, ⟨7, 11⟩⟩, ⟨20, ⟨7, 20⟩⟩,
                ⟨21, ⟨7, 21⟩⟩, ⟨30, ⟨7, 1⟩⟩, ⟨30, ⟨7, 2⟩⟩, ⟨30, ⟨7, 1⟩⟩, ⟨30, ⟨7, 2⟩⟩,
                ⟨40, ⟨7, 40⟩⟩, ⟨41, ⟨7, 41⟩⟩]) := by
  decide!

/-- C1 (amended): on a page layout where a leaf holds at least one entry and an
index page at least two, for every well-formed tree whose stored keys are
pairwise distinct and every pair `(k, r)` whose key `k` is not stored,
`BTreeFile::Insert (k, r)` returns `OK` (with fuel that covers the height) and
afterwards the entries held in the leaves reachable from the root through child
pointers are, as a multiset, the previous entries plus exactly `(k, r)`. -/
theorem C1_insert_adds_exactly_the_pair_when_keys_distinct (cfg : Cfg) (hs : cfg.Sane)
    (t : BTreeFile) (hwf : t.WellFormed cfg) (fuel : Nat) (es : List LeafEntry)
    (he : t.entries fuel = some es) (hdist : (es.map LeafEntry.key).Nodup)
    (k : Int) (r : RecordID) (hk : k ∉ es.map LeafEntry.key) :
    ∃ t' es', BTreeFile.Insert cfg fuel t k r = some (Status.OK, t')
      ∧ t'.entries (fuel + 1) = some es' ∧ List.Perm es' (⟨k, r⟩ :: es) :=
  insert_post cfg hs t hwf fuel es he k r (List.nodup_cons.2 ⟨hk, hdist⟩)

/-- Witness for C1 (amended): the tree `treeH2` of height 2 with four entries
per page, and the new pair (7, (7, 7)). -/
theorem C1_insert_adds_exactly_the_pair_when_keys_distinct_witness :
    (0 < 1 ∧ 1 ≤ 4 ∧ 0 < 1 ∧ 2 * 1 ≤ 4)
      ∧ BTreeFile.wellFormedAt cfg4 2 treeH2 = true
      ∧ treeH2.entries 3
          = some [⟨1, ⟨7, 1⟩⟩, ⟨2, ⟨7, 2⟩⟩, ⟨3, ⟨7, 3⟩⟩, ⟨4, ⟨7, 4⟩⟩, ⟨5, ⟨7, 5⟩⟩, ⟨6, ⟨7, 6⟩⟩,
              ⟨13, ⟨7, 13⟩⟩, ⟨14, ⟨7, 14⟩⟩, ⟨15, ⟨7, 15⟩⟩, ⟨16, ⟨7, 16⟩⟩, ⟨17, ⟨7, 17⟩⟩,
              ⟨18, ⟨7, 18⟩⟩]
      ∧ ∃ t' es', BTreeFile.Insert cfg4 3 treeH2 7 ⟨7, 7⟩ = some (Status.OK, t')
          ∧ t'.entries 4 = some es'
          ∧ List.Perm es' (⟨7, ⟨7, 7⟩⟩ ::
              [⟨1, ⟨7, 1⟩⟩, ⟨2, ⟨7, 2⟩⟩, ⟨3, ⟨7, 3⟩⟩, ⟨4, ⟨7, 4⟩⟩, ⟨5, ⟨7, 5⟩⟩, ⟨6, ⟨7, 6⟩⟩,
                ⟨13, ⟨7, 13⟩⟩, ⟨14, ⟨7, 14⟩⟩, ⟨15, ⟨7, 15⟩⟩, ⟨16, ⟨7, 16⟩⟩, ⟨17, ⟨7, 17⟩⟩,
                ⟨18, ⟨7, 18⟩⟩]) :=
  ⟨by decide, by decide!, by decide!,
    C1_insert_adds_exactly_the_pair_when_keys_distinct cfg4 (by unfold Cfg.Sane; decide) treeH2
      (Or.inr ⟨2, by decide!⟩) 3 _ (by decide!) (by decide) 7 ⟨7, 7⟩ (by decide)⟩

theorem skip_head (lowKey ks kl : Int) (hkl : lowKey ≤ kl ∧ kl ≠ ks) :
    ∀ (rest : List LeafEntry) (cur : LeafEntry), (∃ x ∈ cur :: rest, x.key = kl) →
      ∃ e B, (cur :: rest).filter (fun e => decide (lowKey ≤ e.key ∧ e.key ≠ ks)) = e :: B
        ∧ BTreeFileScan.GetNextHelper.skip lowKey ks kl cur rest = some e := by
  intro rest
  induction rest with
  | nil =>
    intro cur hx
    obtain ⟨x, hx, hxk⟩ := hx
    simp only [List.mem_singleton] at hx
    subst hx
    have hp : lowKey ≤ x.key ∧ x.key ≠ ks := by rw [hxk]; exact hkl
    refine ⟨x, [], by simp [hp], ?_⟩
    unfold BTreeFileScan.GetNextHelper.skip
    have : ¬ (lowKey > x.key ∨ x.key = ks) := by
      push_neg
      exact ⟨by omega, hp.2⟩
    simp only [this, if_false]
  | cons y ys ih =>
    intro cur hx
    unfold BTreeFileScan.GetNextHelper.skip
    by_cases hp : lowKey ≤ cur.key ∧ cur.key ≠ ks
    · have : ¬ (lowKey > cur.key ∨ cur.key = ks) := by
        push_neg
        exact ⟨by omega, hp.2⟩
      simp only [this, if_false]
      exact ⟨cur, _, List.filter_cons_of_pos (by simpa using hp), rfl⟩
    · have hc : lowKey > cur.key ∨ cur.key = ks := by
        by_contra hcon
        push_neg at hcon
        exact hp ⟨by omega, hcon.2⟩
      have hne : cur.key ≠ kl := by
        intro h
        rw [h] at hp
        exact hp hkl
      simp only [hc, if_true, hne, if_false]
      obtain ⟨x, hx, hxk⟩ := hx
      have hx' : x ∈ y :: ys := by
        rcases List.mem_cons.1 hx with h1 | h1
        · rw [h1] at hxk; exact absurd hxk hne
        · exact h1
      obtain ⟨e, B, hf, hs⟩ := ih y ⟨x, hx', hxk⟩
      refine ⟨e, B, ?_, hs⟩
      rw [List.filter_cons_of_neg (by simpa using hp)]
      exact hf

theorem sorted_le_last {l : List LeafEntry} (hs : l.Pairwise (fun a b => a.key < b.key))
    {last : LeafEntry} (hl : l.getLast? = some last) : ∀ x ∈ l, x.key ≤ last.key := by
  obtain ⟨init, rfl⟩ : ∃ init, l = init ++ [last] := by
    rw [List.getLast?_eq_some_iff] at hl
    exact hl
  intro x hx
  rcases List.mem_append.1 hx with h1 | h1
  · have := (List.pairwise_append.1 hs).2.2 x h1 last (by simp)
    omega
  · simp only [List.mem_singleton] at h1
    rw [h1]

/-- On a strictly ascending list, with a condition that holds for every entry
behind one for which it holds: the entries behind the first one that passes are
the entries with a greater key. -/
theorem filter_sorted_tail (pred : LeafEntry → Bool) :
    ∀ (S : List LeafEntry), S.Pairwise (fun a b => a.key < b.key) →
      (∀ x ∈ S, ∀ y ∈ S, pred x = true → x.key < y.key → pred y = true) →
      ∀ e B, S.filter pred = e :: B → S.filter (fun x => decide (e.key < x.key)) = B := by
  intro S
  induction S with
  | nil => intro _ _ e B h; simp at h
  | cons a S ih =>
    intro hs hup e B h
    obtain ⟨ha, hs'⟩ := List.pairwise_cons.1 hs
    by_cases hpa : pred a = true
    · rw [List.filter_cons_of_pos hpa] at h
      simp only [List.cons.injEq] at h
      obtain ⟨h1, h2⟩ := h
      subst h1
      have hall : ∀ x ∈ S, pred x = true := fun x hx =>
        hup a (List.mem_cons_self _ _) x (List.mem_cons_of_mem _ hx) hpa (ha x hx)
      rw [List.filter_cons_of_neg (by simp)]
      rw [← h2, List.filter_eq_self.2 hall]
      exact List.filter_eq_self.2 (fun x hx => by simpa using ha x hx)
    · rw [List.filter_cons_of_neg hpa] at h
      have he : e ∈ S := (List.mem_filter.1 (h ▸ List.mem_cons_self e B)).1
      rw [List.filter_cons_of_neg (by
        have := ha e he
        simp only [decide_eq_true_eq, not_lt]
        omega)]
      exact ih hs' (fun x hx y hy => hup x (List.mem_cons_of_mem _ hx) y
        (List.mem_cons_of_mem _ hy)) e B h

theorem pending_up (sc : BTreeFileScan) (S : List LeafEntry)
    (hP : ∀ e ∈ S, e.key = sc.key_scanned → sc.lowKey = sc.key_scanned) :
    ∀ x ∈ S, ∀ y ∈ S,
      decide (sc.lowKey ≤ x.key ∧ x.key ≠ sc.key_scanned) = true → x.key < y.key →
      decide (sc.lowKey ≤ y.key ∧ y.key ≠ sc.key_scanned) = true := by
  intro x _ y hy hx hlt
  simp only [decide_eq_true_eq] at hx ⊢
  refine ⟨by omega, ?_⟩
  intro hyk
  have := hP y hy hyk
  omega

theorem pending_after (sc : BTreeFileScan) (S : List LeafEntry) (e : LeafEntry)
    (h1 : sc.lowKey = e.key) (h2 : sc.key_scanned = e.key) :
    sc.pending S = S.filter (fun x => decide (e.key < x.key)) := by
  unfold BTreeFileScan.pending
  apply List.filter_congr
  intro x _
  rw [h1, h2]
  by_cases h : e.key < x.key
  · have : e.key ≤ x.key ∧ x.key ≠ e.key := ⟨by omega, by omega⟩
    simp [h, this]
  · have : ¬ (e.key ≤ x.key ∧ x.key ≠ e.key) := by
      intro hh
      omega
    simp [h, this]

theorem getNextHelper_chain (bm : BufMgr) :
    ∀ (ls : List PageID) (pid : PageID) (sc : BTreeFileScan) (fuel : Nat),
      isChain bm pid ls → sc.curPid = pid →
      ((∀ q ∈ ls, (bm.page q).leaf ≠ []) ∨ leafEntries bm ls = []) →
      (leafEntries bm ls).Pairwise (fun a b => a.key < b.key) →
      (∀ e ∈ leafEntries bm ls, e.key = sc.key_scanned → sc.lowKey = sc.key_scanned) →
      ls.length + 1 ≤ fuel →
      (∀ e B, sc.pending (leafEntries bm ls) = e :: B → e.key ≤ sc.highKey →
          ∃ sc' ls', BTreeFileScan.GetNextHelper bm fuel sc pid
              = some (Status.OK, some (e.key, e.rid), sc')
            ∧ sc'.s = Status.OK ∧ sc'.lowKey = e.key ∧ sc'.key_scanned = e.key
            ∧ sc'.highKey = sc.highKey ∧ isChain bm sc'.curPid ls' ∧ ls' <:+ ls
            ∧ sc'.pending (leafEntries bm ls') = B)
        ∧ ((sc.pending (leafEntries bm ls) = []
              ∨ ∃ e B, sc.pending (leafEntries bm ls) = e :: B ∧ sc.highKey < e.key) →
            ∃ sc', BTreeFileScan.GetNextHelper bm fuel sc pid = some (Status.DONE, none, sc')
              ∧ sc'.s = Status.DONE) := by
  intro ls
  induction ls with
  | nil =>
    intro pid sc fuel hch _ _ _ _ hfuel
    obtain ⟨f, rfl⟩ : ∃ f, fuel = f + 1 := ⟨fuel - 1, by omega⟩
    have hp : pid = INVALID_PAGE := hch
    constructor
    · intro e B h
      simp [BTreeFileScan.pending, leafEntries] at h
    · intro _
      unfold BTreeFileScan.GetNextHelper
      simp only [hp, if_true]
      exact ⟨_, rfl, rfl⟩
  | cons l rest ih =>
    intro pid sc fuel hch hcur hH hsorted hP hfuel
    obtain ⟨f, rfl⟩ : ∃ f, fuel = f + 1 := ⟨fuel - 1, by omega⟩
    obtain ⟨hpl, hlne, hch'⟩ := hch
    subst hpl
    have hS : leafEntries bm (pid :: rest) = (bm.page pid).leaf ++ leafEntries bm rest := by
      simp [leafEntries]
    rw [hS] at hsorted hP hH
    rw [hS]
    have hpend : sc.pending ((bm.page pid).leaf ++ leafEntries bm rest)
        = sc.pending (bm.page pid).leaf ++ sc.pending (leafEntries bm rest) := by
      simp [BTreeFileScan.pending]
    by_cases hlh : sc.lowKey > sc.highKey
    · constructor
      · intro e B h hle
        have he : e ∈ sc.pending ((bm.page pid).leaf ++ leafEntries bm rest) :=
          h ▸ List.mem_cons_self e B
        have := (List.mem_filter.1 he).2
        simp only [decide_eq_true_eq] at this
        omega
      · intro _
        unfold BTreeFileScan.GetNextHelper
        simp only [hlne, if_false, hlh, if_true]
        exact ⟨_, rfl, rfl⟩
    · by_cases hempty : (bm.page pid).leaf = []
      · have hall : (bm.page pid).leaf ++ leafEntries bm rest = [] := by
          rcases hH with h1 | h1
          · exact absurd hempty (h1 pid (List.mem_cons_self _ _))
          · exact h1
        constructor
        · intro e B h
          rw [hall] at h
          simp [BTreeFileScan.pending] at h
        · intro _
          unfold BTreeFileScan.GetNextHelper
          simp only [hlne, if_false, hlh, BTLeafPage.GetFirst, hempty, List.head?_nil]
          exact ⟨_, rfl, rfl⟩
      · obtain ⟨first, tl, hft⟩ : ∃ first tl, (bm.page pid).leaf = first :: tl := by
          cases hl : (bm.page pid).leaf with
          | nil => exact absurd hl hempty
          | cons a t => exact ⟨a, t, rfl⟩
        obtain ⟨last, hlast⟩ : ∃ last, (bm.page pid).leaf.getLast? = some last := by
          cases hl : (bm.page pid).leaf.getLast? with
          | none => exact absurd (List.getLast?_eq_none_iff.1 hl) hempty
          | some a => exact ⟨a, rfl⟩
        have hlast_mem : last ∈ (bm.page pid).leaf := List.mem_of_getLast?_eq_some hlast
        have hsp : (bm.page pid).leaf.Pairwise (fun a b => a.key < b.key) :=
          (List.pairwise_append.1 hsorted).1
        have hle_last := sorted_le_last hsp hlast
        have hH' : (∀ q ∈ rest, (bm.page q).leaf ≠ []) ∨ leafEntries bm rest = [] := by
          rcases hH with h1 | h1
          · exact Or.inl (fun q hq => h1 q (List.mem_cons_of_mem _ hq))
          · exact Or.inr (List.append_eq_nil.1 h1).2
        have hgf : BTLeafPage.GetFirst (bm.page pid) = some first := by
          simp [BTLeafPage.GetFirst, hft]
        have hgl : BTLeafPage.GetLast (bm.page pid) = some last := hlast
        by_cases hskip : last.key < sc.lowKey ∨ last.key = sc.key_scanned
        · -- nothing to visit on this leaf
          have hnone : sc.pending (bm.page pid).leaf = [] := by
            unfold BTreeFileScan.pending
            rw [List.filter_eq_nil_iff]
            intro x hx
            simp only [decide_eq_true_eq, not_and, not_not]
            intro hxl
            have h1 := hle_last x hx
            rcases hskip with h2 | h2
            · omega
            · have := hP last (List.mem_append_left _ hlast_mem) h2
              omega
          rw [hpend, hnone, List.nil_append]
          obtain ⟨ih1, ih2⟩ := ih (bm.page pid).nextPage
            { sc with curPid := (bm.page pid).nextPage } f hch' rfl hH'
            (List.pairwise_append.1 hsorted).2.1
            (fun e he => hP e (List.mem_append_right _ he)) (by simpa using hfuel)
          constructor
          · intro e B h hle
            obtain ⟨sc1, ls', hrun, h1, h2, h3, h4, h5, h6, h7⟩ := ih1 e B h hle
            refine ⟨{ sc1 with s := Status.OK }, ls', ?_, rfl, h2, h3, h4, h5,
              List.IsSuffix.trans h6 (List.suffix_cons _ _), h7⟩
            unfold BTreeFileScan.GetNextHelper
            simp only [hlne, if_false, hlh, hgf, hgl, hskip, if_true, hrun]
          · intro h
            obtain ⟨sc1, hrun, h1⟩ := ih2 h
            refine ⟨{ sc1 with s := Status.DONE }, ?_, rfl⟩
            unfold BTreeFileScan.GetNextHelper
            simp only [hlne, if_false, hlh, hgf, hgl, hskip, if_true, hrun]
        · have hkl : sc.lowKey ≤ last.key ∧ last.key ≠ sc.key_scanned := by
            push_neg at hskip
            exact ⟨by omega, hskip.2⟩
          obtain ⟨e0, B1, hfilt, hskp⟩ := skip_head sc.lowKey sc.key_scanned last.key hkl tl first
            ⟨last, hft ▸ hlast_mem, rfl⟩
          have hp0 : sc.pending (bm.page pid).leaf = e0 :: B1 := by
            unfold BTreeFileScan.pending
            rw [hft]
            exact hfilt
          have htail : (bm.page pid).leaf.tail = tl := by rw [hft]; rfl
          rw [hpend, hp0, List.cons_append]
          constructor
          · intro e B h hle
            simp only [List.cons.injEq] at h
            obtain ⟨he, hB⟩ := h
            subst he
            have hnh : ¬ sc.highKey < e0.key := by omega
            have htailS := filter_sorted_tail
              (fun e => decide (sc.lowKey ≤ e.key ∧ e.key ≠ sc.key_scanned))
              ((bm.page pid).leaf ++ leafEntries bm rest) hsorted
              (pending_up sc _ hP) e0 B (by
                have := hpend
                unfold BTreeFileScan.pending at this hp0
                rw [this, hp0, List.cons_append, ← hB]
                rfl)
            by_cases hlk : e0.key = last.key
            · refine ⟨{ ({ sc with lowKey := e0.key, s := Status.OK, dataRid := e0.rid,
                                     key_scanned := e0.key } : BTreeFileScan) with
                  curPid := (bm.page pid).nextPage }, rest, ?_, rfl, rfl,
                rfl, rfl, hch', List.suffix_cons _ _, ?_⟩
              · unfold BTreeFileScan.GetNextHelper
                have hnh' : ¬ sc.highKey < last.key := hlk ▸ hnh
                simp only [hlne, if_false, hlh, hgf, hgl, hskip, htail, hskp, hnh, hnh', hlk,
                  if_true]
              · rw [pending_after _ _ e0 rfl rfl]
                rw [List.filter_append] at htailS
                have : (bm.page pid).leaf.filter (fun x => decide (e0.key < x.key)) = [] := by
                  rw [List.filter_eq_nil_iff]
                  intro x hx
                  have := hle_last x hx
                  simp only [decide_eq_true_eq, not_lt]
                  omega
                rw [this, List.nil_append] at htailS
                exact htailS
            · refine ⟨{ sc with lowKey := e0.key, s := Status.OK, dataRid := e0.rid,
                                  key_scanned := e0.key }, pid :: rest, ?_, rfl, rfl, rfl, rfl, ?_,
                List.suffix_refl _, ?_⟩
              · unfold BTreeFileScan.GetNextHelper
                simp only [hlne, if_false, hlh, hgf, hgl, hskip, htail, hskp, hnh, hlk]
              · exact ⟨hcur, hlne, hch'⟩
              · rw [pending_after _ _ e0 rfl rfl, hS]
                exact htailS
          · intro h
            rcases h with h | ⟨e, B, h, hlt⟩
            · simp at h
            · simp only [List.cons.injEq] at h
              obtain ⟨he, _⟩ := h
              subst he
              refine ⟨{ sc with s := Status.DONE }, ?_, rfl⟩
              unfold BTreeFileScan.GetNextHelper
              simp only [hlne, if_false, hlh, hgf, hgl, hskip, htail, hskp, hlt, if_true]

theorem leafEntries_append (bm : BufMgr) (l1 l2 : List PageID) :
    leafEntries bm (l1 ++ l2) = leafEntries bm l1 ++ leafEntries bm l2 := by
  simp [leafEntries]

theorem scan_step (bm : BufMgr) (fuel : Nat) (sc : BTreeFileScan) (B : List LeafEntry)
    (hinv : ScanInv bm fuel sc B) :
    ((B = [] ∨ ∃ e B', B = e :: B' ∧ sc.highKey < e.key) →
        ∃ sc', BTreeFileScan.GetNext fuel bm sc = some (Status.DONE, none, sc'))
      ∧ ∀ e B', B = e :: B' → e.key ≤ sc.highKey →
          ∃ sc', BTreeFileScan.GetNext fuel bm sc = some (Status.OK, some (e.key, e.rid), sc')
            ∧ sc'.highKey = sc.highKey ∧ ScanInv bm fuel sc' B' := by
  obtain ⟨hs, ls, hch, hfuel, hH, hsorted, hP, hB⟩ := hinv
  have hnd : ¬ sc.s = Status.DONE := by rw [hs]; simp
  obtain ⟨h1, h2⟩ := getNextHelper_chain bm ls sc.curPid sc fuel hch rfl hH hsorted hP hfuel
  by_cases hinv : sc.curPid = INVALID_PAGE
  · have hls : ls = [] := by
      cases ls with
      | nil => rfl
      | cons l rest =>
        obtain ⟨h3, h4, _⟩ := hch
        exact absurd (h3 ▸ hinv) h4
    subst hls
    have hB0 : B = [] := by
      rw [← hB]
      simp [BTreeFileScan.pending, leafEntries]
    constructor
    · intro _
      unfold BTreeFileScan.GetNext
      simp only [hnd, if_false, hinv, if_true]
      exact ⟨_, rfl⟩
    · intro e B' h
      rw [hB0] at h
      cases h
  · constructor
    · intro h
      rw [← hB] at h
      obtain ⟨sc', hrun, _⟩ := h2 h
      refine ⟨sc', ?_⟩
      unfold BTreeFileScan.GetNext
      simp only [hnd, if_false, hinv, hrun]
    · intro e B' h hle
      rw [← hB] at h
      obtain ⟨sc', ls', hrun, h3, h4, h5, h6, h7, h8, h9⟩ := h1 e B' h hle
      refine ⟨sc', ?_, h6, h3, ls', h7, ?_, ?_, ?_, ?_, h9⟩
      · unfold BTreeFileScan.GetNext
        simp only [hnd, if_false, hinv, hrun]
      · have := List.IsSuffix.length_le h8
        omega
      · rcases hH with hH | hH
        · exact Or.inl (fun q hq => hH q (h8.subset hq))
        · rw [hH] at h
          simp [BTreeFileScan.pending] at h
      · obtain ⟨pre, hpre⟩ := h8
        rw [← hpre, leafEntries_append] at hsorted
        exact (List.pairwise_append.1 hsorted).2.1
      · intro x _ _
        rw [h4, h5]

theorem collect_spec (bm : BufMgr) (fuel : Nat) :
    ∀ (B : List LeafEntry) (sc : BTreeFileScan) (n : Nat), ScanInv bm fuel sc B → B.length < n →
      BTreeFileScan.collect fuel bm n sc
        = some ((B.takeWhile fun e => decide (e.key ≤ sc.highKey)).map
            fun e => (e.key, e.rid)) := by
  intro B
  induction B with
  | nil =>
    intro sc n hinv hn
    obtain ⟨m, rfl⟩ : ∃ m, n = m + 1 := ⟨n - 1, by omega⟩
    obtain ⟨sc', hrun⟩ := (scan_step bm fuel sc [] hinv).1 (Or.inl rfl)
    unfold BTreeFileScan.collect
    simp only [hrun, List.takeWhile_nil, List.map_nil]
  | cons e B' ih =>
    intro sc n hinv hn
    obtain ⟨m, rfl⟩ : ∃ m, n = m + 1 := ⟨n - 1, by omega⟩
    by_cases hle : e.key ≤ sc.highKey
    · obtain ⟨sc', hrun, hhi, hinv'⟩ := (scan_step bm fuel sc (e :: B') hinv).2 e B' rfl hle
      unfold BTreeFileScan.collect
      simp only [hrun]
      rw [ih sc' m hinv' (by simpa using hn), hhi]
      simp [List.takeWhile_cons, hle]
    · obtain ⟨sc', hrun⟩ := (scan_step bm fuel sc (e :: B') hinv).1
        (Or.inr ⟨e, B', rfl, by omega⟩)
      unfold BTreeFileScan.collect
      simp only [hrun]
      simp [List.takeWhile_cons, hle]

theorem subtreeLeaves_succ (bm : BufMgr) (h : Nat) (pid : PageID) :
    subtreeLeaves bm (h + 1) pid = (bm.page pid).children.flatMap (subtreeLeaves bm h) := by
  conv_lhs => unfold subtreeLeaves
  simp [SortedPage.children, List.flatMap, List.map_map, Function.comp_def]

theorem ascending_pairwise : ∀ (l : List Int), ascending l = true → l.Pairwise (· ≤ ·) := by
  intro l
  induction l with
  | nil => intro _; exact List.Pairwise.nil
  | cons a l ih =>
    intro h
    cases l with
    | nil => simp
    | cons b l =>
      simp only [ascending, Bool.and_eq_true, decide_eq_true_eq] at h
      have hp := ih h.2
      refine List.pairwise_cons.2 ⟨?_, hp⟩
      intro c hc
      rcases List.mem_cons.1 hc with hc | hc
      · rw [hc]; exact h.1
      · exact le_trans h.1 ((List.pairwise_cons.1 hp).1 c hc)

/-- The entries under the children of a list of index entries are ascending and
lie between the first separator and the upper bound. -/
theorem children_sorted (wf : PageID → Option Int → Option Int → Bool)
    (f : PageID → List LeafEntry) (hi : Option Int)
    (hf : ∀ d lo' hi', wf d lo' hi' = true →
      (f d).Pairwise (fun a b => a.key ≤ b.key)
        ∧ ∀ e ∈ f d, geLo lo' e.key = true ∧ ltHi hi' e.key = true) :
    ∀ (idx : List IndexEntry), strictAscending (idx.map IndexEntry.key) = true →
      (∀ e ∈ idx, ltHi hi e.key = true) →
      wfChildren wf hi idx = true →
      (idx.flatMap fun e => f e.pid).Pairwise (fun a b => a.key ≤ b.key)
        ∧ ∀ x ∈ (idx.flatMap fun e => f e.pid),
            geLo (idx.head?.map IndexEntry.key) x.key = true ∧ ltHi hi x.key = true := by
  intro idx
  induction idx with
  | nil => intro _ _ _; simp
  | cons e rest ih =>
    intro hasc hsep hwf
    cases rest with
    | nil =>
      simp only [wfChildren] at hwf
      obtain ⟨h1, h2⟩ := hf _ _ _ hwf
      simp only [List.flatMap_cons, List.flatMap_nil, List.append_nil, List.head?_cons,
        Option.map_some']
      exact ⟨h1, h2⟩
    | cons e' rest =>
      simp only [wfChildren, Bool.and_eq_true] at hwf
      obtain ⟨h1, h2⟩ := hf _ _ _ hwf.1
      obtain ⟨hlt, hasc'⟩ := strictAscending_cons (by simpa using hasc)
      obtain ⟨h3, h4⟩ := ih hasc' (fun x hx => hsep x (List.mem_cons_of_mem _ hx)) hwf.2
      have hee : e.key < e'.key := hlt e'.key (by simp)
      rw [List.flatMap_cons]
      constructor
      · refine List.pairwise_append.2 ⟨h1, h3, ?_⟩
        intro a ha b hb
        have ha' := (h2 a ha).2
        have hb' := (h4 b hb).1
        simp only [ltHi, geLo, List.head?_cons, Option.map_some', decide_eq_true_eq] at ha' hb'
        omega
      · intro x hx
        simp only [List.head?_cons, Option.map_some']
        rcases List.mem_append.1 hx with hx | hx
        · refine ⟨(h2 x hx).1, ?_⟩
          have h5 := (h2 x hx).2
          have h6 := hsep e' (by simp)
          cases hi with
          | none => rfl
          | some hv =>
            simp only [ltHi, decide_eq_true_eq] at h5 h6 ⊢
            omega
        · refine ⟨?_, (h4 x hx).2⟩
          have h5 := (h4 x hx).1
          simp only [geLo, List.head?_cons, Option.map_some', decide_eq_true_eq] at h5 ⊢
          omega

theorem wf_entries_sorted (cfg : Cfg) (bm : BufMgr) :
    ∀ (h : Nat) (pid : PageID) (lo hi : Option Int), wfSubtree cfg bm h pid lo hi = true →
      (leafEntries bm (subtreeLeaves bm h pid)).Pairwise (fun a b => a.key ≤ b.key)
        ∧ ∀ e ∈ leafEntries bm (subtreeLeaves bm h pid),
            geLo lo e.key = true ∧ ltHi hi e.key = true := by
  intro h
  induction h with
  | zero =>
    intro pid lo hi hwf
    obtain ⟨_, _, _, hasc, hr⟩ := wfSubtree_zero.1 hwf
    simp only [subtreeLeaves, leafEntries, List.flatMap_cons, List.flatMap_nil, List.append_nil]
    refine ⟨?_, hr⟩
    have := ascending_pairwise _ hasc
    exact List.pairwise_map.1 this
  | succ h ih =>
    intro pid lo hi hwf
    obtain ⟨_, _, hne, _, hasc, hsep, hleft, hch⟩ := wfSubtree_succ.1 hwf
    obtain ⟨h1, h2⟩ := ih _ _ _ hleft
    obtain ⟨h3, h4⟩ := children_sorted (wfSubtree cfg bm h)
      (fun d => leafEntries bm (subtreeLeaves bm h d)) hi (fun d lo' hi' hw => ih d lo' hi' hw)
      (bm.page pid).index hasc (fun e he => (hsep e he).2) hch
    have hE : leafEntries bm (subtreeLeaves bm (h + 1) pid)
        = leafEntries bm (subtreeLeaves bm h (BTIndexPage.GetLeftLink (bm.page pid)))
          ++ (bm.page pid).index.flatMap
              (fun e => leafEntries bm (subtreeLeaves bm h e.pid)) := by
      rw [subtreeLeaves_succ]
      simp [leafEntries, SortedPage.children, List.flatMap_map, List.flatMap_assoc]
    rw [hE]
    obtain ⟨e0, rest, hidx⟩ : ∃ e0 rest, (bm.page pid).index = e0 :: rest := by
      cases hl : (bm.page pid).index with
      | nil => exact absurd hl hne
      | cons a l => exact ⟨a, l, rfl⟩
    have he0 := hsep e0 (by rw [hidx]; simp)
    constructor
    · refine List.pairwise_append.2 ⟨h1, h3, ?_⟩
      intro a ha b hb
      have ha' := (h2 a ha).2
      have hb' := (h4 b hb).1
      rw [hidx] at ha' hb'
      simp only [ltHi, geLo, List.head?_cons, Option.map_some', decide_eq_true_eq] at ha' hb'
      omega
    · intro x hx
      rcases List.mem_append.1 hx with hx | hx
      · refine ⟨(h2 x hx).1, ?_⟩
        have h5 := (h2 x hx).2
        rw [hidx] at h5
        have h6 := he0.2
        cases hi with
        | none => rfl
        | some hv =>
          simp only [ltHi, List.head?_cons, Option.map_some', decide_eq_true_eq] at h5 h6 ⊢
          omega
      · refine ⟨?_, (h4 x hx).2⟩
        have h5 := (h4 x hx).1
        rw [hidx] at h5
        have h6 := he0.1
        cases lo with
        | none => rfl
        | some lv =>
          simp only [geLo, gtLo, List.head?_cons, Option.map_some', decide_eq_true_eq]
            at h5 h6 ⊢
          omega

theorem entries_eq_leaves (cfg : Cfg) (bm : BufMgr) :
    ∀ (h : Nat) (pid : PageID) (lo hi : Option Int), wfSubtree cfg bm h pid lo hi = true →
      subtreeEntries bm (h + 1) pid = some (leafEntries bm (subtreeLeaves bm h pid)) := by
  intro h
  induction h with
  | zero =>
    intro pid lo hi hwf
    rw [subtreeEntries_leaf (wfSubtree_zero.1 hwf).1]
    simp [subtreeLeaves, leafEntries]
  | succ h ih =>
    intro pid lo hi hwf
    have ht := (wfSubtree_succ.1 hwf).1
    have hnl : ¬ (bm.page pid).type = NodeType.LEAF_NODE := by rw [ht]; simp
    rw [subtreeEntries_index hnl, subtreeLeaves_succ]
    rw [concatAll_map_some _ (fun d => leafEntries bm (subtreeLeaves bm h d))]
    · simp [leafEntries, List.flatMap_assoc]
    · intro d hd
      obtain ⟨lc, hc, hw⟩ := children_wf cfg bm h pid lo hi hwf d hd
      exact ih d lc hc hw

theorem findLoop_split (wf : PageID → Option Int → Option Int → Bool) (hi : Option Int)
    (k : Int) (hk : ltHi hi k = true) :
    ∀ (rest : List IndexEntry) (cur prev : IndexEntry), ¬ k < cur.key →
      wfChildren wf hi (cur :: rest) = true →
      ∃ pre post hc,
        cur :: rest = pre ++ BTIndexPage.FindPageWithKey.loop k prev cur rest :: post
          ∧ wf (BTIndexPage.FindPageWithKey.loop k prev cur rest).pid
              (some (BTIndexPage.FindPageWithKey.loop k prev cur rest).key) hc = true
          ∧ (BTIndexPage.FindPageWithKey.loop k prev cur rest).key ≤ k
          ∧ ltHi hc k = true
          ∧ ∀ d ∈ pre, ∃ hd, wf d.pid (some d.key) (some hd) = true ∧ hd ≤ k := by
  intro rest
  induction rest with
  | nil =>
    intro cur prev hcur hwf
    unfold BTIndexPage.FindPageWithKey.loop
    simp only [hcur, if_false]
    simp only [wfChildren] at hwf
    exact ⟨[], [], hi, rfl, hwf, by omega, hk, by simp⟩
  | cons e es ih =>
    intro cur prev hcur hwf
    unfold BTIndexPage.FindPageWithKey.loop
    simp only [hcur, if_false]
    simp only [wfChildren, Bool.and_eq_true] at hwf
    by_cases hke : k < e.key
    · have hl : BTIndexPage.FindPageWithKey.loop k cur e es = cur := by
        unfold BTIndexPage.FindPageWithKey.loop
        simp [hke]
      rw [hl]
      exact ⟨[], e :: es, some e.key, rfl, hwf.1, by omega, by simp [ltHi, hke], by simp⟩
    · obtain ⟨pre, post, hc, h1, h2, h3, h4, h5⟩ := ih e cur hke hwf.2
      refine ⟨cur :: pre, post, hc, by rw [List.cons_append, ← h1], h2, h3, h4, ?_⟩
      intro d hd
      rcases List.mem_cons.1 hd with hd | hd
      · subst hd
        exact ⟨e.key, hwf.1, by omega⟩
      · exact h5 d hd

theorem findChild_split (cfg : Cfg) (bm : BufMgr) (h : Nat) (pid : PageID) (lo hi : Option Int)
    (k : Int) (hwf : wfSubtree cfg bm (h + 1) pid lo hi = true)
    (hlo : geLo lo k = true) (hhi : ltHi hi k = true) :
    ∃ found Cpre Cpost lc hc, BTIndexPage.FindPageWithKey (bm.page pid) k = some found
      ∧ (bm.page pid).children = Cpre ++ found.pid :: Cpost
      ∧ wfSubtree cfg bm h found.pid lc hc = true
      ∧ geLo lc k = true ∧ ltHi hc k = true
      ∧ ∀ d ∈ Cpre, ∃ ld hd, wfSubtree cfg bm h d ld (some hd) = true ∧ hd ≤ k := by
  obtain ⟨_, _, hne, _, _, _, hleft, hch⟩ := wfSubtree_succ.1 hwf
  cases hidx : (bm.page pid).index with
  | nil => exact absurd hidx hne
  | cons e0 rest =>
    rw [hidx] at hleft hch
    unfold BTIndexPage.FindPageWithKey
    rw [hidx]
    simp only
    by_cases hk : k < e0.key
    · simp only [hk, if_true]
      refine ⟨_, [], (e0 :: rest).map IndexEntry.pid, lo, some e0.key, rfl, ?_, ?_, hlo,
        by simp [ltHi, hk], by simp⟩
      · simp [SortedPage.children, hidx]
      · simpa using hleft
    · simp only [hk, if_false]
      obtain ⟨pre, post, hc, h1, h2, h3, h4, h5⟩ :=
        findLoop_split (wfSubtree cfg bm h) hi k hhi rest e0 ⟨0, 0⟩ hk hch
      refine ⟨_, BTIndexPage.GetLeftLink (bm.page pid) :: pre.map IndexEntry.pid,
        post.map IndexEntry.pid, some (BTIndexPage.FindPageWithKey.loop k ⟨0, 0⟩ e0 rest).key,
        hc, rfl, ?_, h2, by simp [geLo, h3], h4, ?_⟩
      · simp only [SortedPage.children, hidx]
        rw [h1]
        simp
      · intro d hd
        rcases List.mem_cons.1 hd with hd | hd
        · subst hd
          exact ⟨lo, e0.key, by simpa using hleft, by omega⟩
        · obtain ⟨x, hx, hxd⟩ := List.mem_map.1 hd
          obtain ⟨hd', hw, hle⟩ := h5 x hx
          exact ⟨some x.key, hd', hxd ▸ hw, hle⟩

/-- `FindPidWithKey` ends in a leaf of the tree, and every entry on the leaves
to the left of it has a smaller key. -/
theorem find_descend_spec (cfg : Cfg) (bm : BufMgr) (k : Int) :
    ∀ (h : Nat) (pid : PageID) (lo hi : Option Int), wfSubtree cfg bm h pid lo hi = true →
      geLo lo k = true → ltHi hi k = true →
      ∃ pre L post, (∀ F, h + 1 ≤ F → BTreeFile.FindPidWithKey.descend bm k F pid = some L)
        ∧ subtreeLeaves bm h pid = pre ++ L :: post
        ∧ ∀ e ∈ leafEntries bm pre, e.key < k := by
  intro h
  induction h with
  | zero =>
    intro pid lo hi hwf _ _
    refine ⟨[], pid, [], ?_, by simp [subtreeLeaves], by simp [leafEntries]⟩
    intro F hF
    obtain ⟨f, rfl⟩ : ∃ f, F = f + 1 := ⟨F - 1, by omega⟩
    unfold BTreeFile.FindPidWithKey.descend
    simp [(wfSubtree_zero.1 hwf).1]
  | succ h ih =>
    intro pid lo hi hwf hlo hhi
    have ht := (wfSubtree_succ.1 hwf).1
    obtain ⟨found, Cpre, Cpost, lc, hc, hfind, hC, hwfc, hlc, hhc, hpre⟩ :=
      findChild_split cfg bm h pid lo hi k hwf hlo hhi
    obtain ⟨pre, L, post, hrun, hleaves, hlt⟩ := ih found.pid lc hc hwfc hlc hhc
    refine ⟨Cpre.flatMap (subtreeLeaves bm h) ++ pre, L,
      post ++ Cpost.flatMap (subtreeLeaves bm h), ?_, ?_, ?_⟩
    · intro F hF
      obtain ⟨f, rfl⟩ : ∃ f, F = f + 1 := ⟨F - 1, by omega⟩
      unfold BTreeFile.FindPidWithKey.descend
      simp only [ht, ne_eq, reduceCtorEq, not_false_eq_true, if_true, hfind]
      exact hrun f (by omega)
    · rw [subtreeLeaves_succ, hC, List.flatMap_append, List.flatMap_cons, hleaves]
      simp
    · intro e he
      rw [leafEntries_append] at he
      rcases List.mem_append.1 he with he | he
      · simp only [leafEntries, List.flatMap_assoc] at he
        obtain ⟨d, hd, hed⟩ := List.mem_flatMap.1 he
        obtain ⟨ld, hd', hw, hle⟩ := hpre d hd
        have := ((wf_entries_sorted cfg bm h d ld (some hd') hw).2 e hed).2
        simp only [ltHi, decide_eq_true_eq] at this
        omega
      · exact hlt e he

theorem min_descend_spec (cfg : Cfg) (bm : BufMgr) :
    ∀ (h : Nat) (pid : PageID) (lo hi : Option Int), wfSubtree cfg bm h pid lo hi = true →
      ∃ L post, (∀ F n, h + 1 ≤ F →
          BTreeFile.GetMinimumPid.descend bm F pid n = some (L, n + h))
        ∧ subtreeLeaves bm h pid = L :: post := by
  intro h
  induction h with
  | zero =>
    intro pid lo hi hwf
    refine ⟨pid, [], ?_, by simp [subtreeLeaves]⟩
    intro F n hF
    obtain ⟨f, rfl⟩ : ∃ f, F = f + 1 := ⟨F - 1, by omega⟩
    unfold BTreeFile.GetMinimumPid.descend
    simp [(wfSubtree_zero.1 hwf).1]
  | succ h ih =>
    intro pid lo hi hwf
    obtain ⟨ht, _, _, _, _, _, hleft, _⟩ := wfSubtree_succ.1 hwf
    obtain ⟨L, post, hrun, hleaves⟩ := ih _ _ _ hleft
    refine ⟨L, post ++ ((bm.page pid).index.map IndexEntry.pid).flatMap (subtreeLeaves bm h),
      ?_, ?_⟩
    · intro F n hF
      obtain ⟨f, rfl⟩ : ∃ f, F = f + 1 := ⟨F - 1, by omega⟩
      unfold BTreeFile.GetMinimumPid.descend
      simp only [ht, ne_eq, reduceCtorEq, not_false_eq_true, if_true]
      rw [hrun f (n + 1) (by omega)]
      simp only [Option.some.injEq, Prod.mk.injEq, true_and]
      omega
    · rw [subtreeLeaves_succ]
      simp only [SortedPage.children, List.flatMap_cons, hleaves, List.cons_append]

theorem wfChildren_last (wf : PageID → Option Int → Option Int → Bool) (hi : Option Int) :
    ∀ (l : List IndexEntry) (e : IndexEntry), l.getLast? = some e → wfChildren wf hi l = true →
      wf e.pid (some e.key) hi = true := by
  intro l
  induction l with
  | nil => intro e h; simp at h
  | cons a l ih =>
    intro e h hwf
    cases l with
    | nil =>
      simp only [List.getLast?_singleton, Option.some.injEq] at h
      subst h
      simpa [wfChildren] using hwf
    | cons b l =>
      simp only [wfChildren, Bool.and_eq_true] at hwf
      rw [List.getLast?_cons_cons] at h
      exact ih e h hwf.2

theorem max_descend_spec (cfg : Cfg) (bm : BufMgr) :
    ∀ (h : Nat) (pid : PageID) (lo hi : Option Int), wfSubtree cfg bm h pid lo hi = true →
      ∃ pre L, (∀ F, h + 1 ≤ F → BTreeFile.GetMaxKey.descend bm F pid = some L)
        ∧ subtreeLeaves bm h pid = pre ++ [L] := by
  intro h
  induction h with
  | zero =>
    intro pid lo hi hwf
    refine ⟨[], pid, ?_, by simp [subtreeLeaves]⟩
    intro F hF
    obtain ⟨f, rfl⟩ : ∃ f, F = f + 1 := ⟨F - 1, by omega⟩
    unfold BTreeFile.GetMaxKey.descend
    simp [(wfSubtree_zero.1 hwf).1]
  | succ h ih =>
    intro pid lo hi hwf
    obtain ⟨ht, _, hne, _, _, _, _, hch⟩ := wfSubtree_succ.1 hwf
    obtain ⟨e, he⟩ : ∃ e, (bm.page pid).index.getLast? = some e := by
      cases hl : (bm.page pid).index.getLast? with
      | none => exact absurd (List.getLast?_eq_none_iff.1 hl) hne
      | some a => exact ⟨a, rfl⟩
    have hw := wfChildren_last _ _ _ e he hch
    obtain ⟨pre, L, hrun, hleaves⟩ := ih _ _ _ hw
    obtain ⟨init, hinit⟩ : ∃ init, (bm.page pid).index = init ++ [e] :=
      List.getLast?_eq_some_iff.1 he
    refine ⟨(BTIndexPage.GetLeftLink (bm.page pid) :: init.map IndexEntry.pid).flatMap
      (subtreeLeaves bm h) ++ pre, L, ?_, ?_⟩
    · intro F hF
      obtain ⟨f, rfl⟩ : ∃ f, F = f + 1 := ⟨F - 1, by omega⟩
      unfold BTreeFile.GetMaxKey.descend
      simp only [ht, ne_eq, reduceCtorEq, not_false_eq_true, if_true, BTIndexPage.GetLast, he]
      exact hrun f (by omega)
    · rw [subtreeLeaves_succ]
      simp only [SortedPage.children, hinit, List.map_append, List.map_cons, List.map_nil]
      rw [← List.cons_append, List.flatMap_append]
      simp [hleaves]

theorem chainOk_isChain (bm : BufMgr) :
    ∀ (ls : List PageID) (p : PageID), chainOk bm p ls = true →
      (∀ q ∈ ls, q ≠ INVALID_PAGE) → isChain bm (ls.head?.getD INVALID_PAGE) ls := by
  intro ls
  induction ls with
  | nil => intro p _ _; rfl
  | cons l rest ih =>
    intro p hc hne
    simp only [chainOk, Bool.and_eq_true, decide_eq_true_eq] at hc
    refine ⟨rfl, hne l (List.mem_cons_self _ _), ?_⟩
    rw [hc.1.2]
    exact ih l hc.2 (fun q hq => hne q (List.mem_cons_of_mem _ hq))

theorem chainOk_suffix (bm : BufMgr) :
    ∀ (pre ls : List PageID) (p : PageID), chainOk bm p (pre ++ ls) = true →
      ∃ p', chainOk bm p' ls = true := by
  intro pre
  induction pre with
  | nil => intro ls p h; exact ⟨p, h⟩
  | cons a pre ih =>
    intro ls p h
    simp only [List.cons_append, chainOk, Bool.and_eq_true] at h
    exact ih ls a h.2

theorem leaves_wf (cfg : Cfg) (bm : BufMgr) :
    ∀ (h : Nat) (pid : PageID) (lo hi : Option Int), wfSubtree cfg bm h pid lo hi = true →
      ∀ q ∈ subtreeLeaves bm h pid,
        q ∈ subtreePages bm h pid ∧ ∃ lo' hi', wfSubtree cfg bm 0 q lo' hi' = true := by
  intro h
  induction h with
  | zero =>
    intro pid lo hi hwf q hq
    simp only [subtreeLeaves, List.mem_singleton] at hq
    subst hq
    exact ⟨by simp [subtreePages], lo, hi, hwf⟩
  | succ h ih =>
    intro pid lo hi hwf q hq
    rw [subtreeLeaves_succ] at hq
    obtain ⟨d, hd, hqd⟩ := List.mem_flatMap.1 hq
    obtain ⟨lc, hc, hw⟩ := children_wf cfg bm h pid lo hi hwf d hd
    obtain ⟨h1, h2⟩ := ih d lc hc hw q hqd
    refine ⟨?_, h2⟩
    rw [subtreePages_succ]
    exact List.mem_cons_of_mem _ (List.mem_flatMap.2 ⟨d, hd, h1⟩)

theorem leaves_in_tail (cfg : Cfg) (bm : BufMgr) (h : Nat) (pid : PageID) (lo hi : Option Int)
    (hwf : wfSubtree cfg bm (h + 1) pid lo hi = true) :
    ∀ q ∈ subtreeLeaves bm (h + 1) pid, q ∈ (subtreePages bm (h + 1) pid).tail := by
  intro q hq
  rw [subtreeLeaves_succ] at hq
  obtain ⟨d, hd, hqd⟩ := List.mem_flatMap.1 hq
  obtain ⟨lc, hc, hw⟩ := children_wf cfg bm h pid lo hi hwf d hd
  rw [subtreePages_succ, List.tail_cons]
  exact List.mem_flatMap.2 ⟨d, hd, (leaves_wf cfg bm h d lc hc hw q hqd).1⟩

theorem halfFull_leaf_nonempty (cfg : Cfg) (hs : cfg.Sane) (bm : BufMgr) (q : PageID)
    (lo hi : Option Int) (hwf : wfSubtree cfg bm 0 q lo hi = true)
    (hh : (bm.page q).IsAtLeastHalfFull cfg = true) : (bm.page q).leaf ≠ [] := by
  obtain ⟨hcl, hD, _, _⟩ := hs
  obtain ⟨_, hidx, _, _, _⟩ := wfSubtree_zero.1 hwf
  intro hl
  simp only [SortedPage.IsAtLeastHalfFull, decide_eq_true_eq, leaf_avail hidx, hl,
    List.length_nil, Nat.zero_mul, Nat.sub_zero] at hh
  omega

theorem flatMap_length_ge {α β : Type} (f : α → List β) :
    ∀ (l : List α), (∀ x ∈ l, f x ≠ []) → l.length ≤ (l.flatMap f).length := by
  intro l
  induction l with
  | nil => intro _; simp
  | cons a l ih =>
    intro h
    have h1 : 1 ≤ (f a).length := by
      cases hfa : f a with
      | nil => exact absurd hfa (h a (List.mem_cons_self _ _))
      | cons x xs => simp
    have h2 := ih (fun x hx => h x (List.mem_cons_of_mem _ hx))
    simp only [List.flatMap_cons, List.length_append, List.length_cons]
    omega

/-- The leaves of a well-formed tree: all of them hold entries, or the tree is
a single empty root leaf. -/
theorem leaves_nonempty (cfg : Cfg) (hs : cfg.Sane) (t : BTreeFile) (h : Nat)
    (hwf : BTreeFile.wellFormedAt cfg h t = true) :
    ((∀ q ∈ subtreeLeaves t.bm h t.rootPid, (t.bm.page q).leaf ≠ [])
        ∨ leafEntries t.bm (subtreeLeaves t.bm h t.rootPid) = [])
      ∧ (subtreeLeaves t.bm h t.rootPid).length
          ≤ (leafEntries t.bm (subtreeLeaves t.bm h t.rootPid)).length + 1 := by
  simp only [BTreeFile.wellFormedAt, Bool.and_eq_true, decide_eq_true_eq, List.all_eq_true]
    at hwf
  obtain ⟨⟨⟨⟨⟨hw, _⟩, _⟩, _⟩, _⟩, hhalf⟩ := hwf
  cases h with
  | zero =>
    simp only [subtreeLeaves, leafEntries, List.flatMap_cons, List.flatMap_nil, List.append_nil,
      List.mem_singleton, forall_eq, List.length_singleton]
    refine ⟨?_, by omega⟩
    by_cases hl : (t.bm.page t.rootPid).leaf = []
    · exact Or.inr hl
    · exact Or.inl hl
  | succ h =>
    have hne : ∀ q ∈ subtreeLeaves t.bm (h + 1) t.rootPid, (t.bm.page q).leaf ≠ [] := by
      intro q hq
      obtain ⟨_, lo', hi', hw0⟩ := leaves_wf cfg t.bm (h + 1) t.rootPid none none hw q hq
      have hq' := leaves_in_tail cfg t.bm h t.rootPid none none hw q hq
      simp only [halfFullBelow, List.all_eq_true] at hhalf
      exact halfFull_leaf_nonempty cfg hs t.bm q lo' hi' hw0 (hhalf q hq')
    refine ⟨Or.inl hne, ?_⟩
    have := flatMap_length_ge (fun q => (t.bm.page q).leaf) _ hne
    unfold leafEntries
    omega

theorem takeWhile_eq_filter_sorted (c : Int) :
    ∀ (S : List LeafEntry), S.Pairwise (fun a b => a.key < b.key) →
      S.takeWhile (fun e => decide (e.key ≤ c)) = S.filter (fun e => decide (e.key ≤ c)) := by
  intro S
  induction S with
  | nil => intro _; rfl
  | cons a S ih =>
    intro hs
    obtain ⟨ha, hs'⟩ := List.pairwise_cons.1 hs
    by_cases hac : a.key ≤ c
    · rw [List.takeWhile_cons_of_pos (by simpa using hac),
        List.filter_cons_of_pos (by simpa using hac), ih hs']
    · rw [List.takeWhile_cons_of_neg (by simpa using hac),
        List.filter_cons_of_neg (by simpa using hac)]
      symm
      rw [List.filter_eq_nil_iff]
      intro x hx
      have := ha x hx
      simp only [decide_eq_true_eq, not_le]
      omega

theorem strict_of_sorted_nodup (S : List LeafEntry)
    (hs : S.Pairwise (fun a b => a.key ≤ b.key)) (hn : (S.map LeafEntry.key).Nodup) :
    S.Pairwise (fun a b => a.key < b.key) := by
  have h1 : S.Pairwise (fun a b => a.key ≠ b.key) := List.pairwise_map.1 hn
  refine (List.Pairwise.and hs h1).imp ?_
  intro a b hab
  exact lt_of_le_of_ne hab.1 hab.2

theorem wellFormedAt_facts (cfg : Cfg) (t : BTreeFile) (h : Nat)
    (hwf : BTreeFile.wellFormedAt cfg h t = true) :
    wfSubtree cfg t.bm h t.rootPid none none = true
      ∧ t.rootPid ≠ INVALID_PAGE
      ∧ chainOk t.bm INVALID_PAGE (subtreeLeaves t.bm h t.rootPid) = true
      ∧ ∀ q ∈ subtreeLeaves t.bm h t.rootPid, q ≠ INVALID_PAGE := by
  have hwf' := hwf
  simp only [BTreeFile.wellFormedAt, Bool.and_eq_true, decide_eq_true_eq, List.all_eq_true]
    at hwf'
  obtain ⟨⟨⟨⟨⟨hw, _⟩, hal⟩, hchain⟩, _⟩, _⟩ := hwf'
  have hpos : ∀ q ∈ subtreePages t.bm h t.rootPid, q ≠ INVALID_PAGE := by
    intro q hq hqi
    have := (hal q hq).1
    rw [hqi] at this
    simp [INVALID_PAGE] at this
  refine ⟨hw, hpos _ (subtreePages_self _ _ _), hchain, ?_⟩
  intro q hq
  exact hpos q (leaves_wf cfg t.bm h t.rootPid none none hw q hq).1

theorem scanInv_init (cfg : Cfg) (hs : cfg.Sane) (t : BTreeFile) (h : Nat)
    (hwf : BTreeFile.wellFormedAt cfg h t = true)
    (hdist : ((leafEntries t.bm (subtreeLeaves t.bm h t.rootPid)).map LeafEntry.key).Nodup)
    (h0 : (0 : Int) ∉ (leafEntries t.bm (subtreeLeaves t.bm h t.rootPid)).map LeafEntry.key)
    (pre ls : List PageID) (hLs : subtreeLeaves t.bm h t.rootPid = pre ++ ls)
    (sc : BTreeFileScan) (hso : sc.s = Status.OK)
    (hcur : sc.curPid = ls.head?.getD INVALID_PAGE) (hks : sc.key_scanned = 0)
    (hpre : ∀ e ∈ leafEntries t.bm pre, e.key < sc.lowKey) (fuel : Nat)
    (hfuel : (leafEntries t.bm (subtreeLeaves t.bm h t.rootPid)).length + 2 ≤ fuel) :
    ScanInv t.bm fuel sc ((leafEntries t.bm (subtreeLeaves t.bm h t.rootPid)).filter
      fun e => decide (sc.lowKey ≤ e.key)) := by
  obtain ⟨hw, _, hchain, hne⟩ := wellFormedAt_facts cfg t h hwf
  obtain ⟨hH, hlen⟩ := leaves_nonempty cfg hs t h hwf
  have hsorted := strict_of_sorted_nodup _
    (wf_entries_sorted cfg t.bm h t.rootPid none none hw).1 hdist
  rw [hLs] at hchain hne hH hlen hsorted hfuel h0
  rw [hLs]
  rw [leafEntries_append] at hH hlen hsorted hfuel h0
  rw [leafEntries_append]
  obtain ⟨p', hc'⟩ := chainOk_suffix t.bm pre ls INVALID_PAGE hchain
  refine ⟨hso, ls, ?_, ?_, ?_, (List.pairwise_append.1 hsorted).2.1, ?_, ?_⟩
  · rw [hcur]
    exact chainOk_isChain t.bm ls p' hc' (fun q hq => hne q (List.mem_append_right _ hq))
  · simp only [List.length_append] at hlen hfuel
    omega
  · rcases hH with hH | hH
    · exact Or.inl (fun q hq => hH q (List.mem_append_right _ hq))
    · exact Or.inr (List.append_eq_nil.1 hH).2
  · intro e he hek
    exfalso
    apply h0
    rw [hks] at hek
    rw [← hek]
    exact List.mem_map_of_mem _ (List.mem_append_right _ he)
  · rw [List.filter_append]
    have h1 : (leafEntries t.bm pre).filter (fun e => decide (sc.lowKey ≤ e.key)) = [] := by
      rw [List.filter_eq_nil_iff]
      intro x hx
      have := hpre x hx
      simp only [decide_eq_true_eq, not_le]
      exact this
    rw [h1, List.nil_append]
    unfold BTreeFileScan.pending
    apply List.filter_congr
    intro x hx
    have hx0 : x.key ≠ sc.key_scanned := by
      rw [hks]
      intro hx0
      apply h0
      rw [← hx0]
      exact List.mem_map_of_mem _ (List.mem_append_right _ hx)
    simp [hx0]

theorem getMaxKey_spec (cfg : Cfg) (hs : cfg.Sane) (t : BTreeFile) (h : Nat)
    (hwf : BTreeFile.wellFormedAt cfg h t = true)
    (hdist : ((leafEntries t.bm (subtreeLeaves t.bm h t.rootPid)).map LeafEntry.key).Nodup)
    (fuel : Nat) (hfuel : h + 1 ≤ fuel) (key0 : Int) :
    ∃ r, BTreeFile.GetMaxKey fuel t key0 = some r
      ∧ ∀ e ∈ leafEntries t.bm (subtreeLeaves t.bm h t.rootPid), e.key ≤ r.2 := by
  obtain ⟨hw, _, _, _⟩ := wellFormedAt_facts cfg t h hwf
  obtain ⟨hH, _⟩ := leaves_nonempty cfg hs t h hwf
  have hsorted := strict_of_sorted_nodup _
    (wf_entries_sorted cfg t.bm h t.rootPid none none hw).1 hdist
  obtain ⟨pre, L, hrun, hLs⟩ := max_descend_spec cfg t.bm h t.rootPid none none hw
  rw [hLs] at hH hsorted
  rw [hLs]
  unfold BTreeFile.GetMaxKey
  rw [hrun fuel hfuel]
  simp only
  cases hl : BTLeafPage.GetLast (t.bm.page L) with
  | none =>
    have hLe : (t.bm.page L).leaf = [] := List.getLast?_eq_none_iff.1 hl
    refine ⟨(L, key0), rfl, ?_⟩
    have hE : leafEntries t.bm (pre ++ [L]) = [] := by
      rcases hH with hH | hH
      · exact absurd hLe (hH L (by simp))
      · exact hH
    rw [hE]
    simp
  | some e =>
    refine ⟨(L, e.key), rfl, ?_⟩
    refine sorted_le_last hsorted ?_
    obtain ⟨init, hinit⟩ : ∃ init, (t.bm.page L).leaf = init ++ [e] :=
      List.getLast?_eq_some_iff.1 hl
    rw [leafEntries_append]
    simp only [leafEntries, List.flatMap_cons, List.flatMap_nil, List.append_nil, hinit]
    rw [← List.append_assoc]
    simp

theorem getMinimumPid_spec (cfg : Cfg) (hs : cfg.Sane) (t : BTreeFile) (h : Nat)
    (hwf : BTreeFile.wellFormedAt cfg h t = true)
    (hdist : ((leafEntries t.bm (subtreeLeaves t.bm h t.rootPid)).map LeafEntry.key).Nodup)
    (fuel : Nat) (hfuel : h + 1 ≤ fuel) (key0 : Int) :
    ∃ r, BTreeFile.GetMinimumPid fuel t key0 = some r
      ∧ r.1 = (subtreeLeaves t.bm h t.rootPid).head?.getD INVALID_PAGE
      ∧ ∀ e ∈ leafEntries t.bm (subtreeLeaves t.bm h t.rootPid), r.2.1 ≤ e.key := by
  obtain ⟨hw, _, _, _⟩ := wellFormedAt_facts cfg t h hwf
  obtain ⟨hH, _⟩ := leaves_nonempty cfg hs t h hwf
  have hsorted := strict_of_sorted_nodup _
    (wf_entries_sorted cfg t.bm h t.rootPid none none hw).1 hdist
  obtain ⟨L, post, hrun, hLs⟩ := min_descend_spec cfg t.bm h t.rootPid none none hw
  rw [hLs] at hH hsorted
  rw [hLs]
  unfold BTreeFile.GetMinimumPid
  rw [hrun fuel 0 hfuel]
  simp only
  cases hl : BTLeafPage.GetFirst (t.bm.page L) with
  | none =>
    have hLe : (t.bm.page L).leaf = [] := leaf_getFirst_none hl
    refine ⟨(L, key0, 0 + h), rfl, rfl, ?_⟩
    have hE : leafEntries t.bm (L :: post) = [] := by
      rcases hH with hH | hH
      · exact absurd hLe (hH L (by simp))
      · exact hH
    rw [hE]
    simp
  | some e =>
    refine ⟨(L, e.key, 0 + h), rfl, rfl, ?_⟩
    have hhead := head_mem_leaf hl
    have hE : leafEntries t.bm (L :: post)
        = e :: ((t.bm.page L).leaf.tail ++ leafEntries t.bm post) := by
      simp only [leafEntries, List.flatMap_cons]
      rw [hhead]
      simp
    rw [hE] at hsorted ⊢
    intro x hx
    rcases List.mem_cons.1 hx with hx | hx
    · rw [hx]
    · exact le_of_lt ((List.pairwise_cons.1 hsorted).1 x hx)

theorem scan_finish (E : List LeafEntry) (hsorted : E.Pairwise (fun a b => a.key < b.key))
    (low high : Option Int) (lw hk : Int)
    (hlow : ∀ e ∈ E, decide (lw ≤ e.key) = geLo low e.key)
    (hhigh : ∀ e ∈ E, decide (e.key ≤ hk) = leHi high e.key) :
    (E.filter fun e => decide (lw ≤ e.key)).takeWhile (fun e => decide (e.key ≤ hk))
      = E.filter (fun e => geLo low e.key && leHi high e.key) := by
  rw [takeWhile_eq_filter_sorted hk _ (hsorted.sublist (List.filter_sublist _)),
    List.filter_filter]
  apply List.filter_congr
  intro x hx
  rw [hlow x hx, hhigh x hx, Bool.and_comm]

theorem scan_run (cfg : Cfg) (hs : cfg.Sane) (t : BTreeFile) (h : Nat)
    (hwf : BTreeFile.wellFormedAt cfg h t = true)
    (hdist : ((leafEntries t.bm (subtreeLeaves t.bm h t.rootPid)).map LeafEntry.key).Nodup)
    (h0 : (0 : Int) ∉ (leafEntries t.bm (subtreeLeaves t.bm h t.rootPid)).map LeafEntry.key)
    (low high : Option Int) (pre ls : List PageID)
    (hLs : subtreeLeaves t.bm h t.rootPid = pre ++ ls)
    (lw hk : Int) (hpre : ∀ e ∈ leafEntries t.bm pre, e.key < lw)
    (hlow : ∀ e ∈ leafEntries t.bm (subtreeLeaves t.bm h t.rootPid),
      decide (lw ≤ e.key) = geLo low e.key)
    (hhigh : ∀ e ∈ leafEntries t.bm (subtreeLeaves t.bm h t.rootPid),
      decide (e.key ≤ hk) = leHi high e.key)
    (fuel : Nat)
    (hfuel : (leafEntries t.bm (subtreeLeaves t.bm h t.rootPid)).length + 2 ≤ fuel) (n : Nat)
    (hn : (leafEntries t.bm (subtreeLeaves t.bm h t.rootPid)).length < n) :
    BTreeFileScan.collect fuel t.bm n
        ⟨lw, hk, Status.OK, ls.head?.getD INVALID_PAGE, 0, ⟨0, 0⟩⟩
      = some (((leafEntries t.bm (subtreeLeaves t.bm h t.rootPid)).filter
          (fun e => geLo low e.key && leHi high e.key)).map fun e => (e.key, e.rid)) := by
  obtain ⟨hw, _, _, _⟩ := wellFormedAt_facts cfg t h hwf
  have hsorted := strict_of_sorted_nodup _
    (wf_entries_sorted cfg t.bm h t.rootPid none none hw).1 hdist
  have hinv := scanInv_init cfg hs t h hwf hdist h0 pre ls hLs
    ⟨lw, hk, Status.OK, ls.head?.getD INVALID_PAGE, 0, ⟨0, 0⟩⟩ rfl rfl rfl hpre fuel hfuel
  rw [collect_spec t.bm fuel _ _ n hinv
    (lt_of_le_of_lt (List.length_filter_le _ _) hn)]
  simp only
  rw [scan_finish _ hsorted low high lw hk hlow hhigh]

theorem scan_complete (cfg : Cfg) (hs : cfg.Sane) (t : BTreeFile) (hwf : t.WellFormed cfg)
    (fuel : Nat) (es : List LeafEntry) (he : t.entries fuel = some es)
    (hdist : (es.map LeafEntry.key).Nodup) (h0 : (0 : Int) ∉ es.map LeafEntry.key)
    (low high : Option Int)
    (hb : t.rootPid = INVALID_PAGE → low.isSome = true ∧ high.isSome = true)
    (key_tmp0 : Int) :
    ∃ sc, BTreeFile.OpenScan (fuel + es.length + 1) t low high key_tmp0 = some sc
      ∧ BTreeFileScan.collect (fuel + es.length + 1) t.bm (es.length + 1) sc
          = some ((es.filter (fun e => geLo low e.key && leHi high e.key)).map
              fun e => (e.key, e.rid))
      ∧ es.Pairwise (fun a b => a.key < b.key) := by
  by_cases hroot : t.rootPid = INVALID_PAGE
  · have hes : es = [] := by
      simp only [BTreeFile.entries, hroot, if_true, Option.some.injEq] at he
      exact he.symm
    subst hes
    obtain ⟨hl, hh⟩ := hb hroot
    obtain ⟨lo, rfl⟩ := Option.isSome_iff_exists.1 hl
    obtain ⟨hi, rfl⟩ := Option.isSome_iff_exists.1 hh
    refine ⟨⟨lo, hi, Status.DONE, INVALID_PAGE, 0, ⟨0, 0⟩⟩, ?_, ?_, List.Pairwise.nil⟩
    · unfold BTreeFile.OpenScan
      simp only [hroot, if_true]
    · simp [BTreeFileScan.collect, BTreeFileScan.GetNext]
  · rcases hwf with hwf | ⟨h, hwf⟩
    · exact absurd hwf hroot
    · obtain ⟨hw, _, _, _⟩ := wellFormedAt_facts cfg t h hwf
      simp only [BTreeFile.entries, hroot, if_false] at he
      have hfuel := entries_fuel_ge cfg t.bm h fuel t.rootPid none none es hw he
      have hE : es = leafEntries t.bm (subtreeLeaves t.bm h t.rootPid) := by
        obtain ⟨_, es0, hes0⟩ := wf_traverse cfg t.bm h t.rootPid none none hw
        have h1 := entries_eq_leaves cfg t.bm h t.rootPid none none hw
        rw [hes0 fuel hfuel] at he
        rw [hes0 (h + 1) (le_refl _)] at h1
        rw [← Option.some.inj he, Option.some.inj h1]
      subst hE
      have hsorted := strict_of_sorted_nodup _
        (wf_entries_sorted cfg t.bm h t.rootPid none none hw).1 hdist
      -- the upper bound of the cursor
      have hhigh : ∃ hk, (∀ e ∈ leafEntries t.bm (subtreeLeaves t.bm h t.rootPid),
            decide (e.key ≤ hk) = leHi high e.key)
          ∧ (match high with
              | some hi => some hi
              | none => (BTreeFile.GetMaxKey
                  (fuel + (leafEntries t.bm (subtreeLeaves t.bm h t.rootPid)).length + 1) t
                  key_tmp0).map fun r => r.2) = some hk := by
        cases high with
        | some hi => exact ⟨hi, fun e _ => rfl, rfl⟩
        | none =>
          obtain ⟨r, hr, hmax⟩ := getMaxKey_spec cfg hs t h hwf hdist
            (fuel + (leafEntries t.bm (subtreeLeaves t.bm h t.rootPid)).length + 1)
            (by omega) key_tmp0
          refine ⟨r.2, fun e he' => by simp [leHi, hmax e he'], ?_⟩
          simp only [hr, Option.map_some']
      obtain ⟨hk, hhk, hhm⟩ := hhigh
      cases low with
      | some lo =>
        obtain ⟨pre, L, post, hrun, hLs, hpre⟩ :=
          find_descend_spec cfg t.bm lo h t.rootPid none none hw rfl rfl
        refine ⟨⟨lo, hk, Status.OK, L, 0, ⟨0, 0⟩⟩, ?_, ?_, hsorted⟩
        · unfold BTreeFile.OpenScan
          simp only [hroot, if_false]
          cases high with
          | some hi =>
            simp only [Option.some.injEq] at hhm
            subst hhm
            simp only [BTreeFile.FindPidWithKey, hroot, if_false, hrun _ (by omega : h + 1 ≤
              fuel + (leafEntries t.bm (subtreeLeaves t.bm h t.rootPid)).length + 1)]
          | none =>
            simp only at hhm
            simp only [hhm, BTreeFile.FindPidWithKey, hroot, if_false, hrun _ (by omega :
              h + 1 ≤ fuel + (leafEntries t.bm (subtreeLeaves t.bm h t.rootPid)).length + 1)]
        · exact scan_run cfg hs t h hwf hdist h0 (some lo) high pre (L :: post) hLs lo hk hpre
            (fun e _ => rfl) hhk _ (by omega) _ (by omega)
      | none =>
        have hmin : ∀ key0, ∃ r, BTreeFile.GetMinimumPid
            (fuel + (leafEntries t.bm (subtreeLeaves t.bm h t.rootPid)).length + 1) t key0
              = some r
            ∧ r.1 = (subtreeLeaves t.bm h t.rootPid).head?.getD INVALID_PAGE
            ∧ ∀ e ∈ leafEntries t.bm (subtreeLeaves t.bm h t.rootPid), r.2.1 ≤ e.key :=
          fun key0 => getMinimumPid_spec cfg hs t h hwf hdist _ (by omega) key0
        cases high with
        | some hi =>
          simp only [Option.some.injEq] at hhm
          subst hhm
          obtain ⟨⟨L, key1, ht⟩, hr, hL, hle⟩ := hmin key_tmp0
          simp only at hL hle
          refine ⟨⟨key1, hi, Status.OK, L, 0, ⟨0, 0⟩⟩, ?_, ?_, hsorted⟩
          · unfold BTreeFile.OpenScan
            simp only [hroot, if_false, hr]
          · rw [hL]
            exact scan_run cfg hs t h hwf hdist h0 none (some hi) []
              (subtreeLeaves t.bm h t.rootPid) rfl key1 hi (by simp [leafEntries])
              (fun e he' => by simp [geLo, hle e he']) hhk _ (by omega) _ (by omega)
        | none =>
          simp only at hhm
          obtain ⟨rmax, hrmax⟩ : ∃ rmax, BTreeFile.GetMaxKey
              (fuel + (leafEntries t.bm (subtreeLeaves t.bm h t.rootPid)).length + 1) t
              key_tmp0 = some rmax := by
            cases hg : BTreeFile.GetMaxKey
              (fuel + (leafEntries t.bm (subtreeLeaves t.bm h t.rootPid)).length + 1) t
              key_tmp0 with
            | none => rw [hg] at hhm; simp at hhm
            | some r => exact ⟨r, rfl⟩
          rw [hrmax] at hhm
          simp only [Option.map_some', Option.some.injEq] at hhm
          subst hhm
          obtain ⟨⟨L, key1, ht⟩, hr, hL, hle⟩ := hmin rmax.2
          simp only at hL hle
          refine ⟨⟨key1, rmax.2, Status.OK, L, 0, ⟨0, 0⟩⟩, ?_, ?_, hsorted⟩
          · unfold BTreeFile.OpenScan
            simp only [hroot, if_false, hrmax, Option.map_some', hr]
          · rw [hL]
            exact scan_run cfg hs t h hwf hdist h0 none none []
              (subtreeLeaves t.bm h t.rootPid) rfl key1 rmax.2 (by simp [leafEntries])
              (fun e he' => by simp [geLo, hle e he']) hhk _ (by omega) _ (by omega)

/-- C6 (counterexample): `treeDupLeaf` is well formed: its root leaf holds the
key 5 under the record ids (7, 1) and (7, 2).  The scan from `OpenScan (5, 5)`
returns (5, (7, 1)) and then `DONE`; the stored pair (5, (7, 2)) is not
returned.  The cursor remembers its position as the key returned last
(`key_scanned`) and passes over every entry with that key. -/
theorem C6_counterexample_scan_misses_pair_with_equal_key :
    BTreeFile.wellFormedAt cfg4 0 treeDupLeaf = true
      ∧ treeDupLeaf.entries 1 = some [⟨5, ⟨7, 1⟩⟩, ⟨5, ⟨7, 2⟩⟩]
      ∧ ((BTreeFile.OpenScan 2 treeDupLeaf (some 5) (some 5) 0).bind fun sc =>
          BTreeFileScan.collect 2 treeDupLeaf.bm 3 sc) = some [(5, ⟨7, 1⟩)] := by
  decide!

/-- C6 (amended): on a page layout where a leaf holds at least one entry and an
index page at least two, for every well-formed tree whose stored keys are
pairwise distinct and different from 0, and every `low` and `high` (absent
bounds allowed when the tree has a root), `OpenScan (low, high)` returns a
cursor, and the pairs returned by repeated `GetNext` on it up to the first
`DONE` (reached within one call more than there are entries) are the stored
pairs `(k, r)` with `low ≤ k ≤ high`, each once, in strictly ascending key
order. -/
theorem C6_scan_returns_range_when_keys_distinct (cfg : Cfg) (hs : cfg.Sane) (t : BTreeFile)
    (hwf : t.WellFormed cfg) (fuel : Nat) (es : List LeafEntry)
    (he : t.entries fuel = some es)
    (hdist : (es.map LeafEntry.key).Nodup) (h0 : (0 : Int) ∉ es.map LeafEntry.key)
    (low high : Option Int)
    (hb : t.rootPid = INVALID_PAGE → low.isSome = true ∧ high.isSome = true)
    (key_tmp0 : Int) :
    ∃ sc, BTreeFile.OpenScan (fuel + es.length + 1) t low high key_tmp0 = some sc
      ∧ BTreeFileScan.collect (fuel + es.length + 1) t.bm (es.length + 1) sc
          = some ((es.filter (fun e => geLo low e.key && leHi high e.key)).map
              fun e => (e.key, e.rid))
      ∧ es.Pairwise (fun a b => a.key < b.key) :=
  scan_complete cfg hs t hwf fuel es he hdist h0 low high hb key_tmp0

/-- Witness for C6 (amended): the tree `treeH2` of height 2 with four entries
per page, scanned from 4 to 15. -/
theorem C6_scan_returns_range_when_keys_distinct_witness :
    (0 < 1 ∧ 1 ≤ 4 ∧ 0 < 1 ∧ 2 * 1 ≤ 4)
      ∧ BTreeFile.wellFormedAt cfg4 2 treeH2 = true
      ∧ treeH2.entries 3
          = some [⟨1, ⟨7, 1⟩⟩, ⟨2, ⟨7, 2⟩⟩, ⟨3, ⟨7, 3⟩⟩, ⟨4, ⟨7, 4⟩⟩, ⟨5, ⟨7, 5⟩⟩, ⟨6, ⟨7, 6⟩⟩,
              ⟨13, ⟨7, 13⟩⟩, ⟨14, ⟨7, 14⟩⟩, ⟨15, ⟨7, 15⟩⟩, ⟨16, ⟨7, 16⟩⟩, ⟨17, ⟨7, 17⟩⟩,
              ⟨18, ⟨7, 18⟩⟩]
      ∧ ∃ sc, BTreeFile.OpenScan (3 + 12 + 1) treeH2 (some 4) (some 15) 0 = some sc
          ∧ BTreeFileScan.collect (3 + 12 + 1) treeH2.bm (12 + 1) sc
              = some [(4, ⟨7, 4⟩), (5, ⟨7, 5⟩), (6, ⟨7, 6⟩), (13, ⟨7, 13⟩), (14, ⟨7, 14⟩),
                  (15, ⟨7, 15⟩)] := by
  refine ⟨by decide, by decide!, by decide!, ?_⟩
  obtain ⟨sc, h1, h2, _⟩ := C6_scan_returns_range_when_keys_distinct cfg4
    (by unfold Cfg.Sane; decide) treeH2 (Or.inr ⟨2, by decide!⟩) 3
    [⟨1, ⟨7, 1⟩⟩, ⟨2, ⟨7, 2⟩⟩, ⟨3, ⟨7, 3⟩⟩, ⟨4, ⟨7, 4⟩⟩, ⟨5, ⟨7, 5⟩⟩, ⟨6, ⟨7, 6⟩⟩,
      ⟨13, ⟨7, 13⟩⟩, ⟨14, ⟨7, 14⟩⟩, ⟨15, ⟨7, 15⟩⟩, ⟨16, ⟨7, 16⟩⟩, ⟨17, ⟨7, 17⟩⟩,
      ⟨18, ⟨7, 18⟩⟩]
    (by decide!) (by decide) (by decide) (some 4) (some 15)
    (fun h => absurd h (by decide)) 0
  exact ⟨sc, h1, h2⟩

/-- C11 (failing input): in the well-formed tree `treeH2Wide`, all of whose
nodes are at least half full, `Delete (9, (7,9))` merges two leaves under the
index page 3, which underflows.  The probe `IsAtLeastHalfFullAfterDelete` on the
previous sibling 2 deletes its first entry and returns `false` without putting
it back; the underflow is then settled with the next sibling 4.  `Delete`
returns `OK`, and the index page 2, still a child of the root, holds one entry
of four: it is not half full. -/
theorem C11_delete_leaves_probed_sibling_below_half :
    BTreeFile.wellFormedAt cfg4 2 treeH2Wide = true
    ∧ halfFullBelow cfg4 treeH2Wide.bm 2 treeH2Wide.rootPid = true
    ∧ ((BTreeFile.Delete cfg4 9 treeH2Wide 9 ⟨7, 9⟩).map fun r =>
        (r.1, r.2.rootPid, (r.2.bm.page r.2.rootPid).children))
      = some (Status.OK, 1, [2, 3, 4])
    ∧ ((BTreeFile.Delete cfg4 9 treeH2Wide 9 ⟨7, 9⟩).map fun r =>
        ((r.2.bm.page 2).index, (r.2.bm.page 2).IsAtLeastHalfFull cfg4,
          halfFullBelow cfg4 r.2.bm 2 r.2.rootPid))
      = some ([⟨5, 7⟩], false, false) := by
  decide!

/-- C12 (failing input): the well-formed tree `treeFullRoot` (two entries per
leaf, three per index page, pairwise distinct keys) satisfies the search-order
invariant.  `Insert (4, (7,4))` splits a leaf and the full root and returns
`OK`; the new root 8 holds the separator 2 over the index pages 1 and 7, and
the keys 3 and 4 lie in the subtree to the left of that separator. -/
theorem C12_insert_breaks_search_order :
    BTreeFile.wellFormedAt cfg23 1 treeFullRoot = true
    ∧ searchOrderAt treeFullRoot.bm 1 treeFullRoot.rootPid = true
    ∧ (BTreeFile.entries 4 treeFullRoot).map keysOf = some [1, 2, 3, 5, 6]
    ∧ ((BTreeFile.Insert cfg23 9 treeFullRoot 4 ⟨7, 4⟩).map fun r =>
        (r.1, r.2.rootPid, (r.2.bm.page r.2.rootPid).index,
          BTIndexPage.GetLeftLink (r.2.bm.page r.2.rootPid)))
      = some (Status.OK, 8, [⟨2, 7⟩], 1)
    ∧ ((BTreeFile.Insert cfg23 9 treeFullRoot 4 ⟨7, 4⟩).map fun r =>
        (subtreeKeys r.2.bm 1 1, subtreeKeys r.2.bm 1 7,
          searchOrderAt r.2.bm 2 r.2.rootPid))
      = some ([1, 3, 4], [2, 5, 6], false) := by
  decide!

/-- C14 (failing input): in the well-formed tree `treeFullLeaf` the leaf 2 is
full and has the next leaf 3.  `Insert (0, (7,0))` splits it into the pages 2
and 4 and returns `OK`.  The new leaf 4 keeps the next-page `INVALID_PAGE` it
was created with and the leaf 3 keeps the prev-page 2: the walk along the
next-page links from the leftmost leaf visits 2 and 4 and ends there, without
the leaf 3, which the root still points to. -/
theorem C14_insert_cuts_leaf_chain :
    BTreeFile.wellFormedAt cfg4 1 treeFullLeaf = true
    ∧ chainFrom treeFullLeaf.bm 9 2 = [2, 3]
    ∧ ((BTreeFile.Insert cfg4 9 treeFullLeaf 0 ⟨7, 0⟩).map fun r =>
        (r.1, r.2.rootPid, subtreeLeaves r.2.bm 1 r.2.rootPid, chainFrom r.2.bm 9 2))
      = some (Status.OK, 1, [2, 4, 3], [2, 4])
    ∧ ((BTreeFile.Insert cfg4 9 treeFullLeaf 0 ⟨7, 0⟩).map fun r =>
        ((r.2.bm.page 4).nextPage, (r.2.bm.page 3).prevPage,
          chainOk r.2.bm INVALID_PAGE (subtreeLeaves r.2.bm 1 r.2.rootPid)))
      = some (-1, 2, false) := by
  decide!

/-- C15 (failing input): with four entries per page and n = 13, the keys 1..13
are inserted in ascending order and then the keys 1..12 deleted in ascending
order.  `Delete (1)` loses the entries 9 and 10 (the probe of C19 on the index
page that holds their leaf), and `Delete (9)`, `Delete (10)` return `FAIL`. -/
theorem C15_delete_after_ascending_inserts_fails :
    ((BTreeFile.build cfg4 4 [1, 2, 3, 4, 5, 6, 7, 8, 9, 10, 11, 12, 13]).map fun t =>
        (BTreeFile.entries 4 t).map keysOf)
      = some (some [1, 2, 3, 4, 5, 6, 7, 8, 9, 10, 11, 12, 13])
    ∧ ((BTreeFile.build cfg4 4 [1, 2, 3, 4, 5, 6, 7, 8, 9, 10, 11, 12, 13]).bind fun t =>
        (BTreeFile.Delete cfg4 9 t 1 ⟨7, 1⟩).map fun r =>
          (r.1, (BTreeFile.entries 4 r.2).map keysOf))
      = some (Status.OK, some [2, 3, 4, 5, 6, 7, 8, 11, 12, 13])
    ∧ ((BTreeFile.build cfg4 4 [1, 2, 3, 4, 5, 6, 7, 8, 9, 10, 11, 12, 13]).bind fun t =>
        (BTreeFile.deleteEach cfg4 9 [1, 2, 3, 4, 5, 6, 7, 8, 9, 10, 11, 12] t).map
          fun r => r.1)
      = some [Status.OK, Status.OK, Status.OK, Status.OK, Status.OK, Status.OK, Status.OK,
          Status.OK, Status.FAIL, Status.FAIL, Status.OK, Status.OK] := by
  decide!

/-- C19 (failing input): an index page with room for four entries that holds
the two entries (3, 3) and (5, 4) is half full.  `IsAtLeastHalfFullAfterDelete`
deletes the first entry, finds the page below half, and returns `false` without
the `Insert` that the path returning `true` ends with: the page is left with
the entry (5, 4) alone. -/
theorem C19_index_probe_false_drops_first_entry :
    (indexPage 2 [(3, 3), (5, 4)]).index = [⟨3, 3⟩, ⟨5, 4⟩]
    ∧ (indexPage 2 [(3, 3), (5, 4)]).IsAtLeastHalfFull cfg4 = true
    ∧ (BTIndexPage.IsAtLeastHalfFullAfterDelete cfg4 (indexPage 2 [(3, 3), (5, 4)])).1 = false
    ∧ (BTIndexPage.IsAtLeastHalfFullAfterDelete cfg4 (indexPage 2 [(3, 3), (5, 4)])).2.index
        = [⟨5, 4⟩]
    ∧ (BTIndexPage.IsAtLeastHalfFullAfterDelete cfg4 (indexPage 2 [(3, 3), (5, 4), (7, 5)]))
        = (true, indexPage 2 [(3, 3), (5, 4), (7, 5)]) := by
  decide!

theorem findLoop_last_le (q : Int) :
    ∀ (rest : List IndexEntry) (cur prev : IndexEntry), ¬ q < cur.key →
      ascending ((cur :: rest).map IndexEntry.key) = true →
      ∃ pre e post, cur :: rest = pre ++ e :: post
        ∧ BTIndexPage.FindPageWithKey.loop q prev cur rest = e
        ∧ e.key ≤ q ∧ (∀ x ∈ pre, x.key ≤ e.key) ∧ ∀ x ∈ post, q < x.key := by
  intro rest
  induction rest with
  | nil =>
    intro cur prev hcur _
    refine ⟨[], cur, [], rfl, ?_, by omega, by simp, by simp⟩
    unfold BTIndexPage.FindPageWithKey.loop
    simp [hcur]
  | cons e' es ih =>
    intro cur prev hcur hasc
    have hp := ascending_pairwise _ hasc
    simp only [List.map_cons, List.pairwise_cons] at hp
    unfold BTIndexPage.FindPageWithKey.loop
    simp only [hcur, if_false]
    by_cases hq : q < e'.key
    · refine ⟨[], cur, e' :: es, rfl, ?_, by omega, by simp, ?_⟩
      · unfold BTIndexPage.FindPageWithKey.loop
        simp [hq]
      · intro x hx
        rcases List.mem_cons.1 hx with hx | hx
        · rw [hx]; exact hq
        · have := hp.2.1 x.key (List.mem_map_of_mem _ hx)
          omega
    · have hasc' : ascending ((e' :: es).map IndexEntry.key) = true := by
        simp only [List.map_cons, ascending, Bool.and_eq_true] at hasc
        simpa using hasc.2
      obtain ⟨pre, e, post, h1, h2, h3, h4, h5⟩ := ih e' cur hq hasc'
      refine ⟨cur :: pre, e, post, by rw [List.cons_append, ← h1], h2, h3, ?_, h5⟩
      intro x hx
      rcases List.mem_cons.1 hx with hx | hx
      · subst hx
        have he : e ∈ e' :: es := by rw [h1]; simp
        exact hp.1 e.key (List.mem_map_of_mem _ he)
      · exact h4 x hx

/-- C16: on an index page with at least one entry whose separators are
ascending, `FindPageWithKey (q)` returns `OK`; its output `pid` is the left-link
when `q` is smaller than the first separator, and otherwise the child of the
entry with the greatest separator `≤ q`, the last such entry when separators
repeat (every entry behind it has a separator `> q`). -/
theorem C16_findPageWithKey_selects_covering_child (p : SortedPage) (q : Int)
    (hne : p.index ≠ []) (hasc : ascending (p.index.map IndexEntry.key) = true) :
    ∃ found, BTIndexPage.FindPageWithKey p q = some found
      ∧ (∀ e0, p.index.head? = some e0 → q < e0.key →
          found.pid = BTIndexPage.GetLeftLink p)
      ∧ (∀ e0, p.index.head? = some e0 → ¬ q < e0.key →
          ∃ pre e post, p.index = pre ++ e :: post ∧ found.pid = e.pid ∧ e.key ≤ q
            ∧ (∀ x ∈ pre, x.key ≤ e.key) ∧ ∀ x ∈ post, q < x.key) := by
  cases hidx : p.index with
  | nil => exact absurd hidx hne
  | cons e0 rest =>
    rw [hidx] at hasc
    unfold BTIndexPage.FindPageWithKey
    rw [hidx]
    simp only [List.head?_cons, Option.some.injEq, forall_eq']
    by_cases hq : q < e0.key
    · simp only [hq, if_true]
      exact ⟨_, rfl, fun _ => rfl, fun h => absurd trivial h⟩
    · simp only [hq, if_false]
      obtain ⟨pre, e, post, h1, h2, h3, h4, h5⟩ := findLoop_last_le q rest e0 ⟨0, 0⟩ hq hasc
      refine ⟨_, rfl, fun h => absurd h (by simp), fun _ => ⟨pre, e, post, h1, ?_, h3, h4, h5⟩⟩
      rw [h2]

/-- Witness for C16: the page with the separators 3, 5, 5, 9 and the key 6. -/
theorem C16_findPageWithKey_selects_covering_child_witness :
    (indexPage 2 [(3, 3), (5, 4), (5, 5), (9, 6)]).index ≠ []
      ∧ ascending ((indexPage 2 [(3, 3), (5, 4), (5, 5), (9, 6)]).index.map IndexEntry.key)
          = true
      ∧ ∃ found, BTIndexPage.FindPageWithKey (indexPage 2 [(3, 3), (5, 4), (5, 5), (9, 6)]) 6
            = some found
          ∧ (∀ e0, (indexPage 2 [(3, 3), (5, 4), (5, 5), (9, 6)]).index.head? = some e0 →
              6 < e0.key →
              found.pid = BTIndexPage.GetLeftLink (indexPage 2 [(3, 3), (5, 4), (5, 5), (9, 6)]))
          ∧ (∀ e0, (indexPage 2 [(3, 3), (5, 4), (5, 5), (9, 6)]).index.head? = some e0 →
              ¬ 6 < e0.key →
              ∃ pre e post, (indexPage 2 [(3, 3), (5, 4), (5, 5), (9, 6)]).index
                  = pre ++ e :: post ∧ found.pid = e.pid ∧ e.key ≤ 6
                ∧ (∀ x ∈ pre, x.key ≤ e.key) ∧ ∀ x ∈ post, 6 < x.key) :=
  ⟨by decide, by decide,
    C16_findPageWithKey_selects_covering_child (indexPage 2 [(3, 3), (5, 4), (5, 5), (9, 6)]) 6
      (by decide) (by decide)⟩

theorem getLast_getD_cons (a : PageID) (l : List PageID) (d : PageID) :
    (a :: l).getLast?.getD d = l.getLast?.getD a := by
  cases l with
  | nil => rfl
  | cons b l => rw [List.getLast?_cons_cons]; simp [List.getLast?_cons]

theorem findKeysLoop_inner (q : Int) :
    ∀ (rest : List IndexEntry) (cur : IndexEntry) (pp pv : PageID) (pk : Int) (prev : IndexEntry),
      ¬ q < cur.key → (∃ last, (cur :: rest).getLast? = some last ∧ q < last.key) →
      strictAscending ((cur :: rest).map IndexEntry.key) = true →
      ∃ pre e e' post, cur :: rest = pre ++ e :: e' :: post ∧ e.key ≤ q ∧ q < e'.key
        ∧ (∀ x ∈ post, q < x.key)
        ∧ BTIndexPage.FindPageWithKeys.loop q pp pv pk cur rest
            = { key := e.key, nextKey := e'.key, pid := e.pid,
                prevPid := (pre.map IndexEntry.pid).getLast?.getD pv, nextPid := e'.pid }
        ∧ BTIndexPage.FindPageWithKey.loop q prev cur rest = e := by
  intro rest
  induction rest with
  | nil =>
    intro cur pp pv pk prev hc hl _
    obtain ⟨last, h1, h2⟩ := hl
    simp only [List.getLast?_singleton, Option.some.injEq] at h1
    subst h1
    exact absurd h2 hc
  | cons e1 es ih =>
    intro cur pp pv pk prev hc hl hasc
    obtain ⟨_, hasc'⟩ := strictAscending_cons (by simpa using hasc)
    unfold BTIndexPage.FindPageWithKeys.loop BTIndexPage.FindPageWithKey.loop
    simp only [hc, if_false]
    by_cases hq : q < e1.key
    · refine ⟨[], cur, e1, es, rfl, by omega, hq, ?_, ?_, ?_⟩
      · intro x hx
        have := (strictAscending_cons hasc').1 x.key (List.mem_map_of_mem _ hx)
        omega
      · unfold BTIndexPage.FindPageWithKeys.loop
        simp [hq]
      · unfold BTIndexPage.FindPageWithKey.loop
        simp [hq]
    · obtain ⟨last, h1, h2⟩ := hl
      rw [List.getLast?_cons_cons] at h1
      obtain ⟨pre, e, e', post, h3, h4, h5, h6, h7, h8⟩ :=
        ih e1 pv cur.pid cur.key cur hq ⟨last, h1, h2⟩ hasc'
      refine ⟨cur :: pre, e, e', post, by rw [List.cons_append, ← h3], h4, h5, h6, ?_, h8⟩
      rw [h7, List.map_cons, getLast_getD_cons]

/-- C18: on an index page with strictly ascending separators and a search key
`q` smaller than the last separator, `FindPageWithKeys (q)` returns `OK` with
`pid` the covering child, the one `FindPageWithKey (q)` selects.  When `q` is
smaller than the first separator this is the left-link, `prevPid` is
`INVALID_PAGE` and `nextPid`, `nextKey` are the first entry.  Otherwise the
entries split as `pre ++ e :: e' :: post` with `e.key ≤ q < e'.key`: `pid` and
`key` are the entry `e`, `nextPid` and `nextKey` the entry `e'`, and `prevPid`
the child before `e` (the last of `pre`, or the left-link when `e` is the first
entry). -/
theorem C18_findPageWithKeys_reports_neighbours (p : SortedPage) (q : Int)
    (hasc : strictAscending (p.index.map IndexEntry.key) = true)
    (hq : ∃ last, p.index.getLast? = some last ∧ q < last.key) :
    ∃ k found, BTIndexPage.FindPageWithKeys p q = some k
      ∧ BTIndexPage.FindPageWithKey p q = some found ∧ k.pid = found.pid
      ∧ ((∃ e0, p.index.head? = some e0 ∧ q < e0.key
            ∧ k.pid = BTIndexPage.GetLeftLink p ∧ k.prevPid = INVALID_PAGE
            ∧ k.nextPid = e0.pid ∧ k.nextKey = e0.key)
        ∨ ∃ pre e e' post, p.index = pre ++ e :: e' :: post ∧ e.key ≤ q ∧ q < e'.key
            ∧ (∀ x ∈ post, q < x.key)
            ∧ k.pid = e.pid ∧ k.key = e.key ∧ k.nextPid = e'.pid ∧ k.nextKey = e'.key
            ∧ k.prevPid = (pre.map IndexEntry.pid).getLast?.getD (BTIndexPage.GetLeftLink p)) := by
  cases hidx : p.index with
  | nil =>
    obtain ⟨last, h1, _⟩ := hq
    rw [hidx] at h1
    simp at h1
  | cons e0 rest =>
    rw [hidx] at hasc hq
    unfold BTIndexPage.FindPageWithKeys BTIndexPage.FindPageWithKey
    rw [hidx]
    simp only
    by_cases hc : q < e0.key
    · simp only [hc, if_true]
      exact ⟨_, _, rfl, rfl, rfl, Or.inl ⟨e0, rfl, hc, rfl, rfl, rfl, rfl⟩⟩
    · simp only [hc, if_false]
      obtain ⟨pre, e, e', post, h3, h4, h5, h6, h7, h8⟩ :=
        findKeysLoop_inner q rest e0 INVALID_PAGE (BTIndexPage.GetLeftLink p) 0 ⟨0, 0⟩ hc hq hasc
      refine ⟨_, _, rfl, rfl, ?_, Or.inr ⟨pre, e, e', post, h3, h4, h5, h6, ?_⟩⟩
      · rw [h7, h8]
      · rw [h7]
        exact ⟨rfl, rfl, rfl, rfl, rfl⟩

/-- Witness for C18: the page `indexPage359` and the key 6. -/
theorem C18_findPageWithKeys_reports_neighbours_witness :
    strictAscending (indexPage359.index.map IndexEntry.key) = true
      ∧ (∃ last, indexPage359.index.getLast? = some last ∧ 6 < last.key)
      ∧ ∃ k found, BTIndexPage.FindPageWithKeys indexPage359 6 = some k
          ∧ BTIndexPage.FindPageWithKey indexPage359 6 = some found ∧ k.pid = found.pid
          ∧ ((∃ e0, indexPage359.index.head? = some e0 ∧ 6 < e0.key
                ∧ k.pid = BTIndexPage.GetLeftLink indexPage359 ∧ k.prevPid = INVALID_PAGE
                ∧ k.nextPid = e0.pid ∧ k.nextKey = e0.key)
            ∨ ∃ pre e e' post, indexPage359.index = pre ++ e :: e' :: post ∧ e.key ≤ 6
                ∧ 6 < e'.key ∧ (∀ x ∈ post, 6 < x.key)
                ∧ k.pid = e.pid ∧ k.key = e.key ∧ k.nextPid = e'.pid ∧ k.nextKey = e'.key
                ∧ k.prevPid
                    = (pre.map IndexEntry.pid).getLast?.getD
                        (BTIndexPage.GetLeftLink indexPage359)) :=
  ⟨by decide, ⟨⟨9, 5⟩, by decide, by decide⟩,
    C18_findPageWithKeys_reports_neighbours indexPage359 6 (by decide)
      ⟨⟨9, 5⟩, by decide, by decide⟩⟩

theorem destroyLoop_spec (rec : PageID → Option (Status × List Call))
    (f : PageID → List PageID) :
    ∀ (idx : List IndexEntry) (log : List Call),
      (∀ e ∈ idx, rec e.pid = some (Status.OK, (f e.pid).map Call.FreePage)) →
      BTreeFile.DestroyFileHelper.loop rec idx log
        = some (Status.OK,
            log ++ (idx.flatMap fun e => f e.pid ++ [e.pid]).map Call.FreePage) := by
  intro idx
  induction idx with
  | nil => intro log _; simp [BTreeFile.DestroyFileHelper.loop]
  | cons e es ih =>
    intro log h
    unfold BTreeFile.DestroyFileHelper.loop
    rw [h e (List.mem_cons_self _ _)]
    simp only
    rw [ih _ (fun x hx => h x (List.mem_cons_of_mem _ hx))]
    simp

theorem destroyHelper_spec (cfg : Cfg) (bm : BufMgr) :
    ∀ (h : Nat) (pid : PageID) (lo hi : Option Int), wfSubtree cfg bm h pid lo hi = true →
      (∀ q ∈ subtreePages bm h pid, q ≠ INVALID_PAGE) →
      ∀ fuel, h + 1 ≤ fuel →
        BTreeFile.DestroyFileHelper bm fuel pid
          = some (Status.OK, (descendantsPostorder bm h pid).map Call.FreePage) := by
  intro h
  induction h with
  | zero =>
    intro pid lo hi hwf hne fuel hf
    obtain ⟨f, rfl⟩ : ∃ f, fuel = f + 1 := ⟨fuel - 1, by omega⟩
    have ht := (wfSubtree_zero.1 hwf).1
    unfold BTreeFile.DestroyFileHelper
    simp [hne pid (subtreePages_self _ _ _), ht, descendantsPostorder]
  | succ h ih =>
    intro pid lo hi hwf hne fuel hf
    obtain ⟨f, rfl⟩ : ∃ f, fuel = f + 1 := ⟨fuel - 1, by omega⟩
    have ht := (wfSubtree_succ.1 hwf).1
    have hC := children_wf cfg bm h pid lo hi hwf
    have hrec : ∀ d ∈ (bm.page pid).children,
        BTreeFile.DestroyFileHelper bm f d
          = some (Status.OK, (descendantsPostorder bm h d).map Call.FreePage) := by
      intro d hd
      obtain ⟨lc, hc, hw⟩ := hC d hd
      refine ih d lc hc hw ?_ f (by omega)
      intro q hq
      refine hne q ?_
      rw [subtreePages_succ]
      exact List.mem_cons_of_mem _ (List.mem_flatMap.2 ⟨d, hd, hq⟩)
    unfold BTreeFile.DestroyFileHelper
    simp only [hne pid (subtreePages_self _ _ _), if_false, ht, if_true]
    rw [hrec _ (by simp [SortedPage.children])]
    simp only
    have hmem : ∀ e ∈ (bm.page pid).index, e.pid ∈ (bm.page pid).children := by
      intro e he
      simp only [SortedPage.children]
      exact List.mem_cons_of_mem _ (List.mem_map_of_mem _ he)
    rw [destroyLoop_spec _ (descendantsPostorder bm h) _ _ (fun e he => hrec e.pid (hmem e he))]
    simp [descendantsPostorder, SortedPage.children, List.flatMap_map]

theorem postorder_perm (bm : BufMgr) :
    ∀ (h : Nat) (pid : PageID),
      List.Perm (descendantsPostorder bm h pid ++ [pid]) (subtreePages bm h pid) := by
  intro h
  induction h with
  | zero => intro pid; simp [descendantsPostorder, subtreePages]
  | succ h ih =>
    intro pid
    rw [subtreePages_succ]
    have h1 : List.Perm (descendantsPostorder bm (h + 1) pid)
        ((bm.page pid).children.flatMap (subtreePages bm h)) := by
      unfold descendantsPostorder
      exact List.Perm.flatMap_left _ (fun c _ => ih c)
    exact (List.perm_append_singleton _ _).trans (List.Perm.cons _ h1)

theorem postorder_children_first (cfg : Cfg) (bm : BufMgr) :
    ∀ (h : Nat) (pid : PageID) (lo hi : Option Int), wfSubtree cfg bm h pid lo hi = true →
      ∀ q ∈ descendantsPostorder bm h pid ++ [pid],
        (bm.page q).type = NodeType.INDEX_NODE →
        ∀ c ∈ (bm.page q).children,
          List.Sublist [c, q] (descendantsPostorder bm h pid ++ [pid]) := by
  intro h
  induction h with
  | zero =>
    intro pid lo hi hwf q hq ht
    simp only [descendantsPostorder, List.nil_append, List.mem_singleton] at hq
    subst hq
    rw [(wfSubtree_zero.1 hwf).1] at ht
    cases ht
  | succ h ih =>
    intro pid lo hi hwf q hq ht c hc
    have hC := children_wf cfg bm h pid lo hi hwf
    rcases List.mem_append.1 hq with hq | hq
    · unfold descendantsPostorder at hq ⊢
      obtain ⟨d, hd, hqd⟩ := List.mem_flatMap.1 hq
      obtain ⟨lc, hcb, hw⟩ := hC d hd
      have h1 := ih d lc hcb hw q hqd ht c hc
      have h2 : List.Sublist (descendantsPostorder bm h d ++ [d])
          ((bm.page pid).children.flatMap fun c => descendantsPostorder bm h c ++ [c]) := by
        obtain ⟨l1, l2, hl⟩ := List.append_of_mem hd
        rw [hl, List.flatMap_append, List.flatMap_cons]
        exact (List.sublist_append_left _ _).trans (List.sublist_append_right _ _)
      exact (h1.trans h2).trans (List.sublist_append_left _ _)
    · simp only [List.mem_singleton] at hq
      subst hq
      have h2 : List.Sublist [c] (descendantsPostorder bm (h + 1) q) := by
        rw [List.singleton_sublist]
        unfold descendantsPostorder
        exact List.mem_flatMap.2 ⟨c, hc, by simp⟩
      exact List.Sublist.append h2 (List.Sublist.refl [q])

theorem wf_height_unique (cfg : Cfg) (bm : BufMgr) :
    ∀ (h h' : Nat) (pid : PageID) (lo hi lo' hi' : Option Int),
      wfSubtree cfg bm h pid lo hi = true → wfSubtree cfg bm h' pid lo' hi' = true → h = h' := by
  intro h
  induction h with
  | zero =>
    intro h' pid lo hi lo' hi' h1 h2
    cases h' with
    | zero => rfl
    | succ n =>
      have t1 := (wfSubtree_zero.1 h1).1
      have t2 := (wfSubtree_succ.1 h2).1
      rw [t1] at t2
      cases t2
  | succ h ih =>
    intro h' pid lo hi lo' hi' h1 h2
    cases h' with
    | zero =>
      have t1 := (wfSubtree_succ.1 h1).1
      have t2 := (wfSubtree_zero.1 h2).1
      rw [t1] at t2
      cases t2
    | succ n =>
      obtain ⟨_, _, _, _, _, _, hl1, _⟩ := wfSubtree_succ.1 h1
      obtain ⟨_, _, _, _, _, _, hl2, _⟩ := wfSubtree_succ.1 h2
      rw [ih n _ _ _ _ _ hl1 hl2]

/-- C20: for a well-formed tree, with fuel that covers its height,
`DestroyFile` returns `OK`.  With a valid root its calls are `FreePage`, once
for every page reachable from the root and for no other page, every child
before the index page that points to it and the root last, followed by the
removal of the catalog entry; with `rootPid = INVALID_PAGE` the removal of the
catalog entry is the only call. -/
theorem C20_destroyFile_frees_reachable_pages_once (cfg : Cfg) (t : BTreeFile)
    (hwf : t.WellFormed cfg) (fuel : Nat)
    (hfuel : ∀ h, BTreeFile.wellFormedAt cfg h t = true → h + 1 ≤ fuel) :
    ∃ frees, BTreeFile.DestroyFile fuel t
        = some (Status.OK, frees.map Call.FreePage ++ [Call.DeleteFileEntry])
      ∧ frees.Nodup
      ∧ (∀ q, q ∈ frees ↔ t.rootPid ≠ INVALID_PAGE ∧ q ∈ treePages t.bm fuel t.rootPid)
      ∧ (t.rootPid ≠ INVALID_PAGE → frees.getLast? = some t.rootPid)
      ∧ ∀ q ∈ frees, (t.bm.page q).type = NodeType.INDEX_NODE →
          ∀ c ∈ (t.bm.page q).children, List.Sublist [c, q] frees := by
  by_cases hroot : t.rootPid = INVALID_PAGE
  · refine ⟨[], ?_, List.nodup_nil, ?_, fun h => absurd hroot h, by simp⟩
    · unfold BTreeFile.DestroyFile
      simp [hroot]
    · intro q
      simp [hroot]
  · rcases hwf with hwf | ⟨h, hwf⟩
    · exact absurd hwf hroot
    · have hf := hfuel h hwf
      have hwf' := hwf
      simp only [BTreeFile.wellFormedAt, Bool.and_eq_true, decide_eq_true_eq,
        List.all_eq_true] at hwf'
      obtain ⟨⟨⟨⟨⟨hw, hnd⟩, hal⟩, _⟩, _⟩, _⟩ := hwf'
      have hne : ∀ q ∈ subtreePages t.bm h t.rootPid, q ≠ INVALID_PAGE := by
        intro q hq hqi
        have := (hal q hq).1
        rw [hqi] at this
        simp [INVALID_PAGE] at this
      have hrun := destroyHelper_spec cfg t.bm h t.rootPid none none hw hne fuel hf
      have hperm := postorder_perm t.bm h t.rootPid
      have htp := (wf_traverse cfg t.bm h t.rootPid none none hw).1 fuel hf
      refine ⟨descendantsPostorder t.bm h t.rootPid ++ [t.rootPid], ?_,
        hperm.nodup_iff.2 hnd, ?_, fun _ => by simp,
        postorder_children_first cfg t.bm h t.rootPid none none hw⟩
      · unfold BTreeFile.DestroyFile
        simp only [hroot, if_false, hrun]
        simp
      · intro q
        rw [hperm.mem_iff, htp]
        simp [hroot]

/-- Witness for C20: the tree `treeH2` of height 2. -/
theorem C20_destroyFile_frees_reachable_pages_once_witness :
    BTreeFile.wellFormedAt cfg4 2 treeH2 = true
      ∧ ∃ frees, BTreeFile.DestroyFile 3 treeH2
          = some (Status.OK, frees.map Call.FreePage ++ [Call.DeleteFileEntry])
        ∧ frees.Nodup
        ∧ (∀ q, q ∈ frees ↔
            treeH2.rootPid ≠ INVALID_PAGE ∧ q ∈ treePages treeH2.bm 3 treeH2.rootPid)
        ∧ (treeH2.rootPid ≠ INVALID_PAGE → frees.getLast? = some treeH2.rootPid)
        ∧ ∀ q ∈ frees, (treeH2.bm.page q).type = NodeType.INDEX_NODE →
            ∀ c ∈ (treeH2.bm.page q).children, List.Sublist [c, q] frees :=
  ⟨by decide!,
    C20_destroyFile_frees_reachable_pages_once cfg4 treeH2 (Or.inr ⟨2, by decide!⟩) 3
      (fun h hw => by
        have h2 : BTreeFile.wellFormedAt cfg4 2 treeH2 = true := by decide!
        simp only [BTreeFile.wellFormedAt, Bool.and_eq_true] at hw h2
        have := wf_height_unique cfg4 treeH2.bm h 2 treeH2.rootPid none none none none
          hw.1.1.1.1.1 h2.1.1.1.1.1
        omega)⟩

theorem levelOk_succ_iff {lvl : PageID → Option Nat} {l : Nat} {p : SortedPage} :
    LevelOk lvl (l + 1) p
      ↔ p.type = NodeType.INDEX_NODE ∧ lvl p.prevPage = some l
        ∧ ∀ e ∈ p.index, lvl e.pid = some l := by
  simp [LevelOk, SortedPage.children, BTIndexPage.GetLeftLink]

theorem levelOk_ext {lvl lvl' : PageID → Option Nat} (hx : LevelExt lvl lvl') :
    ∀ {l : Nat} {p : SortedPage}, LevelOk lvl l p → LevelOk lvl' l p := by
  intro l p h
  cases l with
  | zero => exact h
  | succ l => exact ⟨h.1, fun c hc => hx _ _ (h.2 c hc)⟩

theorem levelOk_index_of_type {lvl : PageID → Option Nat} {l : Nat} {p : SortedPage}
    (h : LevelOk lvl l p) (ht : p.type = NodeType.INDEX_NODE) :
    ∃ l', l = l' + 1 := by
  cases l with
  | zero =>
    have h0 : p.type = NodeType.LEAF_NODE := h
    rw [ht] at h0
    cases h0
  | succ l => exact ⟨l, rfl⟩

theorem levelOk_leaf_of_type {lvl : PageID → Option Nat} {l : Nat} {p : SortedPage}
    (h : LevelOk lvl l p) (ht : ¬ p.type = NodeType.INDEX_NODE) : l = 0 := by
  cases l with
  | zero => rfl
  | succ l => exact absurd h.1 ht

theorem levelOk_type {lvl : PageID → Option Nat} {l : Nat} {p p' : SortedPage}
    (h : LevelOk lvl l p) (ht : p'.type = p.type) (hp : p'.prevPage = p.prevPage)
    (hi : ∀ e ∈ p'.index, e ∈ p.index) : LevelOk lvl l p' := by
  cases l with
  | zero =>
    have h0 : p.type = NodeType.LEAF_NODE := h
    exact ht.trans h0
  | succ l =>
    rw [levelOk_succ_iff] at h ⊢
    exact ⟨ht.trans h.1, hp ▸ h.2.1, fun e he => h.2.2 e (hi e he)⟩

theorem levelOk_leaf_type {lvl : PageID → Option Nat} {p p' : SortedPage}
    (h : LevelOk lvl 0 p) (ht : p'.type = p.type) : LevelOk lvl 0 p' := by
  have h0 : p.type = NodeType.LEAF_NODE := h
  exact ht.trans h0

theorem index_delete_shape (p : SortedPage) (k : Int) :
    (BTIndexPage.Delete p k).2.type = p.type
      ∧ (BTIndexPage.Delete p k).2.prevPage = p.prevPage
      ∧ ∀ e ∈ (BTIndexPage.Delete p k).2.index, e ∈ p.index := by
  unfold BTIndexPage.Delete
  cases hr : eraseLast (fun e : IndexEntry => decide (e.key = k)) p.index with
  | none => simp
  | some es =>
    simp only
    exact ⟨trivial, trivial, fun e he => (eraseLast_sublist _ _ _ hr).subset he⟩

theorem index_insert_shape (cfg : Cfg) (p : SortedPage) (k : Int) (c : PageID) :
    (BTIndexPage.Insert cfg p k c).2.type = p.type
      ∧ (BTIndexPage.Insert cfg p k c).2.prevPage = p.prevPage
      ∧ ∀ e ∈ (BTIndexPage.Insert cfg p k c).2.index, e = ⟨k, c⟩ ∨ e ∈ p.index := by
  unfold BTIndexPage.Insert
  by_cases h : p.AvailableSpace cfg < cfg.sizeofIndexEntry
  · simp only [h, if_true]
    exact ⟨trivial, trivial, fun e he => Or.inr he⟩
  · simp only [h, if_false]
    exact ⟨trivial, trivial, fun e he => (insertSorted_mem _ _ _ _).1 he⟩

theorem leaf_delete_type (p : SortedPage) (k : Int) (r : RecordID) :
    (BTLeafPage.Delete p k r).2.type = p.type := by
  unfold BTLeafPage.Delete
  cases eraseLast (fun e : LeafEntry => decide (e.key = k ∧ e.rid = r)) p.leaf <;> rfl

theorem leaf_insert_type (cfg : Cfg) (p : SortedPage) (k : Int) (r : RecordID) :
    (BTLeafPage.Insert cfg p k r).2.type = p.type := by
  unfold BTLeafPage.Insert
  by_cases h : p.AvailableSpace cfg < cfg.sizeofLeafEntry
  · simp [h]
  · simp [h]

theorem leaf_probe_page (cfg : Cfg) (p : SortedPage) :
    (BTLeafPage.IsAtLeastHalfFullAfterDelete cfg p).2 = p := by
  unfold BTLeafPage.IsAtLeastHalfFullAfterDelete
  by_cases h : (!p.IsAtLeastHalfFull cfg) = true
  · simp [h]
  · simp only [h]
    cases BTLeafPage.GetFirst p <;> rfl

theorem levelOk_index_delete {lvl : PageID → Option Nat} {l : Nat} {p : SortedPage}
    (h : LevelOk lvl (l + 1) p) (k : Int) : LevelOk lvl (l + 1) (BTIndexPage.Delete p k).2 :=
  levelOk_type h (index_delete_shape p k).1 (index_delete_shape p k).2.1
    (index_delete_shape p k).2.2

theorem levelOk_index_insert {lvl : PageID → Option Nat} {l : Nat} {p : SortedPage}
    (h : LevelOk lvl (l + 1) p) (cfg : Cfg) (k : Int) {c : PageID} (hc : lvl c = some l) :
    LevelOk lvl (l + 1) (BTIndexPage.Insert cfg p k c).2 := by
  rw [levelOk_succ_iff] at h ⊢
  obtain ⟨h1, h2, h3⟩ := index_insert_shape cfg p k c
  refine ⟨h1.trans h.1, h2 ▸ h.2.1, fun e he => ?_⟩
  rcases h3 e he with rfl | he'
  · exact hc
  · exact h.2.2 e he'

theorem levelOk_setLeftLink {lvl : PageID → Option Nat} {l : Nat} {p : SortedPage}
    (h : LevelOk lvl (l + 1) p) {c : PageID} (hc : lvl c = some l) :
    LevelOk lvl (l + 1) (BTIndexPage.SetLeftLink p c) := by
  rw [levelOk_succ_iff] at h ⊢
  exact ⟨h.1, hc, h.2.2⟩

theorem levelOk_index_probe {lvl : PageID → Option Nat} {l : Nat} {p : SortedPage}
    (h : LevelOk lvl (l + 1) p) (cfg : Cfg) :
    LevelOk lvl (l + 1) (BTIndexPage.IsAtLeastHalfFullAfterDelete cfg p).2 := by
  unfold BTIndexPage.IsAtLeastHalfFullAfterDelete
  by_cases h1 : (!p.IsAtLeastHalfFull cfg) = true
  · simpa [h1] using h
  · simp only [h1]
    cases hf : BTIndexPage.GetFirst p with
    | none => exact h
    | some e =>
      simp only
      have he : lvl e.pid = some l :=
        (levelOk_succ_iff.1 h).2.2 e (index_getFirst_mem hf)
      by_cases h2 : (!(BTIndexPage.Delete p e.key).2.IsAtLeastHalfFull cfg) = true
      · simp only [h2, if_true]
        exact levelOk_index_delete h _
      · simp only [h2]
        exact levelOk_index_insert (levelOk_index_delete h _) cfg _ he

theorem leveled_set {bm : BufMgr} {lvl : PageID → Option Nat} (h : Leveled bm lvl)
    {q : PageID} {p : SortedPage} (hp : ∀ l, lvl q = some l → LevelOk lvl l p) :
    Leveled (bm.set q p) lvl := by
  intro x l hx
  by_cases hq : x = q
  · subst hq
    simpa [BufMgr.set] using hp l hx
  · simpa [BufMgr.set, hq] using h x l hx

theorem leveled_set_same {bm : BufMgr} {lvl : PageID → Option Nat} (h : Leveled bm lvl)
    {q : PageID} {p : SortedPage}
    (hp : ∀ l, LevelOk lvl l (bm.page q) → LevelOk lvl l p) :
    Leveled (bm.set q p) lvl :=
  leveled_set h fun l hl => hp l (h q l hl)

theorem leveled_uniform {bm : BufMgr} {lvl : PageID → Option Nat} (h : Leveled bm lvl) :
    ∀ (l : Nat) (q : PageID), lvl q = some l → uniformDepth bm l q = true := by
  intro l
  induction l with
  | zero =>
    intro q hq
    have := h q 0 hq
    simpa [uniformDepth, LevelOk] using this
  | succ l ih =>
    intro q hq
    have := h q (l + 1) hq
    unfold uniformDepth
    simp only [Bool.and_eq_true, decide_eq_true_eq, List.all_eq_true]
    exact ⟨this.1, fun c hc => ih c (this.2 c hc)⟩

theorem uniformDepth_unique (bm : BufMgr) :
    ∀ (l l' : Nat) (q : PageID), uniformDepth bm l q = true → uniformDepth bm l' q = true →
      l = l' := by
  intro l
  induction l with
  | zero =>
    intro l' q h1 h2
    cases l' with
    | zero => rfl
    | succ l' =>
      simp [uniformDepth] at h1 h2
      rw [h1] at h2
      exact absurd h2.1 (by decide)
  | succ l ih =>
    intro l' q h1 h2
    cases l' with
    | zero =>
      simp [uniformDepth] at h1 h2
      rw [h2] at h1
      exact absurd h1.1 (by decide)
    | succ l' =>
      unfold uniformDepth at h1 h2
      simp only [Bool.and_eq_true, decide_eq_true_eq, List.all_eq_true] at h1 h2
      have hm : BTIndexPage.GetLeftLink (bm.page q) ∈ (bm.page q).children := by
        simp [SortedPage.children]
      rw [ih l' _ (h1.2 _ hm) (h2.2 _ hm)]

theorem leveled_set_leaf {bm : BufMgr} {lvl : PageID → Option Nat} (h : Leveled bm lvl)
    {q : PageID} {p : SortedPage} (hq : lvl q = some 0) (ht : p.type = (bm.page q).type) :
    Leveled (bm.set q p) lvl := by
  refine leveled_set h fun l hl => ?_
  rw [hq] at hl
  cases hl
  exact levelOk_leaf_type (h q 0 hq) ht

theorem set_page_self (bm : BufMgr) (q : PageID) (p : SortedPage) :
    (bm.set q p).page q = p := by
  simp [BufMgr.set]

theorem deleteLeaf_prev_leveled (cfg : Cfg) {bm : BufMgr} {lvl : PageID → Option Nat}
    (h : Leveled bm lvl) {a b : PageID} (ha : lvl a = some 0) (hb : lvl b = some 0)
    (nk : Option Int) : Leveled (BTreeFile.DeleteLeaf_prev cfg bm a b nk).1 lvl := by
  unfold BTreeFile.DeleteLeaf_prev
  cases hg : BTLeafPage.GetLast (bm.page a) with
  | none => exact h
  | some e =>
    simp only
    have h1 : Leveled (bm.set a (BTLeafPage.Delete (bm.page a) e.key e.rid).2) lvl :=
      leveled_set_leaf h ha (leaf_delete_type _ _ _)
    have h2 : Leveled ((bm.set a (BTLeafPage.Delete (bm.page a) e.key e.rid).2).set b
        (BTLeafPage.Insert cfg ((bm.set a (BTLeafPage.Delete (bm.page a) e.key e.rid).2).page b)
          e.key e.rid).2) lvl :=
      leveled_set_leaf h1 hb (leaf_insert_type _ _ _ _)
    split
    · rename_i p1 hd
      have hp1 : p1 = (BTLeafPage.Delete (bm.page a) e.key e.rid).2 := by rw [hd]
      subst hp1
      split
      · rename_i p2 hi
        have hp2 : p2 = (BTLeafPage.Insert cfg
            ((bm.set a (BTLeafPage.Delete (bm.page a) e.key e.rid).2).page b) e.key e.rid).2 := by
          rw [hi]
        subst hp2
        split <;> exact h2
      · exact h1
    · exact h

theorem deleteLeaf_next_leveled (cfg : Cfg) {bm : BufMgr} {lvl : PageID → Option Nat}
    (h : Leveled bm lvl) {a b : PageID} (ha : lvl a = some 0) (hb : lvl b = some 0)
    (nk : Option Int) : Leveled (BTreeFile.DeleteLeaf_next cfg bm a b nk).1 lvl := by
  unfold BTreeFile.DeleteLeaf_next
  cases hg : BTLeafPage.GetFirst (bm.page a) with
  | none => exact h
  | some e =>
    simp only
    have h1 : Leveled (bm.set a (BTLeafPage.Delete (bm.page a) e.key e.rid).2) lvl :=
      leveled_set_leaf h ha (leaf_delete_type _ _ _)
    have h2 : Leveled ((bm.set a (BTLeafPage.Delete (bm.page a) e.key e.rid).2).set b
        (BTLeafPage.Insert cfg ((bm.set a (BTLeafPage.Delete (bm.page a) e.key e.rid).2).page b)
          e.key e.rid).2) lvl :=
      leveled_set_leaf h1 hb (leaf_insert_type _ _ _ _)
    split
    · rename_i p1 hd
      have hp1 : p1 = (BTLeafPage.Delete (bm.page a) e.key e.rid).2 := by rw [hd]
      subst hp1
      split
      · rename_i p2 hi
        have hp2 : p2 = (BTLeafPage.Insert cfg
            ((bm.set a (BTLeafPage.Delete (bm.page a) e.key e.rid).2).page b) e.key e.rid).2 := by
          rw [hi]
        subst hp2
        split <;> exact h2
      · exact h1
    · exact h

theorem mergeLeaf_leveled (cfg : Cfg) {lvl : PageID → Option Nat} {src dst : PageID}
    (hs : lvl src = some 0) (hd : lvl dst = some 0) :
    ∀ (fuel : Nat) (bm bm' : BufMgr), Leveled bm lvl →
      BTreeFile.MergeLeaf.loop cfg src dst fuel bm = some bm' → Leveled bm' lvl := by
  intro fuel
  induction fuel with
  | zero => intro bm bm' _ h; simp [BTreeFile.MergeLeaf.loop] at h
  | succ fuel ih =>
    intro bm bm' hl h
    unfold BTreeFile.MergeLeaf.loop at h
    cases hg : BTLeafPage.GetFirst (bm.page src) with
    | none =>
      simp only [hg, Option.some.injEq] at h
      exact h ▸ hl
    | some e =>
      simp only [hg] at h
      refine ih _ _ ?_ h
      exact leveled_set_leaf (leveled_set_leaf hl hd (leaf_insert_type _ _ _ _)) hs
        (leaf_delete_type _ _ _)

theorem mergeIndex_leveled (cfg : Cfg) {lvl : PageID → Option Nat} {src dst : PageID} {l : Nat}
    (hs : lvl src = some (l + 1)) (hd : lvl dst = some (l + 1)) :
    ∀ (fuel : Nat) (bm bm' : BufMgr), Leveled bm lvl →
      BTreeFile.MergeIndex.loop cfg src dst fuel bm = some bm' → Leveled bm' lvl := by
  intro fuel
  induction fuel with
  | zero => intro bm bm' _ h; simp [BTreeFile.MergeIndex.loop] at h
  | succ fuel ih =>
    intro bm bm' hl h
    unfold BTreeFile.MergeIndex.loop at h
    cases hg : BTIndexPage.GetFirst (bm.page src) with
    | none =>
      simp only [hg, Option.some.injEq] at h
      exact h ▸ hl
    | some e =>
      simp only [hg] at h
      refine ih _ _ ?_ h
      have he : lvl e.pid = some l :=
        (levelOk_succ_iff.1 (hl src _ hs)).2.2 e (index_getFirst_mem hg)
      have h1 : Leveled (bm.set dst (BTIndexPage.Insert cfg (bm.page dst) e.key e.pid).2) lvl := by
        refine leveled_set hl fun l' hl' => ?_
        rw [hd] at hl'
        cases hl'
        exact levelOk_index_insert (hl dst _ hd) cfg _ he
      refine leveled_set h1 fun l' hl' => ?_
      rw [hs] at hl'
      cases hl'
      exact levelOk_index_delete (h1 src _ hs) _

theorem leafUnderflow_leveled (cfg : Cfg) {lvl : PageID → Option Nat} {bm : BufMgr}
    (h : Leveled bm lvl) {cur prev next : PageID} (hc : lvl cur = some 0)
    (hp : prev = INVALID_PAGE ∨ lvl prev = some 0)
    (hn : next = INVALID_PAGE ∨ lvl next = some 0)
    (fuel : Nat) (ck nk : Int) (out : BTreeFile.DeleteOut) (bm' : BufMgr)
    (o : BTreeFile.DeleteOut)
    (hres : BTreeFile.DeleteHelper.leafUnderflow cfg fuel bm ck nk cur prev next out
      = some (bm', o)) :
    Leveled bm' lvl ∧ ∀ c, o.child_pageid = some c → out.child_pageid = some c ∨ lvl c = some 0 := by
  have hprobe : ∀ (b : BufMgr) (q : PageID), Leveled b lvl → lvl q = some 0 →
      Leveled (b.set q (BTLeafPage.IsAtLeastHalfFullAfterDelete cfg (b.page q)).2) lvl := by
    intro b q hb hq
    exact leveled_set_leaf hb hq (by rw [leaf_probe_page])
  have hlink : ∀ (b : BufMgr) (q : PageID) (x : PageID), Leveled b lvl → lvl q = some 0 →
      Leveled (b.set q { b.page q with nextPage := x }) lvl := by
    intro b q x hb hq
    exact leveled_set_leaf hb hq rfl
  have hmn : ∀ (b b1 : BufMgr), Leveled b lvl → lvl next = some 0 →
      BTreeFile.MergeLeaf_next cfg fuel b next cur = some b1 → Leveled b1 lvl :=
    fun b b1 hb hs hm => mergeLeaf_leveled cfg hs hc fuel b b1 hb hm
  have hmp : ∀ (b b1 : BufMgr), Leveled b lvl → lvl prev = some 0 →
      BTreeFile.MergeLeaf_prev cfg fuel b prev cur = some b1 → Leveled b1 lvl :=
    fun b b1 hb hs hm => mergeLeaf_leveled cfg hc hs fuel b b1 hb hm
  unfold BTreeFile.DeleteHelper.leafUnderflow at hres
  by_cases hpv : prev = INVALID_PAGE
  · by_cases hnx : next = INVALID_PAGE
    · simp [hpv, hnx] at hres
    · have hn0 : lvl next = some 0 := hn.resolve_left hnx
      by_cases hpr : (BTLeafPage.IsAtLeastHalfFullAfterDelete cfg (bm.page next)).1 = true
      · simp only [hpv, hnx, hpr, ne_eq, not_true_eq_false, not_false_eq_true, if_true, if_false,
          true_and, and_self, Bool.true_eq_false, Option.some.injEq, Prod.mk.injEq] at hres
        obtain ⟨rfl, rfl⟩ := hres
        exact ⟨deleteLeaf_next_leveled cfg (hprobe _ _ h hn0) hn0 hc _,
          fun c hc' => Or.inr ((Option.some.inj hc') ▸ hn0)⟩
      · simp only [hpv, hnx, hpr, ne_eq, not_true_eq_false, not_false_eq_true, if_true, if_false,
          true_and, and_self, Bool.false_eq_true] at hres
        split at hres
        · exact absurd hres (by simp)
        · rename_i b1 hm
          simp only [Option.some.injEq, Prod.mk.injEq] at hres
          obtain ⟨rfl, rfl⟩ := hres
          exact ⟨hlink _ _ _ (hmn _ _ (hprobe _ _ h hn0) hn0 hm) hc, fun c hc' => Or.inl hc'⟩
  · have hp0 : lvl prev = some 0 := hp.resolve_left hpv
    by_cases hpp : (BTLeafPage.IsAtLeastHalfFullAfterDelete cfg (bm.page prev)).1 = true
    · simp only [hpv, hpp, ne_eq, not_true_eq_false, not_false_eq_true, if_true, if_false,
        true_and, and_self, and_false, Bool.true_eq_false, Option.some.injEq,
        Prod.mk.injEq] at hres
      obtain ⟨rfl, rfl⟩ := hres
      exact ⟨deleteLeaf_prev_leveled cfg (hprobe _ _ h hp0) hp0 hc _,
        fun c hc' => Or.inr ((Option.some.inj hc') ▸ hc)⟩
    · have hbP := hprobe _ _ h hp0
      by_cases hnx : next = INVALID_PAGE
      · simp only [hpv, hnx, hpp, ne_eq, not_true_eq_false, not_false_eq_true, if_true, if_false,
          true_and, and_self, false_and, Bool.false_eq_true] at hres
        split at hres
        · exact absurd hres (by simp)
        · rename_i b1 hm
          simp only [Option.some.injEq, Prod.mk.injEq] at hres
          obtain ⟨rfl, rfl⟩ := hres
          exact ⟨hlink _ _ _ (hmp _ _ hbP hp0 hm) hp0, fun c hc' => Or.inl hc'⟩
      · have hn0 : lvl next = some 0 := hn.resolve_left hnx
        by_cases hpr : (BTLeafPage.IsAtLeastHalfFullAfterDelete cfg
            ((bm.set prev (BTLeafPage.IsAtLeastHalfFullAfterDelete cfg (bm.page prev)).2).page
              next)).1 = true
        · simp only [hpv, hnx, hpp, hpr, ne_eq, not_true_eq_false, not_false_eq_true, if_true,
            if_false, true_and, and_self, Bool.false_eq_true, Bool.true_eq_false,
            Option.some.injEq, Prod.mk.injEq] at hres
          obtain ⟨rfl, rfl⟩ := hres
          exact ⟨deleteLeaf_next_leveled cfg (hprobe _ _ hbP hn0) hn0 hc _,
            fun c hc' => Or.inr ((Option.some.inj hc') ▸ hn0)⟩
        · simp only [hpv, hnx, hpp, hpr, ne_eq, not_true_eq_false, not_false_eq_true, if_true,
            if_false, true_and, and_self, Bool.false_eq_true] at hres
          split at hres
          · exact absurd hres (by simp)
          · rename_i b1 hm
            simp only [Option.some.injEq, Prod.mk.injEq] at hres
            obtain ⟨rfl, rfl⟩ := hres
            exact ⟨hlink _ _ _ (hmn _ _ (hprobe _ _ hbP hn0) hn0 hm) hc,
              fun c hc' => Or.inl hc'⟩

theorem leveled_set_index {bm : BufMgr} {lvl : PageID → Option Nat} (h : Leveled bm lvl)
    {q : PageID} {l : Nat} {p : SortedPage} (hq : lvl q = some (l + 1))
    (hp : LevelOk lvl (l + 1) p) : Leveled (bm.set q p) lvl := by
  refine leveled_set h fun l' hl' => ?_
  rw [hq] at hl'
  cases hl'
  exact hp

theorem index_getLast_mem {p : SortedPage} {e : IndexEntry}
    (h : BTIndexPage.GetLast p = some e) : e ∈ p.index :=
  List.mem_of_getLast?_eq_some h

theorem indexUnderflow_leveled (cfg : Cfg) {lvl : PageID → Option Nat} {bm : BufMgr} {l : Nat}
    (h : Leveled bm lvl) {cur prev next : PageID} (hc : lvl cur = some (l + 1))
    (hp : prev = INVALID_PAGE ∨ lvl prev = some (l + 1))
    (hn : next = INVALID_PAGE ∨ lvl next = some (l + 1))
    (fuel : Nat) (ck nk : Int) (out : BTreeFile.DeleteOut) (st : Status) (bm' : BufMgr)
    (o : BTreeFile.DeleteOut)
    (hres : BTreeFile.DeleteHelper.indexUnderflow cfg fuel bm ck nk cur prev next out
      = some (st, bm', o)) :
    Leveled bm' lvl
      ∧ ∀ c, o.child_pageid = some c → out.child_pageid = some c ∨ lvl c = some (l + 1) := by
  have hprobe : ∀ (b : BufMgr) (q : PageID), Leveled b lvl → lvl q = some (l + 1) →
      Leveled (b.set q (BTIndexPage.IsAtLeastHalfFullAfterDelete cfg (b.page q)).2) lvl :=
    fun b q hb hq => leveled_set_index hb hq (levelOk_index_probe (hb q _ hq) cfg)
  have hentry : ∀ (b : BufMgr) (q : PageID) (e : IndexEntry), Leveled b lvl →
      lvl q = some (l + 1) → e ∈ (b.page q).index → lvl e.pid = some l :=
    fun b q e hb hq he => (levelOk_succ_iff.1 (hb q _ hq)).2.2 e he
  have hleft : ∀ (b : BufMgr) (q : PageID), Leveled b lvl →
      lvl q = some (l + 1) → lvl (BTIndexPage.GetLeftLink (b.page q)) = some l :=
    fun b q hb hq => (levelOk_succ_iff.1 (hb q _ hq)).2.1
  have hstage3 : ∀ (b : BufMgr) (o2 : BTreeFile.DeleteOut)
      (x : Status × BufMgr × BTreeFile.DeleteOut), Leveled b lvl →
      (∀ c, o2.child_pageid = some c → out.child_pageid = some c ∨ lvl c = some (l + 1)) →
      (if next ≠ INVALID_PAGE then
          match BTIndexPage.GetFirst (b.page next) with
          | none => some (Status.FAIL, b, { o2 with merged := true })
          | some _ =>
            match BTreeFile.MergeIndex.loop cfg next cur fuel b with
            | none => none
            | some bm1 =>
              some (Status.OK,
                bm1.set cur (BTIndexPage.Insert cfg (bm1.page cur) nk
                  (BTIndexPage.GetLeftLink (bm1.page next))).2,
                { underflow := o2.underflow, merged := true, child_key := o2.child_key,
                  child_pageid := o2.child_pageid, deletedKey := some nk })
        else if prev ≠ INVALID_PAGE then
          match BTIndexPage.GetFirst (b.page cur) with
          | none => some (Status.FAIL, b, { o2 with merged := true })
          | some _ =>
            match BTreeFile.MergeIndex.loop cfg cur prev fuel b with
            | none => none
            | some bm1 =>
              some (Status.OK,
                bm1.set prev (BTIndexPage.Insert cfg (bm1.page prev) ck
                  (BTIndexPage.GetLeftLink (bm1.page cur))).2,
                { underflow := o2.underflow, merged := true, child_key := o2.child_key,
                  child_pageid := o2.child_pageid, deletedKey := some ck })
        else none) = some x →
      Leveled x.2.1 lvl ∧ ∀ c, x.2.2.child_pageid = some c →
        out.child_pageid = some c ∨ lvl c = some (l + 1) := by
    intro b o2 x hb ho2 hx
    by_cases hnx : next = INVALID_PAGE
    · by_cases hpv : prev = INVALID_PAGE
      · simp [hnx, hpv] at hx
      · have hp0 : lvl prev = some (l + 1) := hp.resolve_left hpv
        simp only [hnx, hpv, ne_eq, not_true_eq_false, not_false_eq_true, if_true,
          if_false] at hx
        split at hx
        · cases hx
          exact ⟨hb, ho2⟩
        · split at hx
          · exact absurd hx (by simp)
          · rename_i b1 hm
            cases hx
            have hb1 : Leveled b1 lvl := mergeIndex_leveled cfg hc hp0 fuel _ _ hb hm
            exact ⟨leveled_set_index hb1 hp0
              (levelOk_index_insert (hb1 _ _ hp0) cfg _ (hleft _ _ hb1 hc)), ho2⟩
    · have hn0 : lvl next = some (l + 1) := hn.resolve_left hnx
      simp only [hnx, ne_eq, not_false_eq_true, if_true] at hx
      split at hx
      · cases hx
        exact ⟨hb, ho2⟩
      · split at hx
        · exact absurd hx (by simp)
        · rename_i b1 hm
          cases hx
          have hb1 : Leveled b1 lvl := mergeIndex_leveled cfg hn0 hc fuel _ _ hb hm
          exact ⟨leveled_set_index hb1 hc
            (levelOk_index_insert (hb1 _ _ hc) cfg _ (hleft _ _ hb1 hn0)), ho2⟩
  have hstage2 : ∀ (b : BufMgr) (o1 : BTreeFile.DeleteOut) (rc : Bool)
      (r2 : Option (Status × BufMgr × BTreeFile.DeleteOut) ⊕
        (BufMgr × BTreeFile.DeleteOut × Bool)), Leveled b lvl →
      (∀ c, o1.child_pageid = some c → out.child_pageid = some c ∨ lvl c = some (l + 1)) →
      (if next ≠ INVALID_PAGE ∧ rc = false then
        let probe := BTIndexPage.IsAtLeastHalfFullAfterDelete cfg (b.page next)
        let bm := b.set next probe.2
        if probe.1 then
          match BTIndexPage.GetFirst (bm.page next) with
          | none => Sum.inl (some (Status.FAIL, bm, o1))
          | some e =>
            match BTIndexPage.Delete (bm.page next) e.key with
            | (Status.OK, nextPage1) =>
              let bm := bm.set next nextPage1
              match BTIndexPage.Insert cfg (bm.page cur) nk
                  (BTIndexPage.GetLeftLink (bm.page next)) with
              | (Status.OK, curPage1) =>
                let bm := bm.set cur curPage1
                let bm := bm.set next (BTIndexPage.SetLeftLink (bm.page next) e.pid)
                Sum.inr (bm, { o1 with child_key := some e.key, child_pageid := some next,
                                       deletedKey := some nk }, true)
              | _ => Sum.inl (some (Status.FAIL, bm, o1))
            | _ => Sum.inl (some (Status.FAIL, bm, o1))
        else Sum.inr (bm, o1, false)
      else Sum.inr (b, o1, rc)) = r2 →
      Sum.elim
        (fun r : Option (Status × BufMgr × BTreeFile.DeleteOut) => ∀ x, r = some x →
          Leveled x.2.1 lvl ∧ ∀ c, x.2.2.child_pageid = some c →
            out.child_pageid = some c ∨ lvl c = some (l + 1))
        (fun y : BufMgr × BTreeFile.DeleteOut × Bool => Leveled y.1 lvl
          ∧ ∀ c, y.2.1.child_pageid = some c →
            out.child_pageid = some c ∨ lvl c = some (l + 1))
        r2 := by
    intro b o1 rc r2 hb ho1 hr2
    subst hr2
    by_cases hcond : next ≠ INVALID_PAGE ∧ rc = false
    · have hn0 : lvl next = some (l + 1) := hn.resolve_left hcond.1
      have hb1 : Leveled (b.set next (BTIndexPage.IsAtLeastHalfFullAfterDelete cfg
          (b.page next)).2) lvl := hprobe _ _ hb hn0
      rw [if_pos hcond]
      simp only
      by_cases hpp : (BTIndexPage.IsAtLeastHalfFullAfterDelete cfg (b.page next)).1 = true
      · rw [if_pos hpp]
        cases hg : BTIndexPage.GetFirst ((b.set next (BTIndexPage.IsAtLeastHalfFullAfterDelete cfg
            (b.page next)).2).page next) with
        | none =>
          simp only [Sum.elim_inl]
          rintro x hx
          cases hx
          exact ⟨hb1, ho1⟩
        | some e =>
          simp only
          have he : lvl e.pid = some l := hentry _ _ _ hb1 hn0 (index_getFirst_mem hg)
          have hb2 : Leveled ((b.set next (BTIndexPage.IsAtLeastHalfFullAfterDelete cfg
              (b.page next)).2).set next (BTIndexPage.Delete
                ((b.set next (BTIndexPage.IsAtLeastHalfFullAfterDelete cfg
                  (b.page next)).2).page next) e.key).2) lvl :=
            leveled_set_index hb1 hn0 (levelOk_index_delete (hb1 _ _ hn0) _)
          rcases hd : BTIndexPage.Delete ((b.set next (BTIndexPage.IsAtLeastHalfFullAfterDelete cfg
                  (b.page next)).2).page next) e.key with ⟨sd, p1⟩
          have hp1 : p1 = (BTIndexPage.Delete
              ((b.set next (BTIndexPage.IsAtLeastHalfFullAfterDelete cfg
                  (b.page next)).2).page next) e.key).2 := by rw [hd]
          rw [hd] at hb2
          simp only at hb2
          clear hp1 hd
          cases sd with
          | FAIL =>
            simp only [Sum.elim_inl]
            rintro x hx
            cases hx
            exact ⟨hb1, ho1⟩
          | DONE =>
            simp only [Sum.elim_inl]
            rintro x hx
            cases hx
            exact ⟨hb1, ho1⟩
          | OK =>
            simp only
            split
            · rename_i p2 hi
              simp only [Sum.elim_inr]
              have hp2 := congrArg Prod.snd hi
              simp only at hp2
              subst hp2
              have hb3 := leveled_set_index hb2 hc
                (levelOk_index_insert (hb2 _ _ hc) cfg nk (hleft _ _ hb2 hn0))
              refine ⟨leveled_set_index hb3 hn0 (levelOk_setLeftLink (hb3 _ _ hn0) he), ?_⟩
              intro c hc'
              exact Or.inr ((Option.some.inj hc') ▸ hn0)
            · simp only [Sum.elim_inl]
              rintro x hx
              cases hx
              exact ⟨hb2, ho1⟩
      · rw [if_neg hpp]
        exact ⟨hb1, ho1⟩
    · rw [if_neg hcond]
      exact ⟨hb, ho1⟩
  unfold BTreeFile.DeleteHelper.indexUnderflow at hres
  lift_lets at hres
  extract_lets out1 probe bm1 r1 at hres
  have h1 : Sum.elim
      (fun r : Option (Status × BufMgr × BTreeFile.DeleteOut) => ∀ x, r = some x →
        Leveled x.2.1 lvl ∧ ∀ c, x.2.2.child_pageid = some c →
          out.child_pageid = some c ∨ lvl c = some (l + 1))
      (fun y : BufMgr × BTreeFile.DeleteOut × Bool => Leveled y.1 lvl
        ∧ ∀ c, y.2.1.child_pageid = some c → out.child_pageid = some c ∨ lvl c = some (l + 1))
      r1 := by
    simp only [r1]
    by_cases hpv : prev = INVALID_PAGE
    · simp only [hpv, ne_eq, not_true_eq_false, if_false]
      exact ⟨h, fun c hc' => Or.inl hc'⟩
    · have hp0 : lvl prev = some (l + 1) := hp.resolve_left hpv
      have hb1 : Leveled bm1 lvl := hprobe _ _ h hp0
      simp only [hpv, ne_eq, not_false_eq_true, if_true]
      by_cases hpp : probe.1 = true
      · simp only [hpp, if_true]
        cases hg : BTIndexPage.GetLast (bm1.page prev) with
        | none => simp
        | some e =>
          simp only
          have he : lvl e.pid = some l := hentry _ _ _ hb1 hp0 (index_getLast_mem hg)
          have hb2 : Leveled (bm1.set prev (BTIndexPage.Delete (bm1.page prev) e.key).2) lvl :=
            leveled_set_index hb1 hp0 (levelOk_index_delete (hb1 _ _ hp0) _)
          rcases hd : BTIndexPage.Delete (bm1.page prev) e.key with ⟨sd, p1⟩
          have hp1 : p1 = (BTIndexPage.Delete (bm1.page prev) e.key).2 := by rw [hd]
          subst hp1
          cases sd with
          | FAIL =>
            simp only [Sum.elim_inl]
            rintro x hx
            cases hx
            exact ⟨hb1, fun c hc' => Or.inl hc'⟩
          | DONE =>
            simp only [Sum.elim_inl]
            rintro x hx
            cases hx
            exact ⟨hb1, fun c hc' => Or.inl hc'⟩
          | OK =>
            simp only
            rcases hi : BTIndexPage.Insert cfg
              ((bm1.set prev (BTIndexPage.Delete (bm1.page prev) e.key).2).page cur) ck
              (BTIndexPage.GetLeftLink
                ((bm1.set prev (BTIndexPage.Delete (bm1.page prev) e.key).2).page cur))
              with ⟨si, p2⟩
            have hp2 : p2 = (BTIndexPage.Insert cfg
              ((bm1.set prev (BTIndexPage.Delete (bm1.page prev) e.key).2).page cur) ck
              (BTIndexPage.GetLeftLink
                ((bm1.set prev (BTIndexPage.Delete (bm1.page prev) e.key).2).page cur))).2 := by
              rw [hi]
            subst hp2
            cases si with
            | FAIL =>
              simp only [Sum.elim_inl]
              rintro x hx
              cases hx
              exact ⟨hb2, fun c hc' => Or.inl hc'⟩
            | DONE =>
              simp only [Sum.elim_inl]
              rintro x hx
              cases hx
              exact ⟨hb2, fun c hc' => Or.inl hc'⟩
            | OK =>
              simp only [Sum.elim_inr]
              refine ⟨leveled_set_index hb2 hc (levelOk_setLeftLink
                (levelOk_index_insert (hb2 _ _ hc) cfg _ (hleft _ _ hb2 hc)) he), ?_⟩
              intro c hc'
              exact Or.inr ((Option.some.inj hc') ▸ hc)
      · simp only [hpp, if_false]
        exact ⟨hb1, fun c hc' => Or.inl hc'⟩
  clear_value r1
  rcases r1 with r | ⟨b, o1, rc⟩
  · simp only [Sum.elim_inl] at h1
    exact h1 _ hres
  · simp only [Sum.elim_inr] at h1
    obtain ⟨hb, ho1⟩ := h1
    simp only at hres
    split at hres
    · rename_i r heq
      exact hstage2 _ _ _ _ hb ho1 heq _ hres
    · rename_i b2 o2 rc2 heq
      have h2 := hstage2 _ _ _ _ hb ho1 heq
      simp only [Sum.elim_inr] at h2
      cases rc2 with
      | true =>
        simp only [Bool.true_eq_false, if_false, Option.some.injEq, Prod.mk.injEq] at hres
        obtain ⟨-, rfl, rfl⟩ := hres
        exact h2
      | false =>
        simp only [if_true] at hres
        exact hstage3 _ _ _ h2.1 h2.2 hres

theorem findKeysLoop_levels (Q : PageID → Prop) (d_key : Int) :
    ∀ (rest : List IndexEntry) (pp pv : PageID) (pk : Int) (cur : IndexEntry),
      (pp = INVALID_PAGE ∨ Q pp) → Q pv → (∀ e ∈ cur :: rest, Q e.pid) →
      Q (BTIndexPage.FindPageWithKeys.loop d_key pp pv pk cur rest).pid
        ∧ ((BTIndexPage.FindPageWithKeys.loop d_key pp pv pk cur rest).prevPid = INVALID_PAGE
          ∨ Q (BTIndexPage.FindPageWithKeys.loop d_key pp pv pk cur rest).prevPid)
        ∧ Q (BTIndexPage.FindPageWithKeys.loop d_key pp pv pk cur rest).nextPid := by
  intro rest
  induction rest with
  | nil =>
    intro pp pv pk cur hpp hpv hall
    have hcur : Q cur.pid := hall cur (List.mem_cons_self _ _)
    unfold BTIndexPage.FindPageWithKeys.loop
    by_cases hk : d_key < cur.key
    · simp only [hk, if_true]
      exact ⟨hpv, hpp, hcur⟩
    · simp only [hk, if_false]
      exact ⟨hcur, Or.inr hpv, hcur⟩
  | cons e es ih =>
    intro pp pv pk cur hpp hpv hall
    have hcur : Q cur.pid := hall cur (List.mem_cons_self _ _)
    unfold BTIndexPage.FindPageWithKeys.loop
    by_cases hk : d_key < cur.key
    · simp only [hk, if_true]
      exact ⟨hpv, hpp, hcur⟩
    · simp only [hk, if_false]
      exact ih pv cur.pid cur.key e (Or.inr hpv) hcur
        (fun x hx => hall x (List.mem_cons_of_mem _ hx))

theorem findPageWithKeys_levels {lvl : PageID → Option Nat} {l : Nat} {p : SortedPage}
    (hp : LevelOk lvl (l + 1) p) {d_key : Int} {k : BTIndexPage.Keys}
    (hk : BTIndexPage.FindPageWithKeys p d_key = some k) :
    lvl k.pid = some l ∧ (k.prevPid = INVALID_PAGE ∨ lvl k.prevPid = some l)
      ∧ lvl k.nextPid = some l := by
  rw [levelOk_succ_iff] at hp
  obtain ⟨-, hleft, hidx⟩ := hp
  unfold BTIndexPage.FindPageWithKeys at hk
  cases hl : p.index with
  | nil => simp [hl] at hk
  | cons e es =>
    simp only [hl] at hk
    have hall : ∀ x ∈ e :: es, lvl x.pid = some l := fun x hx => hidx x (hl ▸ hx)
    by_cases hd : d_key < e.key
    · simp only [hd, if_true, Option.some.injEq] at hk
      subst hk
      exact ⟨hleft, Or.inl rfl, hall e (List.mem_cons_self _ _)⟩
    · simp only [hd, if_false, Option.some.injEq] at hk
      subst hk
      exact findKeysLoop_levels (fun q => lvl q = some l) d_key es INVALID_PAGE _ 0 e
        (Or.inl rfl) hleft hall

theorem deleteHelper_leveled (cfg : Cfg) (key : Int) (rid : RecordID)
    {lvl : PageID → Option Nat} :
    ∀ (fuel : Nat) (bm : BufMgr) (ck nk : Int) (cur prev next : PageID)
      (out : BTreeFile.DeleteOut) (st : Status) (bm' : BufMgr) (o : BTreeFile.DeleteOut)
      (l : Nat),
      Leveled bm lvl → lvl cur = some l → (prev = INVALID_PAGE ∨ lvl prev = some l) →
      (next = INVALID_PAGE ∨ lvl next = some l) →
      BTreeFile.DeleteHelper cfg key rid fuel bm ck nk cur prev next out = some (st, bm', o) →
      Leveled bm' lvl
        ∧ ∀ c, o.child_pageid = some c → out.child_pageid = some c ∨ lvl c = some l := by
  intro fuel
  induction fuel with
  | zero =>
    intro bm ck nk cur prev next out st bm' o l _ _ _ _ hres
    simp [BTreeFile.DeleteHelper] at hres
  | succ fuel ih =>
    intro bm ck nk cur prev next out st bm' o l hb hc hp hn hres
    unfold BTreeFile.DeleteHelper at hres
    by_cases ht : (bm.page cur).type = NodeType.INDEX_NODE
    · obtain ⟨l', rfl⟩ := levelOk_index_of_type (hb cur l hc) ht
      simp only [ht, if_true] at hres
      cases hk : BTIndexPage.FindPageWithKeys (bm.page cur) key with
      | none => simp [hk] at hres
      | some k =>
        simp only [hk] at hres
        obtain ⟨hkp, hkv, hkn⟩ := findPageWithKeys_levels (hb cur _ hc) hk
        have hpv' : (if k.prevPid = k.pid then INVALID_PAGE else k.prevPid) = INVALID_PAGE
            ∨ lvl (if k.prevPid = k.pid then INVALID_PAGE else k.prevPid) = some l' := by
          by_cases hq : k.prevPid = k.pid
          · simp [hq]
          · simpa [hq] using hkv
        have hnx' : (if k.nextPid = k.pid then INVALID_PAGE else k.nextPid) = INVALID_PAGE
            ∨ lvl (if k.nextPid = k.pid then INVALID_PAGE else k.nextPid) = some l' := by
          by_cases hq : k.nextPid = k.pid
          · simp [hq]
          · simpa [hq] using Or.inr hkn
        cases hrec : BTreeFile.DeleteHelper cfg key rid fuel bm k.key k.nextKey k.pid
            (if k.prevPid = k.pid then INVALID_PAGE else k.prevPid)
            (if k.nextPid = k.pid then INVALID_PAGE else k.nextPid) BTreeFile.DeleteOut.init with
        | none => simp [hrec] at hres
        | some x =>
          obtain ⟨st1, bm1, new⟩ := x
          obtain ⟨hb1, hnew⟩ := ih _ _ _ _ _ _ _ _ _ _ _ hb hkp hpv' hnx' hrec
          simp only [hrec] at hres
          have hfail : some (Status.FAIL, bm1, out) = some (st, bm', o) →
              Leveled bm' lvl ∧ ∀ c, o.child_pageid = some c →
                out.child_pageid = some c ∨ lvl c = some (l' + 1) := by
            intro hx
            simp only [Option.some.injEq, Prod.mk.injEq] at hx
            obtain ⟨-, rfl, rfl⟩ := hx
            exact ⟨hb1, fun c hc' => Or.inl hc'⟩
          cases st1 with
          | FAIL => exact hfail hres
          | DONE => exact hfail hres
          | OK =>
            simp only at hres
            by_cases hu : new.underflow = true
            · simp only [hu, if_true] at hres
              cases hdk : new.deletedKey with
              | none => simp [hdk] at hres
              | some dk =>
                simp only [hdk] at hres
                split at hres
                · rename_i p1 hd
                  have hp1 := congrArg Prod.snd hd
                  simp only at hp1
                  subst hp1
                  have hb2 : Leveled (bm1.set cur (BTIndexPage.Delete (bm1.page cur) dk).2) lvl :=
                    leveled_set_index hb1 hc (levelOk_index_delete (hb1 _ _ hc) _)
                  by_cases hm : new.merged = true
                  · simp only [hm, if_true] at hres
                    split at hres
                    · exact indexUnderflow_leveled cfg hb2 hc hp hn _ _ _ _ _ _ _ hres
                    · simp only [Option.some.injEq, Prod.mk.injEq] at hres
                      obtain ⟨-, rfl, rfl⟩ := hres
                      exact ⟨hb2, fun c hc' => Or.inl hc'⟩
                  · simp only [hm, Bool.false_eq_true, if_false] at hres
                    split at hres
                    · rename_i nck ncp hck hcp
                      simp only [Option.some.injEq, Prod.mk.injEq] at hres
                      obtain ⟨-, rfl, rfl⟩ := hres
                      have hlv : lvl ncp = some l' := by
                        rcases hnew ncp hcp with hx | hx
                        · simp [BTreeFile.DeleteOut.init] at hx
                        · exact hx
                      refine ⟨leveled_set_index hb2 hc ?_, fun c hc' => Or.inl hc'⟩
                      exact levelOk_index_insert (levelOk_index_delete (hb1 _ _ hc) _) cfg _ hlv
                    · exact absurd hres (by simp)
                · exact hfail hres
            · simp only [hu, Bool.false_eq_true, if_false, Option.some.injEq,
                Prod.mk.injEq] at hres
              obtain ⟨-, rfl, rfl⟩ := hres
              exact ⟨hb1, fun c hc' => Or.inl hc'⟩
    · have hl0 : l = 0 := levelOk_leaf_of_type (hb cur l hc) ht
      subst hl0
      simp only [ht, if_false] at hres
      split at hres
      · rename_i p1 hd
        have hp1 := congrArg Prod.snd hd
        simp only at hp1
        subst hp1
        have hb1 : Leveled (bm.set cur (BTLeafPage.Delete (bm.page cur) key rid).2) lvl :=
          leveled_set_leaf hb hc (leaf_delete_type _ _ _)
        split at hres
        · split at hres
          · exact absurd hres (by simp)
          · rename_i b2 o2 hu
            simp only [Option.some.injEq, Prod.mk.injEq] at hres
            obtain ⟨-, rfl, rfl⟩ := hres
            exact leafUnderflow_leveled cfg hb1 hc hp hn _ _ _ _ _ _ hu
        · simp only [Option.some.injEq, Prod.mk.injEq] at hres
          obtain ⟨-, rfl, rfl⟩ := hres
          exact ⟨hb1, fun c hc' => Or.inl hc'⟩
      · simp only [Option.some.injEq, Prod.mk.injEq] at hres
        obtain ⟨-, rfl, rfl⟩ := hres
        exact ⟨hb, fun c hc' => Or.inl hc'⟩

theorem delete_leveled (cfg : Cfg) {lvl : PageID → Option Nat} (fuel : Nat) (t : BTreeFile)
    (key : Int) (rid : RecordID) (h : Nat) (hb : Leveled t.bm lvl)
    (hroot : lvl t.rootPid = some h) (st : Status) (t' : BTreeFile)
    (hres : BTreeFile.Delete cfg fuel t key rid = some (st, t')) :
    Leveled t'.bm lvl
      ∧ (t'.rootPid = t.rootPid
        ∨ ∃ h', h = h' + 1 ∧ lvl t'.rootPid = some h'
            ∧ t'.rootPid = BTIndexPage.GetLeftLink (t'.bm.page t.rootPid)) := by
  unfold BTreeFile.Delete at hres
  by_cases hr : t.rootPid = INVALID_PAGE
  · simp only [hr, if_true, Option.some.injEq, Prod.mk.injEq] at hres
    obtain ⟨-, rfl⟩ := hres
    exact ⟨hb, Or.inl rfl⟩
  · simp only [hr, if_false] at hres
    by_cases ht : (t.bm.page t.rootPid).type = NodeType.LEAF_NODE
    · simp only [ht, if_true] at hres
      split at hres
      · rename_i p1 hd
        simp only [Option.some.injEq, Prod.mk.injEq] at hres
        obtain ⟨-, rfl⟩ := hres
        have hp1 := congrArg Prod.snd hd
        simp only at hp1
        subst hp1
        refine ⟨leveled_set_same hb fun l hl => ?_, Or.inl rfl⟩
        exact levelOk_type hl (leaf_delete_type _ _ _)
          (by unfold BTLeafPage.Delete; split <;> rfl)
          (by unfold BTLeafPage.Delete; split <;> exact fun e he => he)
      · simp only [Option.some.injEq, Prod.mk.injEq] at hres
        obtain ⟨-, rfl⟩ := hres
        exact ⟨hb, Or.inl rfl⟩
    · have hti : (t.bm.page t.rootPid).type = NodeType.INDEX_NODE := nodeType_not_leaf ht
      obtain ⟨l', rfl⟩ := levelOk_index_of_type (hb _ _ hroot) hti
      simp only [ht, if_false] at hres
      cases hk : BTIndexPage.FindPageWithKeys (t.bm.page t.rootPid) key with
      | none =>
        simp only [hk, Option.some.injEq, Prod.mk.injEq] at hres
        obtain ⟨-, rfl⟩ := hres
        exact ⟨hb, Or.inl rfl⟩
      | some k =>
        simp only [hk] at hres
        obtain ⟨hkp, hkv, hkn⟩ := findPageWithKeys_levels (hb _ _ hroot) hk
        cases hrec : BTreeFile.DeleteHelper cfg key rid fuel t.bm k.key k.nextKey k.pid
            k.prevPid k.nextPid BTreeFile.DeleteOut.init with
        | none => simp [hrec] at hres
        | some x =>
          obtain ⟨st1, bm1, new⟩ := x
          obtain ⟨hb1, hnew⟩ :=
            deleteHelper_leveled cfg key rid _ _ _ _ _ _ _ _ _ _ _ _ hb hkp hkv (Or.inr hkn) hrec
          simp only [hrec] at hres
          by_cases hu : new.underflow = true
          · simp only [hu, if_true] at hres
            cases hdk : new.deletedKey with
            | none => simp [hdk] at hres
            | some dk =>
              simp only [hdk] at hres
              split at hres
              · rename_i p1 hd
                have hp1 := congrArg Prod.snd hd
                simp only at hp1
                subst hp1
                have hok : LevelOk lvl (l' + 1) (BTIndexPage.Delete (bm1.page t.rootPid) dk).2 :=
                  levelOk_index_delete (hb1 _ _ hroot) _
                have hb2 : Leveled (bm1.set t.rootPid
                    (BTIndexPage.Delete (bm1.page t.rootPid) dk).2) lvl :=
                  leveled_set_index hb1 hroot hok
                by_cases hm : new.merged = true
                · simp only [hm, if_true] at hres
                  split at hres
                  · simp only [Option.some.injEq, Prod.mk.injEq] at hres
                    obtain ⟨-, rfl⟩ := hres
                    refine ⟨hb2, Or.inr ⟨l', rfl, (levelOk_succ_iff.1 hok).2.1, ?_⟩⟩
                    simp [BufMgr.set, BTIndexPage.GetLeftLink]
                  · simp only [Option.some.injEq, Prod.mk.injEq] at hres
                    obtain ⟨-, rfl⟩ := hres
                    exact ⟨hb2, Or.inl rfl⟩
                · simp only [hm, Bool.false_eq_true, if_false] at hres
                  split at hres
                  · rename_i nck ncp hck hcp
                    simp only [Option.some.injEq, Prod.mk.injEq] at hres
                    obtain ⟨-, rfl⟩ := hres
                    have hlv : lvl ncp = some l' := by
                      rcases hnew ncp hcp with hx | hx
                      · simp [BTreeFile.DeleteOut.init] at hx
                      · exact hx
                    exact ⟨leveled_set_index hb2 hroot (levelOk_index_insert hok cfg _ hlv),
                      Or.inl rfl⟩
                  · exact absurd hres (by simp)
              · simp only [Option.some.injEq, Prod.mk.injEq] at hres
                obtain ⟨-, rfl⟩ := hres
                exact ⟨hb1, Or.inl rfl⟩
          · simp only [hu, Bool.false_eq_true, if_false, Option.some.injEq,
              Prod.mk.injEq] at hres
            obtain ⟨-, rfl⟩ := hres
            exact ⟨hb1, Or.inl rfl⟩

theorem uniform_reach (bm : BufMgr) :
    ∀ (h : Nat) (r : PageID), uniformDepth bm h r = true → ∀ q ∈ subtreePages bm h r,
      ∃ l, l ≤ h ∧ uniformDepth bm l q = true
        ∧ ∀ c ∈ (bm.page q).children, 0 < l → c ∈ subtreePages bm h r := by
  intro h
  induction h with
  | zero =>
    intro r hu q hq
    simp only [subtreePages, List.mem_singleton] at hq
    subst hq
    exact ⟨0, le_refl _, hu, fun c _ h0 => absurd h0 (lt_irrefl _)⟩
  | succ h ih =>
    intro r hu q hq
    have hu' := hu
    unfold uniformDepth at hu'
    simp only [Bool.and_eq_true, decide_eq_true_eq, List.all_eq_true] at hu'
    rw [subtreePages_succ] at hq
    rcases List.mem_cons.1 hq with rfl | hq'
    · refine ⟨h + 1, le_refl _, hu, fun c hc _ => ?_⟩
      rw [subtreePages_succ]
      exact List.mem_cons_of_mem _ (List.mem_flatMap.2 ⟨c, hc, subtreePages_self bm h c⟩)
    · obtain ⟨c0, hc0, hq0⟩ := List.mem_flatMap.1 hq'
      obtain ⟨l, hl, hul, hch⟩ := ih c0 (hu'.2 c0 hc0) q hq0
      refine ⟨l, Nat.le_succ_of_le hl, hul, fun c hc h0 => ?_⟩
      rw [subtreePages_succ]
      exact List.mem_cons_of_mem _ (List.mem_flatMap.2 ⟨c0, hc0, hch c hc h0⟩)

theorem pageLevel_eq {bm : BufMgr} {h : Nat} {r : PageID} (hu : uniformDepth bm h r = true)
    {q : PageID} {l : Nat} :
    pageLevel bm h r q = some l ↔ q ∈ subtreePages bm h r ∧ uniformDepth bm l q = true := by
  unfold pageLevel
  by_cases hq : q ∈ subtreePages bm h r
  · simp only [hq, if_true, true_and]
    obtain ⟨l0, hl0, hul0, -⟩ := uniform_reach bm h r hu q hq
    constructor
    · intro hf
      have := List.find?_some hf
      exact this
    · intro hul
      have hll : l0 = l := uniformDepth_unique bm _ _ q hul0 hul
      subst hll
      cases hf : (List.range (h + 1)).find? (fun l => uniformDepth bm l q) with
      | none =>
        have := List.find?_eq_none.1 hf l0 (List.mem_range.2 (Nat.lt_succ_of_le hl0))
        exact absurd hul this
      | some x =>
        have := List.find?_some hf
        rw [uniformDepth_unique bm _ _ q this hul]
  · simp [hq]

theorem pageLevel_leveled {bm : BufMgr} {h : Nat} {r : PageID}
    (hu : uniformDepth bm h r = true) : Leveled bm (pageLevel bm h r) := by
  intro q l hq
  obtain ⟨hmem, hul⟩ := (pageLevel_eq hu).1 hq
  cases l with
  | zero => simpa [uniformDepth, LevelOk] using hul
  | succ l =>
    have hul' := hul
    unfold uniformDepth at hul'
    simp only [Bool.and_eq_true, decide_eq_true_eq, List.all_eq_true] at hul'
    refine ⟨hul'.1, fun c hc => (pageLevel_eq hu).2 ⟨?_, hul'.2 c hc⟩⟩
    obtain ⟨l0, -, hul0, hch⟩ := uniform_reach bm h r hu q hmem
    have hll : l0 = l + 1 := uniformDepth_unique bm _ _ q hul0 hul
    exact hch c hc (by omega)

theorem pageLevel_root {bm : BufMgr} {h : Nat} {r : PageID}
    (hu : uniformDepth bm h r = true) : pageLevel bm h r r = some h :=
  (pageLevel_eq hu).2 ⟨subtreePages_self bm h r, hu⟩

theorem pageLevel_fresh {bm : BufMgr} {h : Nat} {r : PageID}
    (ha : ∀ q ∈ subtreePages bm h r, q < (bm.nextPid : Int)) :
    ∀ q : PageID, (bm.nextPid : Int) ≤ q → pageLevel bm h r q = none := by
  intro q hq
  unfold pageLevel
  by_cases hm : q ∈ subtreePages bm h r
  · exact absurd (ha q hm) (not_lt.2 hq)
  · simp [hm]

theorem leaf_moveAll_types (cfg : Cfg) :
    ∀ (fuel : Nat) (o n : SortedPage) (st : Status) (o' n' : SortedPage),
      BTreeFile.Split_Leaf.moveAll cfg fuel o n = some (st, o', n') →
      o'.type = o.type ∧ n'.type = n.type := by
  intro fuel
  induction fuel with
  | zero => intro o n st o' n' h; simp [BTreeFile.Split_Leaf.moveAll] at h
  | succ fuel ih =>
    intro o n st o' n' h
    unfold BTreeFile.Split_Leaf.moveAll at h
    cases hg : BTLeafPage.GetFirst o with
    | none =>
      simp only [hg, Option.some.injEq, Prod.mk.injEq] at h
      obtain ⟨-, rfl, rfl⟩ := h
      exact ⟨rfl, rfl⟩
    | some cur =>
      simp only [hg] at h
      split at h
      · rename_i n1 hi
        have hn1 := congrArg Prod.snd hi
        simp only at hn1
        subst hn1
        obtain ⟨h1, h2⟩ := ih _ _ _ _ _ h
        exact ⟨h1.trans (leaf_delete_type _ _ _), h2.trans (leaf_insert_type _ _ _ _)⟩
      · simp only [Option.some.injEq, Prod.mk.injEq] at h
        obtain ⟨-, rfl, rfl⟩ := h
        exact ⟨rfl, rfl⟩

theorem leaf_moveBack_types (cfg : Cfg) (key : Int) (rid : RecordID) :
    ∀ (fuel : Nat) (o n : SortedPage) (cur : Option LeafEntry) (ins : Bool) (st : Status)
      (o' n' : SortedPage) (ins' : Bool),
      BTreeFile.Split_Leaf.moveBack cfg key rid fuel o n cur ins = some (st, o', n', ins') →
      o'.type = o.type ∧ n'.type = n.type := by
  intro fuel
  induction fuel with
  | zero => intro o n cur ins st o' n' ins' h; simp [BTreeFile.Split_Leaf.moveBack] at h
  | succ fuel ih =>
    intro o n cur ins st o' n' ins' h
    unfold BTreeFile.Split_Leaf.moveBack at h
    split at h
    · split at h
      · exact absurd h (by simp)
      · split at h
        · split at h
          · rename_i o1 hi
            have ho1 := congrArg Prod.snd hi
            simp only at ho1
            subst ho1
            obtain ⟨h1, h2⟩ := ih _ _ _ _ _ _ _ _ h
            exact ⟨h1.trans (leaf_insert_type _ _ _ _), h2⟩
          · simp only [Option.some.injEq, Prod.mk.injEq] at h
            obtain ⟨-, rfl, rfl, -⟩ := h
            exact ⟨rfl, rfl⟩
        · split at h
          · rename_i o1 hi
            have ho1 := congrArg Prod.snd hi
            simp only at ho1
            subst ho1
            obtain ⟨h1, h2⟩ := ih _ _ _ _ _ _ _ _ h
            exact ⟨h1.trans (leaf_insert_type _ _ _ _), h2.trans (leaf_delete_type _ _ _)⟩
          · simp only [Option.some.injEq, Prod.mk.injEq] at h
            obtain ⟨-, rfl, rfl, -⟩ := h
            exact ⟨rfl, rfl⟩
    · simp only [Option.some.injEq, Prod.mk.injEq] at h
      obtain ⟨-, rfl, rfl, -⟩ := h
      exact ⟨rfl, rfl⟩

theorem split_leaf_types (cfg : Cfg) (old new : SortedPage) (key : Int) (rid : RecordID)
    (st : Status) (o n : SortedPage)
    (h : BTreeFile.Split_Leaf cfg old new key rid = some (st, o, n)) :
    o.type = old.type ∧ n.type = new.type := by
  unfold BTreeFile.Split_Leaf at h
  split at h
  · exact absurd h (by simp)
  · rename_i o1 n1 hma
    obtain ⟨a1, a2⟩ := leaf_moveAll_types cfg _ _ _ _ _ _ hma
    split at h
    · exact absurd h (by simp)
    · rename_i o2 n2 ins hmb
      obtain ⟨b1, b2⟩ := leaf_moveBack_types cfg key rid _ _ _ _ _ _ _ _ _ hmb
      split at h
      · split at h
        · rename_i n3 hi
          have hn3 := congrArg Prod.snd hi
          simp only at hn3
          subst hn3
          simp only [Option.some.injEq, Prod.mk.injEq] at h
          obtain ⟨-, rfl, rfl⟩ := h
          exact ⟨b1.trans a1, (leaf_insert_type _ _ _ _).trans (b2.trans a2)⟩
        · simp only [Option.some.injEq, Prod.mk.injEq] at h
          obtain ⟨-, rfl, rfl⟩ := h
          exact ⟨b1.trans a1, b2.trans a2⟩
      · simp only [Option.some.injEq, Prod.mk.injEq] at h
        obtain ⟨-, rfl, rfl⟩ := h
        exact ⟨b1.trans a1, b2.trans a2⟩
    · rename_i o2 n2 x _ hmb
      obtain ⟨b1, b2⟩ := leaf_moveBack_types cfg key rid _ _ _ _ _ _ _ _ _ hmb
      simp only [Option.some.injEq, Prod.mk.injEq] at h
      obtain ⟨-, rfl, rfl⟩ := h
      exact ⟨b1.trans a1, b2.trans a2⟩
  · rename_i o1 n1 _ hma
    obtain ⟨a1, a2⟩ := leaf_moveAll_types cfg _ _ _ _ _ _ hma
    simp only [Option.some.injEq, Prod.mk.injEq] at h
    obtain ⟨-, rfl, rfl⟩ := h
    exact ⟨a1, a2⟩

theorem index_insert_Q (Q : PageID → Prop) (cfg : Cfg) {p : SortedPage} (k : Int) {c : PageID}
    (hp : ∀ e ∈ p.index, Q e.pid) (hc : Q c) :
    ∀ e ∈ (BTIndexPage.Insert cfg p k c).2.index, Q e.pid := by
  intro e he
  rcases (index_insert_shape cfg p k c).2.2 e he with rfl | he'
  · exact hc
  · exact hp e he'

theorem index_delete_Q (Q : PageID → Prop) {p : SortedPage} (k : Int)
    (hp : ∀ e ∈ p.index, Q e.pid) :
    ∀ e ∈ (BTIndexPage.Delete p k).2.index, Q e.pid :=
  fun e he => hp e ((index_delete_shape p k).2.2 e he)

theorem index_moveAll_levels (cfg : Cfg) (Q : PageID → Prop) :
    ∀ (fuel : Nat) (o n : SortedPage) (ck : Option Int) (st : Status) (o' n' : SortedPage)
      (ck' : Option Int),
      (∀ e ∈ o.index, Q e.pid) → (∀ e ∈ n.index, Q e.pid) →
      BTreeFile.Split_Index.moveAll cfg fuel o n ck = some (st, o', n', ck') →
      o'.type = o.type ∧ o'.prevPage = o.prevPage ∧ n'.type = n.type
        ∧ (∀ e ∈ o'.index, Q e.pid) ∧ (∀ e ∈ n'.index, Q e.pid) := by
  intro fuel
  induction fuel with
  | zero => intro o n ck st o' n' ck' _ _ h; simp [BTreeFile.Split_Index.moveAll] at h
  | succ fuel ih =>
    intro o n ck st o' n' ck' ho hn h
    unfold BTreeFile.Split_Index.moveAll at h
    cases hg : BTIndexPage.GetFirst o with
    | none =>
      simp only [hg, Option.some.injEq, Prod.mk.injEq] at h
      obtain ⟨-, rfl, rfl, -⟩ := h
      exact ⟨rfl, rfl, rfl, ho, hn⟩
    | some cur =>
      simp only [hg] at h
      have hcur : Q cur.pid := ho cur (index_getFirst_mem hg)
      split at h
      · rename_i n1 hi
        have hn1 := congrArg Prod.snd hi
        simp only at hn1
        subst hn1
        obtain ⟨h1, h2, h3, h4, h5⟩ := ih _ _ _ _ _ _ _ (index_delete_Q Q _ ho)
          (index_insert_Q Q cfg _ hn hcur) h
        exact ⟨h1.trans (index_delete_shape _ _).1, h2.trans (index_delete_shape _ _).2.1,
          h3.trans (index_insert_shape _ _ _ _).1, h4, h5⟩
      · simp only [Option.some.injEq, Prod.mk.injEq] at h
        obtain ⟨-, rfl, rfl, -⟩ := h
        exact ⟨rfl, rfl, rfl, ho, hn⟩

theorem index_moveBack_levels (cfg : Cfg) (Q : PageID → Prop) (key : Int) {pid : PageID}
    (hpid : Q pid) :
    ∀ (fuel : Nat) (o n : SortedPage) (v : BTreeFile.SplitIndexVars) (st : Status)
      (o' n' : SortedPage) (v' : BTreeFile.SplitIndexVars),
      (∀ e ∈ o.index, Q e.pid) → (∀ e ∈ n.index, Q e.pid) →
      (∀ c, v.cur = some c → Q c.pid) → (∀ p, v.curPid_tmp = some p → Q p) →
      BTreeFile.Split_Index.moveBack cfg key pid fuel o n v = some (st, o', n', v') →
      o'.type = o.type ∧ o'.prevPage = o.prevPage ∧ n'.type = n.type
        ∧ (∀ e ∈ o'.index, Q e.pid) ∧ (∀ e ∈ n'.index, Q e.pid)
        ∧ (∀ p, v'.curPid_tmp = some p → Q p) := by
  intro fuel
  induction fuel with
  | zero => intro o n v st o' n' v' _ _ _ _ h; simp [BTreeFile.Split_Index.moveBack] at h
  | succ fuel ih =>
    intro o n v st o' n' v' ho hn hcur hcp h
    unfold BTreeFile.Split_Index.moveBack at h
    split at h
    · split at h
      · exact absurd h (by simp)
      · rename_i c hvc
        have hc : Q c.pid := hcur c hvc
        split at h
        · split at h
          · rename_i o1 hi
            have ho1 := congrArg Prod.snd hi
            simp only at ho1
            subst ho1
            obtain ⟨h1, h2, h3, h4, h5, h6⟩ := ih _ _ { v with inserted := true } _ _ _ _
              (index_insert_Q Q cfg _ ho hpid) hn hcur hcp h
            exact ⟨h1.trans (index_insert_shape _ _ _ _).1,
              h2.trans (index_insert_shape _ _ _ _).2.1, h3, h4, h5, h6⟩
          · simp only [Option.some.injEq, Prod.mk.injEq] at h
            obtain ⟨-, rfl, rfl, rfl⟩ := h
            exact ⟨rfl, rfl, rfl, ho, hn, hcp⟩
        · split at h
          · rename_i o1 hi
            have ho1 := congrArg Prod.snd hi
            simp only at ho1
            subst ho1
            have hn1 := index_delete_Q Q c.key hn
            obtain ⟨h1, h2, h3, h4, h5, h6⟩ := ih _ _ _ _ _ _ _
              (index_insert_Q Q cfg _ ho hc) hn1
              (by
                intro c' hc'
                simp only at hc'
                split at hc'
                · rename_i e hge
                  cases hc'
                  exact hn1 _ (index_getFirst_mem hge)
                · exact hcur c' hc')
              (by
                intro p hp
                simp only [Option.some.injEq] at hp
                exact hp ▸ hc) h
            exact ⟨h1.trans (index_insert_shape _ _ _ _).1,
              h2.trans (index_insert_shape _ _ _ _).2.1,
              h3.trans (index_delete_shape _ _).1, h4, h5, h6⟩
          · simp only [Option.some.injEq, Prod.mk.injEq] at h
            obtain ⟨-, rfl, rfl, rfl⟩ := h
            exact ⟨rfl, rfl, rfl, ho, hn, hcp⟩
    · simp only [Option.some.injEq, Prod.mk.injEq] at h
      obtain ⟨-, rfl, rfl, rfl⟩ := h
      exact ⟨rfl, rfl, rfl, ho, hn, hcp⟩

theorem split_index_levels (cfg : Cfg) (Q : PageID → Prop) (old new : SortedPage) (key : Int)
    {pid : PageID} (hpid : Q pid) (ho : ∀ e ∈ old.index, Q e.pid)
    (hn : ∀ e ∈ new.index, Q e.pid) (st : Status) (o n : SortedPage) (pk : Int)
    (h : BTreeFile.Split_Index cfg old new key pid = some (st, o, n, some pk)) :
    o.type = old.type ∧ o.prevPage = old.prevPage ∧ n.type = new.type
      ∧ (∀ e ∈ o.index, Q e.pid) ∧ (∀ e ∈ n.index, Q e.pid) ∧ Q n.prevPage := by
  unfold BTreeFile.Split_Index at h
  split at h
  · exact absurd h (by simp)
  · rename_i o1 n1 ck hma
    obtain ⟨a1, a2, a3, a4, a5⟩ := index_moveAll_levels cfg Q _ _ _ _ _ _ _ _ ho hn hma
    split at h
    · exact absurd h (by simp)
    · rename_i o2 n2 v hmb
      obtain ⟨b1, b2, b3, b4, b5, b6⟩ := index_moveBack_levels cfg Q key hpid _ _ _ _ _ _ _ _
        a4 a5 (fun c hc => a5 c (index_getFirst_mem hc)) (fun p hp => by simp at hp) hmb
      split at h
      · split at h
        · rename_i n3 hi
          have hn3 := congrArg Prod.snd hi
          simp only at hn3
          subst hn3
          split at h
          · exact absurd h (by simp)
          · rename_i f hf
            simp only [Option.some.injEq, Prod.mk.injEq] at h
            obtain ⟨-, rfl, rfl, -⟩ := h
            have hq3 := index_insert_Q Q cfg key b5 hpid
            have hfq : Q f.pid := hq3 f (index_getFirst_mem hf)
            refine ⟨b1.trans a1, b2.trans a2, ?_, b4, ?_, ?_⟩
            · rw [(index_delete_shape _ _).1]
              exact (index_insert_shape _ _ _ _).1.trans (b3.trans a3)
            · exact index_delete_Q Q _ hq3
            · rw [(index_delete_shape _ _).2.1]
              exact hfq
        · simp at h
      · split at h
        · rename_i p ck2 hcp hck
          simp only [Option.some.injEq, Prod.mk.injEq] at h
          obtain ⟨-, rfl, rfl, -⟩ := h
          refine ⟨?_, ?_, b3.trans a3, index_delete_Q Q _ b4, b5, b6 p hcp⟩
          · exact (index_delete_shape _ _).1.trans (b1.trans a1)
          · exact (index_delete_shape _ _).2.1.trans (b2.trans a2)
        · exact absurd h (by simp)
    · simp at h
  · simp at h

theorem levelExt_refl (lvl : PageID → Option Nat) : LevelExt lvl lvl := fun _ _ h => h

theorem levelExt_trans {a b c : PageID → Option Nat} (h1 : LevelExt a b) (h2 : LevelExt b c) :
    LevelExt a c := fun q l h => h2 q l (h1 q l h)

theorem levelExt_update {lvl : PageID → Option Nat} {np : PageID} (hn : lvl np = none)
    (l : Nat) : LevelExt lvl (Function.update lvl np (some l)) := by
  intro q x hq
  by_cases h : q = np
  · subst h
    rw [hn] at hq
    cases hq
  · rw [Function.update_noteq h]
    exact hq

theorem levelOk_of_parts {lvl : PageID → Option Nat} {l : Nat} {p : SortedPage}
    (ht : p.type = NodeType.INDEX_NODE) (hl : lvl p.prevPage = some l)
    (hi : ∀ e ∈ p.index, lvl e.pid = some l) : LevelOk lvl (l + 1) p :=
  levelOk_succ_iff.2 ⟨ht, hl, hi⟩

theorem leveled_split {bm : BufMgr} {lvl : PageID → Option Nat} (hb : Leveled bm lvl)
    (hfresh : ∀ q : PageID, (bm.nextPid : Int) ≤ q → lvl q = none) {pid : PageID} {l : Nat}
    (hpid : lvl pid = some l) (t : NodeType) {o n : SortedPage} (ho : LevelOk lvl l o)
    (hn : LevelOk lvl l n) :
    LevelExt lvl (Function.update lvl (bm.nextPid : Int) (some l))
      ∧ Leveled (((bm.NewPage t).2.set pid o).set (bm.NewPage t).1 n)
          (Function.update lvl (bm.nextPid : Int) (some l))
      ∧ (∀ q : PageID, ((((bm.NewPage t).2.set pid o).set (bm.NewPage t).1 n).nextPid : Int) ≤ q →
          Function.update lvl (bm.nextPid : Int) (some l) q = none)
      ∧ Function.update lvl (bm.nextPid : Int) (some l) (bm.NewPage t).1 = some l := by
  have hnone : lvl (bm.nextPid : Int) = none := hfresh _ (le_refl _)
  have hext := levelExt_update hnone l
  refine ⟨hext, ?_, ?_, ?_⟩
  · intro q x hq
    by_cases h1 : q = (bm.nextPid : Int)
    · subst h1
      rw [Function.update_same] at hq
      cases hq
      have : (((bm.NewPage t).2.set pid o).set (bm.NewPage t).1 n).page (bm.nextPid : Int) = n := by
        simp [BufMgr.set, BufMgr.NewPage]
      rw [this]
      exact levelOk_ext hext hn
    · rw [Function.update_noteq h1] at hq
      by_cases h2 : q = pid
      · subst h2
        rw [hpid] at hq
        cases hq
        have : (((bm.NewPage t).2.set q o).set (bm.NewPage t).1 n).page q = o := by
          simp [BufMgr.set, BufMgr.NewPage, h1]
        rw [this]
        exact levelOk_ext hext ho
      · have : (((bm.NewPage t).2.set pid o).set (bm.NewPage t).1 n).page q = bm.page q := by
          simp [BufMgr.set, BufMgr.NewPage, h1, h2]
        rw [this]
        exact levelOk_ext hext (hb q x hq)
  · intro q hq
    have hq' : ((bm.nextPid : Int)) + 1 ≤ q := by
      simpa [BufMgr.set, BufMgr.NewPage] using hq
    have h1 : q ≠ (bm.nextPid : Int) := fun hx => by
      rw [hx] at hq'
      exact absurd hq' (not_le.2 (lt_add_one _))
    rw [Function.update_noteq h1]
    exact hfresh q (le_trans (le_of_lt (lt_add_one _)) hq')
  · simp [BufMgr.NewPage]

theorem insertHelper_leveled (cfg : Cfg) (key : Int) (rid : RecordID) :
    ∀ (fuel : Nat) (bm : BufMgr) (pid : PageID) (lvl : PageID → Option Nat) (l : Nat)
      (bm' : BufMgr) (res : Option (Int × PageID)),
      Leveled bm lvl → (∀ q : PageID, (bm.nextPid : Int) ≤ q → lvl q = none) →
      lvl pid = some l →
      BTreeFile.InsertHelper cfg key rid fuel bm pid = some (bm', res) →
      ∃ lvl', LevelExt lvl lvl' ∧ Leveled bm' lvl'
        ∧ (∀ q : PageID, (bm'.nextPid : Int) ≤ q → lvl' q = none)
        ∧ ∀ k p, res = some (k, p) → lvl' p = some l := by
  intro fuel
  induction fuel with
  | zero => intro bm pid lvl l bm' res _ _ _ h; simp [BTreeFile.InsertHelper] at h
  | succ fuel ih =>
    intro bm pid lvl l bm' res hb hfresh hpid h
    unfold BTreeFile.InsertHelper at h
    by_cases ht : (bm.page pid).type = NodeType.INDEX_NODE
    · obtain ⟨l', rfl⟩ := levelOk_index_of_type (hb pid l hpid) ht
      simp only [ht, if_true] at h
      cases hf : BTIndexPage.FindPageWithKey (bm.page pid) key with
      | none => simp [hf] at h
      | some found =>
        simp only [hf] at h
        have hfl : lvl found.pid = some l' := by
          have hok := levelOk_succ_iff.1 (hb pid _ hpid)
          rcases findPageWithKey_pid hf with hx | ⟨x, hx, hxe⟩
          · rw [hx]
            exact hok.2.1
          · rw [← hxe]
            exact hok.2.2 x hx
        cases hrec : BTreeFile.InsertHelper cfg key rid fuel bm found.pid with
        | none => simp [hrec] at h
        | some x =>
          obtain ⟨bm1, res1⟩ := x
          obtain ⟨lvl1, hext, hb1, hfresh1, hres1⟩ := ih _ _ _ _ _ _ hb hfresh hfl hrec
          have hpid1 : lvl1 pid = some (l' + 1) := hext _ _ hpid
          simp only [hrec] at h
          cases res1 with
          | none =>
            simp only [Option.some.injEq, Prod.mk.injEq] at h
            obtain ⟨rfl, rfl⟩ := h
            exact ⟨lvl1, hext, hb1, hfresh1, fun k p hkp => by cases hkp⟩
          | some kp =>
            obtain ⟨ck, cp⟩ := kp
            have hcp : lvl1 cp = some l' := hres1 ck cp rfl
            simp only at h
            by_cases hfull : (bm1.page pid).AvailableSpace cfg < cfg.sizeofIndexEntry
            · simp only [hfull, if_true] at h
              split at h
              · rename_i sx o n pk hsp
                simp only [Option.some.injEq, Prod.mk.injEq] at h
                obtain ⟨rfl, rfl⟩ := h
                have hok := levelOk_succ_iff.1 (hb1 _ _ hpid1)
                obtain ⟨s1, s2, s3, s4, s5, s6⟩ := split_index_levels cfg
                  (fun q => lvl1 q = some l') _ _ _ hcp hok.2.2
                  (by simp [BufMgr.NewPage, SortedPage.init]) _ _ _ _ hsp
                have ho : LevelOk lvl1 (l' + 1) o :=
                  levelOk_of_parts (s1.trans hok.1) (s2 ▸ hok.2.1) s4
                have hn : LevelOk lvl1 (l' + 1) n :=
                  levelOk_of_parts (s3.trans (by simp [BufMgr.NewPage, SortedPage.init])) s6 s5
                obtain ⟨e1, e2, e3, e4⟩ :=
                  leveled_split hb1 hfresh1 hpid1 NodeType.INDEX_NODE ho hn
                refine ⟨_, levelExt_trans hext e1, e2, e3, fun k p hkp => ?_⟩
                simp only [Option.some.injEq, Prod.mk.injEq] at hkp
                rw [← hkp.2]
                exact e4
              · exact absurd h (by simp)
            · simp only [hfull, if_false, Option.some.injEq, Prod.mk.injEq] at h
              obtain ⟨rfl, rfl⟩ := h
              exact ⟨lvl1, hext,
                leveled_set_index hb1 hpid1 (levelOk_index_insert (hb1 _ _ hpid1) cfg _ hcp),
                hfresh1, fun k p hkp => by cases hkp⟩
    · have hl0 : l = 0 := levelOk_leaf_of_type (hb pid l hpid) ht
      subst hl0
      simp only [ht, if_false] at h
      by_cases hfull : (bm.page pid).AvailableSpace cfg < cfg.sizeofLeafEntry
      · simp only [hfull, if_true] at h
        split at h
        · exact absurd h (by simp)
        · rename_i sx o n hsp
          split at h
          · exact absurd h (by simp)
          · rename_i first hgf
            simp only [Option.some.injEq, Prod.mk.injEq] at h
            obtain ⟨rfl, rfl⟩ := h
            obtain ⟨s1, s2⟩ := split_leaf_types cfg _ _ _ _ _ _ _ hsp
            have hleaf : (bm.page pid).type = NodeType.LEAF_NODE := hb pid 0 hpid
            have ho : LevelOk lvl 0 { o with nextPage := (bm.NewPage NodeType.LEAF_NODE).1 } :=
              s1.trans hleaf
            have hn : LevelOk lvl 0 { n with prevPage := pid } :=
              s2.trans (by simp [BufMgr.NewPage, SortedPage.init])
            obtain ⟨e1, e2, e3, e4⟩ :=
              leveled_split hb hfresh hpid NodeType.LEAF_NODE ho hn
            refine ⟨_, e1, e2, e3, fun k p hkp => ?_⟩
            simp only [Option.some.injEq, Prod.mk.injEq] at hkp
            rw [← hkp.2]
            exact e4
      · simp only [hfull, if_false, Option.some.injEq, Prod.mk.injEq] at h
        obtain ⟨rfl, rfl⟩ := h
        exact ⟨lvl, levelExt_refl _, leveled_set_leaf hb hpid (leaf_insert_type _ _ _ _),
          hfresh, fun k p hkp => by cases hkp⟩

theorem leveled_alloc {bm : BufMgr} {lvl : PageID → Option Nat} (hb : Leveled bm lvl)
    (hfresh : ∀ q : PageID, (bm.nextPid : Int) ≤ q → lvl q = none) (t : NodeType) {l : Nat}
    {n : SortedPage} (hn : LevelOk lvl l n) :
    LevelExt lvl (Function.update lvl (bm.nextPid : Int) (some l))
      ∧ Leveled ((bm.NewPage t).2.set (bm.NewPage t).1 n)
          (Function.update lvl (bm.nextPid : Int) (some l))
      ∧ Function.update lvl (bm.nextPid : Int) (some l) (bm.NewPage t).1 = some l := by
  have hnone : lvl (bm.nextPid : Int) = none := hfresh _ (le_refl _)
  have hext := levelExt_update hnone l
  refine ⟨hext, ?_, ?_⟩
  · intro q x hq
    by_cases h1 : q = (bm.nextPid : Int)
    · subst h1
      rw [Function.update_same] at hq
      cases hq
      have : ((bm.NewPage t).2.set (bm.NewPage t).1 n).page (bm.nextPid : Int) = n := by
        simp [BufMgr.set, BufMgr.NewPage]
      rw [this]
      exact levelOk_ext hext hn
    · rw [Function.update_noteq h1] at hq
      have : ((bm.NewPage t).2.set (bm.NewPage t).1 n).page q = bm.page q := by
        simp [BufMgr.set, BufMgr.NewPage, h1]
      rw [this]
      exact levelOk_ext hext (hb q x hq)
  · simp [BufMgr.NewPage]

theorem leveled_untracked {bm : BufMgr} {lvl : PageID → Option Nat} (hb : Leveled bm lvl)
    (hfresh : ∀ q : PageID, (bm.nextPid : Int) ≤ q → lvl q = none) (t : NodeType)
    (n : SortedPage) : Leveled ((bm.NewPage t).2.set (bm.NewPage t).1 n) lvl := by
  intro q x hq
  have h1 : q ≠ (bm.nextPid : Int) := by
    intro hx
    rw [hx, hfresh _ (le_refl _)] at hq
    cases hq
  have : ((bm.NewPage t).2.set (bm.NewPage t).1 n).page q = bm.page q := by
    simp [BufMgr.set, BufMgr.NewPage, h1]
  rw [this]
  exact hb q x hq

theorem insert_leveled (cfg : Cfg) {lvl : PageID → Option Nat} (fuel : Nat) (t : BTreeFile)
    (key : Int) (rid : RecordID) (h : Nat) (hr : t.rootPid ≠ INVALID_PAGE)
    (hb : Leveled t.bm lvl) (hfresh : ∀ q : PageID, (t.bm.nextPid : Int) ≤ q → lvl q = none)
    (hroot : lvl t.rootPid = some h) (st : Status) (t' : BTreeFile)
    (hres : BTreeFile.Insert cfg fuel t key rid = some (st, t')) :
    ∃ lvl', LevelExt lvl lvl' ∧ Leveled t'.bm lvl'
      ∧ ((t'.rootPid = t.rootPid ∧ lvl' t'.rootPid = some h)
        ∨ (BTIndexPage.GetLeftLink (t'.bm.page t'.rootPid) = t.rootPid
            ∧ lvl' t'.rootPid = some (h + 1))) := by
  unfold BTreeFile.Insert at hres
  simp only [hr, if_false] at hres
  cases hrec : BTreeFile.InsertHelper cfg key rid fuel t.bm t.rootPid with
  | none => simp [hrec] at hres
  | some x =>
    obtain ⟨bm1, res1⟩ := x
    obtain ⟨lvl1, hext, hb1, hfresh1, hres1⟩ :=
      insertHelper_leveled cfg key rid _ _ _ _ _ _ _ hb hfresh hroot hrec
    have hroot1 : lvl1 t.rootPid = some h := hext _ _ hroot
    simp only [hrec] at hres
    cases res1 with
    | none =>
      simp only [Option.some.injEq, Prod.mk.injEq] at hres
      obtain ⟨-, rfl⟩ := hres
      exact ⟨lvl1, hext, hb1, Or.inl ⟨rfl, hroot1⟩⟩
    | some kp =>
      obtain ⟨ck, cp⟩ := kp
      have hcp : lvl1 cp = some h := hres1 ck cp rfl
      simp only at hres
      split at hres
      · rename_i p1 hi
        have hp1 := congrArg Prod.snd hi
        simp only at hp1
        subst hp1
        simp only [Option.some.injEq, Prod.mk.injEq] at hres
        obtain ⟨-, rfl⟩ := hres
        have hnew : LevelOk lvl1 (h + 1)
            (BTIndexPage.SetLeftLink ((bm1.NewPage NodeType.INDEX_NODE).2.page
              (bm1.NewPage NodeType.INDEX_NODE).1) t.rootPid) :=
          levelOk_of_parts (by simp [BufMgr.NewPage, BTIndexPage.SetLeftLink, SortedPage.init])
            hroot1 (by simp [BufMgr.NewPage, BTIndexPage.SetLeftLink, SortedPage.init])
        obtain ⟨e1, e2, e3⟩ := leveled_alloc hb1 hfresh1 NodeType.INDEX_NODE
          (levelOk_index_insert hnew cfg ck hcp)
        refine ⟨_, levelExt_trans hext e1, e2, Or.inr ⟨?_, e3⟩⟩
        simp only [set_page_self, BTIndexPage.GetLeftLink]
        rw [(index_insert_shape _ _ _ _).2.1]
        rfl
      · simp only [Option.some.injEq, Prod.mk.injEq] at hres
        obtain ⟨-, rfl⟩ := hres
        exact ⟨lvl1, hext, leveled_untracked hb1 hfresh1 _ _, Or.inl ⟨rfl, hroot1⟩⟩

/-- C13: take a tree with a root page whose leaves are all at depth `h` and
whose pages are allocated (their identifiers lie below the next one the pool
hands out).  Whenever `Insert` returns, either the root is the same page and
all leaves are at depth `h`, or the root is a new page whose left-link is the
old root (a root split) and all leaves are at depth `h + 1`.  Whenever `Delete`
returns, either the root is the same page and all leaves are at depth `h`, or
the root is the left-link of the old root page (a root collapse) and all leaves
are at depth `h - 1`. -/
theorem C13_insert_and_delete_keep_leaves_at_one_depth (cfg : Cfg) (t : BTreeFile) (h : Nat)
    (hr : t.rootPid ≠ INVALID_PAGE) (hu : uniformDepth t.bm h t.rootPid = true)
    (ha : ∀ q ∈ subtreePages t.bm h t.rootPid, q < (t.bm.nextPid : Int))
    (fuel : Nat) (key : Int) (rid : RecordID) :
    (∀ st t', BTreeFile.Insert cfg fuel t key rid = some (st, t') →
        (t'.rootPid = t.rootPid ∧ uniformDepth t'.bm h t'.rootPid = true)
          ∨ (BTIndexPage.GetLeftLink (t'.bm.page t'.rootPid) = t.rootPid
              ∧ uniformDepth t'.bm (h + 1) t'.rootPid = true))
      ∧ (∀ st t', BTreeFile.Delete cfg fuel t key rid = some (st, t') →
        (t'.rootPid = t.rootPid ∧ uniformDepth t'.bm h t'.rootPid = true)
          ∨ ∃ h', h = h' + 1
              ∧ t'.rootPid = BTIndexPage.GetLeftLink (t'.bm.page t.rootPid)
              ∧ uniformDepth t'.bm h' t'.rootPid = true) := by
  have hb := pageLevel_leveled hu
  have hroot := pageLevel_root hu
  constructor
  · intro st t' hres
    obtain ⟨lvl', -, hb', hcase⟩ :=
      insert_leveled cfg fuel t key rid h hr hb (pageLevel_fresh ha) hroot st t' hres
    rcases hcase with ⟨h1, h2⟩ | ⟨h1, h2⟩
    · exact Or.inl ⟨h1, leveled_uniform hb' _ _ h2⟩
    · exact Or.inr ⟨h1, leveled_uniform hb' _ _ h2⟩
  · intro st t' hres
    obtain ⟨hb', hcase⟩ := delete_leveled cfg fuel t key rid h hb hroot st t' hres
    rcases hcase with h1 | ⟨h', h1, h2, h3⟩
    · exact Or.inl ⟨h1, leveled_uniform hb' _ _ (h1 ▸ hroot)⟩
    · exact Or.inr ⟨h', h1, h3, leveled_uniform hb' _ _ h2⟩

/-- Witness for C13: the tree `treeFullRoot` of height 1 and the key 4, whose
insertion splits a leaf and the full root. -/
theorem C13_insert_and_delete_keep_leaves_at_one_depth_witness :
    treeFullRoot.rootPid ≠ INVALID_PAGE
      ∧ uniformDepth treeFullRoot.bm 1 treeFullRoot.rootPid = true
      ∧ (∀ q ∈ subtreePages treeFullRoot.bm 1 treeFullRoot.rootPid,
          q < (treeFullRoot.bm.nextPid : Int))
      ∧ ((BTreeFile.Insert cfg23 9 treeFullRoot 4 ⟨7, 4⟩).map fun r =>
          (r.1, r.2.rootPid, BTIndexPage.GetLeftLink (r.2.bm.page r.2.rootPid),
            uniformDepth r.2.bm 2 r.2.rootPid))
        = some (Status.OK, 8, 1, true)
      ∧ ((∀ st t', BTreeFile.Insert cfg23 9 treeFullRoot 4 ⟨7, 4⟩ = some (st, t') →
          (t'.rootPid = treeFullRoot.rootPid
              ∧ uniformDepth t'.bm 1 t'.rootPid = true)
            ∨ (BTIndexPage.GetLeftLink (t'.bm.page t'.rootPid) = treeFullRoot.rootPid
                ∧ uniformDepth t'.bm (1 + 1) t'.rootPid = true))
        ∧ (∀ st t', BTreeFile.Delete cfg23 9 treeFullRoot 4 ⟨7, 4⟩ = some (st, t') →
          (t'.rootPid = treeFullRoot.rootPid
              ∧ uniformDepth t'.bm 1 t'.rootPid = true)
            ∨ ∃ h', 1 = h' + 1
                ∧ t'.rootPid = BTIndexPage.GetLeftLink (t'.bm.page treeFullRoot.rootPid)
                ∧ uniformDepth t'.bm h' t'.rootPid = true)) :=
  ⟨by decide, by decide!, by decide!, by decide!,
    C13_insert_and_delete_keep_leaves_at_one_depth cfg23 treeFullRoot 1 (by decide)
      (by decide!) (by decide!) 9 4 ⟨7, 4⟩⟩

/-- C22 (failing input): in the well-formed tree `treeFullRoot`, whose root is a
full index page, `Insert (4, (7,4))` splits a leaf and the root and returns `OK`.
After the split `Insert` pins the old root (page 1) and allocates the new root
(page 8); its branch for an index root unpins page 8 only, so the pin count of
page 1 is one higher on return than on entry (the branch for a leaf root unpins
both pages). -/
theorem C22_insert_leaves_old_root_pinned :
    BTreeFile.wellFormedAt cfg23 1 treeFullRoot = true
    ∧ ((BTreeFile.Insert cfg23 9 treeFullRoot 4 ⟨7, 4⟩).map fun r => (r.1, r.2.rootPid))
      = some (Status.OK, 8)
    ∧ BTreeFile.Insert.pins cfg23 9 treeFullRoot 4 ⟨7, 4⟩
      = some [PinCall.Pin 1, PinCall.Unpin 1, PinCall.Pin 3, PinCall.NewPage 6,
          PinCall.Unpin 6, PinCall.Unpin 3, PinCall.Pin 1, PinCall.NewPage 7,
          PinCall.Unpin 7, PinCall.Unpin 1, PinCall.Pin 1, PinCall.NewPage 8,
          PinCall.Unpin 8]
    ∧ ((BTreeFile.Insert.pins cfg23 9 treeFullRoot 4 ⟨7, 4⟩).map fun l =>
        (List.range 9).map fun q => pinDelta l q)
      = some [0, 1, 0, 0, 0, 0, 0, 0, 0] := by
  decide!

/-- C25 (failing input): in the well-formed tree `treeH2` the root (page 1) is an
index page with the left-link 2.  `Delete (1, (7,1))` returns `OK`; the child
reports a merge, the root is left without entries and page 2 becomes the root.
The subtree of page 2 does not hold all remaining entries: the pairs with the
keys 15 and 16 are still stored in the leaf page 8, which no page of the tree
points to any more. -/
theorem C25_root_collapse_loses_entries :
    BTreeFile.wellFormedAt cfg4 2 treeH2 = true
    ∧ (treeH2.rootPid = 1 ∧ BTIndexPage.GetLeftLink (treeH2.bm.page 1) = 2)
    ∧ (BTreeFile.entries 4 treeH2).map keysOf
        = some [1, 2, 3, 4, 5, 6, 13, 14, 15, 16, 17, 18]
    ∧ ((BTreeFile.Delete cfg4 9 treeH2 1 ⟨7, 1⟩).map
        fun r => (r.1, r.2.rootPid, (r.2.bm.page 1).index))
      = some (Status.OK, 2, [])
    ∧ ((BTreeFile.Delete cfg4 9 treeH2 1 ⟨7, 1⟩).map
        fun r => ((subtreeEntries r.2.bm 4 2).map keysOf, keysOf (r.2.bm.page 8).leaf))
      = some (some [2, 3, 4, 5, 6, 13, 14, 17, 18], [15, 16]) := by
  decide!

/-- C30 (failing input): with room for three entries on an index page, the full
page with the left-link 2 and the entries (2,3), (5,4), (6,5) is split for the
incoming pair (3,6).  `Split_Index` returns `OK` with `newPageKey = 2`; the old
page keeps the separator 3, which is not below 2, and the in-order sequence is
2, (3,6), (2,3), (5,4), (6,5) instead of 2, (2,3), (3,6), (5,4), (6,5). -/
theorem C30_split_index_reorders_children :
    (indexPage 2 [(2, 3), (5, 4), (6, 5)]).AvailableSpace cfg23 < cfg23.sizeofIndexEntry
    ∧ strictAscending ((indexPage 2 [(2, 3), (5, 4), (6, 5)]).index.map IndexEntry.key) = true
    ∧ ((BTreeFile.Split_Index cfg23 (indexPage 2 [(2, 3), (5, 4), (6, 5)])
          (SortedPage.init NodeType.INDEX_NODE) 3 6).map
        fun r => (r.1, r.2.2.2))
      = some (Status.OK, some 2)
    ∧ ((BTreeFile.Split_Index cfg23 (indexPage 2 [(2, 3), (5, 4), (6, 5)])
          (SortedPage.init NodeType.INDEX_NODE) 3 6).map
        fun r => (r.2.1.prevPage, r.2.1.index))
      = some (2, [⟨3, 6⟩])
    ∧ ((BTreeFile.Split_Index cfg23 (indexPage 2 [(2, 3), (5, 4), (6, 5)])
          (SortedPage.init NodeType.INDEX_NODE) 3 6).map
        fun r => (r.2.2.1.prevPage, r.2.2.1.index))
      = some (3, [⟨5, 4⟩, ⟨6, 5⟩]) := by
  decide!

/-- C29 (counterexample): with room for four entries on an index page, the full
page with the entries (10,3), (20,4), (30,5), (40,6) is split for the incoming
pair (5,7).  The move-back pass inserts the incoming entry into the old page and
ends with (5,7), (10,3), (20,4) in the old page and (30,5), (40,6) in the new
one.  `Split_Index` outputs `newPageKey = 20`, not the smallest key 30 of the
new page; the entry (20,4) was moved back to the old page and is taken out of it
again, and its child 4 becomes the left-link of the new page. -/
theorem C29_counterexample_promoted_key_taken_from_old :
    (indexPage 2 [(10, 3), (20, 4), (30, 5), (40, 6)]).AvailableSpace cfg4
        < cfg4.sizeofIndexEntry
    ∧ ((BTreeFile.Split_Index.moveAll cfg4 5 (indexPage 2 [(10, 3), (20, 4), (30, 5), (40, 6)])
          (SortedPage.init NodeType.INDEX_NODE) none).map
        fun r => (r.1, r.2.1.index, r.2.2.1.index))
      = some (Status.OK, [], [⟨10, 3⟩, ⟨20, 4⟩, ⟨30, 5⟩, ⟨40, 6⟩])
    ∧ ((BTreeFile.Split_Index.moveBack cfg4 5 7 6 (indexPage 2 [])
          (indexPage INVALID_PAGE [(10, 3), (20, 4), (30, 5), (40, 6)])
          ⟨some ⟨10, 3⟩, some 40, none, false⟩).map
        fun r => (r.2.1.index, r.2.2.1.index, r.2.2.2.inserted))
      = some ([⟨5, 7⟩, ⟨10, 3⟩, ⟨20, 4⟩], [⟨30, 5⟩, ⟨40, 6⟩], true)
    ∧ ((BTreeFile.Split_Index cfg4 (indexPage 2 [(10, 3), (20, 4), (30, 5), (40, 6)])
          (SortedPage.init NodeType.INDEX_NODE) 5 7).map
        fun r => (r.1, r.2.2.2, r.2.1.index))
      = some (Status.OK, some 20, [⟨5, 7⟩, ⟨10, 3⟩])
    ∧ ((BTreeFile.Split_Index cfg4 (indexPage 2 [(10, 3), (20, 4), (30, 5), (40, 6)])
          (SortedPage.init NodeType.INDEX_NODE) 5 7).map
        fun r => (r.2.2.1.prevPage, r.2.2.1.index))
      = some (4, [⟨30, 5⟩, ⟨40, 6⟩]) := by
  decide!

theorem destroyFile_ok_calls {fuel : Nat} {t : BTreeFile} {calls : List Call}
    (h : BTreeFile.DestroyFile fuel t = some (Status.OK, calls)) :
    ∃ l, calls = l ++ [Call.DeleteFileEntry] := by
  unfold BTreeFile.DestroyFile at h
  by_cases hr : t.rootPid = INVALID_PAGE
  · simp only [hr, if_true, Option.some.injEq, Prod.mk.injEq, true_and] at h
    exact ⟨[], by simp [← h]⟩
  · simp only [hr, if_false] at h
    split at h
    · exact absurd h (by simp)
    · rename_i l _
      simp only [Option.some.injEq, Prod.mk.injEq, true_and] at h
      exact ⟨l ++ [Call.FreePage t.rootPid], by simp [← h]⟩
    · simp at h

theorem execAll_delete_last (f : String) (db : DB) (l : List Call) :
    (DB.execAll f db (l ++ [Call.DeleteFileEntry])).entry f = none := by
  unfold DB.execAll
  rw [List.foldl_append]
  simp only [List.foldl_cons, List.foldl_nil, DB.exec, DB.DeleteFileEntry]
  cases h : (List.foldl (DB.exec f) db l).entry f with
  | none => simpa using h
  | some p => simp

/-- C21: when `DestroyFile` on a tree kept under the file name `f` returns `OK`,
the calls it made leave the catalog without an entry for `f`.  The constructor
run for `f` afterwards, on whatever pool the destruction left, returns `OK`: it
allocates a new page, initialises it as a leaf without entries and with prev =
next = `INVALID_PAGE`, makes it the root and registers it under `f`; the
reopened tree holds no entries. -/
theorem C21_reopen_after_destroy_gives_empty_tree (db : DB) (f : String) (t : BTreeFile)
    (fuel : Nat) (calls : List Call)
    (hd : BTreeFile.DestroyFile fuel t = some (Status.OK, calls)) (bm : BufMgr) (fuel' : Nat) :
    DB.GetFileEntry (DB.execAll f db calls) f = none
      ∧ (BTreeFile.construct (DB.execAll f db calls) bm f).returnStatus = Status.OK
      ∧ (BTreeFile.construct (DB.execAll f db calls) bm f).rootPid = some (bm.nextPid : Int)
      ∧ (BTreeFile.construct (DB.execAll f db calls) bm f).fname = some f
      ∧ (BTreeFile.construct (DB.execAll f db calls) bm f).bm.nextPid = bm.nextPid + 1
      ∧ (BTreeFile.construct (DB.execAll f db calls) bm f).bm.page (bm.nextPid : Int)
          = { type := NodeType.LEAF_NODE, prevPage := INVALID_PAGE, nextPage := INVALID_PAGE,
              leaf := [], index := [] }
      ∧ DB.GetFileEntry (BTreeFile.construct (DB.execAll f db calls) bm f).db f
          = some (bm.nextPid : Int)
      ∧ BTreeFile.entries (fuel' + 1)
          ⟨(bm.nextPid : Int), (BTreeFile.construct (DB.execAll f db calls) bm f).bm⟩
          = some [] := by
  obtain ⟨l, rfl⟩ := destroyFile_ok_calls hd
  have hnone := execAll_delete_last f db l
  have hc : BTreeFile.construct (DB.execAll f db (l ++ [Call.DeleteFileEntry])) bm f
      = { returnStatus := Status.OK, rootPid := some (bm.nextPid : Int), fname := some f,
          bm := (bm.NewPage NodeType.LEAF_NODE).2,
          db := { entry := fun n => if n = f then some (bm.nextPid : Int)
                    else (DB.execAll f db (l ++ [Call.DeleteFileEntry])).entry n } } := by
    unfold BTreeFile.construct
    simp [DB.GetFileEntry, DB.AddFileEntry, hnone]
  rw [hc]
  refine ⟨hnone, rfl, rfl, rfl, rfl, ?_, ?_, ?_⟩
  · simp [BufMgr.NewPage, SortedPage.init]
  · simp [DB.GetFileEntry]
  · have hne : ((bm.nextPid : Int) : PageID) ≠ INVALID_PAGE := by
      intro h
      have h0 : (0 : Int) ≤ (bm.nextPid : Int) := Int.ofNat_nonneg _
      rw [h] at h0
      exact absurd h0 (by decide)
    unfold BTreeFile.entries
    simp only [hne, if_false]
    rw [subtreeEntries_leaf (by simp [BufMgr.NewPage, SortedPage.init])]
    simp [BufMgr.NewPage, SortedPage.init]

/-- Witness for C21: the tree `treeH2` kept under the file name "t". -/
theorem C21_reopen_after_destroy_gives_empty_tree_witness :
    BTreeFile.DestroyFile 3 treeH2
        = some (Status.OK, [Call.FreePage 4, Call.FreePage 5, Call.FreePage 6, Call.FreePage 2,
            Call.FreePage 7, Call.FreePage 8, Call.FreePage 9, Call.FreePage 3, Call.FreePage 1,
            Call.DeleteFileEntry])
      ∧ DB.GetFileEntry (DB.execAll "t" ⟨fun n => if n = "t" then some 1 else none⟩
          [Call.FreePage 4, Call.FreePage 5, Call.FreePage 6, Call.FreePage 2,
            Call.FreePage 7, Call.FreePage 8, Call.FreePage 9, Call.FreePage 3, Call.FreePage 1,
            Call.DeleteFileEntry]) "t" = none
      ∧ BTreeFile.entries 1 ⟨(treeH2.bm.nextPid : Int),
          (BTreeFile.construct (DB.execAll "t" ⟨fun n => if n = "t" then some 1 else none⟩
            [Call.FreePage 4, Call.FreePage 5, Call.FreePage 6, Call.FreePage 2,
              Call.FreePage 7, Call.FreePage 8, Call.FreePage 9, Call.FreePage 3,
              Call.FreePage 1, Call.DeleteFileEntry]) treeH2.bm "t").bm⟩ = some [] :=
  have h := C21_reopen_after_destroy_gives_empty_tree
    ⟨fun n => if n = "t" then some 1 else none⟩ "t" treeH2 3 _ (by decide!) treeH2.bm 0
  ⟨by decide!, h.1, h.2.2.2.2.2.2.2⟩

theorem create_root (bm : BufMgr) :
    (BTreeFile.create bm).rootPid = (bm.nextPid : Int)
      ∧ (BTreeFile.create bm).rootPid ≠ INVALID_PAGE
      ∧ (BTreeFile.create bm).bm.page (BTreeFile.create bm).rootPid
          = SortedPage.init NodeType.LEAF_NODE := by
  have hne : ((bm.nextPid : Int) : PageID) ≠ INVALID_PAGE := by
    intro h
    have h0 : (0 : Int) ≤ (bm.nextPid : Int) := Int.ofNat_nonneg _
    rw [h] at h0
    exact absurd h0 (by decide)
  refine ⟨rfl, hne, ?_⟩
  simp [BTreeFile.create, BufMgr.NewPage]

theorem getNext_empty_leaf (bm : BufMgr) (fuel : Nat) (sc : BTreeFileScan)
    (hp : bm.page sc.curPid = SortedPage.init NodeType.LEAF_NODE) :
    ∃ sc', BTreeFileScan.GetNext (fuel + 1) bm sc = some (Status.DONE, none, sc') := by
  unfold BTreeFileScan.GetNext
  by_cases h1 : sc.s = Status.DONE
  · exact ⟨sc, by simp [h1]⟩
  · by_cases h2 : sc.curPid = INVALID_PAGE
    · exact ⟨{ sc with s := Status.DONE }, by simp [h1, h2]⟩
    · simp only [h1, h2, if_false]
      unfold BTreeFileScan.GetNextHelper
      simp only [h2, if_false]
      by_cases h3 : sc.lowKey > sc.highKey
      · exact ⟨{ sc with s := Status.DONE }, by simp [h3]⟩
      · simp only [h3, if_false, hp]
        exact ⟨{ sc with s := Status.DONE }, by simp [BTLeafPage.GetFirst, SortedPage.init]⟩

/-- C23 (failing input and the rest of the claim).  The constructor adopts the
root page id of an existing catalog entry as it is, also `INVALID_PAGE`.  On a
tree with `rootPid = INVALID_PAGE`, `OpenScan` with an absent low or high bound
has no result: it stores `*lowKey` and `*highKey` in the cursor before looking
at either pointer.  With both bounds present it returns a cursor whose first
`GetNext` returns `DONE`.  On a freshly constructed tree, whose root is an empty
leaf, `OpenScan` returns a cursor for every combination of bounds, and the first
`GetNext` on it returns `DONE`. -/
theorem C23_openScan_faults_on_absent_bound_without_root :
    (∀ (bm : BufMgr) (f : String),
        (BTreeFile.construct ⟨fun _ => some INVALID_PAGE⟩ bm f).rootPid = some INVALID_PAGE)
    ∧ (∀ (fuel : Nat) (bm : BufMgr) (hi : Option Int) (k0 : Int),
        BTreeFile.OpenScan fuel ⟨INVALID_PAGE, bm⟩ none hi k0 = none)
    ∧ (∀ (fuel : Nat) (bm : BufMgr) (lo : Option Int) (k0 : Int),
        BTreeFile.OpenScan fuel ⟨INVALID_PAGE, bm⟩ lo none k0 = none)
    ∧ (∀ (fuel : Nat) (bm : BufMgr) (lo hi k0 : Int),
        ∃ sc, BTreeFile.OpenScan fuel ⟨INVALID_PAGE, bm⟩ (some lo) (some hi) k0 = some sc
          ∧ BTreeFileScan.GetNext fuel bm sc = some (Status.DONE, none, sc))
    ∧ (∀ (fuel : Nat) (bm : BufMgr) (lo hi : Option Int) (k0 : Int),
        ∃ sc sc', BTreeFile.OpenScan (fuel + 1) (BTreeFile.create bm) lo hi k0 = some sc
          ∧ BTreeFileScan.GetNext (fuel + 1) (BTreeFile.create bm).bm sc
              = some (Status.DONE, none, sc')) := by
  refine ⟨?_, ?_, ?_, ?_, ?_⟩
  · intro bm f
    simp [BTreeFile.construct, DB.GetFileEntry]
  · intro fuel bm hi k0
    simp [BTreeFile.OpenScan]
  · intro fuel bm lo k0
    cases lo <;> simp [BTreeFile.OpenScan]
  · intro fuel bm lo hi k0
    refine ⟨(⟨lo, hi, Status.DONE, INVALID_PAGE, 0, ⟨0, 0⟩⟩ : BTreeFileScan),
      by simp [BTreeFile.OpenScan], ?_⟩
    simp [BTreeFileScan.GetNext]
  · intro fuel bm lo hi k0
    obtain ⟨hr, hne, hp⟩ := create_root bm
    have hleaf : ((BTreeFile.create bm).bm.page (BTreeFile.create bm).rootPid).type
        = NodeType.LEAF_NODE := by rw [hp]; rfl
    have hmax : ∀ k, BTreeFile.GetMaxKey (fuel + 1) (BTreeFile.create bm) k
        = some ((BTreeFile.create bm).rootPid, k) := by
      intro k
      simp [BTreeFile.GetMaxKey, BTreeFile.GetMaxKey.descend, hleaf, hp, BTLeafPage.GetLast,
        SortedPage.init]
    have hmin : ∀ k, BTreeFile.GetMinimumPid (fuel + 1) (BTreeFile.create bm) k
        = some ((BTreeFile.create bm).rootPid, k, 0) := by
      intro k
      simp [BTreeFile.GetMinimumPid, BTreeFile.GetMinimumPid.descend, hleaf, hp,
        BTLeafPage.GetFirst, SortedPage.init]
    have hfind : ∀ k, BTreeFile.FindPidWithKey (fuel + 1) (BTreeFile.create bm) k
        = some (BTreeFile.create bm).rootPid := by
      intro k
      simp [BTreeFile.FindPidWithKey, BTreeFile.FindPidWithKey.descend, hleaf, hne]
    have hopen : ∃ sc, BTreeFile.OpenScan (fuel + 1) (BTreeFile.create bm) lo hi k0 = some sc
        ∧ sc.curPid = (BTreeFile.create bm).rootPid := by
      unfold BTreeFile.OpenScan
      simp only [hne, if_false]
      cases lo <;> cases hi <;> simp [hmax, hmin, hfind]
    obtain ⟨sc, hsc, hcur⟩ := hopen
    obtain ⟨sc', hn⟩ := getNext_empty_leaf (BTreeFile.create bm).bm fuel sc (by rw [hcur, hp])
    exact ⟨sc, sc', hsc, hn⟩

/-- C24: on a tree with a valid root and a page layout where an index page has
room for an entry: when `InsertHelper` reports a split of the root with the
promoted pair `(sep, newPid)`, `Insert` returns `OK`, the root is the page the
pool allocates next, an index page with the old root as left-link and the
single entry `(sep, newPid)`, and every other page is as `InsertHelper` left
it; when `InsertHelper` reports no split, `Insert` returns `OK` and `rootPid`
is unchanged. -/
theorem C24_root_split_builds_new_index_root (cfg : Cfg) (hs : cfg.Sane) (fuel : Nat)
    (t : BTreeFile) (key : Int) (rid : RecordID) (hr : t.rootPid ≠ INVALID_PAGE) :
    (∀ bm1 sep newPid,
        BTreeFile.InsertHelper cfg key rid fuel t.bm t.rootPid = some (bm1, some (sep, newPid)) →
        ∃ t', BTreeFile.Insert cfg fuel t key rid = some (Status.OK, t')
          ∧ t'.rootPid = (bm1.nextPid : Int) ∧ t'.bm.nextPid = bm1.nextPid + 1
          ∧ t'.bm.page t'.rootPid
              = { type := NodeType.INDEX_NODE, prevPage := t.rootPid,
                  nextPage := INVALID_PAGE, leaf := [], index := [⟨sep, newPid⟩] }
          ∧ ∀ q : PageID, q ≠ t'.rootPid → t'.bm.page q = bm1.page q)
      ∧ (∀ bm1, BTreeFile.InsertHelper cfg key rid fuel t.bm t.rootPid = some (bm1, none) →
          BTreeFile.Insert cfg fuel t key rid = some (Status.OK, ⟨t.rootPid, bm1⟩)) := by
  obtain ⟨-, -, hci, hDi⟩ := hs
  constructor
  · intro bm1 sep newPid hh
    have hroom : ¬ (BTIndexPage.SetLeftLink ((bm1.NewPage NodeType.INDEX_NODE).2.page
        (bm1.NewPage NodeType.INDEX_NODE).1) t.rootPid).AvailableSpace cfg
          < cfg.sizeofIndexEntry := by
      simp only [BufMgr.NewPage, BTIndexPage.SetLeftLink, SortedPage.AvailableSpace,
        SortedPage.init, if_true, List.length_nil, Nat.zero_mul, Nat.add_zero, Nat.sub_zero,
        not_lt]
      omega
    refine ⟨⟨(bm1.nextPid : Int), (bm1.NewPage NodeType.INDEX_NODE).2.set (bm1.nextPid : Int)
      (BTIndexPage.Insert cfg (BTIndexPage.SetLeftLink
        ((bm1.NewPage NodeType.INDEX_NODE).2.page (bm1.NewPage NodeType.INDEX_NODE).1)
          t.rootPid) sep newPid).2⟩, ?_, rfl, ?_, ?_, ?_⟩
    · unfold BTreeFile.Insert
      simp only [hr, if_false, hh]
      simp only [BTIndexPage.Insert, hroom, if_false]
      rfl
    · simp [BufMgr.set, BufMgr.NewPage]
    · simp only [set_page_self]
      simp only [BTIndexPage.Insert, hroom, if_false]
      simp [BufMgr.NewPage, BTIndexPage.SetLeftLink, SortedPage.init, insertSorted]
    · intro q hq
      simp only at hq
      simp [BufMgr.set, BufMgr.NewPage, hq]
  · intro bm1 hh
    unfold BTreeFile.Insert
    simp [hr, hh]

/-- Witness for C24: `Insert (4, (7,4))` into `treeFullRoot`, where `InsertHelper`
reports a split of the root with the promoted pair (2, 7). -/
theorem C24_root_split_builds_new_index_root_witness :
    treeFullRoot.rootPid ≠ INVALID_PAGE
      ∧ ((BTreeFile.InsertHelper cfg23 4 ⟨7, 4⟩ 9 treeFullRoot.bm treeFullRoot.rootPid).map
          fun r => (r.2, r.1.nextPid)) = some (some (2, 7), 8)
      ∧ ∀ bm1 sep newPid,
        BTreeFile.InsertHelper cfg23 4 ⟨7, 4⟩ 9 treeFullRoot.bm treeFullRoot.rootPid
          = some (bm1, some (sep, newPid)) →
        ∃ t', BTreeFile.Insert cfg23 9 treeFullRoot 4 ⟨7, 4⟩ = some (Status.OK, t')
          ∧ t'.rootPid = (bm1.nextPid : Int) ∧ t'.bm.nextPid = bm1.nextPid + 1
          ∧ t'.bm.page t'.rootPid
              = { type := NodeType.INDEX_NODE, prevPage := treeFullRoot.rootPid,
                  nextPage := INVALID_PAGE, leaf := [], index := [⟨sep, newPid⟩] }
          ∧ ∀ q : PageID, q ≠ t'.rootPid → t'.bm.page q = bm1.page q :=
  ⟨by decide, by decide!,
    (C24_root_split_builds_new_index_root cfg23 (by unfold Cfg.Sane; decide) 9 treeFullRoot 4 ⟨7, 4⟩
      (by decide)).1⟩

/-- C26: for every leaf page `old` that is full (no room for one more entry)
and whose entries fit the data area, every empty page `new` and every incoming
pair, `Split_Leaf` returns `OK`, and the entries of the two pages afterwards are
the entries `old` had plus the incoming pair, once (as multisets).  The order
of the entries of `old` plays no part. -/
theorem C26_split_leaf_keeps_entries_and_adds_pair_once (cfg : Cfg)
    (hc : 0 < cfg.sizeofLeafEntry) (hD : cfg.sizeofLeafEntry ≤ cfg.HEAPPAGE_DATA_SIZE)
    (old new : SortedPage) (key : Int) (rid : RecordID) (ho : old.index = [])
    (hofit : old.leaf.length * cfg.sizeofLeafEntry ≤ cfg.HEAPPAGE_DATA_SIZE)
    (hfull : old.AvailableSpace cfg < cfg.sizeofLeafEntry)
    (hn : new.index = []) (hnl : new.leaf = []) :
    ∃ o n, BTreeFile.Split_Leaf cfg old new key rid = some (Status.OK, o, n)
      ∧ List.Perm (o.leaf ++ n.leaf) (⟨key, rid⟩ :: old.leaf)
      ∧ (o.leaf ++ n.leaf).count ⟨key, rid⟩ = old.leaf.count ⟨key, rid⟩ + 1 := by
  obtain ⟨eo, en, hsp, hperm, -⟩ :=
    split_leaf_spec cfg hc hD old new key rid ho hofit hfull hn hnl
  refine ⟨_, _, hsp, hperm, ?_⟩
  have := hperm.count_eq (⟨key, rid⟩ : LeafEntry)
  simp only at this
  rw [this, List.count_cons_self]

/-- Witness for C26: the full leaf [1, 2, 3, 4] of `cfg4` and the incoming key 0. -/
theorem C26_split_leaf_keeps_entries_and_adds_pair_once_witness :
    (leafPage (-1) 3 [1, 2, 3, 4]).AvailableSpace cfg4 < cfg4.sizeofLeafEntry
      ∧ ∃ o n, BTreeFile.Split_Leaf cfg4 (leafPage (-1) 3 [1, 2, 3, 4])
            (SortedPage.init NodeType.LEAF_NODE) 0 ⟨7, 0⟩ = some (Status.OK, o, n)
          ∧ List.Perm (o.leaf ++ n.leaf) (⟨0, ⟨7, 0⟩⟩ :: (leafPage (-1) 3 [1, 2, 3, 4]).leaf)
          ∧ (o.leaf ++ n.leaf).count ⟨0, ⟨7, 0⟩⟩
              = (leafPage (-1) 3 [1, 2, 3, 4]).leaf.count ⟨0, ⟨7, 0⟩⟩ + 1 :=
  ⟨by decide,
    C26_split_leaf_keeps_entries_and_adds_pair_once cfg4 (by decide) (by decide)
      (leafPage (-1) 3 [1, 2, 3, 4]) (SortedPage.init NodeType.LEAF_NODE) 0 ⟨7, 0⟩ rfl
      (by decide) (by decide) rfl rfl⟩

theorem nodup_append_keys_ne {eo en : List LeafEntry}
    (h : ((eo ++ en).map LeafEntry.key).Nodup) :
    ∀ x ∈ eo, ∀ y ∈ en, x.key ≠ y.key := by
  rw [List.map_append] at h
  intro x hx y hy hxy
  exact (List.nodup_append.1 h).2.2 (List.mem_map_of_mem _ hx)
    (hxy ▸ List.mem_map_of_mem _ hy)

/-- C27: take a leaf page `pid` that is full and whose entries fit the data
area, other than the page the pool allocates next.  `Split_Leaf` on it and an
empty page returns `OK` with a non-empty new page, every key left in the old
page being at most the first key of the new page, and below it when the keys of
the page and the incoming key are pairwise distinct.  `InsertHelper` on the
page reports a split whose promoted pair is that first key with the page id of
the new page, the page the pool allocated; the two pages of the pool hold the
entries `Split_Leaf` gave them. -/
theorem C27_leaf_split_promotes_first_key_of_new (cfg : Cfg) (hc : 0 < cfg.sizeofLeafEntry)
    (hD : cfg.sizeofLeafEntry ≤ cfg.HEAPPAGE_DATA_SIZE) (bm : BufMgr) (pid : PageID)
    (key : Int) (rid : RecordID) (fuel : Nat)
    (ht : (bm.page pid).type = NodeType.LEAF_NODE) (ho : (bm.page pid).index = [])
    (hofit : (bm.page pid).leaf.length * cfg.sizeofLeafEntry ≤ cfg.HEAPPAGE_DATA_SIZE)
    (hfull : (bm.page pid).AvailableSpace cfg < cfg.sizeofLeafEntry)
    (hne : pid ≠ (bm.nextPid : Int)) :
    ∃ o n first bm',
      BTreeFile.Split_Leaf cfg (bm.page pid) (SortedPage.init NodeType.LEAF_NODE) key rid
          = some (Status.OK, o, n)
        ∧ BTLeafPage.GetFirst n = some first
        ∧ (∀ x ∈ o.leaf, x.key ≤ first.key)
        ∧ ((key :: (bm.page pid).leaf.map LeafEntry.key).Nodup →
            ∀ x ∈ o.leaf, x.key < first.key)
        ∧ BTreeFile.InsertHelper cfg key rid (fuel + 1) bm pid
            = some (bm', some (first.key, (bm.nextPid : Int)))
        ∧ (bm'.page pid).leaf = o.leaf ∧ (bm'.page (bm.nextPid : Int)).leaf = n.leaf := by
  obtain ⟨eo, en, hsp, hperm, hnonempty, -⟩ :=
    split_leaf_spec cfg hc hD (bm.page pid) (SortedPage.init NodeType.LEAF_NODE) key rid ho
      hofit hfull rfl rfl
  have hord := split_leaf_order cfg (bm.page pid) (SortedPage.init NodeType.LEAF_NODE) _ _ key
    rid rfl hsp
  simp only at hord
  cases hen : en with
  | nil => exact absurd hen hnonempty
  | cons first rest =>
    subst hen
    have hfirst : BTLeafPage.GetFirst
        ({ SortedPage.init NodeType.LEAF_NODE with leaf := first :: rest } : SortedPage)
        = some first := rfl
    refine ⟨_, _, first,
      ((bm.NewPage NodeType.LEAF_NODE).2.set pid
        { ({ bm.page pid with leaf := eo } : SortedPage) with
          nextPage := (bm.NewPage NodeType.LEAF_NODE).1 }).set
        (bm.NewPage NodeType.LEAF_NODE).1
        { ({ SortedPage.init NodeType.LEAF_NODE with leaf := first :: rest } : SortedPage) with
          prevPage := pid },
      hsp, hfirst, fun x hx => hord x hx first (List.mem_cons_self _ _), ?_, ?_, ?_, ?_⟩
    · intro hnd x hx
      have hnd' : ((eo ++ first :: rest).map LeafEntry.key).Nodup := by
        have := (hperm.map LeafEntry.key).nodup_iff.2 (by simpa using hnd)
        exact this
      exact lt_of_le_of_ne (hord x hx first (List.mem_cons_self _ _))
        (nodup_append_keys_ne hnd' x hx first (List.mem_cons_self _ _))
    · have hnot : ¬ (bm.page pid).type = NodeType.INDEX_NODE := by rw [ht]; decide
      have hnew : (bm.NewPage NodeType.LEAF_NODE).2.page (bm.NewPage NodeType.LEAF_NODE).1
          = SortedPage.init NodeType.LEAF_NODE := by simp [BufMgr.NewPage]
      unfold BTreeFile.InsertHelper
      simp only [hnot, if_false, hfull, if_true, hnew, hsp, hfirst]
      rfl
    · simp [BufMgr.set, BufMgr.NewPage, hne]
    · simp [BufMgr.set, BufMgr.NewPage]

/-- Witness for C27: the full leaf 2 of `treeFullLeaf` and the incoming key 0. -/
theorem C27_leaf_split_promotes_first_key_of_new_witness :
    ((treeFullLeaf.bm.page 2).type = NodeType.LEAF_NODE
        ∧ (treeFullLeaf.bm.page 2).AvailableSpace cfg4 < cfg4.sizeofLeafEntry)
      ∧ ∃ o n first bm',
        BTreeFile.Split_Leaf cfg4 (treeFullLeaf.bm.page 2) (SortedPage.init NodeType.LEAF_NODE)
            0 ⟨7, 0⟩ = some (Status.OK, o, n)
          ∧ BTLeafPage.GetFirst n = some first
          ∧ (∀ x ∈ o.leaf, x.key ≤ first.key)
          ∧ (((0 : Int) :: (treeFullLeaf.bm.page 2).leaf.map LeafEntry.key).Nodup →
              ∀ x ∈ o.leaf, x.key < first.key)
          ∧ BTreeFile.InsertHelper cfg4 0 ⟨7, 0⟩ (0 + 1) treeFullLeaf.bm 2
              = some (bm', some (first.key, (treeFullLeaf.bm.nextPid : Int)))
          ∧ (bm'.page 2).leaf = o.leaf
          ∧ (bm'.page (treeFullLeaf.bm.nextPid : Int)).leaf = n.leaf :=
  ⟨by decide!,
    C27_leaf_split_promotes_first_key_of_new cfg4 (by decide) (by decide) treeFullLeaf.bm 2 0
      ⟨7, 0⟩ 0 (by decide!) (by decide!) (by decide!) (by decide!) (by decide!)⟩

/-- C28: with entries of one size, for every full leaf page `old` whose entries
fit the data area, every empty page `new` and every incoming pair: the first
loop of `Split_Leaf` moves all entries to `new`; the move-back loop, started
from there, returns in a state with `old.AvailableSpace ≤ new.AvailableSpace`
that it has not run past (`old` holds at most one entry more than `new`, so
one step earlier `old` still had more free space); the loop does not move
anything from a state in which the condition already holds; and on return from
`Split_Leaf` the entry counts of the two pages differ by at most one. -/
theorem C28_move_back_stops_at_balance (cfg : Cfg) (hc : 0 < cfg.sizeofLeafEntry)
    (hD : cfg.sizeofLeafEntry ≤ cfg.HEAPPAGE_DATA_SIZE) (old new : SortedPage) (key : Int)
    (rid : RecordID) (ho : old.index = [])
    (hofit : old.leaf.length * cfg.sizeofLeafEntry ≤ cfg.HEAPPAGE_DATA_SIZE)
    (hfull : old.AvailableSpace cfg < cfg.sizeofLeafEntry)
    (hn : new.index = []) (hnl : new.leaf = []) :
    (∃ es o1 n1 ins,
        BTreeFile.Split_Leaf.moveAll cfg (old.leaf.length + 1) old new
            = some (Status.OK, { old with leaf := [] }, { new with leaf := es })
          ∧ BTreeFile.Split_Leaf.moveBack cfg key rid (es.length + 2) { old with leaf := [] }
              { new with leaf := es } (BTLeafPage.GetFirst { new with leaf := es }) false
            = some (Status.OK, o1, n1, ins)
          ∧ o1.AvailableSpace cfg ≤ n1.AvailableSpace cfg
          ∧ o1.leaf.length ≤ n1.leaf.length + 1)
      ∧ (∀ (fuel : Nat) (o n : SortedPage) (cur : Option LeafEntry) (ins : Bool),
          o.AvailableSpace cfg ≤ n.AvailableSpace cfg →
          BTreeFile.Split_Leaf.moveBack cfg key rid (fuel + 1) o n cur ins
            = some (Status.OK, o, n, ins))
      ∧ ∃ o2 n2, BTreeFile.Split_Leaf cfg old new key rid = some (Status.OK, o2, n2)
          ∧ o2.leaf.length ≤ n2.leaf.length + 1 ∧ n2.leaf.length ≤ o2.leaf.length + 1 := by
  refine ⟨?_, ?_, ?_⟩
  · obtain ⟨es, hall, hpes⟩ := leaf_moveAll_spec cfg (old.leaf.length + 1) old new ho hn
      (by rw [hnl]; simpa using hofit) (by omega)
    rw [hnl, List.append_nil] at hpes
    have hlen : es.length = old.leaf.length := hpes.length_eq
    obtain ⟨eo, en, ins', hback, -, -, hb1, hb2, -⟩ :=
      leaf_moveBack_spec cfg key rid hc (es.length + 2) { old with leaf := [] }
        { new with leaf := es } (BTLeafPage.GetFirst { new with leaf := es }) false ho hn
        (by simp) (by simp only; rw [hlen]; exact hofit) (fun _ => rfl) (by simp) (by simp)
    refine ⟨es, _, _, ins', hall, hback, ?_, hb2⟩
    rw [leaf_avail (by exact ho), leaf_avail (by exact hn)]
    simp only
    have := Nat.mul_le_mul_right cfg.sizeofLeafEntry hb1
    omega
  · intro fuel o n cur ins hle
    unfold BTreeFile.Split_Leaf.moveBack
    simp [not_lt.2 hle]
  · obtain ⟨eo, en, hsp, -, -, h1, h2, -⟩ :=
      split_leaf_spec cfg hc hD old new key rid ho hofit hfull hn hnl
    exact ⟨_, _, hsp, h1, h2⟩

/-- Witness for C28: the full leaf [1, 2, 3, 4] of `cfg4` and the incoming key 0. -/
theorem C28_move_back_stops_at_balance_witness :
    (leafPage (-1) 3 [1, 2, 3, 4]).AvailableSpace cfg4 < cfg4.sizeofLeafEntry
      ∧ ∃ o2 n2, BTreeFile.Split_Leaf cfg4 (leafPage (-1) 3 [1, 2, 3, 4])
            (SortedPage.init NodeType.LEAF_NODE) 0 ⟨7, 0⟩ = some (Status.OK, o2, n2)
          ∧ o2.leaf.length ≤ n2.leaf.length + 1 ∧ n2.leaf.length ≤ o2.leaf.length + 1 :=
  ⟨by decide,
    (C28_move_back_stops_at_balance cfg4 (by decide) (by decide)
      (leafPage (-1) 3 [1, 2, 3, 4]) (SortedPage.init NodeType.LEAF_NODE) 0 ⟨7, 0⟩ rfl
      (by decide) (by decide) rfl rfl).2.2⟩

theorem insertSorted_append_last {α : Type} (key : α → Int) (a : α) :
    ∀ l : List α, (∀ x ∈ l, ¬ key a < key x) → insertSorted key a l = l ++ [a] := by
  intro l
  induction l with
  | nil => intro _; rfl
  | cons b l ih =>
    intro h
    unfold insertSorted
    rw [if_neg (h b (List.mem_cons_self _ _))]
    rw [ih fun x hx => h x (List.mem_cons_of_mem _ hx)]
    rfl

theorem insertSorted_strict (a : IndexEntry) :
    ∀ l : List IndexEntry, l.Pairwise (fun x y => x.key < y.key) → (∀ x ∈ l, x.key ≠ a.key) →
      (insertSorted IndexEntry.key a l).Pairwise (fun x y => x.key < y.key) := by
  intro l
  induction l with
  | nil => intro _ _; simp [insertSorted]
  | cons b l ih =>
    intro hs hne
    unfold insertSorted
    have hb := List.pairwise_cons.1 hs
    by_cases h : a.key < b.key
    · rw [if_pos h]
      refine List.pairwise_cons.2 ⟨?_, hs⟩
      intro x hx
      rcases List.mem_cons.1 hx with rfl | hx'
      · exact h
      · exact lt_trans h (hb.1 x hx')
    · rw [if_neg h]
      refine List.pairwise_cons.2 ⟨?_, ih hb.2 fun x hx => hne x (List.mem_cons_of_mem _ hx)⟩
      intro x hx
      rcases (insertSorted_mem _ _ _ _).1 hx with rfl | hx'
      · exact lt_of_le_of_ne (not_lt.1 h) (hne b (List.mem_cons_self _ _))
      · exact hb.1 x hx'

theorem eraseLast_head_only (k : Int) (f : IndexEntry) (rest : List IndexEntry)
    (hf : f.key = k) (hr : ∀ x ∈ rest, x.key ≠ k) :
    eraseLast (fun e : IndexEntry => decide (e.key = k)) (f :: rest) = some rest := by
  unfold eraseLast
  rw [eraseLast_none _ rest (by intro x hx; simpa using hr x hx)]
  simp [hf]

theorem eraseLast_last_only (k : Int) (c : IndexEntry) :
    ∀ init : List IndexEntry, c.key = k → (∀ x ∈ init, x.key ≠ k) →
      eraseLast (fun e : IndexEntry => decide (e.key = k)) (init ++ [c]) = some init := by
  intro init
  induction init with
  | nil =>
    intro hc _
    simp [eraseLast, hc]
  | cons b l ih =>
    intro hc hne
    rw [List.cons_append]
    unfold eraseLast
    rw [ih hc fun x hx => hne x (List.mem_cons_of_mem _ hx)]

theorem index_delete_head (p : SortedPage) (f : IndexEntry) (rest : List IndexEntry)
    (hp : p.index = f :: rest) (hs : p.index.Pairwise (fun x y => x.key < y.key)) :
    (BTIndexPage.Delete p f.key).2 = { p with index := rest } := by
  unfold BTIndexPage.Delete
  rw [hp] at hs ⊢
  rw [eraseLast_head_only f.key f rest rfl
    fun x hx => ne_of_gt ((List.pairwise_cons.1 hs).1 x hx)]

theorem index_delete_last (p : SortedPage) (c : IndexEntry) (init : List IndexEntry)
    (hp : p.index = init ++ [c]) (hs : p.index.Pairwise (fun x y => x.key < y.key)) :
    (BTIndexPage.Delete p c.key).2 = { p with index := init } := by
  unfold BTIndexPage.Delete
  rw [hp] at hs ⊢
  rw [eraseLast_last_only c.key c init rfl
    fun x hx => ne_of_lt ((List.pairwise_append.1 hs).2.2 x hx c (List.mem_singleton_self _))]

theorem index_insert_status_ok {cfg : Cfg} {p p1 : SortedPage} {key : Int} {pid : PageID}
    (h : BTIndexPage.Insert cfg p key pid = (Status.OK, p1)) :
    p1 = { p with index := insertSorted IndexEntry.key ⟨key, pid⟩ p.index } := by
  unfold BTIndexPage.Insert at h
  by_cases hf : p.AvailableSpace cfg < cfg.sizeofIndexEntry
  · simp [hf] at h
  · simp only [hf, if_false, Prod.mk.injEq, true_and] at h
    exact h.symm

theorem index_moveAll_sorted (cfg : Cfg) :
    ∀ (fuel : Nat) (old new : SortedPage) (ck : Option Int) (o n : SortedPage)
      (ck' : Option Int),
      new.index.Pairwise (fun x y => x.key ≤ y.key) →
      BTreeFile.Split_Index.moveAll cfg fuel old new ck = some (Status.OK, o, n, ck') →
      n.index.Pairwise (fun x y => x.key ≤ y.key) := by
  intro fuel
  induction fuel with
  | zero => intro old new ck o n ck' _ h; simp [BTreeFile.Split_Index.moveAll] at h
  | succ fuel ih =>
    intro old new ck o n ck' hs h
    unfold BTreeFile.Split_Index.moveAll at h
    cases hg : BTIndexPage.GetFirst old with
    | none =>
      simp only [hg, Option.some.injEq, Prod.mk.injEq, true_and] at h
      obtain ⟨-, rfl, -⟩ := h
      exact hs
    | some cur =>
      simp only [hg] at h
      split at h
      · rename_i n1 hi
        have := index_insert_status_ok hi
        subst this
        exact ih _ _ _ _ _ _ (insertSorted_sorted IndexEntry.key _ _ hs) h
      · simp at h

theorem getLast?_append_singleton {α : Type} (l : List α) (a : α) :
    (l ++ [a]).getLast? = some a := by
  simp

theorem index_moveBack_sorted (cfg : Cfg) (key : Int) (pid : PageID) :
    ∀ (fuel : Nat) (o n : SortedPage) (v : BTreeFile.SplitIndexVars) (o' n' : SortedPage)
      (v' : BTreeFile.SplitIndexVars),
      o.leaf = [] → n.leaf = [] →
      (o.index ++ n.index).Pairwise (fun x y => x.key < y.key) →
      (∀ x ∈ n.index, x.key ≠ key) →
      (v.inserted = false → ∀ x ∈ o.index, x.key < key) →
      (n.index ≠ [] → v.cur = n.index.head?) →
      (v.inserted = true → ∀ c, o.index.getLast? = some c → c.key ≠ key →
        v.curKey_tmp = some c.key ∧ v.curPid_tmp = some c.pid) →
      BTreeFile.Split_Index.moveBack cfg key pid fuel o n v = some (Status.OK, o', n', v') →
      (o'.index ++ n'.index).Pairwise (fun x y => x.key < y.key)
        ∧ (∀ x ∈ n'.index, x.key ≠ key)
        ∧ (v'.inserted = false → ∀ x ∈ o'.index, x.key < key)
        ∧ (v'.inserted = true → ∀ c, o'.index.getLast? = some c → c.key ≠ key →
            v'.curKey_tmp = some c.key ∧ v'.curPid_tmp = some c.pid) := by
  intro fuel
  induction fuel with
  | zero => intro o n v o' n' v' _ _ _ _ _ _ _ h; simp [BTreeFile.Split_Index.moveBack] at h
  | succ fuel ih =>
    intro o n v o' n' v' hol hnl hs hk h3 h4 h5 h
    unfold BTreeFile.Split_Index.moveBack at h
    by_cases hgt : o.AvailableSpace cfg > n.AvailableSpace cfg
    · simp only [hgt, if_true] at h
      have hne : n.index ≠ [] := by
        intro he
        rw [index_avail hol, index_avail hnl, he] at hgt
        simp at hgt
        omega
      obtain ⟨c, tl, hn⟩ : ∃ c tl, n.index = c :: tl := by
        cases hx : n.index with
        | nil => exact absurd hx hne
        | cons c tl => exact ⟨c, tl, rfl⟩
      have hcur : v.cur = some c := by rw [h4 hne, hn]; rfl
      rw [hn] at hs hk
      have hs' := List.pairwise_append.1 hs
      have hcn := List.pairwise_cons.1 hs'.2.1
      simp only [hcur] at h
      by_cases hb : (c.key > key && v.inserted == false) = true
      · simp only [hb, if_true] at h
        simp only [Bool.and_eq_true, decide_eq_true_eq, beq_iff_eq] at hb
        split at h
        · rename_i o1 hi
          have ho1 := index_insert_status_ok hi
          subst ho1
          have happ : insertSorted IndexEntry.key (⟨key, pid⟩ : IndexEntry) o.index
              = o.index ++ [⟨key, pid⟩] :=
            insertSorted_append_last _ _ _ fun x hx => not_lt.2 (le_of_lt (h3 hb.2 x hx))
          refine ih _ _ _ _ _ _ (by exact hol) (by exact hnl) ?_ ?_ ?_ ?_ ?_ h
          · simp only [happ, hn]
            rw [List.append_assoc]
            refine List.pairwise_append.2 ⟨hs'.1, ?_, ?_⟩
            · refine List.pairwise_cons.2 ⟨?_, hs'.2.1⟩
              intro x hx
              rcases List.mem_cons.1 hx with rfl | hx'
              · exact hb.1
              · exact lt_trans hb.1 (hcn.1 x hx')
            · intro x hx y hy
              rcases List.mem_cons.1 hy with rfl | hy'
              · exact h3 hb.2 x hx
              · exact hs'.2.2 x hx y hy'
          · rw [hn]; exact hk
          · intro hf; simp at hf
          · intro _
            simp only
            rw [hn]
            rfl
          · intro _ c' hc' hck
            simp only [happ, getLast?_append_singleton, Option.some.injEq] at hc'
            rw [← hc'] at hck
            exact absurd rfl hck
        · simp at h
      · simp only [hb] at h
        simp only [Bool.false_eq_true, if_false] at h
        split at h
        · rename_i o1 hi
          have ho1 := index_insert_status_ok hi
          subst ho1
          have happ : insertSorted IndexEntry.key c o.index = o.index ++ [c] :=
            insertSorted_append_last _ _ _ fun x hx =>
              not_lt.2 (le_of_lt (hs'.2.2 x hx c (List.mem_cons_self _ _)))
          have hdel : (BTIndexPage.Delete n c.key).2 = { n with index := tl } :=
            index_delete_head _ _ _ hn (by rw [hn]; exact hs'.2.1)
          rw [hdel] at h
          have hclt : v.inserted = false → c.key < key := by
            intro hf
            have : ¬ c.key > key := by
              intro hx
              apply hb
              simp [hx, hf]
            exact lt_of_le_of_ne (not_lt.1 this) (hk c (List.mem_cons_self _ _))
          refine ih _ _ _ _ _ _ (by exact hol) (by exact hnl) ?_ ?_ ?_ ?_ ?_ h
          · simp only [happ]
            rw [List.append_assoc]
            exact hs
          · intro x hx
            exact hk x (List.mem_cons_of_mem _ hx)
          · intro hf x hx
            simp only [happ] at hx
            rcases List.mem_append.1 hx with hx' | hx'
            · exact h3 hf x hx'
            · rw [List.mem_singleton.1 hx']
              exact hclt hf
          · intro hx
            simp only at hx ⊢
            cases htl : tl with
            | nil => exact absurd htl hx
            | cons e es => simp [BTIndexPage.GetFirst]
          · intro _ c' hc' _
            simp only [happ, getLast?_append_singleton, Option.some.injEq] at hc'
            rw [← hc']
            exact ⟨rfl, rfl⟩
        · simp at h
    · simp only [hgt, if_false, Option.some.injEq, Prod.mk.injEq, true_and] at h
      obtain ⟨rfl, rfl, rfl⟩ := h
      exact ⟨hs, hk, h3, h5⟩

theorem index_strict_of_sorted_nodup (S : List IndexEntry)
    (hs : S.Pairwise (fun a b => a.key ≤ b.key)) (hn : (S.map IndexEntry.key).Nodup) :
    S.Pairwise (fun a b => a.key < b.key) := by
  have h1 : S.Pairwise (fun a b => a.key ≠ b.key) := List.pairwise_map.1 hn
  refine (List.Pairwise.and hs h1).imp ?_
  intro a b hab
  exact lt_of_le_of_ne hab.1 hab.2

theorem index_keys_nodup_of_strict {S : List IndexEntry}
    (hs : S.Pairwise (fun a b => a.key < b.key)) : (S.map IndexEntry.key).Nodup :=
  List.pairwise_map.2 (hs.imp fun h => ne_of_lt h)

/-- C29 (amended): for every full index page `old` with strictly ascending
separators that fit the data area, every empty page `new` and every incoming
pair whose key differs from all separators, the two loops of `Split_Index`
return `OK`.  If the move-back pass has not inserted the incoming entry into
`old`, `Split_Index` returns `OK`, `newPageKey` is the smallest key among the
entries of `new` after balancing with the incoming entry put in, the left-link
of `new` is the child of that entry, `new` keeps the other entries and `old`
the entries moved back to it.  If the pass has inserted the incoming entry and
the last entry of `old` is another one (moved back after it), `Split_Index`
returns `OK`, `newPageKey` is the key of that last entry, which is taken out of
`old`, the left-link of `new` is its child, `new` keeps its entries, and the
key lies above the entries left in `old` and below those of `new`. -/
theorem C29_split_index_promoted_key (cfg : Cfg) (hc : 0 < cfg.sizeofIndexEntry)
    (hD : 2 * cfg.sizeofIndexEntry ≤ cfg.HEAPPAGE_DATA_SIZE) (old new : SortedPage) (key : Int)
    (pid : PageID) (ho : old.leaf = [])
    (hofit : old.index.length * cfg.sizeofIndexEntry ≤ cfg.HEAPPAGE_DATA_SIZE)
    (hfull : old.AvailableSpace cfg < cfg.sizeofIndexEntry)
    (hn : new.leaf = []) (hni : new.index = [])
    (hasc : old.index.Pairwise (fun x y => x.key < y.key))
    (hkey : ∀ x ∈ old.index, x.key ≠ key) :
    ∃ es ck eo en v,
      BTreeFile.Split_Index.moveAll cfg (old.index.length + 1) old new none
          = some (Status.OK, { old with index := [] }, { new with index := es }, ck)
        ∧ BTreeFile.Split_Index.moveBack cfg key pid (es.length + 2) { old with index := [] }
            { new with index := es }
            ⟨BTIndexPage.GetFirst { new with index := es }, ck, none, false⟩
          = some (Status.OK, { old with index := eo }, { new with index := en }, v)
        ∧ (v.inserted = false →
            ∃ f rest, insertSorted IndexEntry.key ⟨key, pid⟩ en = f :: rest
              ∧ (∀ e ∈ rest, f.key < e.key)
              ∧ BTreeFile.Split_Index cfg old new key pid
                  = some (Status.OK, { old with index := eo },
                      { new with index := rest, prevPage := f.pid }, some f.key))
        ∧ (v.inserted = true → ∀ c, eo.getLast? = some c → c.key ≠ key →
            BTreeFile.Split_Index cfg old new key pid
                = some (Status.OK, { old with index := eo.dropLast },
                    { new with index := en, prevPage := c.pid }, some c.key)
              ∧ (∀ e ∈ eo.dropLast, e.key < c.key) ∧ ∀ e ∈ en, c.key < e.key) := by
  have hpos : 2 ≤ old.index.length := by
    rw [index_avail ho] at hfull
    by_contra h
    have h0 : old.index.length * cfg.sizeofIndexEntry ≤ cfg.sizeofIndexEntry := by
      have : old.index.length ≤ 1 := by omega
      calc old.index.length * cfg.sizeofIndexEntry ≤ 1 * cfg.sizeofIndexEntry :=
            Nat.mul_le_mul_right _ this
        _ = cfg.sizeofIndexEntry := Nat.one_mul _
    omega
  have hnd : (old.index.map IndexEntry.key).Nodup := index_keys_nodup_of_strict hasc
  obtain ⟨es, ckt', hall, hkes, -, hses⟩ := index_moveAll_spec cfg (old.index.length + 1)
    old new none ho hn (by rw [hni]; simpa using hofit) (by omega)
  rw [hni, List.append_nil] at hkes hses
  have hlen : es.length = old.index.length := by
    simpa using hkes.length_eq
  have hes_sorted : es.Pairwise (fun x y => x.key < y.key) := by
    refine index_strict_of_sorted_nodup es ?_ (hkes.nodup_iff.2 hnd)
    have := index_moveAll_sorted cfg _ _ _ _ _ _ _ (by rw [hni]; exact List.Pairwise.nil) hall
    exact this
  obtain ⟨eo, en, v', hback, hpk, -, -, hb1, hb2, -, -, -⟩ :=
    index_moveBack_spec cfg key pid hc (es.length + 2) { old with index := [] }
      { new with index := es }
      ⟨BTIndexPage.GetFirst { new with index := es }, ckt', none, false⟩ ho hn
      (by simp) (by simp only; rw [hlen]; exact hofit) (fun _ => rfl) (by simp) (by simp)
      (by right; simp)
  simp only [List.nil_append, and_true] at hpk
  have hsum : eo.length + en.length
      = (if v'.inserted = true then 1 else 0) + old.index.length := by
    have := hpk.length_eq
    simp only [List.length_map, List.length_append] at this
    rw [this, hlen]
    split <;> simp
  obtain ⟨hsorted, hken, -, h5⟩ := index_moveBack_sorted cfg key pid _ _ _ _ _ _ _
    (by exact ho) (by exact hn) (by simpa using hes_sorted)
    (fun x hx => hkey x (hses x hx)) (fun _ x hx => by simp at hx) (fun _ => rfl)
    (fun hf => by simp at hf) hback
  simp only at hsorted hken h5
  have hs' := List.pairwise_append.1 hsorted
  refine ⟨es, ckt', eo, en, v', hall, hback, ?_, ?_⟩
  · intro hi
    rw [hi] at hsum
    simp only [Bool.false_eq_true, if_false, Nat.zero_add] at hsum
    have hroom : ¬ ({ new with index := en } : SortedPage).AvailableSpace cfg
        < cfg.sizeofIndexEntry := by
      rw [index_avail (by exact hn)]
      apply room_of_le
      exact le_trans (Nat.mul_le_mul_right _ (by simp only; omega)) hofit
    have hstrict := insertSorted_strict (⟨key, pid⟩ : IndexEntry) en hs'.2.1 hken
    cases hl : insertSorted IndexEntry.key (⟨key, pid⟩ : IndexEntry) en with
    | nil =>
      have := congrArg List.length hl
      simp [insertSorted_length] at this
    | cons f rest =>
      rw [hl] at hstrict
      refine ⟨f, rest, rfl, (List.pairwise_cons.1 hstrict).1, ?_⟩
      unfold BTreeFile.Split_Index
      rw [hall]
      simp only
      rw [hback]
      simp only [hi, beq_self_eq_true, if_true, index_insert_ok key pid hroom, hl,
        BTIndexPage.GetFirst, List.head?_cons]
      rw [index_delete_head _ f rest (by simp [BTIndexPage.SetLeftLink])
        (by simpa [BTIndexPage.SetLeftLink] using hstrict)]
      rfl
  · intro hi c hc hck
    obtain ⟨hk1, hk2⟩ := h5 hi c hc hck
    have heo : eo = eo.dropLast ++ [c] := (List.dropLast_append_getLast? c hc).symm
    have hso : (eo.dropLast ++ [c]).Pairwise (fun x y => x.key < y.key) := by
      rw [← heo]
      exact hs'.1
    refine ⟨?_, ?_, ?_⟩
    · unfold BTreeFile.Split_Index
      rw [hall]
      simp only
      rw [hback]
      simp only [hi, Bool.true_eq_false, beq_iff_eq, if_false, hk1, hk2]
      rw [index_delete_last _ c eo.dropLast (by simpa using heo)
        (by simpa using hs'.1)]
      rfl
    · intro e he
      exact (List.pairwise_append.1 hso).2.2 e he c (List.mem_singleton_self _)
    · intro e he
      refine hs'.2.2 c ?_ e he
      rw [heo]
      simp

/-- Witness for C29: the full page with the entries (10,3), (20,4), (30,5),
(40,6) of `cfg4` and the incoming pair (5,7). -/
theorem C29_split_index_promoted_key_witness :
    (indexPage 2 [(10, 3), (20, 4), (30, 5), (40, 6)]).AvailableSpace cfg4
        < cfg4.sizeofIndexEntry
      ∧ ∃ es ck eo en v,
        BTreeFile.Split_Index.moveAll cfg4
            ((indexPage 2 [(10, 3), (20, 4), (30, 5), (40, 6)]).index.length + 1)
            (indexPage 2 [(10, 3), (20, 4), (30, 5), (40, 6)])
            (SortedPage.init NodeType.INDEX_NODE) none
          = some (Status.OK, { indexPage 2 [(10, 3), (20, 4), (30, 5), (40, 6)] with index := [] },
              { SortedPage.init NodeType.INDEX_NODE with index := es }, ck)
        ∧ BTreeFile.Split_Index.moveBack cfg4 5 7 (es.length + 2)
            { indexPage 2 [(10, 3), (20, 4), (30, 5), (40, 6)] with index := [] }
            { SortedPage.init NodeType.INDEX_NODE with index := es }
            ⟨BTIndexPage.GetFirst { SortedPage.init NodeType.INDEX_NODE with index := es }, ck,
              none, false⟩
          = some (Status.OK,
              { indexPage 2 [(10, 3), (20, 4), (30, 5), (40, 6)] with index := eo },
              { SortedPage.init NodeType.INDEX_NODE with index := en }, v)
        ∧ (v.inserted = false →
            ∃ f rest, insertSorted IndexEntry.key ⟨5, 7⟩ en = f :: rest
              ∧ (∀ e ∈ rest, f.key < e.key)
              ∧ BTreeFile.Split_Index cfg4 (indexPage 2 [(10, 3), (20, 4), (30, 5), (40, 6)])
                  (SortedPage.init NodeType.INDEX_NODE) 5 7
                  = some (Status.OK,
                      { indexPage 2 [(10, 3), (20, 4), (30, 5), (40, 6)] with index := eo },
                      { SortedPage.init NodeType.INDEX_NODE with
                        index := rest, prevPage := f.pid }, some f.key))
        ∧ (v.inserted = true → ∀ c, eo.getLast? = some c → c.key ≠ 5 →
            BTreeFile.Split_Index cfg4 (indexPage 2 [(10, 3), (20, 4), (30, 5), (40, 6)])
                (SortedPage.init NodeType.INDEX_NODE) 5 7
                = some (Status.OK,
                    { indexPage 2 [(10, 3), (20, 4), (30, 5), (40, 6)] with
                      index := eo.dropLast },
                    { SortedPage.init NodeType.INDEX_NODE with index := en, prevPage := c.pid },
                    some c.key)
              ∧ (∀ e ∈ eo.dropLast, e.key < c.key) ∧ ∀ e ∈ en, c.key < e.key) :=
  ⟨by decide,
    C29_split_index_promoted_key cfg4 (by decide) (by decide)
      (indexPage 2 [(10, 3), (20, 4), (30, 5), (40, 6)]) (SortedPage.init NodeType.INDEX_NODE)
      5 7 rfl (by decide) (by decide) rfl rfl (by decide) (by decide)⟩

theorem eraseLast_none_iff {α : Type} (p : α → Bool) (l : List α) :
    eraseLast p l = none ↔ ∀ x ∈ l, p x = false := by
  constructor
  · intro h x hx
    cases hp : p x with
    | false => rfl
    | true =>
      obtain ⟨l', hl'⟩ := eraseLast_isSome p l x hx hp
      rw [h] at hl'
      exact absurd hl' (by simp)
  · exact eraseLast_none p l

theorem eraseLast_spec {α : Type} (p : α → Bool) :
    ∀ (l l' : List α), eraseLast p l = some l' →
      ∃ l1 e l2, l = l1 ++ e :: l2 ∧ p e = true ∧ (∀ x ∈ l2, p x = false) ∧ l' = l1 ++ l2 := by
  intro l
  induction l with
  | nil => intro l' h; simp [eraseLast] at h
  | cons a es ih =>
    intro l' h
    unfold eraseLast at h
    cases hr : eraseLast p es with
    | some es' =>
      rw [hr] at h
      simp only [Option.some.injEq] at h
      obtain ⟨l1, e, l2, h1, h2, h3, h4⟩ := ih es' hr
      exact ⟨a :: l1, e, l2, by rw [h1]; rfl, h2, h3, by rw [← h, h4]; rfl⟩
    | none =>
      rw [hr] at h
      simp only at h
      by_cases hp : p a = true
      · simp only [hp, if_true, Option.some.injEq] at h
        exact ⟨[], a, es, rfl, hp, (eraseLast_none_iff p es).1 hr, by rw [← h]; rfl⟩
      · simp [hp] at h

/-- C36: for every index page and key `k`, `BTIndexPage::Delete (k)` returns `FAIL`
and leaves the page as it is exactly when no entry has the key `k`.  When an
entry has the key `k`, it returns `OK` and takes out one entry with that key,
the one in the highest slot (no entry behind it has the key `k`); the entries
before and behind it stay, in their order. -/
theorem C36_index_delete_removes_highest_slot_with_key (p : SortedPage) (k : Int) :
    (((BTIndexPage.Delete p k).1 = Status.FAIL ∧ (BTIndexPage.Delete p k).2 = p)
        ↔ ∀ e ∈ p.index, e.key ≠ k)
      ∧ ((∃ e ∈ p.index, e.key = k) →
          ∃ l1 e l2, p.index = l1 ++ e :: l2 ∧ e.key = k ∧ (∀ x ∈ l2, x.key ≠ k)
            ∧ BTIndexPage.Delete p k = (Status.OK, { p with index := l1 ++ l2 })) := by
  have hsome : ∀ es, eraseLast (fun e : IndexEntry => decide (e.key = k)) p.index = some es →
      ∃ l1 e l2, p.index = l1 ++ e :: l2 ∧ e.key = k ∧ (∀ x ∈ l2, x.key ≠ k)
        ∧ BTIndexPage.Delete p k = (Status.OK, { p with index := l1 ++ l2 }) := by
    intro es hes
    obtain ⟨l1, e, l2, h1, h2, h3, h4⟩ := eraseLast_spec _ _ _ hes
    refine ⟨l1, e, l2, h1, by simpa using h2, fun x hx => by simpa using h3 x hx, ?_⟩
    unfold BTIndexPage.Delete
    rw [hes, h4]
  constructor
  · constructor
    · rintro ⟨hf, -⟩ e he hk
      obtain ⟨es, hes⟩ := eraseLast_isSome (fun e : IndexEntry => decide (e.key = k)) p.index e he
        (by simpa using hk)
      obtain ⟨_, _, _, _, _, _, hd⟩ := hsome es hes
      rw [hd] at hf
      exact absurd hf (by simp)
    · intro h
      have hn := eraseLast_none (fun e : IndexEntry => decide (e.key = k)) p.index
        (by intro x hx; simpa using h x hx)
      unfold BTIndexPage.Delete
      rw [hn]
      exact ⟨rfl, rfl⟩
  · rintro ⟨e, he, hk⟩
    obtain ⟨es, hes⟩ := eraseLast_isSome (fun e : IndexEntry => decide (e.key = k)) p.index e he
      (by simpa using hk)
    exact hsome es hes

theorem getNextHelper_done (bm : BufMgr) :
    ∀ (fuel : Nat) (sc : BTreeFileScan) (pid : PageID) (out : Option (Int × RecordID))
      (sc' : BTreeFileScan),
      BTreeFileScan.GetNextHelper bm fuel sc pid = some (Status.DONE, out, sc') →
        sc'.s = Status.DONE := by
  intro fuel
  induction fuel with
  | zero => intro sc pid out sc' h; simp [BTreeFileScan.GetNextHelper] at h
  | succ fuel ih =>
    intro sc pid out sc' h
    unfold BTreeFileScan.GetNextHelper at h
    split at h
    · simp only [Option.some.injEq, Prod.mk.injEq] at h
      rw [← h.2.2]
    · split at h
      · simp only [Option.some.injEq, Prod.mk.injEq] at h
        rw [← h.2.2]
      · simp only at h
        split at h
        · split at h
          · split at h
            · exact absurd h (by simp)
            · simp only [Option.some.injEq, Prod.mk.injEq] at h
              rw [← h.2.2]
              exact h.1
          · split at h
            · exact absurd h (by simp)
            · split at h
              · simp only [Option.some.injEq, Prod.mk.injEq] at h
                rw [← h.2.2]
              · split at h
                · simp only [Option.some.injEq, Prod.mk.injEq] at h
                  exact absurd h.1 (by decide)
                · simp only [Option.some.injEq, Prod.mk.injEq] at h
                  exact absurd h.1 (by decide)
        · simp only [Option.some.injEq, Prod.mk.injEq] at h
          rw [← h.2.2]

/-- C38: when a `GetNext` call returns `DONE`, the cursor it leaves has the
stored status `DONE`, and every later `GetNext` on that cursor returns `DONE`
and leaves the cursor as it is, whatever the pool holds by then and without
any fuel (the call reads no page).  Every `DONE` return of `GetNextHelper`
leaves the stored status `DONE` as well. -/
theorem C38_done_is_absorbing (fuel : Nat) (bm : BufMgr) (sc : BTreeFileScan)
    (out : Option (Int × RecordID)) (sc' : BTreeFileScan)
    (h : BTreeFileScan.GetNext fuel bm sc = some (Status.DONE, out, sc')) :
    sc'.s = Status.DONE
      ∧ (∀ (fuel' : Nat) (bm' : BufMgr),
          BTreeFileScan.GetNext fuel' bm' sc' = some (Status.DONE, none, sc'))
      ∧ ∀ (f : Nat) (b : BufMgr) (c : BTreeFileScan) (pid : PageID)
          (o : Option (Int × RecordID)) (c' : BTreeFileScan),
          BTreeFileScan.GetNextHelper b f c pid = some (Status.DONE, o, c') →
            c'.s = Status.DONE := by
  have hs : sc'.s = Status.DONE := by
    unfold BTreeFileScan.GetNext at h
    split at h
    · rename_i hd
      simp only [Option.some.injEq, Prod.mk.injEq] at h
      rw [← h.2.2]
      exact hd
    · split at h
      · simp only [Option.some.injEq, Prod.mk.injEq] at h
        rw [← h.2.2]
      · exact getNextHelper_done bm fuel sc sc.curPid out sc' h
  refine ⟨hs, ?_, fun f b c pid o c' hh => getNextHelper_done b f c pid o c' hh⟩
  intro fuel' bm'
  simp [BTreeFileScan.GetNext, hs]

/-- Witness for C38: a cursor on the last leaf of `treeH1` whose entries were
all returned. -/
theorem C38_done_is_absorbing_witness :
    (⟨5, 5, Status.DONE, INVALID_PAGE, 5, ⟨7, 5⟩⟩ : BTreeFileScan).s = Status.DONE
      ∧ (∀ (fuel' : Nat) (bm' : BufMgr),
          BTreeFileScan.GetNext fuel' bm' ⟨5, 5, Status.DONE, INVALID_PAGE, 5, ⟨7, 5⟩⟩
            = some (Status.DONE, none, ⟨5, 5, Status.DONE, INVALID_PAGE, 5, ⟨7, 5⟩⟩))
      ∧ ∀ (f : Nat) (b : BufMgr) (c : BTreeFileScan) (pid : PageID)
          (o : Option (Int × RecordID)) (c' : BTreeFileScan),
          BTreeFileScan.GetNextHelper b f c pid = some (Status.DONE, o, c') →
            c'.s = Status.DONE :=
  C38_done_is_absorbing 1 treeH1.bm ⟨5, 5, Status.OK, INVALID_PAGE, 5, ⟨7, 5⟩⟩ none
    ⟨5, 5, Status.DONE, INVALID_PAGE, 5, ⟨7, 5⟩⟩ (by decide)

theorem insert_erase_self {α : Type} (key : α → Int) (p : α → Bool) (e : α) (hp : p e = true)
    (hgt : ∀ x, key e < key x → p x = false) :
    ∀ l : List α, l.Pairwise (fun x y => key x ≤ key y) →
      eraseLast p (insertSorted key e l) = some l := by
  intro l
  induction l with
  | nil => intro _; simp [insertSorted, eraseLast, hp]
  | cons b l ih =>
    intro hs
    obtain ⟨hb, hl⟩ := List.pairwise_cons.1 hs
    unfold insertSorted
    by_cases h : key e < key b
    · simp only [h, if_true]
      unfold eraseLast
      rw [eraseLast_none p (b :: l) (by
        intro x hx
        rcases List.mem_cons.1 hx with hx | hx
        · rw [hx]; exact hgt b h
        · exact hgt x (lt_of_lt_of_le h (hb x hx)))]
      simp [hp]
    · simp only [h, if_false]
      unfold eraseLast
      rw [ih hl]

theorem mergeLeaf_self_none (cfg : Cfg) (p : PageID) :
    ∀ (fuel : Nat) (bm : BufMgr), (bm.page p).leaf ≠ [] →
      (bm.page p).leaf.Pairwise (fun x y => x.key ≤ y.key) →
      ¬ (bm.page p).AvailableSpace cfg < cfg.sizeofLeafEntry →
      BTreeFile.MergeLeaf.loop cfg p p fuel bm = none := by
  intro fuel
  induction fuel with
  | zero => intro bm _ _ _; rfl
  | succ fuel ih =>
    intro bm hne hs hroom
    unfold BTreeFile.MergeLeaf.loop
    cases hl : (bm.page p).leaf with
    | nil => exact absurd hl hne
    | cons e rest =>
      have hf : BTLeafPage.GetFirst (bm.page p) = some e := by
        simp [BTLeafPage.GetFirst, hl]
      rw [hf]
      simp only
      have hpage : ((bm.set p (BTLeafPage.Insert cfg (bm.page p) e.key e.rid).2).set p
          (BTLeafPage.Delete ((bm.set p (BTLeafPage.Insert cfg (bm.page p) e.key e.rid).2).page p)
            e.key e.rid).2).page p = bm.page p := by
        rw [set_page_self, set_page_self, leaf_insert_ok e.key e.rid hroom]
        unfold BTLeafPage.Delete
        simp only
        rw [insert_erase_self LeafEntry.key _ (⟨e.key, e.rid⟩ : LeafEntry) (by simp)
          (by
            intro x hx
            simp only [decide_eq_false_iff_not, not_and]
            intro hk
            simp only at hx
            omega) _ hs]
      apply ih
      · rw [hpage]; exact hne
      · rw [hpage]; exact hs
      · rw [hpage]; exact hroom

/-- When the covering child of the root is its last child, a leaf that falls
below half full but keeps an entry, and the previous leaf cannot spare an entry,
`Delete` does not return: `FindPageWithKeys` reports the child itself as next
sibling, `Delete` passes that on, and `MergeLeaf_next` moves the entries of the
leaf into the leaf itself. -/
theorem delete_rightmost_hang (cfg : Cfg) (t : BTreeFile) (key : Int) (rid : RecordID)
    (k : BTIndexPage.Keys) (leaf1 : SortedPage)
    (hr : t.rootPid ≠ INVALID_PAGE)
    (hty : (t.bm.page t.rootPid).type = NodeType.INDEX_NODE)
    (hk : BTIndexPage.FindPageWithKeys (t.bm.page t.rootPid) key = some k)
    (halias : k.nextPid = k.pid) (hvalid : k.pid ≠ INVALID_PAGE)
    (hleaf : (t.bm.page k.pid).type = NodeType.LEAF_NODE)
    (hdel : BTLeafPage.Delete (t.bm.page k.pid) key rid = (Status.OK, leaf1))
    (hunder : leaf1.IsAtLeastHalfFull cfg = false)
    (hne : leaf1.leaf ≠ [])
    (hsorted : leaf1.leaf.Pairwise (fun x y => x.key ≤ y.key))
    (hroom : ¬ leaf1.AvailableSpace cfg < cfg.sizeofLeafEntry)
    (hprev : k.prevPid = INVALID_PAGE ∨ (k.prevPid ≠ k.pid
      ∧ (BTLeafPage.IsAtLeastHalfFullAfterDelete cfg (t.bm.page k.prevPid)).1 = false)) :
    ∀ fuel : Nat, BTreeFile.Delete cfg fuel t key rid = none := by
  intro fuel
  have hprobe2 : ∀ q : SortedPage, (BTLeafPage.IsAtLeastHalfFullAfterDelete cfg q).2 = q := by
    intro q
    unfold BTLeafPage.IsAtLeastHalfFullAfterDelete
    split
    · rfl
    · split <;> rfl
  have hself : (BTLeafPage.IsAtLeastHalfFullAfterDelete cfg leaf1).1 = false := by
    unfold BTLeafPage.IsAtLeastHalfFullAfterDelete
    simp [hunder]
  have hhelper : ∀ f, BTreeFile.DeleteHelper cfg key rid f t.bm k.key k.nextKey k.pid k.prevPid
      k.nextPid BTreeFile.DeleteOut.init = none := by
    intro f
    cases f with
    | zero => rfl
    | succ f =>
      unfold BTreeFile.DeleteHelper
      have hni : ¬ (t.bm.page k.pid).type = NodeType.INDEX_NODE := by
        rw [hleaf]; decide
      simp only [hni, if_false, hdel, hunder, Bool.not_false, if_true]
      have hlu : BTreeFile.DeleteHelper.leafUnderflow cfg f (t.bm.set k.pid leaf1) k.key
          k.nextKey k.pid k.prevPid k.nextPid BTreeFile.DeleteOut.init = none := by
        unfold BTreeFile.DeleteHelper.leafUnderflow
        rw [halias]
        rcases hprev with hp | ⟨hp1, hp2⟩
        · simp only [hp, ne_eq, not_true_eq_false, if_false, hvalid, not_false_eq_true,
            and_self, if_true, set_page_self, hself, hprobe2, Bool.false_eq_true]
          unfold BTreeFile.MergeLeaf_next
          rw [mergeLeaf_self_none cfg k.pid f _ (by rw [set_page_self]; exact hne)
            (by rw [set_page_self]; exact hsorted) (by rw [set_page_self]; exact hroom)]
        · have hpp : ((t.bm.set k.pid leaf1).page k.prevPid) = t.bm.page k.prevPid := by
            simp [BufMgr.set, hp1]
          have hcp : (((t.bm.set k.pid leaf1).set k.prevPid (t.bm.page k.prevPid)).page k.pid)
              = leaf1 := by
            simp [BufMgr.set, Ne.symm hp1]
          by_cases hpi : k.prevPid = INVALID_PAGE
          · simp only [hpi, ne_eq, not_true_eq_false, if_false, hvalid, not_false_eq_true,
              and_self, if_true, set_page_self, hself, hprobe2, Bool.false_eq_true]
            unfold BTreeFile.MergeLeaf_next
            rw [mergeLeaf_self_none cfg k.pid f _ (by rw [set_page_self]; exact hne)
              (by rw [set_page_self]; exact hsorted) (by rw [set_page_self]; exact hroom)]
          · simp only [ne_eq, hpi, not_false_eq_true, if_true, hpp, hp2, hprobe2,
              Bool.false_eq_true, if_false, hvalid, and_self, hcp, hself, set_page_self]
            unfold BTreeFile.MergeLeaf_next
            rw [mergeLeaf_self_none cfg k.pid f _ (by rw [set_page_self]; exact hne)
              (by rw [set_page_self]; exact hsorted) (by rw [set_page_self]; exact hroom)]
      rw [hlu]
  unfold BTreeFile.Delete
  have hnl : ¬ (t.bm.page t.rootPid).type = NodeType.LEAF_NODE := by
    rw [hty]; decide
  simp only [hr, if_false, hnl, hk, hhelper]

theorem eraseLast_append_last {α : Type} (p : α → Bool) (e : α) (hp : p e = true) :
    ∀ l : List α, eraseLast p (l ++ [e]) = some l := by
  intro l
  induction l with
  | nil => simp [eraseLast, hp]
  | cons a l ih =>
    rw [List.cons_append]
    unfold eraseLast
    rw [ih]

theorem leaf_delete_last {p : SortedPage} {init : List LeafEntry} {e : LeafEntry}
    (h : p.leaf = init ++ [e]) :
    BTLeafPage.Delete p e.key e.rid = (Status.OK, { p with leaf := init }) := by
  unfold BTLeafPage.Delete
  rw [h, eraseLast_append_last _ e (by simp)]

theorem leaf_delete_first {p : SortedPage} {e : LeafEntry} {rest : List LeafEntry}
    (h : p.leaf = e :: rest) (hn : ∀ x ∈ rest, x ≠ e) :
    BTLeafPage.Delete p e.key e.rid = (Status.OK, { p with leaf := rest }) := by
  unfold BTLeafPage.Delete
  rw [h]
  unfold eraseLast
  rw [eraseLast_none _ rest (by
    intro x hx
    have := hn x hx
    simp only [decide_eq_false_iff_not, not_and]
    intro hk hr
    apply this
    cases x; cases e
    simp only at hk hr
    rw [hk, hr])]
  simp

theorem deleteLeaf_prev_spec (cfg : Cfg) (bm : BufMgr) (prev cur : PageID) (nk : Option Int)
    (hpc : prev ≠ cur) (init : List LeafEntry) (e : LeafEntry)
    (hl : (bm.page prev).leaf = init ++ [e])
    (hroom : ¬ (bm.page cur).AvailableSpace cfg < cfg.sizeofLeafEntry) :
    ∃ f tl, insertSorted LeafEntry.key e (bm.page cur).leaf = f :: tl
      ∧ BTreeFile.DeleteLeaf_prev cfg bm prev cur nk
        = ((bm.set prev { bm.page prev with leaf := init }).set cur
            { bm.page cur with leaf := f :: tl }, some f.key) := by
  cases hi : insertSorted LeafEntry.key e (bm.page cur).leaf with
  | nil =>
    have := congrArg List.length hi
    simp [insertSorted_length] at this
  | cons f tl =>
    refine ⟨f, tl, rfl, ?_⟩
    have hc1 : ((bm.set prev { bm.page prev with leaf := init }).page cur) = bm.page cur := by
      simp [BufMgr.set, Ne.symm hpc]
    unfold BTreeFile.DeleteLeaf_prev
    have hg : BTLeafPage.GetLast (bm.page prev) = some e := by
      simp [BTLeafPage.GetLast, hl]
    rw [hg]
    simp only [leaf_delete_last hl, hc1, leaf_insert_ok e.key e.rid hroom]
    have he : (⟨e.key, e.rid⟩ : LeafEntry) = e := rfl
    rw [he, hi]
    simp [BTLeafPage.GetFirst, set_page_self]

theorem deleteLeaf_next_spec (cfg : Cfg) (bm : BufMgr) (next cur : PageID) (nk : Option Int)
    (hnc : next ≠ cur) (e f : LeafEntry) (rest : List LeafEntry)
    (hl : (bm.page next).leaf = e :: f :: rest) (hn : ∀ x ∈ f :: rest, x ≠ e)
    (hroom : ¬ (bm.page cur).AvailableSpace cfg < cfg.sizeofLeafEntry) :
    BTreeFile.DeleteLeaf_next cfg bm next cur nk
      = ((bm.set next { bm.page next with leaf := f :: rest }).set cur
          { bm.page cur with leaf := insertSorted LeafEntry.key e (bm.page cur).leaf },
        some f.key) := by
  have hc1 : ((bm.set next { bm.page next with leaf := f :: rest }).page cur) = bm.page cur := by
    simp [BufMgr.set, Ne.symm hnc]
  have hn1 : (((bm.set next { bm.page next with leaf := f :: rest }).set cur
      { bm.page cur with leaf := insertSorted LeafEntry.key e (bm.page cur).leaf }).page next)
      = { bm.page next with leaf := f :: rest } := by
    simp [BufMgr.set, hnc]
  unfold BTreeFile.DeleteLeaf_next
  have hg : BTLeafPage.GetFirst (bm.page next) = some e := by
    simp [BTLeafPage.GetFirst, hl]
  rw [hg]
  simp only [leaf_delete_first hl hn, hc1, leaf_insert_ok e.key e.rid hroom]
  have he : (⟨e.key, e.rid⟩ : LeafEntry) = e := rfl
  rw [he, hn1]
  simp [BTLeafPage.GetFirst]

theorem set_same_page (bm : BufMgr) (q x : PageID) : (bm.set q (bm.page q)).page x = bm.page x := by
  unfold BufMgr.set
  simp only
  split
  · rename_i h; rw [h]
  · rfl

theorem leafUnderflow_prev (cfg : Cfg) (bm : BufMgr) (cur prev : PageID)
    (out : BTreeFile.DeleteOut)
    (hpi : prev ≠ INVALID_PAGE) (hpc : prev ≠ cur)
    (hprobe : (BTLeafPage.IsAtLeastHalfFullAfterDelete cfg (bm.page prev)).1 = true)
    (init : List LeafEntry) (e : LeafEntry) (hl : (bm.page prev).leaf = init ++ [e])
    (hroom : ¬ (bm.page cur).AvailableSpace cfg < cfg.sizeofLeafEntry) :
    ∃ f tl bm', insertSorted LeafEntry.key e (bm.page cur).leaf = f :: tl
      ∧ (∀ (fuel : Nat) (ck nk : Int) (next : PageID),
          BTreeFile.DeleteHelper.leafUnderflow cfg fuel bm ck nk cur prev next out
            = some (bm', { out with underflow := true, child_key := some f.key,
                                    child_pageid := some cur, deletedKey := some ck }))
      ∧ bm'.page prev = { bm.page prev with leaf := init }
      ∧ bm'.page cur = { bm.page cur with leaf := f :: tl }
      ∧ ∀ q, q ≠ prev → q ≠ cur → bm'.page q = bm.page q := by
  have hcp : cur ≠ prev := Ne.symm hpc
  obtain ⟨f, tl, hi, hd⟩ := deleteLeaf_prev_spec cfg (bm.set prev (bm.page prev)) prev cur
    out.child_key hpc init e (by rw [set_same_page]; exact hl)
    (by rw [set_same_page]; exact hroom)
  rw [set_same_page] at hi
  refine ⟨f, tl,
    (BTreeFile.DeleteLeaf_prev cfg (bm.set prev (bm.page prev)) prev cur out.child_key).1,
    hi, ?_, ?_, ?_, ?_⟩
  · intro fuel ck nk next
    unfold BTreeFile.DeleteHelper.leafUnderflow
    simp only [ne_eq, hpi, not_false_eq_true, if_true, leaf_probe_page, hprobe, hd,
      Bool.true_eq_false, and_false, if_false]
  · rw [hd]
    simp [BufMgr.set, hpc]
  · rw [hd]
    simp [BufMgr.set, hcp]
  · intro q hq1 hq2
    rw [hd]
    simp [BufMgr.set, hq1, hq2]

theorem leafUnderflow_next (cfg : Cfg) (bm : BufMgr) (cur prev next : PageID)
    (out : BTreeFile.DeleteOut)
    (hprev : prev = INVALID_PAGE
      ∨ (BTLeafPage.IsAtLeastHalfFullAfterDelete cfg (bm.page prev)).1 = false)
    (hni : next ≠ INVALID_PAGE) (hnc : next ≠ cur)
    (hprobe : (BTLeafPage.IsAtLeastHalfFullAfterDelete cfg (bm.page next)).1 = true)
    (e f : LeafEntry) (rest : List LeafEntry) (hl : (bm.page next).leaf = e :: f :: rest)
    (hn : ∀ x ∈ f :: rest, x ≠ e)
    (hroom : ¬ (bm.page cur).AvailableSpace cfg < cfg.sizeofLeafEntry) :
    ∃ bm', (∀ (fuel : Nat) (ck nk : Int),
          BTreeFile.DeleteHelper.leafUnderflow cfg fuel bm ck nk cur prev next out
            = some (bm', { out with underflow := true, child_key := some f.key,
                                    child_pageid := some next, deletedKey := some nk }))
      ∧ bm'.page next = { bm.page next with leaf := f :: rest }
      ∧ bm'.page cur
          = { bm.page cur with leaf := insertSorted LeafEntry.key e (bm.page cur).leaf }
      ∧ ∀ q, q ≠ next → q ≠ cur → bm'.page q = bm.page q := by
  have hcn : cur ≠ next := Ne.symm hnc
  have key : ∀ bm0 : BufMgr, (∀ x, bm0.page x = bm.page x) →
      ∃ bm', BTreeFile.DeleteLeaf_next cfg (bm0.set next (bm0.page next)) next cur out.child_key
          = (bm', some f.key)
        ∧ bm'.page next = { bm.page next with leaf := f :: rest }
        ∧ bm'.page cur
            = { bm.page cur with leaf := insertSorted LeafEntry.key e (bm.page cur).leaf }
        ∧ ∀ q, q ≠ next → q ≠ cur → bm'.page q = bm.page q := by
    intro bm0 h0
    have hd := deleteLeaf_next_spec cfg (bm0.set next (bm0.page next)) next cur out.child_key
      hnc e f rest (by rw [set_same_page, h0]; exact hl) hn
      (by rw [set_same_page, h0]; exact hroom)
    refine ⟨_, hd, ?_, ?_, ?_⟩
    · simp [BufMgr.set, hnc, h0]
    · simp [BufMgr.set, hcn, h0]
    · intro q hq1 hq2
      simp [BufMgr.set, hq1, hq2, h0]
  by_cases hpi : prev = INVALID_PAGE
  · obtain ⟨bm', hd, h1, h2, h3⟩ := key bm (fun _ => rfl)
    refine ⟨bm', ?_, h1, h2, h3⟩
    intro fuel ck nk
    unfold BTreeFile.DeleteHelper.leafUnderflow
    simp only [hpi, ne_eq, not_true_eq_false, if_false, hni, not_false_eq_true, and_self,
      if_true, leaf_probe_page, hprobe, hd, Bool.true_eq_false]
  · have hpf : (BTLeafPage.IsAtLeastHalfFullAfterDelete cfg (bm.page prev)).1 = false := by
      rcases hprev with h | h
      · exact absurd h hpi
      · exact h
    obtain ⟨bm', hd, h1, h2, h3⟩ := key (bm.set prev (bm.page prev))
      (fun x => set_same_page bm prev x)
    refine ⟨bm', ?_, h1, h2, h3⟩
    intro fuel ck nk
    unfold BTreeFile.DeleteHelper.leafUnderflow
    rw [set_same_page] at hd
    simp only [ne_eq, hpi, not_false_eq_true, if_true, leaf_probe_page, hpf,
      Bool.false_eq_true, if_false, hni, and_self, hd, set_same_page, hprobe,
      Bool.true_eq_false]

theorem donor_room (cfg : Cfg) (d c : SortedPage) (hdi : d.index = []) (hci : c.index = [])
    (hfit : d.leaf.length * cfg.sizeofLeafEntry ≤ cfg.HEAPPAGE_DATA_SIZE)
    (hprobe : (BTLeafPage.IsAtLeastHalfFullAfterDelete cfg d).1 = true)
    (hunder : c.IsAtLeastHalfFull cfg = false) :
    ¬ c.AvailableSpace cfg < cfg.sizeofLeafEntry ∧ 2 ≤ d.leaf.length := by
  simp only [SortedPage.IsAtLeastHalfFull, decide_eq_false_iff_not, not_le, leaf_avail hci]
    at hunder
  unfold BTLeafPage.IsAtLeastHalfFullAfterDelete at hprobe
  by_cases hh : d.IsAtLeastHalfFull cfg = true
  · simp only [hh, Bool.not_true, Bool.false_eq_true, if_false] at hprobe
    cases hg : BTLeafPage.GetFirst d with
    | none =>
      have hl := leaf_getFirst_none hg
      simp only [SortedPage.IsAtLeastHalfFull, decide_eq_true_eq, leaf_avail hdi, hl,
        List.length_nil, Nat.zero_mul, Nat.sub_zero] at hh
      omega
    | some e =>
      rw [hg] at hprobe
      simp only at hprobe
      obtain ⟨es, hd, hp⟩ := leaf_delete_head hg
      rw [hd] at hprobe
      simp only [SortedPage.IsAtLeastHalfFull, decide_eq_true_eq] at hprobe
      rw [leaf_avail (by exact hdi)] at hprobe
      simp only at hprobe
      have hlen : d.leaf.length = es.length + 1 := by
        simpa using hp.length_eq
      have h1 : c.leaf.length * cfg.sizeofLeafEntry < es.length * cfg.sizeofLeafEntry := by
        omega
      have h2 : c.leaf.length < es.length := Nat.lt_of_mul_lt_mul_right h1
      have h3 : (c.leaf.length + 2) * cfg.sizeofLeafEntry
          ≤ d.leaf.length * cfg.sizeofLeafEntry := Nat.mul_le_mul_right _ (by omega)
      have h4 : (c.leaf.length + 1) * cfg.sizeofLeafEntry
          ≤ (c.leaf.length + 2) * cfg.sizeofLeafEntry := Nat.mul_le_mul_right _ (by omega)
      refine ⟨?_, by omega⟩
      rw [leaf_avail hci]
      exact room_of_le (le_trans h4 (le_trans h3 hfit))
  · simp [hh] at hprobe

theorem index_delete_entry {p : SortedPage} {kk : Int} {c : PageID}
    (hs : p.index.Pairwise (fun x y => x.key < y.key)) (hm : (⟨kk, c⟩ : IndexEntry) ∈ p.index) :
    ∃ l1 l2, p.index = l1 ++ ⟨kk, c⟩ :: l2
      ∧ BTIndexPage.Delete p kk = (Status.OK, { p with index := l1 ++ l2 }) := by
  obtain ⟨es, hes⟩ := eraseLast_isSome (fun e : IndexEntry => decide (e.key = kk)) p.index
    ⟨kk, c⟩ hm (by simp)
  obtain ⟨l1, e, l2, h1, h2, -, h4⟩ := eraseLast_spec _ _ _ hes
  have hnd := index_keys_nodup_of_strict hs
  have he : e = ⟨kk, c⟩ :=
    nodup_key_eq hnd (by rw [h1]; simp) hm (by simpa using h2)
  refine ⟨l1, l2, by rw [h1, he], ?_⟩
  unfold BTIndexPage.Delete
  rw [hes, h4]

theorem findKeysLoop_mem (S : List IndexEntry) (d_key : Int) :
    ∀ (rest : List IndexEntry) (cur : IndexEntry) (pp pv : PageID) (pk : Int),
      ((⟨pk, pv⟩ : IndexEntry) ∈ S ∨ ¬ d_key < cur.key) → (∀ x ∈ cur :: rest, x ∈ S) →
      (⟨(BTIndexPage.FindPageWithKeys.loop d_key pp pv pk cur rest).key,
          (BTIndexPage.FindPageWithKeys.loop d_key pp pv pk cur rest).pid⟩ : IndexEntry) ∈ S
        ∧ (⟨(BTIndexPage.FindPageWithKeys.loop d_key pp pv pk cur rest).nextKey,
          (BTIndexPage.FindPageWithKeys.loop d_key pp pv pk cur rest).nextPid⟩ : IndexEntry) ∈ S := by
  intro rest
  induction rest with
  | nil =>
    intro cur pp pv pk h hS
    have hc : cur ∈ S := hS cur (List.mem_cons_self _ _)
    unfold BTIndexPage.FindPageWithKeys.loop
    by_cases hd : d_key < cur.key
    · simp only [hd, if_true]
      rcases h with h | h
      · exact ⟨h, hc⟩
      · exact absurd hd h
    · simp only [hd, if_false]
      exact ⟨hc, hc⟩
  | cons e es ih =>
    intro cur pp pv pk h hS
    have hc : cur ∈ S := hS cur (List.mem_cons_self _ _)
    unfold BTIndexPage.FindPageWithKeys.loop
    by_cases hd : d_key < cur.key
    · simp only [hd, if_true]
      rcases h with h | h
      · exact ⟨h, hc⟩
      · exact absurd hd h
    · simp only [hd, if_false]
      exact ih e pv cur.pid cur.key (Or.inl hc) (fun x hx => hS x (List.mem_cons_of_mem _ hx))

theorem findPageWithKeys_mem {p : SortedPage} {d_key : Int} {k : BTIndexPage.Keys}
    (hk : BTIndexPage.FindPageWithKeys p d_key = some k) :
    (⟨k.nextKey, k.nextPid⟩ : IndexEntry) ∈ p.index
      ∧ (k.prevPid ≠ INVALID_PAGE → (⟨k.key, k.pid⟩ : IndexEntry) ∈ p.index) := by
  unfold BTIndexPage.FindPageWithKeys at hk
  cases hl : p.index with
  | nil => simp [hl] at hk
  | cons e es =>
    simp only [hl] at hk
    by_cases hd : d_key < e.key
    · simp only [hd, if_true, Option.some.injEq] at hk
      subst hk
      exact ⟨List.mem_cons_self _ _, fun h => absurd rfl h⟩
    · simp only [hd, if_false, Option.some.injEq] at hk
      subst hk
      have := findKeysLoop_mem (e :: es) d_key es e INVALID_PAGE (BTIndexPage.GetLeftLink p) 0
        (Or.inr hd) (fun x hx => hx)
      exact ⟨this.2, fun _ => this.1⟩

theorem deleteHelper_leaf_underflow (cfg : Cfg) (key : Int) (rid : RecordID) (fuel : Nat)
    (bm : BufMgr) (ck nk : Int) (cur prev next : PageID) (out : BTreeFile.DeleteOut)
    (leaf1 : SortedPage) (ht : (bm.page cur).type = NodeType.LEAF_NODE)
    (hdel : BTLeafPage.Delete (bm.page cur) key rid = (Status.OK, leaf1))
    (hunder : leaf1.IsAtLeastHalfFull cfg = false) :
    BTreeFile.DeleteHelper cfg key rid (fuel + 1) bm ck nk cur prev next out
      = (BTreeFile.DeleteHelper.leafUnderflow cfg fuel (bm.set cur leaf1) ck nk cur prev next
          out).map fun r => (Status.OK, r.1, r.2) := by
  unfold BTreeFile.DeleteHelper
  have hni : ¬ (bm.page cur).type = NodeType.INDEX_NODE := by
    rw [ht]; decide
  simp only [hni, if_false, hdel, hunder, Bool.not_false, if_true]
  cases BTreeFile.DeleteHelper.leafUnderflow cfg fuel (bm.set cur leaf1) ck nk cur prev next
    out with
  | none => rfl
  | some r => rfl

theorem parent_step_helper (cfg : Cfg) (key : Int) (rid : RecordID) (fuel : Nat) (bm : BufMgr)
    (ck nk : Int) (par pp np : PageID) (out : BTreeFile.DeleteOut) (k : BTIndexPage.Keys)
    (bmc : BufMgr) (o : BTreeFile.DeleteOut) (ip1 : SortedPage) (ckey dkey : Int)
    (cpid : PageID)
    (hpt : (bm.page par).type = NodeType.INDEX_NODE)
    (hk : BTIndexPage.FindPageWithKeys (bm.page par) key = some k)
    (hchild : BTreeFile.DeleteHelper cfg key rid fuel bm k.key k.nextKey k.pid
      (if k.prevPid = k.pid then INVALID_PAGE else k.prevPid)
      (if k.nextPid = k.pid then INVALID_PAGE else k.nextPid) BTreeFile.DeleteOut.init
        = some (Status.OK, bmc, o))
    (hu : o.underflow = true) (hm : o.merged = false) (hd : o.deletedKey = some dkey)
    (hck : o.child_key = some ckey) (hcp : o.child_pageid = some cpid)
    (hdel : BTIndexPage.Delete (bmc.page par) dkey = (Status.OK, ip1)) :
    BTreeFile.DeleteHelper cfg key rid (fuel + 1) bm ck nk par pp np out
      = some (Status.OK, (bmc.set par ip1).set par (BTIndexPage.Insert cfg ip1 ckey cpid).2,
          out) := by
  unfold BTreeFile.DeleteHelper
  simp only [hpt, if_true, hk, hchild, hu, hd, hdel, hm, Bool.false_eq_true, if_false, hck,
    hcp]

theorem parent_step_root (cfg : Cfg) (key : Int) (rid : RecordID) (fuel : Nat) (bm : BufMgr)
    (par : PageID) (k : BTIndexPage.Keys) (st : Status)
    (bmc : BufMgr) (o : BTreeFile.DeleteOut) (ip1 : SortedPage) (ckey dkey : Int)
    (cpid : PageID) (hr : par ≠ INVALID_PAGE)
    (hpt : (bm.page par).type = NodeType.INDEX_NODE)
    (hk : BTIndexPage.FindPageWithKeys (bm.page par) key = some k)
    (hchild : BTreeFile.DeleteHelper cfg key rid fuel bm k.key k.nextKey k.pid k.prevPid
      k.nextPid BTreeFile.DeleteOut.init = some (st, bmc, o))
    (hu : o.underflow = true) (hm : o.merged = false) (hd : o.deletedKey = some dkey)
    (hck : o.child_key = some ckey) (hcp : o.child_pageid = some cpid)
    (hdel : BTIndexPage.Delete (bmc.page par) dkey = (Status.OK, ip1)) :
    BTreeFile.Delete cfg fuel ⟨par, bm⟩ key rid
      = some (Status.OK,
          ⟨par, (bmc.set par ip1).set par (BTIndexPage.Insert cfg ip1 ckey cpid).2⟩) := by
  unfold BTreeFile.Delete
  have hnl : ¬ (bm.page par).type = NodeType.LEAF_NODE := by
    rw [hpt]; decide
  simp only [hr, if_false, hnl, hk, hchild, hu, if_true, hd, hdel, hm, Bool.false_eq_true,
    hck, hcp]

theorem pass_helper (cfg : Cfg) (key : Int) (rid : RecordID) (fuel : Nat) (bm : BufMgr)
    (ck nk : Int) (par pp np : PageID) (out : BTreeFile.DeleteOut) (k : BTIndexPage.Keys)
    (bmc : BufMgr) (o : BTreeFile.DeleteOut)
    (hpt : (bm.page par).type = NodeType.INDEX_NODE)
    (hk : BTIndexPage.FindPageWithKeys (bm.page par) key = some k)
    (hchild : BTreeFile.DeleteHelper cfg key rid fuel bm k.key k.nextKey k.pid
      (if k.prevPid = k.pid then INVALID_PAGE else k.prevPid)
      (if k.nextPid = k.pid then INVALID_PAGE else k.nextPid) BTreeFile.DeleteOut.init
        = some (Status.OK, bmc, o))
    (hu : o.underflow = false) :
    BTreeFile.DeleteHelper cfg key rid (fuel + 1) bm ck nk par pp np out
      = some (Status.OK, bmc, out) := by
  unfold BTreeFile.DeleteHelper
  simp only [hpt, if_true, hk, hchild, hu, Bool.false_eq_true, if_false]

theorem pass_root (cfg : Cfg) (key : Int) (rid : RecordID) (fuel : Nat) (bm : BufMgr)
    (par : PageID) (k : BTIndexPage.Keys) (st : Status) (bmc : BufMgr)
    (o : BTreeFile.DeleteOut) (hr : par ≠ INVALID_PAGE)
    (hpt : (bm.page par).type = NodeType.INDEX_NODE)
    (hk : BTIndexPage.FindPageWithKeys (bm.page par) key = some k)
    (hchild : BTreeFile.DeleteHelper cfg key rid fuel bm k.key k.nextKey k.pid k.prevPid
      k.nextPid BTreeFile.DeleteOut.init = some (st, bmc, o))
    (hu : o.underflow = false) :
    BTreeFile.Delete cfg fuel ⟨par, bm⟩ key rid = some (Status.OK, ⟨par, bmc⟩) := by
  unfold BTreeFile.Delete
  have hnl : ¬ (bm.page par).type = NodeType.LEAF_NODE := by
    rw [hpt]; decide
  simp only [hr, if_false, hnl, hk, hchild, hu, Bool.false_eq_true]

theorem leaf_delete_ok_shape {p leaf1 : SortedPage} {key : Int} {rid : RecordID}
    (h : BTLeafPage.Delete p key rid = (Status.OK, leaf1)) :
    leaf1.index = p.index ∧ leaf1.type = p.type ∧ leaf1.prevPage = p.prevPage
      ∧ leaf1.nextPage = p.nextPage := by
  unfold BTLeafPage.Delete at h
  split at h
  · simp only [Prod.mk.injEq, true_and] at h
    rw [← h]
    exact ⟨rfl, rfl, rfl, rfl⟩
  · simp at h

theorem list_concat_of_two_le {α : Type} (l : List α) (h : 2 ≤ l.length) :
    ∃ init e, l = init ++ [e] := by
  rcases List.eq_nil_or_concat l with hl | ⟨init, e, hl⟩
  · rw [hl] at h
    simp at h
  · exact ⟨init, e, by rw [hl]; simp⟩

theorem list_two_of_two_le {α : Type} (l : List α) (h : 2 ≤ l.length) :
    ∃ e f rest, l = e :: f :: rest := by
  match l, h with
  | e :: f :: rest, _ => exact ⟨e, f, rest, rfl⟩

/-- C31: take an index page `par` with strictly ascending separators that fit
the page, and a pair whose covering child `k.pid` (as `FindPageWithKeys`
reports it) is a leaf that holds the pair and falls below half full when the
pair is removed (`leaf1` is the leaf after the removal).

Previous sibling: when `k.prevPid` is a leaf other than the child and `par`
that can spare an entry, its last entry `e` moves into the leaf; with `f` the
first entry of the repaired leaf, the entry of `par` for the leaf, `(k.key,
k.pid)`, is replaced by `(f.key, k.pid)`, and `par` keeps its number of
entries.

Next sibling: when there is no previous sibling or it cannot spare an entry,
and `k.nextPid` is a leaf other than the child and `par`, with pairwise
different entries, that can spare an entry, its first entry `e` moves into the
leaf; with `f` the new first entry of the next sibling, the entry of `par` for
the next sibling, `(k.nextKey, k.nextPid)`, is replaced by `(f.key,
k.nextPid)`, and `par` keeps its number of entries.

In both cases this is the pool `DeleteHelper` returns with `OK` when `par` is an
inner page (whatever its caller passed) and the pool `Delete` returns with `OK`
when `par` is the root; no other page changes.  Ancestors: a `DeleteHelper`
call or `Delete` on an index page whose child call returns `OK` without
underflow returns `OK` with the pool of the child call. -/
theorem C31_leaf_redistribution_updates_parent_separator (cfg : Cfg) (bm : BufMgr)
    (par : PageID) (key : Int) (rid : RecordID) (k : BTIndexPage.Keys) (leaf1 : SortedPage)
    (hpv : par ≠ INVALID_PAGE)
    (hpt : (bm.page par).type = NodeType.INDEX_NODE)
    (hpl : (bm.page par).leaf = [])
    (hpfit : (bm.page par).index.length * cfg.sizeofIndexEntry ≤ cfg.HEAPPAGE_DATA_SIZE)
    (hpasc : (bm.page par).index.Pairwise (fun x y => x.key < y.key))
    (hk : BTIndexPage.FindPageWithKeys (bm.page par) key = some k)
    (hcp : k.pid ≠ par)
    (hct : (bm.page k.pid).type = NodeType.LEAF_NODE)
    (hci : (bm.page k.pid).index = [])
    (hdel : BTLeafPage.Delete (bm.page k.pid) key rid = (Status.OK, leaf1))
    (hunder : leaf1.IsAtLeastHalfFull cfg = false) :
    (k.prevPid ≠ INVALID_PAGE → k.prevPid ≠ k.pid → k.prevPid ≠ par →
      (bm.page k.prevPid).index = [] →
      (bm.page k.prevPid).leaf.length * cfg.sizeofLeafEntry ≤ cfg.HEAPPAGE_DATA_SIZE →
      (BTLeafPage.IsAtLeastHalfFullAfterDelete cfg (bm.page k.prevPid)).1 = true →
      ∃ init e f tl l1 l2 bm',
        (bm.page k.prevPid).leaf = init ++ [e]
          ∧ insertSorted LeafEntry.key e leaf1.leaf = f :: tl
          ∧ (bm.page par).index = l1 ++ ⟨k.key, k.pid⟩ :: l2
          ∧ bm'.page k.prevPid = { bm.page k.prevPid with leaf := init }
          ∧ bm'.page k.pid = { leaf1 with leaf := f :: tl }
          ∧ bm'.page par
              = { bm.page par with
                  index := insertSorted IndexEntry.key ⟨f.key, k.pid⟩ (l1 ++ l2) }
          ∧ (bm'.page par).index.length = (bm.page par).index.length
          ∧ (∀ q, q ≠ k.prevPid → q ≠ k.pid → q ≠ par → bm'.page q = bm.page q)
          ∧ (∀ (fuel : Nat) (ck nk : Int) (pp np : PageID) (out : BTreeFile.DeleteOut),
              BTreeFile.DeleteHelper cfg key rid (fuel + 2) bm ck nk par pp np out
                = some (Status.OK, bm', out))
          ∧ ∀ fuel : Nat,
              BTreeFile.Delete cfg (fuel + 1) ⟨par, bm⟩ key rid = some (Status.OK, ⟨par, bm'⟩))
      ∧ ((k.prevPid = INVALID_PAGE ∨ (k.prevPid ≠ k.pid
            ∧ (BTLeafPage.IsAtLeastHalfFullAfterDelete cfg (bm.page k.prevPid)).1 = false)) →
        k.nextPid ≠ INVALID_PAGE → k.nextPid ≠ k.pid → k.nextPid ≠ par →
        (bm.page k.nextPid).index = [] →
        (bm.page k.nextPid).leaf.length * cfg.sizeofLeafEntry ≤ cfg.HEAPPAGE_DATA_SIZE →
        (bm.page k.nextPid).leaf.Nodup →
        (BTLeafPage.IsAtLeastHalfFullAfterDelete cfg (bm.page k.nextPid)).1 = true →
        ∃ e f rest l1 l2 bm',
          (bm.page k.nextPid).leaf = e :: f :: rest
            ∧ (bm.page par).index = l1 ++ ⟨k.nextKey, k.nextPid⟩ :: l2
            ∧ bm'.page k.nextPid = { bm.page k.nextPid with leaf := f :: rest }
            ∧ bm'.page k.pid
                = { leaf1 with leaf := insertSorted LeafEntry.key e leaf1.leaf }
            ∧ bm'.page par
                = { bm.page par with
                    index := insertSorted IndexEntry.key ⟨f.key, k.nextPid⟩ (l1 ++ l2) }
            ∧ (bm'.page par).index.length = (bm.page par).index.length
            ∧ (∀ q, q ≠ k.nextPid → q ≠ k.pid → q ≠ par → bm'.page q = bm.page q)
            ∧ (∀ (fuel : Nat) (ck nk : Int) (pp np : PageID) (out : BTreeFile.DeleteOut),
                BTreeFile.DeleteHelper cfg key rid (fuel + 2) bm ck nk par pp np out
                  = some (Status.OK, bm', out))
            ∧ ∀ fuel : Nat,
                BTreeFile.Delete cfg (fuel + 1) ⟨par, bm⟩ key rid
                  = some (Status.OK, ⟨par, bm'⟩))
      ∧ ∀ (fuel : Nat) (bm0 bmr : BufMgr) (q : PageID) (k0 : BTIndexPage.Keys)
          (o : BTreeFile.DeleteOut),
          (bm0.page q).type = NodeType.INDEX_NODE →
          BTIndexPage.FindPageWithKeys (bm0.page q) key = some k0 → o.underflow = false →
          (BTreeFile.DeleteHelper cfg key rid fuel bm0 k0.key k0.nextKey k0.pid
              (if k0.prevPid = k0.pid then INVALID_PAGE else k0.prevPid)
              (if k0.nextPid = k0.pid then INVALID_PAGE else k0.nextPid)
              BTreeFile.DeleteOut.init = some (Status.OK, bmr, o) →
            ∀ (ck nk : Int) (pp np : PageID) (out : BTreeFile.DeleteOut),
              BTreeFile.DeleteHelper cfg key rid (fuel + 1) bm0 ck nk q pp np out
                = some (Status.OK, bmr, out))
          ∧ (q ≠ INVALID_PAGE →
            BTreeFile.DeleteHelper cfg key rid fuel bm0 k0.key k0.nextKey k0.pid k0.prevPid
              k0.nextPid BTreeFile.DeleteOut.init = some (Status.OK, bmr, o) →
            BTreeFile.Delete cfg fuel ⟨q, bm0⟩ key rid = some (Status.OK, ⟨q, bmr⟩)) := by
  obtain ⟨h1i, h1t, -, -⟩ := leaf_delete_ok_shape hdel
  have hl1i : leaf1.index = [] := by rw [h1i, hci]
  have hpc : par ≠ k.pid := Ne.symm hcp
  have hcur1 : (bm.set k.pid leaf1).page k.pid = leaf1 := set_page_self _ _ _
  have hother : ∀ q, q ≠ k.pid → (bm.set k.pid leaf1).page q = bm.page q := by
    intro q hq
    simp [BufMgr.set, hq]
  have hparfit : ∀ l1 l2 : List IndexEntry, ∀ x : IndexEntry,
      (bm.page par).index = l1 ++ x :: l2 →
      ¬ ({ bm.page par with index := l1 ++ l2 } : SortedPage).AvailableSpace cfg
        < cfg.sizeofIndexEntry := by
    intro l1 l2 x hx
    rw [index_avail (by exact hpl)]
    apply room_of_le
    refine le_trans (Nat.le_of_eq ?_) hpfit
    rw [hx]
    simp only [List.length_append, List.length_cons]
    congr 1
  have hlen : ∀ l1 l2 : List IndexEntry, ∀ x y : IndexEntry,
      (bm.page par).index = l1 ++ x :: l2 →
      (insertSorted IndexEntry.key y (l1 ++ l2)).length = (bm.page par).index.length := by
    intro l1 l2 x y hx
    rw [insertSorted_length, hx]
    simp only [List.length_append, List.length_cons]
    omega
  refine ⟨?_, ?_, ?_⟩
  · intro hpi hpk hpp hdi hdfit hprobe
    obtain ⟨hroom, h2⟩ := donor_room cfg (bm.page k.prevPid) leaf1 hdi hl1i hdfit hprobe hunder
    obtain ⟨init, e, hle⟩ := list_concat_of_two_le _ h2
    obtain ⟨f, tl, bmc, hi, hlu, hp1, hp2, hp3⟩ := leafUnderflow_prev cfg (bm.set k.pid leaf1)
      k.pid k.prevPid BTreeFile.DeleteOut.init hpi hpk
      (by rw [hother _ hpk]; exact hprobe) init e (by rw [hother _ hpk]; exact hle)
      (by rw [hcur1]; exact hroom)
    rw [hcur1] at hi hp2
    rw [hother _ hpk] at hp1
    have hchild : ∀ (fuel : Nat) (next : PageID),
        BTreeFile.DeleteHelper cfg key rid (fuel + 1) bm k.key k.nextKey k.pid k.prevPid next
          BTreeFile.DeleteOut.init
        = some (Status.OK, bmc, { BTreeFile.DeleteOut.init with
            underflow := true, child_key := some f.key, child_pageid := some k.pid,
            deletedKey := some k.key }) := by
      intro fuel next
      rw [deleteHelper_leaf_underflow cfg key rid fuel bm k.key k.nextKey k.pid k.prevPid next
        BTreeFile.DeleteOut.init leaf1 hct hdel hunder, hlu]
      rfl
    obtain ⟨l1, l2, hidx, hdelp⟩ := index_delete_entry hpasc ((findPageWithKeys_mem hk).2 hpi)
    have hparc : bmc.page par = bm.page par := by
      rw [hp3 par (Ne.symm hpp) hpc, hother _ hpc]
    have hins := @index_insert_ok cfg _ f.key k.pid (hparfit l1 l2 _ hidx)
    refine ⟨init, e, f, tl, l1, l2,
      (bmc.set par { bm.page par with index := l1 ++ l2 }).set par
        (BTIndexPage.Insert cfg { bm.page par with index := l1 ++ l2 } f.key k.pid).2,
      hle, hi, hidx, ?_, ?_, ?_, ?_, ?_, ?_, ?_⟩
    · simp only [BufMgr.set, hpp, if_false]
      exact hp1
    · simp only [BufMgr.set, hcp, if_false]
      exact hp2
    · rw [set_page_self, hins]
    · rw [set_page_self, hins]
      exact hlen l1 l2 _ _ hidx
    · intro q hq1 hq2 hq3
      simp only [BufMgr.set, hq3, if_false]
      rw [hp3 q hq1 hq2, hother _ hq2]
    · intro fuel ck nk pp np out
      refine parent_step_helper cfg key rid (fuel + 1) bm ck nk par pp np out k bmc
        { BTreeFile.DeleteOut.init with
          underflow := true, child_key := some f.key, child_pageid := some k.pid,
          deletedKey := some k.key } _ f.key
        k.key k.pid hpt hk ?_ rfl rfl rfl rfl rfl (by rw [hparc]; exact hdelp)
      rw [if_neg hpk]
      exact hchild fuel _
    · intro fuel
      exact parent_step_root cfg key rid (fuel + 1) bm par k Status.OK bmc _ _ f.key k.key
        k.pid hpv hpt hk (hchild fuel _) rfl rfl rfl rfl rfl (by rw [hparc]; exact hdelp)
  · intro hprev hni hnk hnp hndi hnfit hnd hprobe
    obtain ⟨hroom, h2⟩ := donor_room cfg (bm.page k.nextPid) leaf1 hndi hl1i hnfit hprobe hunder
    obtain ⟨e, f, rest, hle⟩ := list_two_of_two_le _ h2
    have hne : ∀ x ∈ f :: rest, x ≠ e := by
      rw [hle] at hnd
      intro x hx hxe
      exact (List.nodup_cons.1 hnd).1 (hxe ▸ hx)
    have hprev1 : k.prevPid = INVALID_PAGE
        ∨ (BTLeafPage.IsAtLeastHalfFullAfterDelete cfg
            ((bm.set k.pid leaf1).page k.prevPid)).1 = false := by
      rcases hprev with h | ⟨h1, h2⟩
      · exact Or.inl h
      · exact Or.inr (by rw [hother _ h1]; exact h2)
    have hclr : (if k.prevPid = k.pid then INVALID_PAGE else k.prevPid) = k.prevPid := by
      rcases hprev with h | ⟨h1, -⟩
      · rw [h]; simp
      · rw [if_neg h1]
    obtain ⟨bmc, hlu, hp1, hp2, hp3⟩ := leafUnderflow_next cfg (bm.set k.pid leaf1)
      k.pid k.prevPid k.nextPid BTreeFile.DeleteOut.init hprev1 hni hnk
      (by rw [hother _ hnk]; exact hprobe) e f rest (by rw [hother _ hnk]; exact hle) hne
      (by rw [hcur1]; exact hroom)
    rw [hcur1] at hp2
    rw [hother _ hnk] at hp1
    have hchild : ∀ (fuel : Nat),
        BTreeFile.DeleteHelper cfg key rid (fuel + 1) bm k.key k.nextKey k.pid k.prevPid
          k.nextPid BTreeFile.DeleteOut.init
        = some (Status.OK, bmc, { BTreeFile.DeleteOut.init with
            underflow := true, child_key := some f.key, child_pageid := some k.nextPid,
            deletedKey := some k.nextKey }) := by
      intro fuel
      rw [deleteHelper_leaf_underflow cfg key rid fuel bm k.key k.nextKey k.pid k.prevPid
        k.nextPid BTreeFile.DeleteOut.init leaf1 hct hdel hunder, hlu]
      rfl
    obtain ⟨l1, l2, hidx, hdelp⟩ := index_delete_entry hpasc (findPageWithKeys_mem hk).1
    have hparc : bmc.page par = bm.page par := by
      rw [hp3 par (Ne.symm hnp) hpc, hother _ hpc]
    have hins := @index_insert_ok cfg _ f.key k.nextPid (hparfit l1 l2 _ hidx)
    refine ⟨e, f, rest, l1, l2,
      (bmc.set par { bm.page par with index := l1 ++ l2 }).set par
        (BTIndexPage.Insert cfg { bm.page par with index := l1 ++ l2 } f.key k.nextPid).2,
      hle, hidx, ?_, ?_, ?_, ?_, ?_, ?_, ?_⟩
    · simp only [BufMgr.set, hnp, if_false]
      exact hp1
    · simp only [BufMgr.set, hcp, if_false]
      exact hp2
    · rw [set_page_self, hins]
    · rw [set_page_self, hins]
      exact hlen l1 l2 _ _ hidx
    · intro q hq1 hq2 hq3
      simp only [BufMgr.set, hq3, if_false]
      rw [hp3 q hq1 hq2, hother _ hq2]
    · intro fuel ck nk pp np out
      refine parent_step_helper cfg key rid (fuel + 1) bm ck nk par pp np out k bmc
        { BTreeFile.DeleteOut.init with
          underflow := true, child_key := some f.key, child_pageid := some k.nextPid,
          deletedKey := some k.nextKey } _ f.key
        k.nextKey k.nextPid hpt hk ?_ rfl rfl rfl rfl rfl (by rw [hparc]; exact hdelp)
      rw [hclr, if_neg hnk]
      exact hchild fuel
    · intro fuel
      exact parent_step_root cfg key rid (fuel + 1) bm par k Status.OK bmc _ _ f.key k.nextKey
        k.nextPid hpv hpt hk (hchild fuel) rfl rfl rfl rfl rfl (by rw [hparc]; exact hdelp)
  · intro fuel bm0 bmr q k0 o hqt hk0 hu
    refine ⟨?_, ?_⟩
    · intro hchild ck nk pp np out
      exact pass_helper cfg key rid fuel bm0 ck nk q pp np out k0 bmr o hqt hk0 hchild hu
    · intro hq hchild
      exact pass_root cfg key rid fuel bm0 q k0 Status.OK bmr o hq hqt hk0 hchild hu

/-- Witness for C31: `Delete (5, (7,5))` on `treeFullLeaf`; the leaf 3 = [5, 6]
is left with the entry 6 and its previous sibling 2 = [1, 2, 3, 4] can spare an
entry. -/
theorem C31_leaf_redistribution_updates_parent_separator_witness :
    BTIndexPage.FindPageWithKeys (treeFullLeaf.bm.page 1) 5 = some ⟨5, 5, 3, 2, 3⟩
      ∧ BTLeafPage.Delete (treeFullLeaf.bm.page 3) 5 ⟨7, 5⟩ = (Status.OK, leafPage 2 (-1) [6])
      ∧ (leafPage 2 (-1) [6]).IsAtLeastHalfFull cfg4 = false
      ∧ (BTLeafPage.IsAtLeastHalfFullAfterDelete cfg4 (treeFullLeaf.bm.page 2)).1 = true
      ∧ ∃ init e f tl l1 l2 bm',
        (treeFullLeaf.bm.page 2).leaf = init ++ [e]
          ∧ insertSorted LeafEntry.key e (leafPage 2 (-1) [6]).leaf = f :: tl
          ∧ (treeFullLeaf.bm.page 1).index = l1 ++ ⟨5, 3⟩ :: l2
          ∧ bm'.page 2 = { treeFullLeaf.bm.page 2 with leaf := init }
          ∧ bm'.page 3 = { leafPage 2 (-1) [6] with leaf := f :: tl }
          ∧ bm'.page 1
              = { treeFullLeaf.bm.page 1 with
                  index := insertSorted IndexEntry.key ⟨f.key, 3⟩ (l1 ++ l2) }
          ∧ (bm'.page 1).index.length = (treeFullLeaf.bm.page 1).index.length
          ∧ (∀ q : PageID, q ≠ 2 → q ≠ 3 → q ≠ 1 → bm'.page q = treeFullLeaf.bm.page q)
          ∧ (∀ (fuel : Nat) (ck nk : Int) (pp np : PageID) (out : BTreeFile.DeleteOut),
              BTreeFile.DeleteHelper cfg4 5 ⟨7, 5⟩ (fuel + 2) treeFullLeaf.bm ck nk 1 pp np out
                = some (Status.OK, bm', out))
          ∧ ∀ fuel : Nat,
              BTreeFile.Delete cfg4 (fuel + 1) ⟨1, treeFullLeaf.bm⟩ 5 ⟨7, 5⟩
                = some (Status.OK, ⟨1, bm'⟩) :=
  ⟨by decide!, by decide!, by decide!, by decide!,
    (C31_leaf_redistribution_updates_parent_separator cfg4 treeFullLeaf.bm 1 5 ⟨7, 5⟩
      ⟨5, 5, 3, 2, 3⟩ (leafPage 2 (-1) [6]) (by decide) (by decide!) (by decide!) (by decide!)
      (by decide!) (by decide!) (by decide) (by decide!) (by decide!) (by decide!)
      (by decide!)).1 (by decide) (by decide) (by decide) (by decide!) (by decide!)
      (by decide!)⟩

theorem mergeLeaf_spec (cfg : Cfg) (src dst : PageID) (hsd : src ≠ dst) :
    ∀ (fuel : Nat) (bm : BufMgr), (bm.page src).leaf.length + 1 ≤ fuel →
      (bm.page dst).index = [] →
      ((bm.page dst).leaf.length + (bm.page src).leaf.length) * cfg.sizeofLeafEntry
        ≤ cfg.HEAPPAGE_DATA_SIZE →
      ∃ bm' l, BTreeFile.MergeLeaf.loop cfg src dst fuel bm = some bm'
        ∧ bm'.page src = { bm.page src with leaf := [] }
        ∧ bm'.page dst = { bm.page dst with leaf := l }
        ∧ List.Perm l ((bm.page dst).leaf ++ (bm.page src).leaf)
        ∧ ((bm.page dst).leaf.Pairwise (fun x y => x.key ≤ y.key) →
            l.Pairwise (fun x y => x.key ≤ y.key))
        ∧ ∀ q, q ≠ src → q ≠ dst → bm'.page q = bm.page q := by
  have hds : dst ≠ src := Ne.symm hsd
  intro fuel
  induction fuel with
  | zero => intro bm h; omega
  | succ fuel ih =>
    intro bm hfuel hdi hfit
    unfold BTreeFile.MergeLeaf.loop
    cases hg : BTLeafPage.GetFirst (bm.page src) with
    | none =>
      have hl := leaf_getFirst_none hg
      refine ⟨bm, (bm.page dst).leaf, rfl, ?_, rfl, by rw [hl]; simp, fun h => h,
        fun _ _ _ => rfl⟩
      rw [← hl]
    | some e =>
      simp only
      have hhead := head_mem_leaf hg
      have hroom : ¬ (bm.page dst).AvailableSpace cfg < cfg.sizeofLeafEntry := by
        rw [leaf_avail hdi]
        apply room_of_le
        refine le_trans (Nat.mul_le_mul_right _ ?_) hfit
        rw [hhead]
        simp only [List.length_cons]
        omega
      rw [leaf_insert_ok e.key e.rid hroom]
      have hs1 : ((bm.set dst { bm.page dst with
          leaf := insertSorted LeafEntry.key ⟨e.key, e.rid⟩ (bm.page dst).leaf }).page src)
          = bm.page src := by
        simp [BufMgr.set, hsd]
      rw [hs1]
      obtain ⟨es, hd, hp⟩ := leaf_delete_head hg
      rw [hd]
      simp only
      have hlen : (bm.page src).leaf.length = es.length + 1 := by
        simpa using hp.length_eq
      have hsrc2 : (((bm.set dst { bm.page dst with
          leaf := insertSorted LeafEntry.key ⟨e.key, e.rid⟩ (bm.page dst).leaf }).set src
          { bm.page src with leaf := es }).page src) = { bm.page src with leaf := es } :=
        set_page_self _ _ _
      have hdst2 : (((bm.set dst { bm.page dst with
          leaf := insertSorted LeafEntry.key ⟨e.key, e.rid⟩ (bm.page dst).leaf }).set src
          { bm.page src with leaf := es }).page dst)
          = { bm.page dst with
              leaf := insertSorted LeafEntry.key ⟨e.key, e.rid⟩ (bm.page dst).leaf } := by
        simp [BufMgr.set, hds]
      obtain ⟨bm', l, hrun, h1, h2, h3, h4, h5⟩ := ih ((bm.set dst { bm.page dst with
          leaf := insertSorted LeafEntry.key ⟨e.key, e.rid⟩ (bm.page dst).leaf }).set src
          { bm.page src with leaf := es })
        (by rw [hsrc2]; simp only; omega) (by rw [hdst2]; exact hdi)
        (by
          rw [hsrc2, hdst2]
          simp only [insertSorted_length]
          refine le_trans (Nat.le_of_eq ?_) hfit
          rw [hlen]
          congr 1
          omega)
      rw [hsrc2] at h1 h3
      rw [hdst2] at h2 h3 h4
      simp only at h1 h2 h3 h4
      refine ⟨bm', l, hrun, h1, h2, ?_, ?_, ?_⟩
      · refine h3.trans ?_
        have he : (⟨e.key, e.rid⟩ : LeafEntry) = e := rfl
        rw [he]
        refine ((insertSorted_perm LeafEntry.key e (bm.page dst).leaf).append_right es).trans ?_
        refine List.Perm.trans ?_ (List.Perm.append_left _ hp.symm)
        simp only [List.cons_append]
        exact List.perm_middle.symm
      · intro hs
        exact h4 (insertSorted_sorted LeafEntry.key _ _ hs)
      · intro q hq1 hq2
        rw [h5 q hq1 hq2]
        simp [BufMgr.set, hq1, hq2]

theorem leafUnderflow_merge_next (cfg : Cfg) (fuel : Nat) (bm : BufMgr) (ck nk : Int)
    (cur prev next : PageID) (out : BTreeFile.DeleteOut)
    (hprev : prev = INVALID_PAGE
      ∨ (BTLeafPage.IsAtLeastHalfFullAfterDelete cfg (bm.page prev)).1 = false)
    (hni : next ≠ INVALID_PAGE) (hnc : next ≠ cur)
    (hprobe : (BTLeafPage.IsAtLeastHalfFullAfterDelete cfg (bm.page next)).1 = false)
    (hci : (bm.page cur).index = [])
    (hfit : ((bm.page cur).leaf.length + (bm.page next).leaf.length) * cfg.sizeofLeafEntry
      ≤ cfg.HEAPPAGE_DATA_SIZE)
    (hfuel : (bm.page next).leaf.length + 1 ≤ fuel) :
    ∃ bm' l, BTreeFile.DeleteHelper.leafUnderflow cfg fuel bm ck nk cur prev next out
        = some (bm', { out with underflow := true, merged := true, deletedKey := some nk })
      ∧ bm'.page cur = { bm.page cur with leaf := l, nextPage := (bm.page next).nextPage }
      ∧ List.Perm l ((bm.page cur).leaf ++ (bm.page next).leaf)
      ∧ ((bm.page cur).leaf.Pairwise (fun x y => x.key ≤ y.key) →
          l.Pairwise (fun x y => x.key ≤ y.key))
      ∧ bm'.page next = { bm.page next with leaf := [] }
      ∧ ∀ q, q ≠ cur → q ≠ next → bm'.page q = bm.page q := by
  have hcn : cur ≠ next := Ne.symm hnc
  have key : ∀ bm0 : BufMgr, (∀ x, bm0.page x = bm.page x) →
      ∃ bmx l, BTreeFile.MergeLeaf_next cfg fuel bm0 next cur = some bmx
        ∧ (bmx.set cur { bmx.page cur with nextPage := (bm0.page next).nextPage }).page cur
            = { bm.page cur with leaf := l, nextPage := (bm.page next).nextPage }
        ∧ List.Perm l ((bm.page cur).leaf ++ (bm.page next).leaf)
        ∧ ((bm.page cur).leaf.Pairwise (fun x y => x.key ≤ y.key) →
            l.Pairwise (fun x y => x.key ≤ y.key))
        ∧ (bmx.set cur { bmx.page cur with nextPage := (bm0.page next).nextPage }).page next
            = { bm.page next with leaf := [] }
        ∧ ∀ q, q ≠ cur → q ≠ next →
            (bmx.set cur { bmx.page cur with nextPage := (bm0.page next).nextPage }).page q
              = bm.page q := by
    intro bm0 h0
    obtain ⟨bmx, l, hrun, h1, h2, h3, h4, h5⟩ := mergeLeaf_spec cfg next cur hnc fuel bm0
      (by rw [h0]; exact hfuel) (by rw [h0]; exact hci) (by rw [h0, h0]; exact hfit)
    simp only [h0] at h1 h2 h3 h4
    refine ⟨bmx, l, hrun, ?_, h3, h4, ?_, ?_⟩
    · rw [set_page_self, h2, h0]
    · simp only [BufMgr.set, hnc, if_false]
      exact h1
    · intro q hq1 hq2
      simp only [BufMgr.set, hq1, if_false]
      rw [h5 q hq2 hq1, h0]
  by_cases hpi : prev = INVALID_PAGE
  · obtain ⟨bmx, l, hrun, h1, h2, h3, h4, h5⟩ := key (bm.set next (bm.page next))
      (fun x => set_same_page bm next x)
    refine ⟨_, l, ?_, h1, h2, h3, h4, h5⟩
    unfold BTreeFile.DeleteHelper.leafUnderflow
    simp only [hpi, ne_eq, not_true_eq_false, if_false, hni, not_false_eq_true, and_self,
      if_true, leaf_probe_page, hprobe, Bool.false_eq_true, hrun]
  · have hpf : (BTLeafPage.IsAtLeastHalfFullAfterDelete cfg (bm.page prev)).1 = false := by
      rcases hprev with h | h
      · exact absurd h hpi
      · exact h
    obtain ⟨bmx, l, hrun, h1, h2, h3, h4, h5⟩ := key
      ((bm.set prev (bm.page prev)).set next ((bm.set prev (bm.page prev)).page next))
      (fun x => by rw [set_same_page, set_same_page])
    refine ⟨_, l, ?_, h1, h2, h3, h4, h5⟩
    have hx : (BTLeafPage.IsAtLeastHalfFullAfterDelete cfg
        ((bm.set prev (bm.page prev)).page next)).1 = false := by
      rw [set_same_page]; exact hprobe
    unfold BTreeFile.DeleteHelper.leafUnderflow
    simp only [ne_eq, hpi, not_false_eq_true, if_true, leaf_probe_page, hpf,
      Bool.false_eq_true, if_false, hni, and_self, hx, hrun]

/-- C32 (failing input): with a data area of 9 bytes and leaf entries of 2
bytes a leaf has room for four entries and is at least half full from three
on.  The well-formed tree `treeSlack`, which the insertions of 1, 2, 5, 6, 7, 3
into a fresh tree build, has the leaves 1 = [1, 2, 3] and 2 = [5, 6, 7].
`DeleteHelper` for the pair (3, (7,3)) on leaf 1 finds it below half full and
its next sibling unable to spare an entry, merges the two and returns `OK`
with the separator 5 to drop: the leaf then holds 1, 2, 5, 6 and not its
remaining entries plus all entries of the next sibling, the next sibling holds
nothing; the entry with the key 7 did not fit and is gone.  `Delete(3, (7,3))`
on the tree built by the insertions returns `OK` likewise, and the tree that
held 1, 2, 3, 5, 6, 7 holds 1, 2, 5, 6 afterwards. -/
theorem C32_leaf_merge_loses_entry_that_does_not_fit :
    BTreeFile.wellFormedAt cfg92 1 treeSlack = true
    ∧ ((BTreeFile.build cfg92 20 [1, 2, 5, 6, 7, 3]).map fun t =>
        (t.rootPid, t.bm.page 3, (t.bm.page 1, t.bm.page 2)))
      = some (3, treeSlack.bm.page 3, (treeSlack.bm.page 1, treeSlack.bm.page 2))
    ∧ BTIndexPage.FindPageWithKeys (treeSlack.bm.page 3) 3 = some ⟨-1, 5, 1, -1, 2⟩
    ∧ (BTLeafPage.IsAtLeastHalfFullAfterDelete cfg92 (treeSlack.bm.page 2)).1 = false
    ∧ ((BTreeFile.DeleteHelper cfg92 3 ⟨7, 3⟩ 9 treeSlack.bm (-1) 5 1 (-1) 2
          BTreeFile.DeleteOut.init).map fun r => (r.1, r.2.2))
      = some (Status.OK, ⟨true, true, none, none, some 5⟩)
    ∧ ((BTreeFile.DeleteHelper cfg92 3 ⟨7, 3⟩ 9 treeSlack.bm (-1) 5 1 (-1) 2
          BTreeFile.DeleteOut.init).map fun r =>
        (keysOf (r.2.1.page 1).leaf, keysOf (r.2.1.page 2).leaf, (r.2.1.page 1).nextPage))
      = some ([1, 2, 5, 6], [], INVALID_PAGE)
    ∧ ((BTreeFile.build cfg92 20 [1, 2, 5, 6, 7, 3]).bind fun t =>
        (t.entries 3).map keysOf)
      = some [1, 2, 3, 5, 6, 7]
    ∧ ((BTreeFile.build cfg92 20 [1, 2, 5, 6, 7, 3]).bind fun t =>
        (BTreeFile.Delete cfg92 9 t 3 ⟨7, 3⟩).map fun r =>
          (r.1, r.2.rootPid, (r.2.entries 3).map keysOf))
      = some (Status.OK, 1, some [1, 2, 5, 6]) := by
  decide!

/-- Merge of a leaf with its next sibling when the entries fit: take a leaf
`cur` that holds the pair and falls below half
full when the pair is removed (`leaf1` is the leaf after the removal), with no
previous sibling or one that cannot spare an entry, and a next sibling, a page
other than the leaf, that cannot spare an entry either.  When the entries of
`leaf1` and of the next sibling fit one page together, `DeleteHelper` returns
`OK` and reports a merge with `nextKey` as the separator to drop; the leaf then
holds its remaining entries and all entries of the next sibling (in key order
when its own entries were), the next sibling holds no entry, the next-page of
the leaf is the former next-page of the next sibling, and no other page
changes. -/
theorem leaf_merge_with_next_of_fit (cfg : Cfg) (key : Int) (rid : RecordID)
    (bm : BufMgr) (ck nk : Int) (cur prev next : PageID) (out : BTreeFile.DeleteOut)
    (leaf1 : SortedPage) (fuel : Nat)
    (ht : (bm.page cur).type = NodeType.LEAF_NODE) (hci : (bm.page cur).index = [])
    (hdel : BTLeafPage.Delete (bm.page cur) key rid = (Status.OK, leaf1))
    (hunder : leaf1.IsAtLeastHalfFull cfg = false)
    (hprev : prev = INVALID_PAGE ∨ (prev ≠ cur
      ∧ (BTLeafPage.IsAtLeastHalfFullAfterDelete cfg (bm.page prev)).1 = false))
    (hni : next ≠ INVALID_PAGE) (hnc : next ≠ cur)
    (hprobe : (BTLeafPage.IsAtLeastHalfFullAfterDelete cfg (bm.page next)).1 = false)
    (hfit : (leaf1.leaf.length + (bm.page next).leaf.length) * cfg.sizeofLeafEntry
      ≤ cfg.HEAPPAGE_DATA_SIZE)
    (hfuel : (bm.page next).leaf.length + 2 ≤ fuel) :
    ∃ bm' l, BTreeFile.DeleteHelper cfg key rid fuel bm ck nk cur prev next out
        = some (Status.OK, bm',
            { out with underflow := true, merged := true, deletedKey := some nk })
      ∧ bm'.page cur = { leaf1 with leaf := l, nextPage := (bm.page next).nextPage }
      ∧ List.Perm l (leaf1.leaf ++ (bm.page next).leaf)
      ∧ (leaf1.leaf.Pairwise (fun x y => x.key ≤ y.key) →
          l.Pairwise (fun x y => x.key ≤ y.key))
      ∧ bm'.page next = { bm.page next with leaf := [] }
      ∧ ∀ q, q ≠ cur → q ≠ next → bm'.page q = bm.page q := by
  obtain ⟨F, rfl⟩ : ∃ F, fuel = F + 1 := ⟨fuel - 1, by omega⟩
  obtain ⟨h1i, -, -, -⟩ := leaf_delete_ok_shape hdel
  have hcur1 : (bm.set cur leaf1).page cur = leaf1 := set_page_self _ _ _
  have hother : ∀ q, q ≠ cur → (bm.set cur leaf1).page q = bm.page q := by
    intro q hq
    simp [BufMgr.set, hq]
  have hprev1 : prev = INVALID_PAGE
      ∨ (BTLeafPage.IsAtLeastHalfFullAfterDelete cfg ((bm.set cur leaf1).page prev)).1
          = false := by
    rcases hprev with h | ⟨h1, h2⟩
    · exact Or.inl h
    · exact Or.inr (by rw [hother _ h1]; exact h2)
  obtain ⟨bm', l, hlu, h1, h2, h3, h4, h5⟩ := leafUnderflow_merge_next cfg F (bm.set cur leaf1)
    ck nk cur prev next out hprev1 hni hnc (by rw [hother _ hnc]; exact hprobe)
    (by rw [hcur1, h1i]; exact hci) (by rw [hcur1, hother _ hnc]; exact hfit)
    (by rw [hother _ hnc]; omega)
  rw [hcur1, hother _ hnc] at h1 h2
  rw [hcur1] at h3
  rw [hother _ hnc] at h4
  refine ⟨bm', l, ?_, h1, h2, h3, h4, ?_⟩
  · rw [deleteHelper_leaf_underflow cfg key rid F bm ck nk cur prev next out leaf1 ht hdel
      hunder, hlu]
    rfl
  · intro q hq1 hq2
    rw [h5 q hq1 hq2, hother _ hq1]

/-- The merge of the leaf 4 = [1, 2] of `treeH2`, on the removal of the pair
(1, (7,1)), with its next sibling, the leaf 5 = [3, 4]. -/
theorem leaf_merge_with_next_of_fit_treeH2 :
    BTLeafPage.Delete (treeH2.bm.page 4) 1 ⟨7, 1⟩ = (Status.OK, leafPage (-1) 5 [2])
      ∧ (leafPage (-1) 5 [2]).IsAtLeastHalfFull cfg4 = false
      ∧ (BTLeafPage.IsAtLeastHalfFullAfterDelete cfg4 (treeH2.bm.page 5)).1 = false
      ∧ ∃ bm' l, BTreeFile.DeleteHelper cfg4 1 ⟨7, 1⟩ 4 treeH2.bm (-1) 3 4 (-1) 5
          BTreeFile.DeleteOut.init
          = some (Status.OK, bm',
              { BTreeFile.DeleteOut.init with
                underflow := true, merged := true, deletedKey := some 3 })
        ∧ bm'.page 4
            = { leafPage (-1) 5 [2] with leaf := l, nextPage := (treeH2.bm.page 5).nextPage }
        ∧ List.Perm l ((leafPage (-1) 5 [2]).leaf ++ (treeH2.bm.page 5).leaf)
        ∧ ((leafPage (-1) 5 [2]).leaf.Pairwise (fun x y => x.key ≤ y.key) →
            l.Pairwise (fun x y => x.key ≤ y.key))
        ∧ bm'.page 5 = { treeH2.bm.page 5 with leaf := [] }
        ∧ ∀ q : PageID, q ≠ 4 → q ≠ 5 → bm'.page q = treeH2.bm.page q :=
  ⟨by decide!, by decide!, by decide!,
    leaf_merge_with_next_of_fit cfg4 1 ⟨7, 1⟩ treeH2.bm (-1) 3 4 (-1) 5
      BTreeFile.DeleteOut.init (leafPage (-1) 5 [2]) 4 (by decide!) (by decide!) (by decide!)
      (by decide!) (Or.inl rfl) (by decide) (by decide) (by decide!) (by decide!)
      (by decide!)⟩

theorem insertSorted_head {α : Type} (key : α → Int) (a : α) :
    ∀ l : List α, (∀ x ∈ l, key a < key x) → insertSorted key a l = a :: l := by
  intro l h
  cases l with
  | nil => rfl
  | cons b l =>
    unfold insertSorted
    simp [h b (List.mem_cons_self _ _)]

theorem index_donor (cfg : Cfg) (d c : SortedPage) (hdl : d.leaf = []) (hcl : c.leaf = [])
    (hfit : d.index.length * cfg.sizeofIndexEntry ≤ cfg.HEAPPAGE_DATA_SIZE)
    (hs : d.index.Pairwise (fun x y => x.key < y.key))
    (hprobe : (BTIndexPage.IsAtLeastHalfFullAfterDelete cfg d).1 = true)
    (hunder : c.IsAtLeastHalfFull cfg = false) :
    ¬ c.AvailableSpace cfg < cfg.sizeofIndexEntry ∧ 2 ≤ d.index.length
      ∧ (BTIndexPage.IsAtLeastHalfFullAfterDelete cfg d).2 = d := by
  simp only [SortedPage.IsAtLeastHalfFull, decide_eq_false_iff_not, not_le, index_avail hcl]
    at hunder
  by_cases hh : d.IsAtLeastHalfFull cfg = true
  · cases hidx : d.index with
    | nil =>
      simp only [SortedPage.IsAtLeastHalfFull, decide_eq_true_eq, index_avail hdl, hidx,
        List.length_nil, Nat.zero_mul, Nat.sub_zero] at hh
      omega
    | cons e rest =>
      have hg : BTIndexPage.GetFirst d = some e := by
        simp [BTIndexPage.GetFirst, hidx]
      have hd := index_delete_head d e rest hidx hs
      have hlt : ∀ x ∈ rest, e.key < x.key := by
        rw [hidx] at hs
        exact (List.pairwise_cons.1 hs).1
      have hroom1 : ¬ ({ d with index := rest } : SortedPage).AvailableSpace cfg
          < cfg.sizeofIndexEntry := by
        rw [index_avail (by exact hdl)]
        apply room_of_le
        rw [hidx] at hfit
        simpa using hfit
      have hins : (BTIndexPage.Insert cfg { d with index := rest } e.key e.pid).2 = d := by
        rw [index_insert_ok e.key e.pid hroom1]
        have he : (⟨e.key, e.pid⟩ : IndexEntry) = e := rfl
        simp only [he, insertSorted_head IndexEntry.key e rest hlt]
        rw [← hidx]
      unfold BTIndexPage.IsAtLeastHalfFullAfterDelete at hprobe ⊢
      simp only [hh, Bool.not_true, Bool.false_eq_true, if_false, hg, hd] at hprobe ⊢
      by_cases h1 : ({ d with index := rest } : SortedPage).IsAtLeastHalfFull cfg = true
      · simp only [h1, Bool.not_true, Bool.false_eq_true, if_false] at hprobe ⊢
        refine ⟨?_, ?_, hins⟩
        · simp only [SortedPage.IsAtLeastHalfFull, decide_eq_true_eq] at h1
          rw [index_avail (by exact hdl)] at h1
          simp only at h1
          have h2 : c.index.length * cfg.sizeofIndexEntry
              < rest.length * cfg.sizeofIndexEntry := by omega
          have h3 : c.index.length < rest.length := Nat.lt_of_mul_lt_mul_right h2
          have h4 : (c.index.length + 1) * cfg.sizeofIndexEntry
              ≤ d.index.length * cfg.sizeofIndexEntry :=
            Nat.mul_le_mul_right _ (by rw [hidx]; simp only [List.length_cons]; omega)
          rw [index_avail hcl]
          exact room_of_le (le_trans h4 hfit)
        · simp only [SortedPage.IsAtLeastHalfFull, decide_eq_true_eq] at h1
          rw [index_avail (by exact hdl)] at h1
          simp only at h1
          have h2 : c.index.length * cfg.sizeofIndexEntry
              < rest.length * cfg.sizeofIndexEntry := by omega
          have h3 : c.index.length < rest.length := Nat.lt_of_mul_lt_mul_right h2
          simp only [List.length_cons]
          omega
      · simp [h1] at hprobe
  · unfold BTIndexPage.IsAtLeastHalfFullAfterDelete at hprobe
    simp [hh] at hprobe

theorem index_delete_last_ok (p : SortedPage) (c : IndexEntry) (init : List IndexEntry)
    (hp : p.index = init ++ [c]) (hs : p.index.Pairwise (fun x y => x.key < y.key)) :
    BTIndexPage.Delete p c.key = (Status.OK, { p with index := init }) := by
  unfold BTIndexPage.Delete
  rw [hp] at hs ⊢
  rw [eraseLast_last_only c.key c init rfl
    fun x hx => ne_of_lt ((List.pairwise_append.1 hs).2.2 x hx c (List.mem_singleton_self _))]

theorem index_delete_head_ok (p : SortedPage) (f : IndexEntry) (rest : List IndexEntry)
    (hp : p.index = f :: rest) (hs : p.index.Pairwise (fun x y => x.key < y.key)) :
    BTIndexPage.Delete p f.key = (Status.OK, { p with index := rest }) := by
  unfold BTIndexPage.Delete
  rw [hp] at hs ⊢
  rw [eraseLast_head_only f.key f rest rfl
    fun x hx => ne_of_gt ((List.pairwise_cons.1 hs).1 x hx)]

theorem indexUnderflow_prev (cfg : Cfg) (fuel : Nat) (bm : BufMgr) (ck nk : Int)
    (cur prev next : PageID)
    (out : BTreeFile.DeleteOut) (hpi : prev ≠ INVALID_PAGE) (hpc : prev ≠ cur)
    (hprobe : BTIndexPage.IsAtLeastHalfFullAfterDelete cfg (bm.page prev)
      = (true, bm.page prev))
    (init : List IndexEntry) (e : IndexEntry) (hl : (bm.page prev).index = init ++ [e])
    (hs : (bm.page prev).index.Pairwise (fun x y => x.key < y.key))
    (hroom : ¬ (bm.page cur).AvailableSpace cfg < cfg.sizeofIndexEntry) :
    ∃ bm', BTreeFile.DeleteHelper.indexUnderflow cfg fuel bm ck nk cur prev next out
        = some (Status.OK, bm',
            { out with underflow := true, child_key := some e.key, child_pageid := some cur,
                       deletedKey := some ck })
      ∧ bm'.page cur = { bm.page cur with
          prevPage := e.pid,
          index := insertSorted IndexEntry.key ⟨ck, (bm.page cur).prevPage⟩
            (bm.page cur).index }
      ∧ bm'.page prev = { bm.page prev with index := init }
      ∧ ∀ q, q ≠ prev → q ≠ cur → bm'.page q = bm.page q := by
  have hcp : cur ≠ prev := Ne.symm hpc
  have hg : BTIndexPage.GetLast (bm.page prev) = some e := by
    simp [BTIndexPage.GetLast, hl]
  have hd := index_delete_last_ok (bm.page prev) e init hl hs
  have hc1 : (((bm.set prev (bm.page prev)).set prev
      { bm.page prev with index := init }).page cur) = bm.page cur := by
    simp [BufMgr.set, hcp]
  refine ⟨(((bm.set prev (bm.page prev)).set prev { bm.page prev with index := init }).set cur
    (BTIndexPage.SetLeftLink { bm.page cur with
        index := insertSorted IndexEntry.key ⟨ck, (bm.page cur).prevPage⟩ (bm.page cur).index }
      e.pid)), ?_, ?_, ?_, ?_⟩
  · unfold BTreeFile.DeleteHelper.indexUnderflow
    simp only [ne_eq, hpi, not_false_eq_true, if_true, hprobe, set_page_self, hg, hd, hc1,
      index_insert_ok ck _ hroom, BTIndexPage.GetLeftLink, Bool.true_eq_false, and_false,
      if_false]
  · rw [set_page_self]
    rfl
  · simp [BufMgr.set, hpc]
  · intro q hq1 hq2
    simp [BufMgr.set, hq1, hq2]

theorem indexUnderflow_next (cfg : Cfg) (fuel : Nat) (bm : BufMgr) (ck nk : Int)
    (cur prev next : PageID) (out : BTreeFile.DeleteOut)
    (hprev : prev = INVALID_PAGE ∨ (prev ≠ cur ∧ prev ≠ next
      ∧ (BTIndexPage.IsAtLeastHalfFullAfterDelete cfg (bm.page prev)).1 = false))
    (hni : next ≠ INVALID_PAGE) (hnc : next ≠ cur)
    (hprobe : BTIndexPage.IsAtLeastHalfFullAfterDelete cfg (bm.page next)
      = (true, bm.page next))
    (e : IndexEntry) (rest : List IndexEntry) (hl : (bm.page next).index = e :: rest)
    (hs : (bm.page next).index.Pairwise (fun x y => x.key < y.key))
    (hroom : ¬ (bm.page cur).AvailableSpace cfg < cfg.sizeofIndexEntry) :
    ∃ bm', BTreeFile.DeleteHelper.indexUnderflow cfg fuel bm ck nk cur prev next out
        = some (Status.OK, bm',
            { out with underflow := true, child_key := some e.key, child_pageid := some next,
                       deletedKey := some nk })
      ∧ bm'.page cur = { bm.page cur with
          index := insertSorted IndexEntry.key ⟨nk, (bm.page next).prevPage⟩
            (bm.page cur).index }
      ∧ bm'.page next = { bm.page next with prevPage := e.pid, index := rest }
      ∧ (prev ≠ INVALID_PAGE →
          bm'.page prev = (BTIndexPage.IsAtLeastHalfFullAfterDelete cfg (bm.page prev)).2)
      ∧ ∀ q, q ≠ prev → q ≠ next → q ≠ cur → bm'.page q = bm.page q := by
  have hcn : cur ≠ next := Ne.symm hnc
  have hg : BTIndexPage.GetFirst (bm.page next) = some e := by
    simp [BTIndexPage.GetFirst, hl]
  have hd := index_delete_head_ok (bm.page next) e rest hl hs
  by_cases hpi : prev = INVALID_PAGE
  · refine ⟨((bm.set next (bm.page next)).set next
        { bm.page next with index := rest }).set cur
          { bm.page cur with
            index := insertSorted IndexEntry.key ⟨nk, (bm.page next).prevPage⟩
              (bm.page cur).index } |>.set next
                (BTIndexPage.SetLeftLink { bm.page next with index := rest } e.pid),
      ?_, ?_, ?_, ?_, ?_⟩
    · have hc1 : (((bm.set next (bm.page next)).set next
          { bm.page next with index := rest }).page cur) = bm.page cur := by
        simp [BufMgr.set, hcn]
      have hn2 : ((((bm.set next (bm.page next)).set next
          { bm.page next with index := rest }).set cur
          { bm.page cur with
            index := insertSorted IndexEntry.key ⟨nk, (bm.page next).prevPage⟩
              (bm.page cur).index }).page next) = { bm.page next with index := rest } := by
        simp [BufMgr.set, hnc]
      unfold BTreeFile.DeleteHelper.indexUnderflow
      simp only [hpi, ne_eq, not_true_eq_false, if_false, hni, not_false_eq_true, and_self,
        if_true, hprobe, set_page_self, hg, hd, hc1, index_insert_ok nk _ hroom,
        BTIndexPage.GetLeftLink, hn2, Bool.true_eq_false]
    · simp [BufMgr.set, hcn]
    · rw [set_page_self]
      rfl
    · intro h
      exact absurd hpi h
    · intro q hq1 hq2 hq3
      simp [BufMgr.set, hq2, hq3]
  · obtain ⟨hpc, hpn, hpf⟩ : prev ≠ cur ∧ prev ≠ next
        ∧ (BTIndexPage.IsAtLeastHalfFullAfterDelete cfg (bm.page prev)).1 = false := by
      rcases hprev with h | h
      · exact absurd h hpi
      · exact h
    have hnp : next ≠ prev := Ne.symm hpn
    have hcp : cur ≠ prev := Ne.symm hpc
    have hn0 : ((bm.set prev (BTIndexPage.IsAtLeastHalfFullAfterDelete cfg
        (bm.page prev)).2).page next) = bm.page next := by
      simp [BufMgr.set, hnp]
    refine ⟨(((bm.set prev (BTIndexPage.IsAtLeastHalfFullAfterDelete cfg
        (bm.page prev)).2).set next (bm.page next)).set next
        { bm.page next with index := rest }).set cur
          { bm.page cur with
            index := insertSorted IndexEntry.key ⟨nk, (bm.page next).prevPage⟩
              (bm.page cur).index } |>.set next
                (BTIndexPage.SetLeftLink { bm.page next with index := rest } e.pid),
      ?_, ?_, ?_, ?_, ?_⟩
    · have hc1 : ((((bm.set prev (BTIndexPage.IsAtLeastHalfFullAfterDelete cfg
          (bm.page prev)).2).set next (bm.page next)).set next
          { bm.page next with index := rest }).page cur) = bm.page cur := by
        simp [BufMgr.set, hcn, hcp]
      have hn2 : (((((bm.set prev (BTIndexPage.IsAtLeastHalfFullAfterDelete cfg
          (bm.page prev)).2).set next (bm.page next)).set next
          { bm.page next with index := rest }).set cur
          { bm.page cur with
            index := insertSorted IndexEntry.key ⟨nk, (bm.page next).prevPage⟩
              (bm.page cur).index }).page next) = { bm.page next with index := rest } := by
        simp [BufMgr.set, hnc]
      unfold BTreeFile.DeleteHelper.indexUnderflow
      simp only [ne_eq, hpi, not_false_eq_true, if_true, hpf, Bool.false_eq_true, if_false,
        hni, and_self, hn0, hprobe, set_page_self, hg, hd, hc1, index_insert_ok nk _ hroom,
        BTIndexPage.GetLeftLink, hn2, Bool.true_eq_false]
    · simp [BufMgr.set, hcn]
    · rw [set_page_self]
      rfl
    · intro _
      simp [BufMgr.set, hpn, hpc]
    · intro q hq1 hq2 hq3
      simp [BufMgr.set, hq1, hq2, hq3]

theorem deleteHelper_index_underflow (cfg : Cfg) (key : Int) (rid : RecordID) (fuel : Nat)
    (bm bm1 : BufMgr) (ck nk : Int) (cur prev next : PageID) (out : BTreeFile.DeleteOut)
    (k : BTIndexPage.Keys) (new : BTreeFile.DeleteOut) (d : Int) (ip1 : SortedPage)
    (hct : (bm.page cur).type = NodeType.INDEX_NODE)
    (hk : BTIndexPage.FindPageWithKeys (bm.page cur) key = some k)
    (hchild : BTreeFile.DeleteHelper cfg key rid fuel bm k.key k.nextKey k.pid
      (if k.prevPid = k.pid then INVALID_PAGE else k.prevPid)
      (if k.nextPid = k.pid then INVALID_PAGE else k.nextPid) BTreeFile.DeleteOut.init
        = some (Status.OK, bm1, new))
    (hu : new.underflow = true) (hm : new.merged = true) (hd : new.deletedKey = some d)
    (hdel : BTIndexPage.Delete (bm1.page cur) d = (Status.OK, ip1))
    (hunder : ip1.IsAtLeastHalfFull cfg = false) :
    BTreeFile.DeleteHelper cfg key rid (fuel + 1) bm ck nk cur prev next out
      = BTreeFile.DeleteHelper.indexUnderflow cfg fuel (bm1.set cur ip1) ck nk cur prev next
          out := by
  unfold BTreeFile.DeleteHelper
  simp only [hct, if_true, hk, hchild, hu, hd, hdel, hm, hunder, Bool.not_false]

/-- C34: take an index page `cur` that is below half full (the separator dropped
after a merge of two children is already deleted from it), `curKey` and
`nextKey` being the separators of the parent in front of `cur` and in front of
its next sibling.

Previous sibling: when `prev` is another index page with strictly ascending
separators that can spare an entry, and `curKey` is below the separators of
`cur`, the underflow handling returns `OK`; the last entry `e` of `prev` is
taken out of it, `cur` gets the new first entry `(curKey, old left-link)` and
the left-link `e.pid`, and the parent is told to replace `curKey` by `e.key`
for the child `cur`.  The in-order sequence over `prev`, the separator between
them and `cur` is the same before and after.

Next sibling: when there is no previous sibling or it cannot spare an entry, and
`next` is another index page with strictly ascending separators that can spare
an entry, and `nextKey` is not below the separators of `cur`, the underflow
handling returns `OK`; the first entry `e` of `next` is taken out of it and
`e.pid` becomes its left-link, `cur` gets the new last entry `(nextKey, old
left-link of next)`, and the parent is told to replace `nextKey` by `e.key` for
the child `next`.  The in-order sequence over `cur`, the separator between them
and `next` is the same before and after.  The previous sibling is left as the
probe `IsAtLeastHalfFullAfterDelete` left it.

`DeleteHelper` on an index page whose child call reports a merge and whose
page is below half full once the dropped separator is deleted returns what the
underflow handling returns on that pool. -/
theorem C34_index_redistribution_keeps_the_in_order_sequence (cfg : Cfg) (fuel : Nat)
    (bm : BufMgr) (curKey nextKey : Int) (cur prev next : PageID) (out : BTreeFile.DeleteOut)
    (hcl : (bm.page cur).leaf = [])
    (hunder : (bm.page cur).IsAtLeastHalfFull cfg = false) :
    (prev ≠ INVALID_PAGE → prev ≠ cur → (bm.page prev).leaf = [] →
      (bm.page prev).index.length * cfg.sizeofIndexEntry ≤ cfg.HEAPPAGE_DATA_SIZE →
      (bm.page prev).index.Pairwise (fun x y => x.key < y.key) →
      (BTIndexPage.IsAtLeastHalfFullAfterDelete cfg (bm.page prev)).1 = true →
      (∀ x ∈ (bm.page cur).index, curKey < x.key) →
      ∃ init e bm',
        (bm.page prev).index = init ++ [e]
          ∧ BTreeFile.DeleteHelper.indexUnderflow cfg fuel bm curKey nextKey cur prev next out
            = some (Status.OK, bm',
                { out with underflow := true, child_key := some e.key,
                           child_pageid := some cur, deletedKey := some curKey })
          ∧ bm'.page prev = { bm.page prev with index := init }
          ∧ bm'.page cur
              = { bm.page cur with
                  prevPage := e.pid,
                  index := ⟨curKey, (bm.page cur).prevPage⟩ :: (bm.page cur).index }
          ∧ (∀ q, q ≠ prev → q ≠ cur → bm'.page q = bm.page q)
          ∧ (bm'.page prev).inOrder ++ Sum.inr e.key :: (bm'.page cur).inOrder
              = (bm.page prev).inOrder ++ Sum.inr curKey :: (bm.page cur).inOrder)
      ∧ ((prev = INVALID_PAGE ∨ (prev ≠ cur ∧ prev ≠ next
            ∧ (BTIndexPage.IsAtLeastHalfFullAfterDelete cfg (bm.page prev)).1 = false)) →
        next ≠ INVALID_PAGE → next ≠ cur → (bm.page next).leaf = [] →
        (bm.page next).index.length * cfg.sizeofIndexEntry ≤ cfg.HEAPPAGE_DATA_SIZE →
        (bm.page next).index.Pairwise (fun x y => x.key < y.key) →
        (BTIndexPage.IsAtLeastHalfFullAfterDelete cfg (bm.page next)).1 = true →
        (∀ x ∈ (bm.page cur).index, x.key ≤ nextKey) →
        ∃ e rest bm',
          (bm.page next).index = e :: rest
            ∧ BTreeFile.DeleteHelper.indexUnderflow cfg fuel bm curKey nextKey cur prev next
                out
              = some (Status.OK, bm',
                  { out with underflow := true, child_key := some e.key,
                             child_pageid := some next, deletedKey := some nextKey })
            ∧ bm'.page cur
                = { bm.page cur with
                    index := (bm.page cur).index ++ [⟨nextKey, (bm.page next).prevPage⟩] }
            ∧ bm'.page next = { bm.page next with prevPage := e.pid, index := rest }
            ∧ (prev ≠ INVALID_PAGE →
                bm'.page prev
                  = (BTIndexPage.IsAtLeastHalfFullAfterDelete cfg (bm.page prev)).2)
            ∧ (∀ q, q ≠ prev → q ≠ next → q ≠ cur → bm'.page q = bm.page q)
            ∧ (bm'.page cur).inOrder ++ Sum.inr e.key :: (bm'.page next).inOrder
                = (bm.page cur).inOrder ++ Sum.inr nextKey :: (bm.page next).inOrder)
      ∧ ∀ (key : Int) (rid : RecordID) (f : Nat) (bm0 bm1 : BufMgr) (ck nk : Int)
          (c pp np : PageID) (o : BTreeFile.DeleteOut) (k : BTIndexPage.Keys)
          (new : BTreeFile.DeleteOut) (d : Int) (ip1 : SortedPage),
          (bm0.page c).type = NodeType.INDEX_NODE →
          BTIndexPage.FindPageWithKeys (bm0.page c) key = some k →
          BTreeFile.DeleteHelper cfg key rid f bm0 k.key k.nextKey k.pid
              (if k.prevPid = k.pid then INVALID_PAGE else k.prevPid)
              (if k.nextPid = k.pid then INVALID_PAGE else k.nextPid)
              BTreeFile.DeleteOut.init = some (Status.OK, bm1, new) →
          new.underflow = true → new.merged = true → new.deletedKey = some d →
          BTIndexPage.Delete (bm1.page c) d = (Status.OK, ip1) →
          ip1.IsAtLeastHalfFull cfg = false →
          BTreeFile.DeleteHelper cfg key rid (f + 1) bm0 ck nk c pp np o
            = BTreeFile.DeleteHelper.indexUnderflow cfg f (bm1.set c ip1) ck nk c pp np o := by
  refine ⟨?_, ?_, ?_⟩
  · intro hpi hpc hpl hpfit hps hprobe hlt
    obtain ⟨hroom, h2, hpage⟩ := index_donor cfg (bm.page prev) (bm.page cur) hpl hcl hpfit hps
      hprobe hunder
    obtain ⟨init, e, hle⟩ := list_concat_of_two_le _ h2
    obtain ⟨bm', hrun, h1, h3, h4⟩ := indexUnderflow_prev cfg fuel bm curKey nextKey cur prev
      next out hpi hpc (Prod.ext hprobe hpage) init e hle hps hroom
    rw [insertSorted_head IndexEntry.key _ _ (by exact hlt)] at h1
    refine ⟨init, e, bm', hle, hrun, h3, h1, h4, ?_⟩
    rw [h1, h3]
    simp only [SortedPage.inOrder, hle, List.flatMap_append, List.flatMap_cons,
      List.flatMap_nil, List.append_nil, List.cons_append, List.append_assoc,
      List.nil_append]
  · intro hprev hni hnc hnl hnfit hns hprobe hle
    obtain ⟨hroom, h2, hpage⟩ := index_donor cfg (bm.page next) (bm.page cur) hnl hcl hnfit hns
      hprobe hunder
    obtain ⟨e, f, rest, hl⟩ := list_two_of_two_le _ h2
    obtain ⟨bm', hrun, h1, h3, h4, h5⟩ := indexUnderflow_next cfg fuel bm curKey nextKey cur
      prev next out hprev hni hnc (Prod.ext hprobe hpage) e (f :: rest) hl hns hroom
    rw [insertSorted_append_last IndexEntry.key _ _
      (by intro x hx; simp only [not_lt]; exact hle x hx)] at h1
    refine ⟨e, f :: rest, bm', hl, hrun, h1, h3, h4, h5, ?_⟩
    rw [h1, h3]
    simp only [SortedPage.inOrder, hl, List.flatMap_append, List.flatMap_cons,
      List.flatMap_nil, List.append_nil, List.cons_append, List.append_assoc,
      List.nil_append]
  · intro key rid f bm0 bm1 ck nk c pp np o k new d ip1 hct hk hchild hu hm hd hdel hun
    exact deleteHelper_index_underflow cfg key rid f bm0 bm1 ck nk c pp np o k new d ip1 hct
      hk hchild hu hm hd hdel hun

/-- Witness for C34: in the pool `poolRotate` the index page 1 is below half full
and has no previous sibling; its next sibling, page 2, can spare an entry; the
separator between them is 7. -/
theorem C34_index_redistribution_keeps_the_in_order_sequence_witness :
    (BTIndexPage.IsAtLeastHalfFullAfterDelete cfg4 (poolRotate.page 2)).1 = true
      ∧ ∃ e rest bm',
        (poolRotate.page 2).index = e :: rest
          ∧ BTreeFile.DeleteHelper.indexUnderflow cfg4 3 poolRotate (-1) 7 1 INVALID_PAGE 2
              BTreeFile.DeleteOut.init
            = some (Status.OK, bm',
                { BTreeFile.DeleteOut.init with
                  underflow := true, child_key := some e.key, child_pageid := some 2,
                  deletedKey := some 7 })
          ∧ bm'.page 1
              = { poolRotate.page 1 with
                  index := (poolRotate.page 1).index ++ [⟨7, (poolRotate.page 2).prevPage⟩] }
          ∧ bm'.page 2 = { poolRotate.page 2 with prevPage := e.pid, index := rest }
          ∧ (INVALID_PAGE ≠ INVALID_PAGE →
              bm'.page INVALID_PAGE
                = (BTIndexPage.IsAtLeastHalfFullAfterDelete cfg4
                    (poolRotate.page INVALID_PAGE)).2)
          ∧ (∀ q : PageID, q ≠ INVALID_PAGE → q ≠ 2 → q ≠ 1 → bm'.page q = poolRotate.page q)
          ∧ (bm'.page 1).inOrder ++ Sum.inr e.key :: (bm'.page 2).inOrder
              = (poolRotate.page 1).inOrder ++ Sum.inr 7 :: (poolRotate.page 2).inOrder :=
  ⟨by decide!,
    (C34_index_redistribution_keeps_the_in_order_sequence cfg4 3 poolRotate (-1) 7 1
      INVALID_PAGE 2 BTreeFile.DeleteOut.init (by decide!) (by decide!)).2.1 (Or.inl rfl)
      (by decide) (by decide) (by decide!) (by decide!) (by decide!) (by decide!)
      (by decide!)⟩

theorem mergeIndex_self_none (cfg : Cfg) (p : PageID) :
    ∀ (fuel : Nat) (bm : BufMgr), (bm.page p).index ≠ [] →
      (bm.page p).index.Pairwise (fun x y => x.key ≤ y.key) →
      ¬ (bm.page p).AvailableSpace cfg < cfg.sizeofIndexEntry →
      BTreeFile.MergeIndex.loop cfg p p fuel bm = none := by
  intro fuel
  induction fuel with
  | zero => intro bm _ _ _; rfl
  | succ fuel ih =>
    intro bm hne hs hroom
    unfold BTreeFile.MergeIndex.loop
    cases hl : (bm.page p).index with
    | nil => exact absurd hl hne
    | cons e rest =>
      have hf : BTIndexPage.GetFirst (bm.page p) = some e := by
        simp [BTIndexPage.GetFirst, hl]
      rw [hf]
      simp only
      have hpage : ((bm.set p (BTIndexPage.Insert cfg (bm.page p) e.key e.pid).2).set p
          (BTIndexPage.Delete ((bm.set p (BTIndexPage.Insert cfg (bm.page p) e.key e.pid).2).page p)
            e.key).2).page p = bm.page p := by
        rw [set_page_self, set_page_self, index_insert_ok e.key e.pid hroom]
        unfold BTIndexPage.Delete
        simp only
        rw [insert_erase_self IndexEntry.key _ (⟨e.key, e.pid⟩ : IndexEntry) (by simp)
          (by
            intro x hx
            simp only [decide_eq_false_iff_not]
            intro hk
            simp only at hx
            omega) _ hs]
      apply ih
      · rw [hpage]; exact hne
      · rw [hpage]; exact hs
      · rw [hpage]; exact hroom

theorem indexUnderflow_self_none (cfg : Cfg) (fuel : Nat) (bm : BufMgr) (ck nk : Int)
    (cur prev : PageID) (out : BTreeFile.DeleteOut) (hc : cur ≠ INVALID_PAGE)
    (hne : (bm.page cur).index ≠ [])
    (hs : (bm.page cur).index.Pairwise (fun x y => x.key ≤ y.key))
    (hroom : ¬ (bm.page cur).AvailableSpace cfg < cfg.sizeofIndexEntry)
    (hunder : (bm.page cur).IsAtLeastHalfFull cfg = false)
    (hprev : prev = INVALID_PAGE ∨ (prev ≠ cur
      ∧ (BTIndexPage.IsAtLeastHalfFullAfterDelete cfg (bm.page prev)).1 = false)) :
    BTreeFile.DeleteHelper.indexUnderflow cfg fuel bm ck nk cur prev cur out = none := by
  have hprobe : ∀ q : SortedPage, q.IsAtLeastHalfFull cfg = false →
      BTIndexPage.IsAtLeastHalfFullAfterDelete cfg q = (false, q) := by
    intro q hq
    unfold BTIndexPage.IsAtLeastHalfFullAfterDelete
    simp [hq]
  have hgf : ∀ q : SortedPage, q.index ≠ [] → ∃ e, BTIndexPage.GetFirst q = some e := by
    intro q hq
    cases hl : q.index with
    | nil => exact absurd hl hq
    | cons a l => exact ⟨a, by simp [BTIndexPage.GetFirst, hl]⟩
  have key : ∀ bm0 : BufMgr, bm0.page cur = bm.page cur →
      BTreeFile.MergeIndex.loop cfg cur cur fuel (bm0.set cur (bm0.page cur)) = none := by
    intro bm0 h0
    apply mergeIndex_self_none
    · rw [set_page_self, h0]; exact hne
    · rw [set_page_self, h0]; exact hs
    · rw [set_page_self, h0]; exact hroom
  obtain ⟨e, he⟩ := hgf _ hne
  unfold BTreeFile.DeleteHelper.indexUnderflow
  by_cases hpi : prev = INVALID_PAGE
  · simp only [hpi, ne_eq, not_true_eq_false, if_false, hc, not_false_eq_true, and_self,
      if_true, hprobe _ hunder, Bool.false_eq_true, set_page_self, he, key bm rfl]
  · obtain ⟨hpc, hpf⟩ : prev ≠ cur
        ∧ (BTIndexPage.IsAtLeastHalfFullAfterDelete cfg (bm.page prev)).1 = false := by
      rcases hprev with h | h
      · exact absurd h hpi
      · exact h
    have hc0 : ((bm.set prev (BTIndexPage.IsAtLeastHalfFullAfterDelete cfg
        (bm.page prev)).2).page cur) = bm.page cur := by
      simp [BufMgr.set, Ne.symm hpc]
    have hk := key (bm.set prev (BTIndexPage.IsAtLeastHalfFullAfterDelete cfg
        (bm.page prev)).2) hc0
    rw [hc0] at hk
    simp only [ne_eq, hpi, not_false_eq_true, if_true, hpf, Bool.false_eq_true, if_false, hc,
      and_self, hc0, hprobe _ hunder, set_page_self, he, hk]

theorem leafUnderflow_merge_prev (cfg : Cfg) (fuel : Nat) (bm : BufMgr) (ck nk : Int)
    (cur prev : PageID) (out : BTreeFile.DeleteOut)
    (hpi : prev ≠ INVALID_PAGE) (hpc : prev ≠ cur)
    (hprobe : (BTLeafPage.IsAtLeastHalfFullAfterDelete cfg (bm.page prev)).1 = false)
    (hpidx : (bm.page prev).index = [])
    (hfit : ((bm.page prev).leaf.length + (bm.page cur).leaf.length) * cfg.sizeofLeafEntry
      ≤ cfg.HEAPPAGE_DATA_SIZE)
    (hfuel : (bm.page cur).leaf.length + 1 ≤ fuel) :
    ∃ bm' l, BTreeFile.DeleteHelper.leafUnderflow cfg fuel bm ck nk cur prev INVALID_PAGE out
        = some (bm', { out with underflow := true, merged := true, deletedKey := some ck })
      ∧ bm'.page prev = { bm.page prev with leaf := l, nextPage := (bm.page cur).nextPage }
      ∧ List.Perm l ((bm.page prev).leaf ++ (bm.page cur).leaf)
      ∧ bm'.page cur = { bm.page cur with leaf := [] }
      ∧ ∀ q, q ≠ cur → q ≠ prev → bm'.page q = bm.page q := by
  have hcp : cur ≠ prev := Ne.symm hpc
  obtain ⟨bmx, l, hrun, h1, h2, h3, -, h5⟩ := mergeLeaf_spec cfg cur prev hcp fuel
    (bm.set prev (bm.page prev)) (by rw [set_same_page]; exact hfuel)
    (by rw [set_same_page]; exact hpidx) (by rw [set_same_page, set_same_page]; exact hfit)
  simp only [set_same_page] at h1 h2 h3
  refine ⟨bmx.set prev { bmx.page prev with nextPage := (bm.page cur).nextPage }, l, ?_, ?_, h3,
    ?_, ?_⟩
  · unfold BTreeFile.DeleteHelper.leafUnderflow
    unfold BTreeFile.MergeLeaf_prev
    simp only [ne_eq, hpi, not_false_eq_true, if_true, leaf_probe_page, hprobe,
      Bool.false_eq_true, if_false, not_true_eq_false, false_and, hrun, set_same_page]
  · rw [set_page_self, h2]
  · simp only [BufMgr.set, hcp, if_false]
    exact h1
  · intro q hq1 hq2
    simp only [BufMgr.set, hq2, if_false]
    rw [h5 q hq1 hq2, set_same_page]

theorem delete_none_of_helper_none (cfg : Cfg) (fuel : Nat) (t : BTreeFile) (key : Int)
    (rid : RecordID) (k : BTIndexPage.Keys) (hr : t.rootPid ≠ INVALID_PAGE)
    (hty : (t.bm.page t.rootPid).type = NodeType.INDEX_NODE)
    (hk : BTIndexPage.FindPageWithKeys (t.bm.page t.rootPid) key = some k)
    (hh : BTreeFile.DeleteHelper cfg key rid fuel t.bm k.key k.nextKey k.pid k.prevPid k.nextPid
      BTreeFile.DeleteOut.init = none) :
    BTreeFile.Delete cfg fuel t key rid = none := by
  unfold BTreeFile.Delete
  have hnl : ¬ (t.bm.page t.rootPid).type = NodeType.LEAF_NODE := by
    rw [hty]; decide
  simp only [hr, if_false, hnl, hk, hh]

/-- On `treeH2`, `Delete (17, (7,17))` takes the pair out of the rightmost leaf 9,
merges that leaf into leaf 8, drops the separator 17 from the index page 3 and
then handles the underflow of page 3 with page 3 itself as next sibling: the
index-merge loop moves the entries of page 3 into page 3 and never ends. -/
theorem delete_index_self_merge_hang :
    ∀ fuel : Nat, BTreeFile.Delete cfg4 fuel treeH2 17 ⟨7, 17⟩ = none := by
  intro fuel
  by_cases hf : fuel < 4
  · have h0 : (BTreeFile.Delete cfg4 0 treeH2 17 ⟨7, 17⟩).isNone = true := by decide!
    have h1 : (BTreeFile.Delete cfg4 1 treeH2 17 ⟨7, 17⟩).isNone = true := by decide!
    have h2 : (BTreeFile.Delete cfg4 2 treeH2 17 ⟨7, 17⟩).isNone = true := by decide!
    have h3 : (BTreeFile.Delete cfg4 3 treeH2 17 ⟨7, 17⟩).isNone = true := by decide!
    interval_cases fuel
    · exact Option.eq_none_of_isNone h0
    · exact Option.eq_none_of_isNone h1
    · exact Option.eq_none_of_isNone h2
    · exact Option.eq_none_of_isNone h3
  · obtain ⟨n, rfl⟩ : ∃ n, fuel = n + 4 := ⟨fuel - 4, by omega⟩
    refine delete_none_of_helper_none cfg4 (n + 4) treeH2 17 ⟨7, 17⟩ ⟨13, 13, 3, 2, 3⟩
      (by decide) (by decide!) (by decide!) ?_
    -- the call for the leaf 9
    have hother : ∀ q : PageID, q ≠ 9 →
        (treeH2.bm.set 9 (leafPage 8 (-1) [18])).page q = treeH2.bm.page q := by
      intro q hq
      simp [BufMgr.set, hq]
    obtain ⟨bm1, l, hlu, h1, h2, h3, h4⟩ := leafUnderflow_merge_prev cfg4 (n + 2)
      (treeH2.bm.set 9 (leafPage 8 (-1) [18])) 17 17 9 8 BTreeFile.DeleteOut.init (by decide)
      (by decide) (by rw [hother 8 (by decide)]; decide!)
      (by rw [hother 8 (by decide)]; decide!)
      (by rw [hother 8 (by decide), set_page_self]; decide!)
      (by rw [set_page_self]; simp [leafPage])
    have hchild : BTreeFile.DeleteHelper cfg4 17 ⟨7, 17⟩ (n + 3) treeH2.bm 17 17 9 8
        INVALID_PAGE BTreeFile.DeleteOut.init
        = some (Status.OK, bm1, { BTreeFile.DeleteOut.init with
            underflow := true, merged := true, deletedKey := some 17 }) := by
      rw [deleteHelper_leaf_underflow cfg4 17 ⟨7, 17⟩ (n + 2) treeH2.bm 17 17 9 8 INVALID_PAGE
        BTreeFile.DeleteOut.init (leafPage 8 (-1) [18]) (by decide!) (by decide!) (by decide!),
        hlu]
      rfl
    have hp3 : bm1.page 3 = treeH2.bm.page 3 := by
      rw [h4 3 (by decide) (by decide), hother 3 (by decide)]
    have hp2 : bm1.page 2 = treeH2.bm.page 2 := by
      rw [h4 2 (by decide) (by decide), hother 2 (by decide)]
    rw [deleteHelper_index_underflow cfg4 17 ⟨7, 17⟩ (n + 3) treeH2.bm bm1 13 13 3 2 3
      BTreeFile.DeleteOut.init ⟨17, 17, 9, 8, 9⟩ _ 17 (indexPage 7 [(15, 8)]) (by decide!)
      (by decide!) hchild rfl rfl rfl (by rw [hp3]; decide!) (by decide!)]
    refine indexUnderflow_self_none cfg4 (n + 3) _ 13 13 3 2 BTreeFile.DeleteOut.init
      (by decide) ?_ ?_ ?_ ?_ (Or.inr ⟨by decide, ?_⟩)
    · rw [set_page_self]; decide
    · rw [set_page_self]; decide!
    · rw [set_page_self]; decide!
    · rw [set_page_self]; decide!
    · have : (bm1.set 3 (indexPage 7 [(15, 8)])).page 2 = treeH2.bm.page 2 := by
        simp only [BufMgr.set]
        rw [if_neg (by decide)]
        exact hp2
      rw [this]
      decide!

/-- C33 (failing input): in the well-formed tree `treeTwo` the root is an index
page over the leaves 2 = [1, 2] and 3 = [5, 6].  For the key 5 `FindPageWithKeys`
reports the rightmost leaf 3 as covering child and as its own next sibling.
`Delete (5, (7,5))` takes the pair out of leaf 3, which falls below half full;
leaf 2 cannot spare an entry; `Delete` never returns, whatever the fuel: nothing
is moved into leaf 2.  `DeleteHelper` called with `INVALID_PAGE` as next
sibling, as it calls itself for the last child of an index page, returns `OK`
with the entry 6 moved into leaf 2, the next-page of leaf 2 set to
`INVALID_PAGE` and the separator 5 reported to be dropped. -/
theorem C33_delete_from_rightmost_leaf_never_returns :
    BTreeFile.wellFormedAt cfg4 1 treeTwo = true
    ∧ BTIndexPage.FindPageWithKeys (treeTwo.bm.page 1) 5 = some ⟨5, 5, 3, 2, 3⟩
    ∧ (BTLeafPage.IsAtLeastHalfFullAfterDelete cfg4 (treeTwo.bm.page 2)).1 = false
    ∧ (∀ fuel : Nat, BTreeFile.Delete cfg4 fuel treeTwo 5 ⟨7, 5⟩ = none)
    ∧ ((BTreeFile.DeleteHelper cfg4 5 ⟨7, 5⟩ 9 treeTwo.bm 5 5 3 2 INVALID_PAGE
          BTreeFile.DeleteOut.init).map fun r => (r.1, r.2.2))
      = some (Status.OK, ⟨true, true, none, none, some 5⟩)
    ∧ ((BTreeFile.DeleteHelper cfg4 5 ⟨7, 5⟩ 9 treeTwo.bm 5 5 3 2 INVALID_PAGE
          BTreeFile.DeleteOut.init).map fun r =>
        (keysOf (r.2.1.page 2).leaf, (r.2.1.page 2).nextPage, keysOf (r.2.1.page 3).leaf))
      = some ([1, 2, 6], INVALID_PAGE, []) := by
  refine ⟨by decide!, by decide!, by decide!, ?_, by decide!, by decide!⟩
  exact delete_rightmost_hang cfg4 treeTwo 5 ⟨7, 5⟩ ⟨5, 5, 3, 2, 3⟩ (leafPage 2 (-1) [6])
    (by decide) (by decide!) (by decide!) rfl (by decide) (by decide!) (by decide!)
    (by decide!) (by decide!) (by decide!) (by decide!) (Or.inr ⟨by decide, by decide!⟩)

/-- C39 (failing inputs): `Delete` does not terminate on every well-formed
tree.  In `treeThree` the pair (9, (7,9)) lies in the rightmost leaf 4, which
`FindPageWithKeys` reports as its own next sibling; the removal leaves the leaf
below half full with the entry 10, the previous leaf cannot spare an entry,
`MergeLeaf_next` is invoked with source and destination the same page, where
it never ends, and `Delete` does not return for any fuel.  In `treeH2` the pair
(17, (7,17)) lies under the last child of the root, the index page 3, reported
as its own next sibling; when page 3 falls below half full the index-merge loop
of `DeleteHelper` is invoked with source and destination page 3, where it never
ends, and `Delete` does not return for any fuel. -/
theorem C39_delete_merges_a_page_into_itself :
    BTreeFile.wellFormedAt cfg4 1 treeThree = true
    ∧ BTIndexPage.FindPageWithKeys (treeThree.bm.page treeThree.rootPid) 9
        = some ⟨9, 9, 4, 3, 4⟩
    ∧ (∀ (fuel : Nat) (bm : BufMgr), bm.page 4 = leafPage 3 (-1) [10] →
        BTreeFile.MergeLeaf_next cfg4 fuel bm 4 4 = none)
    ∧ (∀ fuel : Nat, BTreeFile.Delete cfg4 fuel treeThree 9 ⟨7, 9⟩ = none)
    ∧ BTreeFile.wellFormedAt cfg4 2 treeH2 = true
    ∧ BTIndexPage.FindPageWithKeys (treeH2.bm.page treeH2.rootPid) 17
        = some ⟨13, 13, 3, 2, 3⟩
    ∧ (∀ (fuel : Nat) (bm : BufMgr), bm.page 3 = indexPage 7 [(15, 8)] →
        BTreeFile.MergeIndex.loop cfg4 3 3 fuel bm = none)
    ∧ ∀ fuel : Nat, BTreeFile.Delete cfg4 fuel treeH2 17 ⟨7, 17⟩ = none := by
  refine ⟨by decide!, by decide!, ?_, ?_, by decide!, by decide!, ?_,
    delete_index_self_merge_hang⟩
  · intro fuel bm hb
    exact mergeLeaf_self_none cfg4 4 fuel bm (by rw [hb]; decide) (by rw [hb]; decide!)
      (by rw [hb]; decide!)
  · exact delete_rightmost_hang cfg4 treeThree 9 ⟨7, 9⟩ ⟨9, 9, 4, 3, 4⟩ (leafPage 3 (-1) [10])
      (by decide) (by decide!) (by decide!) rfl (by decide) (by decide!) (by decide!)
      (by decide!) (by decide!) (by decide!) (by decide!) (Or.inr ⟨by decide, by decide!⟩)
  · intro fuel bm hb
    exact mergeIndex_self_none cfg4 3 fuel bm (by rw [hb]; decide) (by rw [hb]; decide!)
      (by rw [hb]; decide!)

/-- C35 (failing input): in the well-formed tree `treeH2` the index page 2 has
the left-link 4 and the entries (3,5), (5,6); its next sibling, page 3, has the
left-link 7 and the entries (15,8), (17,9); the separator between them is 13.
`DeleteHelper` for the pair (1, (7,1)) on page 2 merges two leaves, drops the
separator 3 from page 2 and resolves the underflow of page 2 by a merge with
page 3.  It returns `OK` and reports the separator 13 to be dropped, but page 2
then holds (5,6), (13,7), (17,9): the entry (15,8) of the next sibling is in
neither page. -/
theorem C35_index_merge_loses_first_entry_of_next :
    BTreeFile.wellFormedAt cfg4 2 treeH2 = true
    ∧ BTIndexPage.FindPageWithKeys (treeH2.bm.page 1) 1 = some ⟨-1, 13, 2, -1, 3⟩
    ∧ ((treeH2.bm.page 2).prevPage, (treeH2.bm.page 2).index) = (4, [⟨3, 5⟩, ⟨5, 6⟩])
    ∧ ((treeH2.bm.page 3).prevPage, (treeH2.bm.page 3).index) = (7, [⟨15, 8⟩, ⟨17, 9⟩])
    ∧ ((treeH2.bm.page 2).IsAtLeastHalfFull cfg4, (treeH2.bm.page 3).IsAtLeastHalfFull cfg4)
      = (true, true)
    ∧ ((BTreeFile.DeleteHelper cfg4 1 ⟨7, 1⟩ 9 treeH2.bm (-1) 13 2 (-1) 3
          BTreeFile.DeleteOut.init).map fun r => (r.1, r.2.2))
      = some (Status.OK, ⟨true, true, none, none, some 13⟩)
    ∧ ((BTreeFile.DeleteHelper cfg4 1 ⟨7, 1⟩ 9 treeH2.bm (-1) 13 2 (-1) 3
          BTreeFile.DeleteOut.init).map fun r =>
        ((r.2.1.page 2).prevPage, (r.2.1.page 2).index, (r.2.1.page 3).index))
      = some (4, [⟨5, 6⟩, ⟨13, 7⟩, ⟨17, 9⟩], []) := by
  decide!

/-- C37: for every well-formed tree of height `h` that stores an entry,
`OpenScan (nullptr, nullptr)` returns a cursor with the status `OK` whose page
is the leftmost leaf `L` (the first leaf in key order, which the descent along
the left-links ends in), whose `lowKey` is the key of the first stored entry,
the smallest key stored, and whose `highKey` is the key of the last stored
entry, the largest key stored, which is the last key of the leaf `R` that the
descent along the last entries ends in.  `GetMinimumPid` reports the height
`h`, the number of index pages on the path from the root to a leaf. -/
theorem C37_openScan_without_bounds_covers_the_index (cfg : Cfg) (hs : cfg.Sane)
    (t : BTreeFile) (h : Nat) (hwf : BTreeFile.wellFormedAt cfg h t = true)
    (es : List LeafEntry) (he : t.entries (h + 1) = some es) (hne : es ≠ [])
    (fuel : Nat) (hfuel : h + 1 ≤ fuel) (key_tmp0 : Int) :
    ∃ sc L post pre R first last,
      BTreeFile.OpenScan fuel t none none key_tmp0 = some sc
        ∧ sc.s = Status.OK ∧ sc.curPid = L ∧ sc.lowKey = first.key ∧ sc.highKey = last.key
        ∧ subtreeLeaves t.bm h t.rootPid = L :: post
        ∧ (∀ n, BTreeFile.GetMinimumPid.descend t.bm fuel t.rootPid n = some (L, n + h))
        ∧ es.head? = some first ∧ (∀ e ∈ es, first.key ≤ e.key)
        ∧ subtreeLeaves t.bm h t.rootPid = pre ++ [R]
        ∧ BTreeFile.GetMaxKey.descend t.bm fuel t.rootPid = some R
        ∧ BTLeafPage.GetLast (t.bm.page R) = some last
        ∧ es.getLast? = some last ∧ (∀ e ∈ es, e.key ≤ last.key)
        ∧ ∀ k0, BTreeFile.GetMinimumPid fuel t k0 = some (L, first.key, h) := by
  obtain ⟨hw, hroot, _, _⟩ := wellFormedAt_facts cfg t h hwf
  obtain ⟨hH, _⟩ := leaves_nonempty cfg hs t h hwf
  have hes : es = leafEntries t.bm (subtreeLeaves t.bm h t.rootPid) := by
    unfold BTreeFile.entries at he
    simp only [hroot, if_false] at he
    rw [entries_eq_leaves cfg t.bm h t.rootPid none none hw] at he
    exact (Option.some.inj he).symm
  have hsorted := (wf_entries_sorted cfg t.bm h t.rootPid none none hw).1
  rw [← hes] at hsorted
  have hall : ∀ q ∈ subtreeLeaves t.bm h t.rootPid, (t.bm.page q).leaf ≠ [] := by
    rcases hH with hH | hH
    · exact hH
    · rw [← hes] at hH
      exact absurd hH hne
  obtain ⟨L, post, hrun, hLs⟩ := min_descend_spec cfg t.bm h t.rootPid none none hw
  obtain ⟨pre, R, hrun', hLs'⟩ := max_descend_spec cfg t.bm h t.rootPid none none hw
  have hLne := hall L (by rw [hLs]; simp)
  have hRne := hall R (by rw [hLs']; simp)
  obtain ⟨first, tl, hfirst⟩ : ∃ first tl, (t.bm.page L).leaf = first :: tl := by
    cases hl : (t.bm.page L).leaf with
    | nil => exact absurd hl hLne
    | cons a l => exact ⟨a, l, rfl⟩
  obtain ⟨last, hlast⟩ : ∃ last, BTLeafPage.GetLast (t.bm.page R) = some last := by
    cases hl : BTLeafPage.GetLast (t.bm.page R) with
    | none => exact absurd (List.getLast?_eq_none_iff.1 hl) hRne
    | some e => exact ⟨e, rfl⟩
  obtain ⟨init, hinit⟩ : ∃ init, (t.bm.page R).leaf = init ++ [last] :=
    List.getLast?_eq_some_iff.1 hlast
  have hE1 : es = first :: (tl ++ leafEntries t.bm post) := by
    rw [hes, hLs]
    simp only [leafEntries, List.flatMap_cons]
    rw [hfirst]
    rfl
  have hE2 : es = (leafEntries t.bm pre ++ init) ++ [last] := by
    rw [hes, hLs', leafEntries_append]
    simp only [leafEntries, List.flatMap_cons, List.flatMap_nil, List.append_nil, hinit]
    rw [List.append_assoc]
  have hmin : ∀ e ∈ es, first.key ≤ e.key := by
    intro e hx
    rw [hE1] at hx hsorted
    rcases List.mem_cons.1 hx with hx | hx
    · rw [hx]
    · exact (List.pairwise_cons.1 hsorted).1 e hx
  have hmax : ∀ e ∈ es, e.key ≤ last.key := by
    intro e hx
    rw [hE2] at hx hsorted
    rcases List.mem_append.1 hx with hx | hx
    · exact (List.pairwise_append.1 hsorted).2.2 e hx last (by simp)
    · rw [List.mem_singleton.1 hx]
  have hgmax : BTreeFile.GetMaxKey fuel t key_tmp0 = some (R, last.key) := by
    unfold BTreeFile.GetMaxKey
    rw [hrun' fuel hfuel]
    simp only [hlast]
  have hgmin : ∀ k0, BTreeFile.GetMinimumPid fuel t k0 = some (L, first.key, h) := by
    intro k0
    unfold BTreeFile.GetMinimumPid
    rw [hrun fuel 0 hfuel]
    simp only [BTLeafPage.GetFirst, hfirst, List.head?_cons, Nat.zero_add]
  refine ⟨⟨first.key, last.key, Status.OK, L, 0, ⟨0, 0⟩⟩, L, post, pre, R, first, last, ?_, rfl,
    rfl, rfl, rfl, hLs, fun n => hrun fuel n hfuel, by rw [hE1]; rfl, hmin, hLs',
    hrun' fuel hfuel, hlast, by rw [hE2]; simp, hmax, hgmin⟩
  unfold BTreeFile.OpenScan
  simp only [hroot, if_false, hgmax, Option.map_some', hgmin]

/-- Witness for C37: the tree `treeH2` of height 2 with the keys 1 .. 18. -/
theorem C37_openScan_without_bounds_covers_the_index_witness :
    BTreeFile.wellFormedAt cfg4 2 treeH2 = true
      ∧ ∃ sc L post pre R first last,
        BTreeFile.OpenScan 3 treeH2 none none 0 = some sc
          ∧ sc.s = Status.OK ∧ sc.curPid = L ∧ sc.lowKey = first.key ∧ sc.highKey = last.key
          ∧ subtreeLeaves treeH2.bm 2 treeH2.rootPid = L :: post
          ∧ (∀ n, BTreeFile.GetMinimumPid.descend treeH2.bm 3 treeH2.rootPid n = some (L, n + 2))
          ∧ (treeH2.bm.page 4).leaf.head? = some first
          ∧ (∀ e ∈ (treeH2.bm.page 4).leaf ++ (treeH2.bm.page 5).leaf ++ (treeH2.bm.page 6).leaf
                ++ (treeH2.bm.page 7).leaf ++ (treeH2.bm.page 8).leaf
                ++ (treeH2.bm.page 9).leaf, first.key ≤ e.key)
          ∧ subtreeLeaves treeH2.bm 2 treeH2.rootPid = pre ++ [R]
          ∧ BTreeFile.GetMaxKey.descend treeH2.bm 3 treeH2.rootPid = some R
          ∧ BTLeafPage.GetLast (treeH2.bm.page R) = some last
          ∧ (treeH2.bm.page 9).leaf.getLast? = some last
          ∧ (∀ e ∈ (treeH2.bm.page 4).leaf ++ (treeH2.bm.page 5).leaf ++ (treeH2.bm.page 6).leaf
                ++ (treeH2.bm.page 7).leaf ++ (treeH2.bm.page 8).leaf
                ++ (treeH2.bm.page 9).leaf, e.key ≤ last.key)
          ∧ ∀ k0, BTreeFile.GetMinimumPid 3 treeH2 k0 = some (L, first.key, 2) :=
  ⟨by decide!,
    C37_openScan_without_bounds_covers_the_index cfg4 (by unfold Cfg.Sane; decide) treeH2 2
      (by decide!)
      ((treeH2.bm.page 4).leaf ++ (treeH2.bm.page 5).leaf ++ (treeH2.bm.page 6).leaf
        ++ (treeH2.bm.page 7).leaf ++ (treeH2.bm.page 8).leaf ++ (treeH2.bm.page 9).leaf)
      (by decide!) (by decide!) 3 (by decide) 0⟩

end BTree
